import Mathlib

/-!
# libtransmission: piece storage, block accounting and the peer wire

A shallow embedding of `libtransmission/inout.c`, `peerutils.c` and `peer.c`.

Conventions of the embedding.

* A C `int` (and a `uint64_t` holding a size or an offset) is an `Int`; the
  values met here are far below `2^31`, so no wrap-around is modelled.
  `/` and `%` agree with C on the non-negative operands that occur.
* A C array of `int` is a `List Int` read and written through `arrGet` and
  `arrSet`.  An access outside the array is undefined in C; the embedding
  reads `0` and leaves the array alone.
* A byte buffer is a `List Nat`.
* The content of every open file is a `List Nat`.  `fwrite` past the end of
  a file extends it (the hole reads as zero bytes), `fread` delivers the
  bytes that exist and fails when they are fewer than asked for, and both
  return `0` items when asked for a zero-sized item.
* SHA-1 is a parameter `sha1 : List Nat → List Nat`.
* `do … while` loops whose termination is not evident take a fuel argument
  and return `none` when it runs out.
-/

namespace Transmission

/-! ## C arrays -/

/-- The element `a[i]` of an `int` array. -/
def arrGet (a : List Int) (i : Int) : Int :=
  if 0 ≤ i then a.getD i.toNat 0 else 0

/-- The array after `a[i] = v`. -/
def arrSet (a : List Int) (i : Int) (v : Int) : List Int :=
  if 0 ≤ i then a.set i.toNat v else a

/-! ## Data model (`transmission.h`, `inout.c`) -/

/-- The structure `tr_info_t` (without the path `torrent` of the metafile).
`files` holds the `length` of every `tr_file_t` and `fileNames` its `name`;
`fileCount` is the length of `files`.  The strings are byte lists without the
terminating NUL. -/
structure tr_info_t where
  hash : List Nat
  pieceSize : Int
  pieceCount : Int
  totalSize : Int
  pieces : List Nat
  files : List Int
  name : List Nat := []
  trackerAddress : List Nat := []
  trackerPort : Int := 0
  trackerAnnounce : List Nat := []
  fileNames : List (List Nat) := []
deriving DecidableEq, Repr

/-- The structure `tr_io_s` of `inout.c`; `fds` is the content of the open files. -/
structure tr_io_t where
  fds : List (List Nat)
  pieceSlot : List Int
  slotPiece : List Int
  slotsUsed : Int
deriving DecidableEq, Repr

/-- Modelled from the spec: the macro `tr_pieceSize` of the absent header
`internal.h`.  "Last piece is `S mod P` bytes when non-zero, else P." -/
def tr_pieceSize (inf : tr_info_t) (piece : Int) : Int :=
  if piece = inf.pieceCount - 1 ∧ inf.totalSize % inf.pieceSize ≠ 0 then
    inf.totalSize % inf.pieceSize
  else inf.pieceSize

/-! ## File access (`readOrWriteBytes`) -/

/-- The effect of `fseeko( fd, pos ); fwrite( data, n, 1, fd )` with `n > 0`
on the content of a file. -/
def fileWrite (content : List Nat) (pos : Nat) (data : List Nat) : List Nat :=
  let padded := content ++ List.replicate (pos - content.length) 0
  padded.take pos ++ data ++ padded.drop (pos + data.length)

/-- The bytes delivered by `fseeko( fd, pos ); fread( buf, n, 1, fd )`. -/
def fileRead (content : List Nat) (pos n : Nat) : List Nat :=
  (content.drop pos).take n

/-- The first loop of `readOrWriteBytes`: the file holding `offset` and the
position in it; `( 0, 0 )` when the loop ends without a match. -/
def findFile : List Int → Int → Nat → Int → Nat × Int
  | [], _, _, _ => (0, 0)
  | len :: rest, foo, i, offset =>
    if offset < foo + len then (i, offset - foo)
    else findFile rest (foo + len) (i + 1) offset

/-- The `while( size > 0 )` loop of `readOrWriteBytes`.  The first argument
lists the file lengths from `files[file]` on; `buf` is the memory from the
moving pointer `buf` on and `done` the memory before it.  Running past the
last file is undefined in C and gives `1` here. -/
def rwFiles (write : Bool) :
    List Int → Nat → Int → Int → List (List Nat) → List Nat → List Nat →
      Int × List (List Nat) × List Nat
  | [], _, _, size, fds, done, buf =>
    if size > 0 then (1, fds, done ++ buf) else (0, fds, done ++ buf)
  | len :: rest, file, posInFile, size, fds, done, buf =>
    if size > 0 then
      let willRead := min (len - posInFile) size
      if willRead ≤ 0 then (1, fds, done ++ buf)
      else if write then
        let chunk := buf.take willRead.toNat
        let fds1 := fds.set file (fileWrite (fds.getD file []) posInFile.toNat chunk)
        rwFiles write rest (file + 1) 0 (size - willRead) fds1 (done ++ chunk)
          (buf.drop willRead.toNat)
      else
        let got := fileRead (fds.getD file []) posInFile.toNat willRead.toNat
        if got.length < willRead.toNat then
          (1, fds, done ++ (got ++ buf.drop got.length))
        else
          rwFiles write rest (file + 1) 0 (size - willRead) fds (done ++ got)
            (buf.drop willRead.toNat)
    else (0, fds, done ++ buf)

/-- The function `readOrWriteBytes`: result code, files and buffer afterwards. -/
def readOrWriteBytes (inf : tr_info_t) (fds : List (List Nat)) (offset size : Int)
    (buf : List Nat) (write : Bool) : Int × List (List Nat) × List Nat :=
  let piece := offset / inf.pieceSize
  let begin_ := offset % inf.pieceSize
  if tr_pieceSize inf piece < begin_ + size then (1, fds, buf)
  else
    let start := findFile inf.files 0 0 offset
    rwFiles write (inf.files.drop start.1) start.1 start.2 size fds [] buf

/-- The size that `readOrWriteSlot` stores in `*size`. -/
def slotSize (inf : tr_info_t) (slot : Int) : Int :=
  let size := if slot = inf.pieceCount - 1 then inf.totalSize % inf.pieceSize else 0
  if size = 0 then inf.pieceSize else size

/-- The function `readOrWriteSlot`. -/
def readOrWriteSlot (inf : tr_info_t) (fds : List (List Nat)) (slot : Int)
    (buf : List Nat) (write : Bool) : Int × List (List Nat) × List Nat :=
  readOrWriteBytes inf fds (slot * inf.pieceSize) (slotSize inf slot) buf write

/-! ## The slot map (`invertSlots`, `reorderPieces`, `findSlotForPiece`) -/

/-- The function `invertSlots`; the results of the four slot transfers are
ignored, as in the source. -/
def invertSlots (inf : tr_info_t) (io : tr_io_t) (slot1 slot2 : Int) : tr_io_t :=
  let zero := List.replicate inf.pieceSize.toNat 0
  let buf1 := (readOrWriteSlot inf io.fds slot1 zero false).2.2
  let buf2 := (readOrWriteSlot inf io.fds slot2 zero false).2.2
  let fds1 := (readOrWriteSlot inf io.fds slot1 buf2 true).2.1
  let fds2 := (readOrWriteSlot inf fds1 slot2 buf1 true).2.1
  let piece1 := arrGet io.slotPiece slot1
  let piece2 := arrGet io.slotPiece slot2
  let slotPiece1 := arrSet (arrSet io.slotPiece slot1 piece2) slot2 piece1
  let pieceSlot1 := arrSet (arrSet io.pieceSlot piece1 slot2) piece2 slot1
  { fds := fds2, pieceSlot := pieceSlot1, slotPiece := slotPiece1,
    slotsUsed := io.slotsUsed }

/-- One iteration, for piece `i`, of the `for` loop of `reorderPieces`; the
flag is `didInvert`. -/
def reorderStep (inf : tr_info_t) (st : tr_io_t × Bool) (i : Int) : tr_io_t × Bool :=
  if arrGet st.1.pieceSlot i < 0 then st
  else if arrGet st.1.pieceSlot i = i then st
  else if i ≥ st.1.slotsUsed then st
  else (invertSlots inf st.1 (arrGet st.1.pieceSlot i) i, true)

/-- The indices `0, 1, …, n - 1` of a `for( i = 0; i < n; i++ )` loop. -/
def upTo (n : Int) : List Int :=
  (List.range n.toNat).map Int.ofNat

/-- One pass of the `do … while` loop of `reorderPieces`. -/
def reorderPass (inf : tr_info_t) (io : tr_io_t) : tr_io_t × Bool :=
  (upTo inf.pieceCount).foldl (reorderStep inf) (io, false)

/-- The function `reorderPieces`: passes are repeated while one of them
inverted two slots; `none` when `fuel` passes were not enough. -/
def reorderPieces (inf : tr_info_t) : Nat → tr_io_t → Option tr_io_t
  | 0, _ => none
  | fuel + 1, io =>
    let r := reorderPass inf io
    if r.2 then reorderPieces inf fuel r.1 else some r.1

/-- The search `for( i = 0; i < io->slotsUsed; i++ )` of `findSlotForPiece`
for a slot with `slotPiece[i] < 0`. -/
def findEmptySlot (io : tr_io_t) : Option Int :=
  (upTo io.slotsUsed).find? (fun i => decide (arrGet io.slotPiece i < 0))

/-- The assignments of `findSlotForPiece` before the label `reorder`. -/
def placePiece (io : tr_io_t) (piece : Int) : tr_io_t :=
  match findEmptySlot io with
  | some i =>
    { io with pieceSlot := arrSet io.pieceSlot piece i,
              slotPiece := arrSet io.slotPiece i piece }
  | none =>
    { io with pieceSlot := arrSet io.pieceSlot piece io.slotsUsed,
              slotPiece := arrSet io.slotPiece io.slotsUsed piece,
              slotsUsed := io.slotsUsed + 1 }

/-- The function `findSlotForPiece`. -/
def findSlotForPiece (inf : tr_info_t) (fuel : Nat) (io : tr_io_t) (piece : Int) :
    Option tr_io_t :=
  reorderPieces inf fuel (placePiece io piece)

/-- The slot map with nothing placed, as `openAndCheckFiles` leaves it when the
files are empty: both tables filled with `-1`, `slotsUsed = 0`. -/
def emptyIo (inf : tr_info_t) : tr_io_t :=
  { fds := List.replicate inf.files.length [],
    pieceSlot := List.replicate inf.pieceCount.toNat (-1),
    slotPiece := List.replicate inf.pieceCount.toNat (-1),
    slotsUsed := 0 }

end Transmission
namespace Transmission

/-- The slot-map invariants I1 and I2 for `n` pieces, with every slot below
`slotsUsed` occupied (no freed slot). -/
structure SlotInv (n : Int) (io : tr_io_t) : Prop where
  lenP : (io.pieceSlot.length : Int) = n
  lenS : (io.slotPiece.length : Int) = n
  used0 : 0 ≤ io.slotsUsed
  usedN : io.slotsUsed ≤ n
  pieces : ∀ p, 0 ≤ p → p < n → arrGet io.pieceSlot p = -1 ∨
    (0 ≤ arrGet io.pieceSlot p ∧ arrGet io.pieceSlot p < io.slotsUsed ∧
      arrGet io.slotPiece (arrGet io.pieceSlot p) = p)
  slots : ∀ s, 0 ≤ s → s < io.slotsUsed → 0 ≤ arrGet io.slotPiece s ∧
    arrGet io.slotPiece s < n ∧ arrGet io.pieceSlot (arrGet io.slotPiece s) = s
  free : ∀ s, io.slotsUsed ≤ s → s < n → arrGet io.slotPiece s = -1

/-- The slot maps reachable from the empty map by `findSlotForPiece` calls,
each for a piece of the torrent that has no slot yet. -/
inductive SlotReach (inf : tr_info_t) : tr_io_t → Prop
  | empty : SlotReach inf (emptyIo inf)
  | place (io io1 : tr_io_t) (piece : Int) (fuel : Nat) :
      SlotReach inf io → 0 ≤ piece → piece < inf.pieceCount →
      arrGet io.pieceSlot piece < 0 →
      findSlotForPiece inf fuel io piece = some io1 → SlotReach inf io1

/-- First writes of the pieces of `order`, one after the other:
`findSlotForPiece` (placement, then the reorderer) for each. -/
def placeAll (inf : tr_info_t) (fuel : Nat) : List Int → tr_io_t → Option tr_io_t
  | [], io => some io
  | p :: ps, io => (findSlotForPiece inf fuel io p).bind (placeAll inf fuel ps)

/-- The number of pieces that sit in the slot of their own index. -/
def inPlace (n : Int) (io : tr_io_t) : Nat :=
  ((Finset.Ico 0 n).filter (fun p => arrGet io.pieceSlot p = p)).card

end Transmission

namespace Transmission

/-- What a run of the reorderer keeps: the invariants, `slotsUsed`, which
pieces are placed; the pieces in their own slot only become more. -/
structure PassRel (n : Int) (io io1 : tr_io_t) : Prop where
  inv : SlotInv n io1
  used : io1.slotsUsed = io.slotsUsed
  placed : ∀ q, 0 ≤ arrGet io1.pieceSlot q ↔ 0 ≤ arrGet io.pieceSlot q
  mono : inPlace n io ≤ inPlace n io1

/-- The condition under which the loop body of `reorderPieces` leaves piece
`i` alone: not placed, in slot `i`, or `i` beyond the used slots. -/
def Settled (io : tr_io_t) (i : Int) : Prop :=
  arrGet io.pieceSlot i < 0 ∨ arrGet io.pieceSlot i = i ∨ i ≥ io.slotsUsed

end Transmission

namespace Transmission

/-- A stand-in for SHA-1 in the examples: the first 20 bytes of the data,
padded with zeros.  It tells apart any two equally long inputs of at most 20
bytes. -/
def padHash (d : List Nat) : List Nat :=
  (d ++ List.replicate 20 0).take 20

/-- The bytes of piece 0 in the examples. -/
def scenarioData0 : List Nat := [1, 2, 3, 4, 5, 6, 7, 8]

/-- The bytes of piece 1 in the examples. -/
def scenarioData1 : List Nat := [11, 12, 13, 14, 15, 16, 17, 18]

/-- The bytes of piece 2, the short last piece, in the examples. -/
def scenarioData2 : List Nat := [21, 22, 23, 24]

/-- Scenario torrent: one file, `P = 8`, `S = 20`, hence three pieces, the last
of four bytes; the hashes are those of the example data under `padHash`. -/
def scenarioInfo : tr_info_t :=
  { hash := [], pieceSize := 8, pieceCount := 3, totalSize := 20,
    pieces := padHash scenarioData0 ++ padHash scenarioData1 ++ padHash scenarioData2,
    files := [20] }

/-- The slot map of the scenario torrent after the first write of piece 2. -/
def scenarioIo2 : tr_io_t :=
  ((findSlotForPiece scenarioInfo 4 (emptyIo scenarioInfo) 2).getD (emptyIo scenarioInfo))

/-- The slot map of the scenario torrent after the first writes of pieces 2 and 0. -/
def scenarioIo20 : tr_io_t :=
  ((findSlotForPiece scenarioInfo 4 scenarioIo2 0).getD (emptyIo scenarioInfo))

/-- The slot map of the scenario torrent after the first writes of pieces 2, 0 and 1. -/
def scenarioIo201 : tr_io_t :=
  ((findSlotForPiece scenarioInfo 4 scenarioIo20 1).getD (emptyIo scenarioInfo))

end Transmission

namespace Transmission

/-! ## The torrent and its peers (`peerutils.h`, and the absent `internal.h`) -/

/-- The structure `tr_request_t`. -/
structure tr_request_t where
  index : Int
  begin : Int
  length : Int
deriving DecidableEq, Repr

/-- The fields of `tr_peer_s` used by the protocol code.  `buf` holds the
`pos` bytes received and not yet consumed, `outBuf` the `outPos` bytes queued
for sending; address, socket and dates are left out. -/
structure tr_peer_t where
  status : Int
  amChoking : Int
  amInterested : Int
  peerChoking : Int
  peerInterested : Int
  id : List Nat
  bitfield : Option (List Nat)
  buf : List Nat
  outBuf : List Nat
  inRequestCount : Int
  inRequests : List tr_request_t
  inTotal : Int
  outRequestCount : Int
  outRequests : List tr_request_t
deriving DecidableEq, Repr

/-- The fields of `tr_torrent_t` (declared in the absent `internal.h`) that the
storage, peer and tracker code use: `peers` holds the `peerCount` peers,
`downloaded9` and `uploaded9` are `downloaded[9]` and `uploaded[9]`, `io` is the
structure that `tor->io` points to, and `error` and `scrape` hold the C strings
of these arrays. -/
structure tr_torrent_t where
  info : tr_info_t
  id : List Nat
  blockSize : Int
  blockCount : Int
  blockHave : List Int
  blockHaveCount : Int
  bitfield : List Nat
  peers : List tr_peer_t
  io : tr_io_t
  downloaded9 : Int
  status : Int := 0
  error : List Nat := []
  scrape : List Nat := []
  uploaded9 : Int := 0
  bindPort : Int := 0
deriving DecidableEq, Repr

/-- The element `a[i]` of a byte array. -/
def byteGet (a : List Nat) (i : Int) : Nat :=
  if 0 ≤ i then a.getD i.toNat 0 else 0

/-- The byte array after `a[i] = v`. -/
def byteSet (a : List Nat) (i : Int) (v : Nat) : List Nat :=
  if 0 ≤ i then a.set i.toNat v else a

/-- Modelled from the spec: the macro `tr_bitfieldHas` of the absent header
`utils.h`; bit `piece` of a bitfield, the high bit of byte 0 being bit 0 (the
unused bits of the last byte are its low-order bits). -/
def tr_bitfieldHas (bitfield : List Nat) (piece : Int) : Bool :=
  (byteGet bitfield (piece / 8)).testBit (7 - (piece % 8).toNat)

/-- Modelled from the spec: the function `tr_bitfieldAdd` of the absent header
`utils.h`, which sets bit `piece`. -/
def tr_bitfieldAdd (bitfield : List Nat) (piece : Int) : List Nat :=
  byteSet bitfield (piece / 8)
    (byteGet bitfield (piece / 8) ||| 2 ^ (7 - (piece % 8).toNat))

/-- Modelled from the spec: the macro `tr_block` of the absent header
`internal.h`.  "Block `b` lies in piece `b·B / P` at offset `(b·B) mod P`": the
block that starts at offset `begin` of piece `index`. -/
def tr_block (tor : tr_torrent_t) (index begin : Int) : Int :=
  (index * tor.info.pieceSize + begin) / tor.blockSize

/-- Modelled from the spec: the macro `tr_pieceStartBlock` of the absent
header `internal.h`: the first block `b` with `b·B / P = piece`. -/
def tr_pieceStartBlock (tor : tr_torrent_t) (piece : Int) : Int :=
  (piece * tor.info.pieceSize + tor.blockSize - 1) / tor.blockSize

/-- Modelled from the spec: the macro `tr_pieceCountBlocks` of the absent
header `internal.h`: the number of blocks `b < M` with `b·B / P = piece`. -/
def tr_pieceCountBlocks (tor : tr_torrent_t) (piece : Int) : Int :=
  min (tr_pieceStartBlock tor (piece + 1)) tor.blockCount - tr_pieceStartBlock tor piece

/-- The blocks visited by `for( i = startBlock; i < endBlock; i++ )` for a piece. -/
def pieceBlocks (tor : tr_torrent_t) (piece : Int) : List Int :=
  (upTo (tr_pieceCountBlocks tor piece)).map (fun i => tr_pieceStartBlock tor piece + i)

/-- The test made by the first loop of `tr_ioWrite`: no block of the piece has
`blockHave[i] >= 0`. -/
def pieceComplete (tor : tr_torrent_t) (piece : Int) : Bool :=
  (pieceBlocks tor piece).all (fun i => decide (arrGet tor.blockHave i < 0))

/-- The 20 bytes `&inf->pieces[20*index]`. -/
def pieceHash (inf : tr_info_t) (index : Int) : List Nat :=
  (inf.pieces.drop (20 * index).toNat).take 20

/-- The bytes that `tr_ioWrite` hashes for piece `index`: the `tr_pieceSize`
bytes of a buffer with initial content `heap` (fresh from `malloc`) after
`readBytes` from the start of the slot of the piece, whose result is ignored. -/
def pieceReadBack (inf : tr_info_t) (io : tr_io_t) (index : Int) (heap : List Nat) :
    List Nat :=
  ((readOrWriteBytes inf io.fds (arrGet io.pieceSlot index * inf.pieceSize)
      (tr_pieceSize inf index) heap false).2.2).take (tr_pieceSize inf index).toNat

/-- The outcome `!memcmp( hash, &inf->pieces[20*index], SHA_DIGEST_LENGTH )` of
the hash check of `tr_ioWrite`. -/
def hashMatches (sha1 : List Nat → List Nat) (inf : tr_info_t) (io : tr_io_t)
    (index : Int) (heap : List Nat) : Bool :=
  decide ((sha1 (pieceReadBack inf io index heap)).take 20 = pieceHash inf index)

/-- The loop of `tr_ioWrite` after a failed hash check: every block of the
piece gets `blockHave[i] = 0` and `blockHaveCount` loses one per block. -/
def resetBlocks (tor : tr_torrent_t) (blocks : List Int) : tr_torrent_t :=
  blocks.foldl (fun t i => { t with blockHave := arrSet t.blockHave i 0,
                                     blockHaveCount := t.blockHaveCount - 1 }) tor

/-- The function `tr_ioRead`: result code and buffer. -/
def tr_ioRead (tor : tr_torrent_t) (index begin length : Int) (buf : List Nat) :
    Int × List Nat :=
  let r := readOrWriteBytes tor.info tor.io.fds
    (arrGet tor.io.pieceSlot index * tor.info.pieceSize + begin) length buf false
  (r.1, r.2.2)

/-- The part of `tr_ioWrite` up to `writeBytes`: the slot is found when the
piece has none, then the bytes are written.  Result of `writeBytes` and the
storage afterwards. -/
def ioWriteBytes (inf : tr_info_t) (fuel : Nat) (io : tr_io_t)
    (index begin length : Int) (buf : List Nat) : Option (Int × tr_io_t) :=
  (if arrGet io.pieceSlot index < 0 then findSlotForPiece inf fuel io index
   else some io).map (fun io1 =>
    let w := readOrWriteBytes inf io1.fds
      (arrGet io1.pieceSlot index * inf.pieceSize + begin) length buf true
    (w.1, { io1 with fds := w.2.1 }))

/-- The function `tr_ioWrite`: result code and torrent afterwards; `heap` is
the content of the memory that `malloc( pieceSize )` returns.  `none` when the
reorderer did not finish within `fuel` passes. -/
def tr_ioWrite (sha1 : List Nat → List Nat) (fuel : Nat) (tor : tr_torrent_t)
    (index begin length : Int) (buf heap : List Nat) : Option (Int × tr_torrent_t) :=
  (ioWriteBytes tor.info fuel tor.io index begin length buf).map (fun w =>
    let tor1 := { tor with io := w.2 }
    if w.1 ≠ 0 then (1, tor1)
    else if ¬ pieceComplete tor1 index then (0, tor1)
    else if ¬ hashMatches sha1 tor1.info tor1.io index heap then
      (0, resetBlocks tor1 (pieceBlocks tor1 index))
    else (0, { tor1 with bitfield := tr_bitfieldAdd tor1.bitfield index }))

/-- The assignments `tor->blockHave[block] = -1; tor->blockHaveCount += 1;` of
the `piece` case of `parseMessage`. -/
def markBlock (tor : tr_torrent_t) (block : Int) : tr_torrent_t :=
  { tor with blockHave := arrSet tor.blockHave block (-1),
             blockHaveCount := tor.blockHaveCount + 1 }

/-- The lines of the `piece` case of `parseMessage` that take a block in: the
block is marked, then `tr_ioWrite` is called and its result ignored. -/
def storeBlock (sha1 : List Nat → List Nat) (fuel : Nat) (tor : tr_torrent_t)
    (index begin length : Int) (data heap : List Nat) : Option tr_torrent_t :=
  (tr_ioWrite sha1 fuel (markBlock tor (tr_block tor index begin)) index begin length
    data heap).map (fun r => r.2)

/-- The state that `tr_torrentInit` and a first `tr_ioInit` (no resume file,
empty files) give a torrent: `blockSize = MIN( pieceSize, 1 << 14 )`,
`blockCount` the rounded-up quotient, nothing had, nothing placed, no peer.
The `status` is the `TR_STATUS_CHECK` (2) that `tr_torrentStart` has set by
then. -/
def tr_torrentInit (inf : tr_info_t) (id : List Nat) : tr_torrent_t :=
  let blockSize := min inf.pieceSize 16384
  let blockCount := (inf.totalSize + blockSize - 1) / blockSize
  { info := inf, id := id, blockSize := blockSize, blockCount := blockCount,
    blockHave := List.replicate blockCount.toNat 0, blockHaveCount := 0,
    bitfield := List.replicate ((inf.pieceCount + 7) / 8).toNat 0,
    peers := [], io := emptyIo inf, downloaded9 := 0, status := 2 }

end Transmission

namespace Transmission

/-! ## Blocks completed through `tr_ioWrite` -/

/-- The block layout that the accounting relies on: every piece of the
torrent has a block, the blocks of different pieces are different, and the
blocks and pieces lie inside the block table and the bitfield. -/
structure BlockLayout (tor : tr_torrent_t) : Prop where
  nonempty : ∀ p ∈ upTo tor.info.pieceCount, pieceBlocks tor p ≠ []
  disjoint : ∀ p ∈ upTo tor.info.pieceCount, ∀ q ∈ upTo tor.info.pieceCount,
    ∀ b ∈ pieceBlocks tor p, b ∈ pieceBlocks tor q → p = q
  inTable : ∀ p ∈ upTo tor.info.pieceCount, ∀ b ∈ pieceBlocks tor p,
    0 ≤ b ∧ b < tor.blockHave.length
  inBitfield : tor.info.pieceCount ≤ 8 * tor.bitfield.length

end Transmission

namespace Transmission

/-- The scenario torrent as `tr_torrentInit` leaves it. -/
def scenarioTor : tr_torrent_t := tr_torrentInit scenarioInfo []

/-- Content of a fresh `malloc` block in the examples. -/
def scenarioHeap : List Nat := [9, 9, 9, 9, 9, 9, 9, 9]

/-- The scenario torrent after the block of piece 2 was taken in. -/
def scenarioTor2 : tr_torrent_t :=
  ((tr_ioWrite padHash 4 (markBlock scenarioTor 2) 2 0 4 scenarioData2 scenarioHeap).map
    (fun r => r.2)).getD scenarioTor

/-- The scenario torrent after the blocks of pieces 2 and 0 were taken in. -/
def scenarioTor20 : tr_torrent_t :=
  ((tr_ioWrite padHash 4 (markBlock scenarioTor2 0) 0 0 8 scenarioData0 scenarioHeap).map
    (fun r => r.2)).getD scenarioTor

/-- The scenario torrent after the block of piece 2 and then corrupt bytes for
piece 0 were taken in. -/
def scenarioTorBad : tr_torrent_t :=
  ((tr_ioWrite padHash 4 (markBlock scenarioTor2 0) 0 0 8 [1, 2, 3, 4, 5, 6, 7, 0]
    scenarioHeap).map (fun r => r.2)).getD scenarioTor

end Transmission

namespace Transmission

/-! ## Peer messages (`peerutils.c`, `peer.c`) -/

/-- The constant `MAX_REQUEST_COUNT` of `peerutils.h`. -/
def MAX_REQUEST_COUNT : Int := 16

/-- Modelled from the spec: the constant `TR_MAX_PEER_COUNT` of the absent
header `internal.h`; a session holds "up to 60 peers". -/
def TR_MAX_PEER_COUNT : Int := 60

/-- The constant `PEER_STATUS_IDLE`. -/
def PEER_STATUS_IDLE : Int := 1

/-- The constant `PEER_STATUS_CONNECTING`. -/
def PEER_STATUS_CONNECTING : Int := 2

/-- The constant `PEER_STATUS_HANDSHAKE`. -/
def PEER_STATUS_HANDSHAKE : Int := 4

/-- The constant `PEER_STATUS_CONNECTED`. -/
def PEER_STATUS_CONNECTED : Int := 8

/-- A request with all fields zero, as `calloc` leaves the entries of the rings. -/
def zeroRequest : tr_request_t := { index := 0, begin := 0, length := 0 }

/-- The peer that `tr_peerInit` allocates: `calloc`, then `amChoking = 1` and
`peerChoking = 1`; the caller sets `status`. -/
def newPeer (status : Int) : tr_peer_t :=
  { status := status, amChoking := 1, amInterested := 0, peerChoking := 1,
    peerInterested := 0, id := List.replicate 20 0, bitfield := none, buf := [],
    outBuf := [], inRequestCount := 0, inRequests := List.replicate 16 zeroRequest,
    inTotal := 0, outRequestCount := 0, outRequests := List.replicate 16 zeroRequest }

/-- The function `tr_peerInit`, with the `status` that its callers store:
`none` (the C `NULL`) when the torrent has `TR_MAX_PEER_COUNT` peers already. -/
def tr_peerInit (tor : tr_torrent_t) (status : Int) : Option tr_torrent_t :=
  if (tor.peers.length : Int) ≥ TR_MAX_PEER_COUNT then none
  else some { tor with peers := tor.peers ++ [newPeer status] }

/-- The peer `tor->peers[i]`. -/
def getPeer (tor : tr_torrent_t) (i : Nat) : tr_peer_t :=
  tor.peers.getD i (newPeer 0)

/-- The torrent after an update of the peer `tor->peers[i]`. -/
def setPeer (tor : tr_torrent_t) (i : Nat) (peer : tr_peer_t) : tr_torrent_t :=
  { tor with peers := tor.peers.set i peer }

/-- The entry `reqs[i]` of a request ring. -/
def reqGet (reqs : List tr_request_t) (i : Int) : tr_request_t :=
  if 0 ≤ i then reqs.getD i.toNat zeroRequest else zeroRequest

/-- The ring after `reqs[i] = r`. -/
def reqSet (reqs : List tr_request_t) (i : Int) (r : tr_request_t) : List tr_request_t :=
  if 0 ≤ i then reqs.set i.toNat r else reqs

/-- The ring after `memmove( &reqs[i], &reqs[i+1], n * sizeof( tr_request_t ) )`:
the `n` entries after entry `i` move down by one.  Nothing moves for `n <= 0`
(a negative count is undefined in C). -/
def ringShift (reqs : List tr_request_t) (i : Nat) (n : Int) : List tr_request_t :=
  reqs.take i ++ (reqs.drop (i + 1)).take n.toNat ++ reqs.drop (i + n.toNat)

/-- Modelled from the spec: what the macro `TR_HTONL` of the absent header
`internal.h` stores: the four bytes of a 32-bit value, big-endian. -/
def htonl (a : Int) : List Nat :=
  let v := (a % 4294967296).toNat
  [v / 16777216 % 256, v / 65536 % 256, v / 256 % 256, v % 256]

/-- Modelled from the spec: what the macro `TR_NTOHL` of the absent header
`internal.h` reads into an `int`: four big-endian bytes, as a signed 32-bit
value.  Bytes past the end of the list read as 0. -/
def ntohl (p : List Nat) : Int :=
  let v : Int := (p.getD 0 0 * 16777216 + p.getD 1 0 * 65536 + p.getD 2 0 * 256 + p.getD 3 0 : Nat)
  if v < 2147483648 then v else v - 4294967296

/-- The function `tr_peerSendChoke`. -/
def tr_peerSendChoke (peer : tr_peer_t) (yes : Int) : tr_peer_t :=
  { peer with outBuf := peer.outBuf ++ htonl 1 ++ [if yes ≠ 0 then 0 else 1],
              amChoking := yes,
              outRequestCount := if yes ≠ 0 then 0 else peer.outRequestCount }

/-- The function `tr_peerSendInterest`. -/
def tr_peerSendInterest (peer : tr_peer_t) (yes : Int) : tr_peer_t :=
  { peer with outBuf := peer.outBuf ++ htonl 1 ++ [if yes ≠ 0 then 2 else 3],
              amInterested := yes }

/-- The function `tr_peerSendHave`: a `have` frame for every connected peer. -/
def tr_peerSendHave (tor : tr_torrent_t) (piece : Int) : tr_torrent_t :=
  { tor with peers := tor.peers.map (fun peer =>
      if peer.status < PEER_STATUS_CONNECTED then peer
      else { peer with outBuf := peer.outBuf ++ htonl 5 ++ [4] ++ htonl piece }) }

/-- The frame that `tr_peerSendBitfield` builds. -/
def bitfieldFrame (tor : tr_torrent_t) : List Nat :=
  let bitfieldSize := (tor.info.pieceCount + 7) / 8
  htonl (1 + bitfieldSize) ++ [5] ++ tor.bitfield.take bitfieldSize.toNat

/-- The function `tr_peerSendBitfield`. -/
def tr_peerSendBitfield (tor : tr_torrent_t) (peer : tr_peer_t) : tr_peer_t :=
  { peer with outBuf := peer.outBuf ++ bitfieldFrame tor }

/-- The request that `tr_peerSendRequest` builds for `block`. -/
def blockRequest (tor : tr_torrent_t) (block : Int) : tr_request_t :=
  let perPiece := tor.info.pieceSize / tor.blockSize
  let lastSize := tor.info.totalSize % tor.blockSize
  { index := block / perPiece,
    begin := (block % perPiece) * tor.blockSize,
    length := if block = tor.blockCount - 1 ∧ lastSize ≠ 0 then lastSize
              else tor.blockSize }

/-- The function `tr_peerSendRequest` for the peer `tor->peers[i]`. -/
def tr_peerSendRequest (tor : tr_torrent_t) (i : Nat) (block : Int) : tr_torrent_t :=
  let peer := getPeer tor i
  let r := blockRequest tor block
  let peer1 := { peer with
    inRequests := reqSet peer.inRequests peer.inRequestCount r,
    inRequestCount := peer.inRequestCount + 1,
    outBuf := peer.outBuf ++ htonl 13 ++ [6] ++ htonl r.index ++ htonl r.begin ++
      htonl r.length }
  let tor1 := setPeer tor i peer1
  { tor1 with blockHave := arrSet tor.blockHave block (arrGet tor.blockHave block + 1) }

/-- The function `tr_peerCmp`: `0` when both peers are connected and their ids
are equal. -/
def tr_peerCmp (peer1 peer2 : tr_peer_t) : Int :=
  if peer1.status < PEER_STATUS_CONNECTED ∨ peer2.status < PEER_STATUS_CONNECTED then 1
  else if peer1.id.take 20 = peer2.id.take 20 then 0 else 1

/-- The bookkeeping part of `tr_peerRem` for the peer `tor->peers[i]`: every
entry of its inbound ring takes one off `blockHave`, then the peer leaves the
list.  (Buffers, socket and upload accounting are left out.) -/
def tr_peerRem (tor : tr_torrent_t) (i : Nat) : tr_torrent_t :=
  let peer := getPeer tor i
  let blockHave := (upTo peer.inRequestCount).foldl (fun bh j =>
      let r := reqGet peer.inRequests j
      arrSet bh (tr_block tor r.index r.begin) (arrGet bh (tr_block tor r.index r.begin) - 1))
    tor.blockHave
  { tor with blockHave := blockHave, peers := tor.peers.eraseIdx i }

end Transmission

namespace Transmission

/-! ## `parseMessage` -/

/-- How `parseMessage` ends: `return 0`, `return 1` (a protocol violation, after
which `tr_peerPulse` drops the peer), or no defined result (a negative frame
length, which makes the C code read outside the buffer, or fuel run out). -/
inductive ParseOut where
  | ok (tor : tr_torrent_t)
  | violation (tor : tr_torrent_t)
  | undefined
deriving DecidableEq, Repr

/-- How one iteration of the `for( ;; )` loop of `parseMessage` ends: `continue`
or the end of the `switch` (with the value of `newBytes`), or the end of the
function. -/
inductive ParseIter where
  | again (tor : tr_torrent_t) (newBytes : Int)
  | stop (out : ParseOut)
deriving DecidableEq, Repr

/-- The bytes of the string `"Bit"`. -/
def strBit : List Nat := [66, 105, 116]

/-- The bytes of the string `"Torrent protocol"`. -/
def strTorrentProtocol : List Nat :=
  [84, 111, 114, 114, 101, 110, 116, 32, 112, 114, 111, 116, 111, 99, 111, 108]

/-- The loop of the handshake branch over the other peers: some other peer
is connected and has the same id (`!tr_peerCmp( peer, tor->peers[i] )`). -/
def duplicateId (tor : tr_torrent_t) (i : Nat) (peer : tr_peer_t) : Bool :=
  (List.range tor.peers.length).any (fun j =>
    decide (j ≠ i) && decide (tr_peerCmp peer (getPeer tor j) = 0))

/-- The branch `if( peer->status & PEER_STATUS_HANDSHAKE )` of `parseMessage`,
entered with at least four bytes in the buffer. -/
def parseHandshake (tor : tr_torrent_t) (i : Nat) (newBytes : Int) : ParseIter :=
  let peer := getPeer tor i
  let p := peer.buf
  if p.getD 0 0 ≠ 19 ∨ (p.drop 1).take 3 ≠ strBit then
    ParseIter.stop (ParseOut.violation tor)
  else if p.length < 68 then ParseIter.stop (ParseOut.ok tor)
  else if (p.drop 4).take 16 ≠ strTorrentProtocol ∨
      (p.drop 28).take 20 ≠ tor.info.hash.take 20 then
    ParseIter.stop (ParseOut.violation tor)
  else if (p.drop 48).take 20 = tor.id.take 20 then
    ParseIter.stop (ParseOut.violation tor)
  else
    let peer1 := { peer with status := PEER_STATUS_CONNECTED, id := (p.drop 48).take 20,
                             buf := p.drop 68 }
    let tor1 := setPeer tor i peer1
    if duplicateId tor1 i peer1 then ParseIter.stop (ParseOut.violation tor1)
    else ParseIter.again (setPeer tor1 i (tr_peerSendBitfield tor1 peer1)) newBytes

/-- The peer after the head of its inbound ring is taken off:
`(peer->inRequestCount)--` and the `memmove` of the remaining entries. -/
def popInRequest (peer : tr_peer_t) : tr_peer_t :=
  { peer with inRequestCount := peer.inRequestCount - 1,
              inRequests := ringShift peer.inRequests 0 (peer.inRequestCount - 1) }

/-- The case `7` (piece) of the `switch` of `parseMessage`; `payload` is the
memory after the id byte.  `none` stands for `return 1`. -/
def parsePiece (sha1 : List Nat → List Nat) (fuel : Nat) (heap : List Nat)
    (tor : tr_torrent_t) (i : Nat) (len : Int) (payload : List Nat) :
    Option (Option tr_torrent_t) :=
  let peer := getPeer tor i
  let index := ntohl payload
  let begin := ntohl (payload.drop 4)
  let r := reqGet peer.inRequests 0
  if index ≠ r.index ∨ begin ≠ r.begin then some none
  else if len - 9 ≠ r.length then some none
  else if arrGet tor.blockHave (tr_block tor r.index r.begin) < 0 then
    some (some (setPeer tor i (popInRequest peer)))
  else
    (storeBlock sha1 fuel tor index begin (len - 9) (payload.drop 8) heap).map (fun tor1 =>
      let tor2 := if tr_bitfieldHas tor1.bitfield index then tr_peerSendHave tor1 index
                  else tor1
      some (setPeer tor2 i (popInRequest (getPeer tor2 i))))

/-- The case `5` (bitfield) of the `switch`; `none` stands for `return 1`. -/
def parseBitfield (tor : tr_torrent_t) (peer : tr_peer_t) (len : Int)
    (payload : List Nat) : Option tr_peer_t :=
  let bitfieldSize := (tor.info.pieceCount + 7) / 8
  if len ≠ 1 + bitfieldSize then none
  else if tor.info.pieceCount % 8 ≠ 0 ∧
      (payload.getD (bitfieldSize - 1).toNat 0 * 2 ^ (tor.info.pieceCount % 8).toNat) % 256 ≠ 0
    then none
  else some { peer with bitfield := some (payload.take bitfieldSize.toNat) }

/-- The case `6` (request) of the `switch`. -/
def parseRequest (peer : tr_peer_t) (payload : List Nat) : tr_peer_t :=
  if peer.amChoking ≠ 0 then tr_peerSendChoke peer 1
  else if peer.outRequestCount < MAX_REQUEST_COUNT then
    { peer with
      outRequests := reqSet peer.outRequests peer.outRequestCount
        { index := ntohl payload, begin := ntohl (payload.drop 4),
          length := ntohl (payload.drop 8) },
      outRequestCount := peer.outRequestCount + 1 }
  else peer

/-- The case `8` (cancel) of the `switch`: the first matching entry of the
outbound ring is taken out. -/
def parseCancel (peer : tr_peer_t) (payload : List Nat) : tr_peer_t :=
  let req : tr_request_t :=
    { index := ntohl payload, begin := ntohl (payload.drop 4),
      length := ntohl (payload.drop 8) }
  match (upTo peer.outRequestCount).find? (fun j => decide (reqGet peer.outRequests j = req)) with
  | some j =>
    { peer with outRequestCount := peer.outRequestCount - 1,
                outRequests := ringShift peer.outRequests j.toNat
                  (peer.outRequestCount - 1 - j) }
  | none => peer

/-- The `switch( id )` of `parseMessage` for a complete frame of length `len`
with id `id` and the memory `payload` after the id byte.  `some none` stands
for `return 1`, `none` for fuel run out in `tr_ioWrite`. -/
def parseSwitch (sha1 : List Nat → List Nat) (fuel : Nat) (heap : List Nat)
    (tor : tr_torrent_t) (i : Nat) (len : Int) (id : Nat) (payload : List Nat) :
    Option (Option tr_torrent_t) :=
  let peer := getPeer tor i
  if id = 0 then
    if len ≠ 1 then some none
    else some (some (setPeer tor i { peer with peerChoking := 1, inRequestCount := 0 }))
  else if id = 1 then
    if len ≠ 1 then some none
    else some (some (setPeer tor i { peer with peerChoking := 0 }))
  else if id = 2 then
    if len ≠ 1 then some none
    else some (some (setPeer tor i { peer with peerInterested := 1 }))
  else if id = 3 then
    if len ≠ 1 then some none
    else some (some (setPeer tor i { peer with peerInterested := 0 }))
  else if id = 4 then
    if len ≠ 5 then some none
    else
      let bf := peer.bitfield.getD (List.replicate ((tor.info.pieceCount + 7) / 8).toNat 0)
      some (some (setPeer tor i
        { peer with bitfield := some (tr_bitfieldAdd bf (ntohl payload)) }))
  else if id = 5 then some ((parseBitfield tor peer len payload).map (setPeer tor i))
  else if id = 6 then some (some (setPeer tor i (parseRequest peer payload)))
  else if id = 7 then parsePiece sha1 fuel heap tor i len payload
  else if id = 8 then some (some (setPeer tor i (parseCancel peer payload)))
  else some (some tor)

/-- The statistics update of `parseMessage` made when the byte after the
length prefix is there and is 7 (`if( p < end && *p == 7 )`): `newBytes` is
added to `downloaded[9]` and to `inTotal` and then set to 0. -/
def countPieceBytes (tor : tr_torrent_t) (i : Nat) (newBytes : Int) : tr_torrent_t × Int :=
  let peer := getPeer tor i
  let p := peer.buf.drop 4
  if decide (p ≠ []) && decide (p.getD 0 0 = 7) then
    ({ setPeer tor i { peer with inTotal := peer.inTotal + newBytes } with
        downloaded9 := tor.downloaded9 + newBytes }, 0)
  else (tor, newBytes)

/-- The frame at the front of the buffer taken off (`peer->pos -= 4 + len`, and
`p` past the frame at the end of the `switch`). -/
def consumeFrame (tor : tr_torrent_t) (i : Nat) : tr_torrent_t :=
  let peer := getPeer tor i
  setPeer tor i { peer with buf := (peer.buf.drop 4).drop (ntohl peer.buf).toNat }

/-- One iteration of the `for( ;; )` loop of `parseMessage` for the peer
`tor->peers[i]`. -/
def parseIter (sha1 : List Nat → List Nat) (fuel : Nat) (heap : List Nat)
    (tor : tr_torrent_t) (i : Nat) (newBytes : Int) : ParseIter :=
  let peer := getPeer tor i
  if peer.buf.length < 4 then ParseIter.stop (ParseOut.ok tor)
  else if peer.status.toNat &&& 4 ≠ 0 then parseHandshake tor i newBytes
  else
    let len := ntohl peer.buf
    let p := peer.buf.drop 4
    if len > 9 + tor.blockSize then ParseIter.stop (ParseOut.violation tor)
    else if len = 0 then ParseIter.again (setPeer tor i { peer with buf := p }) newBytes
    else if len < 0 then ParseIter.stop ParseOut.undefined
    else
      let counted := countPieceBytes tor i newBytes
      if (p.length : Int) < len then ParseIter.stop (ParseOut.ok counted.1)
      else
        let tor2 := consumeFrame counted.1 i
        match parseSwitch sha1 fuel heap tor2 i len (p.getD 0 0) (p.drop 1) with
        | none => ParseIter.stop ParseOut.undefined
        | some none => ParseIter.stop (ParseOut.violation tor2)
        | some (some tor3) => ParseIter.again tor3 counted.2

/-- The `for( ;; )` loop of `parseMessage`; every iteration that goes on
consumes at least four bytes, so `steps` above the buffer length is enough. -/
def parseLoop (sha1 : List Nat → List Nat) (fuel : Nat) (heap : List Nat) (i : Nat) :
    Nat → tr_torrent_t → Int → ParseOut
  | 0, _, _ => ParseOut.undefined
  | steps + 1, tor, newBytes =>
    match parseIter sha1 fuel heap tor i newBytes with
    | ParseIter.again tor1 newBytes1 => parseLoop sha1 fuel heap i steps tor1 newBytes1
    | ParseIter.stop out => out

/-- The function `parseMessage` for the peer `tor->peers[i]`, whose buffer
holds the bytes received and not yet consumed. -/
def parseMessage (sha1 : List Nat → List Nat) (fuel : Nat) (heap : List Nat)
    (tor : tr_torrent_t) (i : Nat) (newBytes : Int) : ParseOut :=
  parseLoop sha1 fuel heap i ((getPeer tor i).buf.length + 1) tor newBytes

/-- The part "Try to read" of `tr_peerPulse` for a peer that delivered `bytes`:
they are appended to its buffer and parsed, and the peer is removed
(`goto dropPeer`) when `parseMessage` returns 1. -/
def peerReceive (sha1 : List Nat → List Nat) (fuel : Nat) (heap : List Nat)
    (tor : tr_torrent_t) (i : Nat) (bytes : List Nat) : Option tr_torrent_t :=
  let peer := getPeer tor i
  let tor1 := setPeer tor i { peer with buf := peer.buf ++ bytes }
  match parseMessage sha1 fuel heap tor1 i bytes.length with
  | ParseOut.ok tor2 => some tor2
  | ParseOut.violation tor2 => some (tr_peerRem tor2 i)
  | ParseOut.undefined => none

end Transmission

namespace Transmission

/-! ## Piece selection (`isInteresting`, `chooseBlock`) and the request top-up -/

/-- The function `isInteresting`: the peer has a piece whose bit we lack. -/
def isInteresting (tor : tr_torrent_t) (peer : tr_peer_t) : Bool :=
  match peer.bitfield with
  | none => false
  | some bf =>
    (upTo ((tor.info.pieceCount + 7) / 8)).any (fun i =>
      decide ((byteGet bf i &&& (255 - byteGet tor.bitfield i % 256)) % 256 ≠ 0))

/-- The number `missingBlocks` that `chooseBlock` computes for a piece: its
blocks with `blockHave[j] == 0`. -/
def missingBlocks (tor : tr_torrent_t) (piece : Int) : Int :=
  tr_pieceCountBlocks tor piece -
    ((pieceBlocks tor piece).filter (fun j => decide (arrGet tor.blockHave j ≠ 0))).length

/-- One iteration of the first loop of `chooseBlock`; the state is
`( minMissing, pool )`. -/
def poolStep (tor : tr_torrent_t) (bf : List Nat) (st : Int × List Int) (i : Int) :
    Int × List Int :=
  if ¬ tr_bitfieldHas bf i then st
  else if tr_bitfieldHas tor.bitfield i then st
  else
    let missing := missingBlocks tor i
    if missing < 1 then st
    else
      let st1 := if missing < st.1 then (missing, []) else st
      if missing ≤ st1.1 then (st1.1, st1.2 ++ [i]) else st1

/-- The end-game loop of `chooseBlock`; the state is `( block, minDownloading )`. -/
def endGameStep (tor : tr_torrent_t) (st : Int × Int) (i : Int) : Int × Int :=
  if arrGet tor.blockHave i > 0 ∧ arrGet tor.blockHave i < st.2 then
    (i, arrGet tor.blockHave i)
  else st

/-- The function `chooseBlock` for the peer `tor->peers[i]`; `rand` is `tr_rand`. -/
def chooseBlock (rand : Int → Int) (tor : tr_torrent_t) (i : Nat) : Int :=
  let bf := (getPeer tor i).bitfield.getD []
  let pool := ((upTo tor.info.pieceCount).foldl (poolStep tor bf) (tor.blockCount + 1, [])).2
  if pool ≠ [] then
    let piece := arrGet pool (rand pool.length)
    ((pieceBlocks tor piece).find? (fun b => decide (arrGet tor.blockHave b = 0))).getD 0
  else
    ((upTo tor.blockCount).foldl (endGameStep tor) (-1, TR_MAX_PEER_COUNT + 1)).1

/-- The loop `while( peer->inRequestCount < MAX_REQUEST_COUNT / 2 )` of
`tr_peerPulse`, which sends a request for the block that `chooseBlock` returns;
`n` bounds the number of iterations. -/
def requestLoop (rand : Int → Int) (i : Nat) : Nat → tr_torrent_t → tr_torrent_t
  | 0, tor => tor
  | n + 1, tor =>
    if (getPeer tor i).inRequestCount < MAX_REQUEST_COUNT / 2 then
      requestLoop rand i n (tr_peerSendRequest tor i (chooseBlock rand tor i))
    else tor

/-- The last part of `tr_peerPulse` for a connected peer that is kept: the
interest is updated and, when we are interested and not choked, requests are
sent until `MAX_REQUEST_COUNT / 2` are pending. -/
def requestTopUp (rand : Int → Int) (tor : tr_torrent_t) (i : Nat) : tr_torrent_t :=
  let peer := getPeer tor i
  if peer.status.toNat &&& 8 = 0 then tor
  else
    let interested := isInteresting tor peer
    let peer1 := if interested ∧ peer.amInterested = 0 then tr_peerSendInterest peer 1
                 else peer
    let peer2 := if ¬ interested ∧ peer1.amInterested ≠ 0 then tr_peerSendInterest peer1 0
                 else peer1
    let tor1 := setPeer tor i peer2
    if peer2.amInterested ≠ 0 ∧ peer2.peerChoking = 0 then
      requestLoop rand i (MAX_REQUEST_COUNT / 2 - peer2.inRequestCount).toNat tor1
    else tor1

end Transmission

namespace Transmission

/-! ## Example sessions -/

/-- The number of entries for `block` in the inbound request rings of the
peers of the session. -/
def ringCount (tor : tr_torrent_t) (block : Int) : Nat :=
  (tor.peers.map (fun peer =>
    ((upTo peer.inRequestCount).filter (fun j =>
      decide (tr_block tor (reqGet peer.inRequests j).index
        (reqGet peer.inRequests j).begin = block))).length)).sum

/-- A connected peer that does not choke us and advertises the three pieces
of the scenario torrent. -/
def scenarioPeer : tr_peer_t :=
  { newPeer PEER_STATUS_CONNECTED with id := List.replicate 20 7, peerChoking := 0,
                                       bitfield := some [224] }

/-- The random source of the examples: index 1 of a pool of three, else index 0. -/
def scenarioRand (n : Int) : Int := if n = 3 then 1 else 0

/-- The piece frame `<len><7><index><begin><data>`. -/
def pieceFrame (index begin : Int) (data : List Nat) : List Nat :=
  htonl (9 + data.length) ++ [7] ++ htonl index ++ htonl begin ++ data

/-- The scenario torrent, fresh, with the scenario peer. -/
def session0 : tr_torrent_t :=
  { tr_torrentInit scenarioInfo (List.replicate 20 1) with peers := [scenarioPeer] }

/-- The session after `tr_peerPulse` has topped up the requests of the peer:
eight requests, for the blocks 1, 0, 2, 0, 1, 2, 0, 1. -/
def session1 : tr_torrent_t := requestTopUp scenarioRand session0 0

/-- The session after the peer has then sent a `choke` frame. -/
def sessionChoked : tr_torrent_t :=
  (peerReceive padHash 4 scenarioHeap session1 0 (htonl 1 ++ [0])).getD session0

/-- The session after the peer has instead sent piece 1 with a wrong last byte. -/
def sessionBad : tr_torrent_t :=
  (peerReceive padHash 4 scenarioHeap session1 0
    (pieceFrame 1 0 [11, 12, 13, 14, 15, 16, 17, 0])).getD session0

/-- The session after the peer has then sent a `choke` frame of length 2, a
protocol violation for which `tr_peerPulse` removes it. -/
def sessionBadGone : tr_torrent_t :=
  (peerReceive padHash 4 scenarioHeap sessionBad 0 (htonl 2 ++ [0, 0])).getD session0

/-- The scenario torrent split over three files of 12, 0 and 8 bytes. -/
def emptyFileInfo : tr_info_t := { scenarioInfo with files := [12, 0, 8] }

/-- The three-file torrent, fresh, with the scenario peer. -/
def emptyFile0 : tr_torrent_t :=
  { tr_torrentInit emptyFileInfo (List.replicate 20 1) with peers := [scenarioPeer] }

/-- The three-file session after the request top-up. -/
def emptyFile1 : tr_torrent_t := requestTopUp scenarioRand emptyFile0 0

/-- The three-file session after the peer has sent piece 1, the head of its ring. -/
def emptyFile2 : tr_torrent_t :=
  (peerReceive padHash 4 scenarioHeap emptyFile1 0 (pieceFrame 1 0 scenarioData1)).getD
    emptyFile0

/-- The three-file session after the peer has then sent piece 0. -/
def emptyFile3 : tr_torrent_t :=
  (peerReceive padHash 4 scenarioHeap emptyFile2 0 (pieceFrame 0 0 scenarioData0)).getD
    emptyFile0

end Transmission

namespace Transmission

/-! ## Statements about single frames -/

/-- The frame at the front of the buffer of the peer `tor->peers[i]` is complete
and has id `id`: a length prefix `len > 0` followed by at least `len` bytes,
the first of them `id`. -/
def FrameAtFront (tor : tr_torrent_t) (i : Nat) (id : Nat) : Prop :=
  4 ≤ (getPeer tor i).buf.length ∧ 0 < ntohl (getPeer tor i).buf ∧
  ntohl (getPeer tor i).buf ≤ (((getPeer tor i).buf.drop 4).length : Int) ∧
  ((getPeer tor i).buf.drop 4).getD 0 0 = id

/-- The length prefix of the frame at the front of the buffer. -/
def frameLen (tor : tr_torrent_t) (i : Nat) : Int := ntohl (getPeer tor i).buf

/-- The memory after the id byte of the frame at the front of the buffer. -/
def framePayload (tor : tr_torrent_t) (i : Nat) : List Nat :=
  ((getPeer tor i).buf.drop 4).drop 1

/-- The index field of a piece, request or cancel frame at the front of the buffer. -/
def frameIndex (tor : tr_torrent_t) (i : Nat) : Int := ntohl (framePayload tor i)

/-- The begin field of a piece, request or cancel frame at the front of the buffer. -/
def frameBegin (tor : tr_torrent_t) (i : Nat) : Int := ntohl ((framePayload tor i).drop 4)

/-- The head `inRequests[0]` of the inbound ring of the peer. -/
def ringHead (tor : tr_torrent_t) (i : Nat) : tr_request_t :=
  reqGet (getPeer tor i).inRequests 0

/-- The piece frame at the front of the buffer answers the head of the inbound
ring: same index, same begin, and a payload of the length asked for. -/
def PieceMatchesHead (tor : tr_torrent_t) (i : Nat) : Prop :=
  frameIndex tor i = (ringHead tor i).index ∧ frameBegin tor i = (ringHead tor i).begin ∧
  frameLen tor i - 9 = (ringHead tor i).length

/-- The inbound ring of peer `i` in `tor1` is that of `tor` without its head:
one entry less, the remaining entries in their order. -/
def RingPopped (tor tor1 : tr_torrent_t) (i : Nat) : Prop :=
  (getPeer tor1 i).inRequestCount = (getPeer tor i).inRequestCount - 1 ∧
  ∀ k, 0 ≤ k → k < (getPeer tor i).inRequestCount - 1 →
    reqGet (getPeer tor1 i).inRequests k = reqGet (getPeer tor i).inRequests (k + 1)

end Transmission
namespace Transmission

/-! ## Example states for single frames -/

/-- The scenario session with piece 1, the head of the ring of the peer, in the
buffer of the peer. -/
def session1Good : tr_torrent_t :=
  setPeer session1 0 { getPeer session1 0 with buf := pieceFrame 1 0 scenarioData1 }

/-- The scenario session with piece 1 in the buffer of the peer, its last byte
wrong. -/
def session1Corrupt : tr_torrent_t :=
  setPeer session1 0
    { getPeer session1 0 with buf := pieceFrame 1 0 [11, 12, 13, 14, 15, 16, 17, 0] }

end Transmission
namespace Transmission

/-! ## The handshake -/

/-- The scenario torrent with an info-hash of twenty bytes 5. -/
def handshakeInfo : tr_info_t := { scenarioInfo with hash := List.replicate 20 5 }

/-- The 68 bytes of a handshake: `19`, `"Bit"`, the rest of the protocol
string, the reserved bytes, the info-hash and the peer-id. -/
def handshakeBytes (rest reserved hash id : List Nat) : List Nat :=
  [19] ++ strBit ++ rest ++ reserved ++ hash ++ id

end Transmission
namespace Transmission

/-! ## Example sessions for frame lengths -/

/-- The scenario session with the peer unchoked by us (`amChoking = 0`). -/
def sessionUnchoked : tr_torrent_t :=
  setPeer session0 0 { scenarioPeer with amChoking := 0 }

/-- What the peer delivers in the example of a short request: a frame of
length 1 with id 6, then three keep-alives. -/
def shortRequestBytes : List Nat := htonl 1 ++ [6] ++ htonl 0 ++ htonl 0 ++ htonl 0

/-- The session after the short request frame and the keep-alives. -/
def sessionShortRequest : tr_torrent_t :=
  (peerReceive padHash 4 scenarioHeap sessionUnchoked 0 shortRequestBytes).getD session0

/-- What the peer delivers in the example of a short cancel: a frame of
length 1 with id 8, then three keep-alives. -/
def shortCancelBytes : List Nat := htonl 1 ++ [8] ++ htonl 0 ++ htonl 0 ++ htonl 0

/-- The session after the short request and then the short cancel. -/
def sessionShortCancel : tr_torrent_t :=
  (peerReceive padHash 4 scenarioHeap sessionShortRequest 0 shortCancelBytes).getD session0

end Transmission
namespace Transmission

/-! ## The bitfield frame -/

/-- The number of bytes `( pieceCount + 7 ) / 8` of a piece bitfield. -/
def bitfieldSize (tor : tr_torrent_t) : Int := (tor.info.pieceCount + 7) / 8

/-- The bitfield frame at the front of the buffer of the peer `tor->peers[i]`
has the length `1 + ceil(N/8)` and, when `N` is not a multiple of 8, the
`8 - N mod 8` low-order bits of its last payload byte are zero. -/
def BitfieldFrameValid (tor : tr_torrent_t) (i : Nat) : Prop :=
  frameLen tor i = 1 + bitfieldSize tor ∧
  (tor.info.pieceCount % 8 ≠ 0 →
    (framePayload tor i).getD (bitfieldSize tor - 1).toNat 0 %
      2 ^ (8 - (tor.info.pieceCount % 8).toNat) = 0)

/-- A torrent of eighty pieces of one byte, hence of blocks of one byte. -/
def tinyPieceInfo : tr_info_t :=
  { hash := [], pieceSize := 1, pieceCount := 80, totalSize := 80,
    pieces := List.replicate 1600 0, files := [80] }

/-- A session of the torrent of eighty pieces whose connected peer has
delivered a bitfield frame of length `1 + 10` with all eighty bits set. -/
def sessionTinyBitfield : tr_torrent_t :=
  { tr_torrentInit tinyPieceInfo (List.replicate 20 1) with
    peers := [{ scenarioPeer with bitfield := none,
                                  buf := htonl 11 ++ [5] ++ List.replicate 10 255 }] }

/-- The scenario session whose peer has delivered the bitfield frame `<2><5><160>`:
pieces 0 and 2. -/
def sessionBitfield : tr_torrent_t :=
  setPeer session0 0 { scenarioPeer with bitfield := none, buf := htonl 2 ++ [5, 160] }

end Transmission
namespace Transmission

/-! ## The session: what `tr_peerPulse` and its helpers do to the peers -/

/-- The function `tr_peerSendPiece` for the peer `tor->peers[i]`: the head of
the outbound ring is served and taken off.  `mem` is the content of the part
of the out buffer that `tr_ioRead` fills. -/
def tr_peerSendPiece (tor : tr_torrent_t) (i : Nat) (mem : List Nat) : tr_torrent_t :=
  let peer := getPeer tor i
  let r := reqGet peer.outRequests 0
  let data := (tr_ioRead tor r.index r.begin r.length mem).2
  setPeer tor i { peer with
    outBuf := peer.outBuf ++ htonl (9 + r.length) ++ [7] ++ htonl r.index ++ htonl r.begin ++
      data,
    outRequestCount := peer.outRequestCount - 1,
    outRequests := ringShift peer.outRequests 0 (peer.outRequestCount - 1) }

/-- The part of `checkPeer` for a peer that is kept: for a connected peer a
keep-alive when one is due (`keepAlive`), a choke when it is unchoked and not
interested, an unchoke when it is choked and interested and the upload
limiter allows it (`canUnchoke`; the field `outSlow` is never set). -/
def checkPeer (keepAlive canUnchoke : Bool) (peer : tr_peer_t) : tr_peer_t :=
  if peer.status.toNat &&& 8 = 0 then peer
  else
    let peer1 := if keepAlive then { peer with outBuf := peer.outBuf ++ htonl 0 } else peer
    let peer2 := if peer1.amChoking = 0 ∧ peer1.peerInterested = 0 then
      tr_peerSendChoke peer1 1 else peer1
    if peer2.amChoking ≠ 0 ∧ peer2.peerInterested ≠ 0 ∧ canUnchoke = true then
      tr_peerSendChoke peer2 0
    else peer2

/-- The states that a session reaches from the state `tor0` in which
`tr_torrentStart` leaves it, by the steps of `tr_peerPulse`: a peer is added
(`tr_peerAddWithAddr`, `tr_peerAddCompact`), connects, gets our handshake,
delivers bytes that `parseMessage` takes in, is served a piece, has part of
its out buffer sent, is checked by `checkPeer`, gets requests, is removed, or
the peers are shuffled. -/
inductive SessionReach (sha1 : List Nat → List Nat) (tor0 : tr_torrent_t) :
    tr_torrent_t → Prop
  | start : SessionReach sha1 tor0 tor0
  | addPeer (tor tor1 : tr_torrent_t) (status : Int) :
      SessionReach sha1 tor0 tor →
      (status = PEER_STATUS_IDLE ∨ status = PEER_STATUS_CONNECTING) →
      tr_peerInit tor status = some tor1 → SessionReach sha1 tor0 tor1
  | connect (tor : tr_torrent_t) (i : Nat) :
      SessionReach sha1 tor0 tor → i < tor.peers.length →
      (getPeer tor i).status = PEER_STATUS_IDLE →
      SessionReach sha1 tor0
        (setPeer tor i { getPeer tor i with status := PEER_STATUS_CONNECTING })
  | handshakeSent (tor : tr_torrent_t) (i : Nat) :
      SessionReach sha1 tor0 tor → i < tor.peers.length →
      (getPeer tor i).status = PEER_STATUS_CONNECTING →
      SessionReach sha1 tor0
        (setPeer tor i { getPeer tor i with status := PEER_STATUS_HANDSHAKE })
  | receive (tor tor1 : tr_torrent_t) (i : Nat) (bytes heap : List Nat) (fuel : Nat) :
      SessionReach sha1 tor0 tor → i < tor.peers.length →
      PEER_STATUS_HANDSHAKE ≤ (getPeer tor i).status →
      peerReceive sha1 fuel heap tor i bytes = some tor1 → SessionReach sha1 tor0 tor1
  | sendPiece (tor : tr_torrent_t) (i : Nat) (mem : List Nat) :
      SessionReach sha1 tor0 tor → i < tor.peers.length →
      0 < (getPeer tor i).outRequestCount →
      SessionReach sha1 tor0 (tr_peerSendPiece tor i mem)
  | sent (tor : tr_torrent_t) (i : Nat) (n : Nat) :
      SessionReach sha1 tor0 tor → i < tor.peers.length →
      SessionReach sha1 tor0
        (setPeer tor i { getPeer tor i with outBuf := (getPeer tor i).outBuf.drop n })
  | check (tor : tr_torrent_t) (i : Nat) (keepAlive canUnchoke : Bool) :
      SessionReach sha1 tor0 tor → i < tor.peers.length →
      SessionReach sha1 tor0 (setPeer tor i (checkPeer keepAlive canUnchoke (getPeer tor i)))
  | topUp (tor : tr_torrent_t) (i : Nat) (rand : Int → Int) :
      SessionReach sha1 tor0 tor → i < tor.peers.length →
      SessionReach sha1 tor0 (requestTopUp rand tor i)
  | remove (tor : tr_torrent_t) (i : Nat) :
      SessionReach sha1 tor0 tor → i < tor.peers.length →
      SessionReach sha1 tor0 (tr_peerRem tor i)
  | shuffle (tor : tr_torrent_t) :
      SessionReach sha1 tor0 tor →
      SessionReach sha1 tor0 { tor with peers := tor.peers.drop 1 ++ tor.peers.take 1 }

/-- The bounds on the request rings of a peer: at most `MAX_REQUEST_COUNT / 2`
requests of ours pending, between 0 and `MAX_REQUEST_COUNT` requests of the
peer pending and none while we choke it, both arrays of `MAX_REQUEST_COUNT`
entries. -/
def PeerRings (peer : tr_peer_t) : Prop :=
  peer.inRequestCount ≤ MAX_REQUEST_COUNT / 2 ∧
  0 ≤ peer.outRequestCount ∧ peer.outRequestCount ≤ MAX_REQUEST_COUNT ∧
  (peer.amChoking ≠ 0 → peer.outRequestCount = 0) ∧
  peer.inRequests.length = 16 ∧ peer.outRequests.length = 16

/-- Every peer of the session satisfies `Q`. -/
def AllPeers (Q : tr_peer_t → Prop) (tor : tr_torrent_t) : Prop :=
  ∀ peer ∈ tor.peers, Q peer

end Transmission
namespace Transmission

/-! ## An example run of a session -/

/-- The torrent `handshakeInfo` as `tr_torrentStart` leaves it: no peer yet. -/
def runStart : tr_torrent_t := tr_torrentInit handshakeInfo (List.replicate 20 1)

/-- The run after an incoming connection was accepted (`tr_peerAddCompact`). -/
def runAdded : tr_torrent_t := (tr_peerInit runStart PEER_STATUS_CONNECTING).getD runStart

/-- The run after our handshake was sent to the peer. -/
def runHandshake : tr_torrent_t :=
  setPeer runAdded 0 { getPeer runAdded 0 with status := PEER_STATUS_HANDSHAKE }

/-- What the peer delivers: its handshake, the bitfield `[224]` (all three
pieces), an `interested` and a request frame for piece 0. -/
def runBytes : List Nat :=
  handshakeBytes strTorrentProtocol (List.replicate 8 0) (List.replicate 20 5)
    (List.replicate 20 8) ++ htonl 2 ++ [5, 224] ++ htonl 1 ++ [2] ++
    htonl 13 ++ [6] ++ htonl 0 ++ htonl 0 ++ htonl 8

/-- The run after the peer has delivered `runBytes`. -/
def runConnected : tr_torrent_t :=
  (peerReceive padHash 4 scenarioHeap runHandshake 0 runBytes).getD runStart

/-- The run after `checkPeer` has unchoked the interested peer. -/
def runUnchoked : tr_torrent_t :=
  setPeer runConnected 0 (checkPeer false true (getPeer runConnected 0))

end Transmission
namespace Transmission

/-! ## Example states for ranges outside a piece -/

/-- The scenario torrent after the block of piece 0 was taken in. -/
def scenarioTor0 : tr_torrent_t :=
  ((tr_ioWrite padHash 4 (markBlock scenarioTor 0) 0 0 8 scenarioData0 scenarioHeap).map
    (fun r => r.2)).getD scenarioTor

/-- The scenario torrent after the blocks of pieces 0 and 1 were taken in. -/
def scenarioTor01 : tr_torrent_t :=
  ((tr_ioWrite padHash 4 (markBlock scenarioTor0 1) 1 0 8 scenarioData1 scenarioHeap).map
    (fun r => r.2)).getD scenarioTor

/-- The scenario torrent with pieces 0 and 1 after `tr_ioWrite` was called for
piece 0 with `begin = 8` and four zero bytes. -/
def scenarioTor01Over : tr_torrent_t :=
  ((tr_ioWrite padHash 4 scenarioTor01 0 8 4 [0, 0, 0, 0] scenarioHeap).map
    (fun r => r.2)).getD scenarioTor

end Transmission
namespace Transmission

/-! ## Fast resume (`fastResumeSave`, `fastResumeLoad`) -/

/-- The four bytes that `fwrite( &v, 4, 1, file )` stores for a 32-bit value,
in the native order of the machine (little-endian here). -/
def nativeBytes (a : Int) : List Nat :=
  let v := (a % 4294967296).toNat
  [v % 256, v / 256 % 256, v / 65536 % 256, v / 16777216 % 256]

/-- The `int` that `fread( &v, 4, 1, file )` reads from four bytes. -/
def nativeInt (p : List Nat) : Int :=
  let v : Int := (p.getD 0 0 + p.getD 1 0 * 256 + p.getD 2 0 * 65536 + p.getD 3 0 * 16777216 : Nat)
  if v < 2147483648 then v else v - 4294967296

/-- The bytes that `fwrite( tab, 4, n, file )` stores for an array of `int`. -/
def writeInts : List Int → List Nat
  | [] => []
  | a :: rest => nativeBytes a ++ writeInts rest

/-- The array that `fread( tab, 4, n, file )` reads. -/
def readInts : Nat → List Nat → List Int
  | 0, _ => []
  | n + 1, p => nativeInt p :: readInts n (p.drop 4)

/-- The function `fastResumeMTimes`: the low 31 bits of the mtime of every
file, `none` when `stat` fails for one of them or it is not a regular file.
`stats` gives for every file the `st_mtime` that `stat` returns, if any. -/
def fastResumeMTimes (inf : tr_info_t) (stats : List (Option Int)) : Option (List Int) :=
  if (List.range inf.files.length).all (fun i => (stats.getD i none).isSome) then
    some ((List.range inf.files.length).map (fun i =>
      ((stats.getD i none).getD 0) % 2147483648))
  else none

/-- The bitfield for blocks that `fastResumeSave` builds: bit `i` is set when
`blockHave[i] < 0`. -/
def blockBitfield (tor : tr_torrent_t) : List Nat :=
  (upTo tor.blockCount).foldl (fun bf i =>
      if arrGet tor.blockHave i < 0 then tr_bitfieldAdd bf i else bf)
    (List.replicate ((tor.blockCount + 7) / 8).toNat 0)

/-- The function `fastResumeSave`: the content of the resume file that it
writes, `none` when it returns before writing. -/
def fastResumeSave (tor : tr_torrent_t) (stats : List (Option Int)) : Option (List Nat) :=
  (fastResumeMTimes tor.info stats).map (fun fileMTimes =>
    nativeBytes 0 ++ writeInts fileMTimes ++ blockBitfield tor ++
      writeInts ((upTo tor.info.pieceCount).map (fun s => arrGet tor.io.slotPiece s)))

/-- The loop of `fastResumeLoad` that fills `blockHave` from the bitfield for
blocks. -/
def loadBlocks (tor : tr_torrent_t) (bf : List Nat) : tr_torrent_t :=
  (upTo tor.blockCount).foldl (fun t i =>
      if tr_bitfieldHas bf i then
        { t with blockHave := arrSet t.blockHave i (-1),
                 blockHaveCount := t.blockHaveCount + 1 }
      else t) tor

/-- The first slot `j` with `slotPiece[j] == i` that the last loop of
`fastResumeLoad` looks for, `-1` when there is none. -/
def firstSlot (slotPiece : List Int) (n i : Int) : Int :=
  ((upTo n).find? (fun j => decide (arrGet slotPiece j = i))).getD (-1)

/-- One iteration of the last loop of `fastResumeLoad`, for piece `i`:
`pieceSlot[i]` and `slotsUsed` from the first slot that holds the piece, and
the bit of the piece when all its blocks are have. -/
def loadPiece (tor : tr_torrent_t) (i : Int) : tr_torrent_t :=
  let io1 := { tor.io with pieceSlot := arrSet tor.io.pieceSlot i (-1) }
  let io2 :=
    match (upTo tor.info.pieceCount).find? (fun j => decide (arrGet io1.slotPiece j = i)) with
    | some j => { io1 with pieceSlot := arrSet io1.pieceSlot i j,
                           slotsUsed := max io1.slotsUsed (j + 1) }
    | none => io1
  { tor with io := io2,
             bitfield := if pieceComplete tor i then tr_bitfieldAdd tor.bitfield i
                         else tor.bitfield }

/-- The part of `fastResumeLoad` after the checks: the tables are filled from
the bitfield for blocks `bf` and the slot table `slotPiece` read from the
file.  `pieceSlot` is fresh from `malloc`; every entry is written. -/
def resumeApply (tor : tr_torrent_t) (bf : List Nat) (slotPiece : List Int) : tr_torrent_t :=
  let tor1 := loadBlocks tor bf
  let tor2 := { tor1 with io := { tor1.io with
    slotPiece := slotPiece, slotsUsed := 0,
    pieceSlot := List.replicate tor.info.pieceCount.toNat 0 } }
  (upTo tor.info.pieceCount).foldl loadPiece tor2

/-- The function `fastResumeLoad`: result and session.  `file` is the content
of the resume file, `none` when it cannot be opened. -/
def fastResumeLoad (tor : tr_torrent_t) (file : Option (List Nat))
    (stats : List (Option Int)) : Int × tr_torrent_t :=
  match file with
  | none => (1, tor)
  | some f =>
    let fileCount : Int := tor.info.files.length
    let size := 4 + 4 * fileCount + 4 * tor.info.pieceCount + (tor.blockCount + 7) / 8
    if (f.length : Int) ≠ size then (1, tor)
    else if nativeInt f ≠ 0 then (1, tor)
    else
      match fastResumeMTimes tor.info stats with
      | none => (1, tor)
      | some fileMTimes1 =>
        if writeInts fileMTimes1 ≠ (f.drop 4).take (4 * tor.info.files.length) then (1, tor)
        else
          let bfSize := ((tor.blockCount + 7) / 8).toNat
          let bf := ((f.drop 4).drop (4 * tor.info.files.length)).take bfSize
          let slotPiece := readInts tor.info.pieceCount.toNat
            (((f.drop 4).drop (4 * tor.info.files.length)).drop bfSize)
          (0, resumeApply tor bf slotPiece)

/-- The slot `s` is the first slot below `n` that holds piece `p` in the table
`slotPiece`, or `-1` when no slot below `n` holds it. -/
def FirstSlotOf (slotPiece : List Int) (n p s : Int) : Prop :=
  (s = -1 ∧ ∀ j, 0 ≤ j → j < n → arrGet slotPiece j ≠ p) ∨
  (0 ≤ s ∧ s < n ∧ arrGet slotPiece s = p ∧ ∀ j, 0 ≤ j → j < s → arrGet slotPiece j ≠ p)

/-- A freshly initialised session of the torrent of `tor`, as `tr_torrentInit`
leaves it before `tr_ioInit`: no block, no piece, no peer, the slot tables not
yet allocated. -/
def freshSession (tor : tr_torrent_t) : tr_torrent_t :=
  { tor with blockHave := List.replicate tor.blockCount.toNat 0, blockHaveCount := 0,
             bitfield := List.replicate ((tor.info.pieceCount + 7) / 8).toNat 0,
             peers := [],
             io := { fds := tor.io.fds, pieceSlot := [], slotPiece := [], slotsUsed := 0 } }

/-! ## The initial scan (`openAndCheckFiles`) -/

/-- The lines of the scan that claim piece `j` for slot `i`: the tables, the
bit of the piece, and every block of the piece marked have. -/
def scanClaim (tor : tr_torrent_t) (i j : Int) : tr_torrent_t :=
  (pieceBlocks tor j).foldl (fun t k =>
      { t with blockHave := arrSet t.blockHave k (-1),
               blockHaveCount := t.blockHaveCount + 1 })
    { tor with io := { tor.io with pieceSlot := arrSet tor.io.pieceSlot j i,
                                   slotPiece := arrSet tor.io.slotPiece i j },
               bitfield := tr_bitfieldAdd tor.bitfield j }

/-- The state in which the scan starts: nothing placed, nothing had. -/
def scanInit (tor : tr_torrent_t) : tr_torrent_t :=
  { tor with io := { tor.io with pieceSlot := List.replicate tor.info.pieceCount.toNat (-1),
                                 slotPiece := List.replicate tor.info.pieceCount.toNat (-1),
                                 slotsUsed := 0 },
             bitfield := List.replicate ((tor.info.pieceCount + 7) / 8).toNat 0,
             blockHave := List.replicate tor.blockCount.toNat 0,
             blockHaveCount := 0 }

/-- One iteration of the loop `Check pieces` for slot `i`; `buf` is the piece
buffer, which the iterations share.  `none` stands for `break`. -/
def scanSlot (sha1 : List Nat → List Nat) (tor : tr_torrent_t) (buf : List Nat) (i : Int) :
    Option (tr_torrent_t × List Nat) :=
  let r := readOrWriteSlot tor.info tor.io.fds i buf false
  if r.1 ≠ 0 then none
  else
    let buf1 := r.2.2
    let tor1 := { tor with io := { tor.io with slotsUsed := i + 1 } }
    let hash := (sha1 (buf1.take (slotSize tor.info i).toNat)).take 20
    match ((upTo (tor.info.pieceCount - 1 - i)).map (fun k => i + k)).find?
        (fun j => decide (hash = pieceHash tor.info j)) with
    | some j => some (scanClaim tor1 i j, buf1)
    | none =>
      if arrGet tor1.io.slotPiece i > -1 then some (tor1, buf1)
      else
        let last := tor.info.pieceCount - 1
        let hashLast := (sha1 (buf1.take (tr_pieceSize tor.info last).toNat)).take 20
        if hashLast = pieceHash tor.info last then some (scanClaim tor1 i last, buf1)
        else some (tor1, buf1)

/-- The loop `Check pieces` over the slots listed. -/
def scanLoop (sha1 : List Nat → List Nat) : List Int → tr_torrent_t → List Nat → tr_torrent_t
  | [], tor, _ => tor
  | i :: rest, tor, buf =>
    match scanSlot sha1 tor buf i with
    | none => tor
    | some st => scanLoop sha1 rest st.1 st.2

/-- The full scan of `openAndCheckFiles`; `heap` is the content of the piece
buffer fresh from `malloc`. -/
def fullScan (sha1 : List Nat → List Nat) (tor : tr_torrent_t) (heap : List Nat) :
    tr_torrent_t :=
  scanLoop sha1 (upTo tor.info.pieceCount) (scanInit tor) heap

/-- The function `openAndCheckFiles` once the files are open: the state of the
resume file when `fastResumeLoad` succeeds, that of the full scan otherwise. -/
def openAndCheckFiles (sha1 : List Nat → List Nat) (tor : tr_torrent_t)
    (file : Option (List Nat)) (stats : List (Option Int)) (heap : List Nat) : tr_torrent_t :=
  if (fastResumeLoad tor file stats).1 = 0 then (fastResumeLoad tor file stats).2
  else fullScan sha1 tor heap

end Transmission
namespace Transmission

/-! ## Example states for the resume file and the scan -/

/-- The scenario torrent, fresh, over a file that holds the bytes of piece 1 in
slot 0 and those of piece 0 in slot 1. -/
def swappedDisk : tr_torrent_t :=
  { scenarioTor with io := { scenarioTor.io with fds := [scenarioData1 ++ scenarioData0] } }

/-- The state that the full scan gives for `swappedDisk`. -/
def swappedScanned : tr_torrent_t := fullScan padHash swappedDisk scenarioHeap

/-- The mtime of the file of the scenario torrent in the examples. -/
def scenarioStats : List (Option Int) := [some 1000]

/-- The resume file that `fastResumeSave` writes for `swappedScanned`. -/
def swappedResume : Option (List Nat) := fastResumeSave swappedScanned scenarioStats

/-- The resume file that `fastResumeSave` writes for the scenario torrent with
pieces 0 and 1. -/
def scenarioResume : Option (List Nat) := fastResumeSave scenarioTor01 scenarioStats

/-- The file of the scenario torrent touched one second later. -/
def touchedStats : List (Option Int) := [some 1001]

/-- The content of the resume file `scenarioResume`. -/
def scenarioResumeBytes : List Nat := scenarioResume.getD []

/-- The scenario torrent, fresh, over a file of 16 bytes whose slots 0 and 1
both start with the four bytes of the last piece. -/
def doubledDisk : tr_torrent_t :=
  { scenarioTor with io := { scenarioTor.io with
      fds := [scenarioData2 ++ [9, 9, 9, 9] ++ scenarioData2 ++ [9, 9, 9, 9]] } }

/-- The state that the full scan gives for `doubledDisk`. -/
def doubledScanned : tr_torrent_t := fullScan padHash doubledDisk scenarioHeap

/-- The resume file that `fastResumeSave` writes for `doubledScanned`. -/
def doubledResume : Option (List Nat) := fastResumeSave doubledScanned scenarioStats

/-- The three-file torrent after the block of piece 0 and then the block of
piece 1 were taken in; the write of piece 1, in slot 1, stops at the empty
file. -/
def crossingStored : tr_torrent_t :=
  ((storeBlock padHash 4 (tr_torrentInit emptyFileInfo []) 0 0 8 scenarioData0
      scenarioHeap).bind
    (fun t => storeBlock padHash 4 t 1 0 8 scenarioData1 scenarioHeap)).getD scenarioTor

/-- The mtimes of the three files of `emptyFileInfo` in the examples. -/
def crossingStats : List (Option Int) := [some 1000, some 1000, some 1000]

/-- The resume file that `fastResumeSave` writes for `crossingStored`. -/
def crossingResume : Option (List Nat) := fastResumeSave crossingStored crossingStats

end Transmission
namespace Transmission

/-! ## What the scan finds in a slot -/

/-- The bytes of slot `s` as `readSlot` delivers them, `none` when `readSlot`
fails (the files end before the end of the slot). -/
def slotBytes (inf : tr_info_t) (fds : List (List Nat)) (s : Int) : Option (List Nat) :=
  let r := readOrWriteSlot inf fds s [] false
  if r.1 = 0 then some (r.2.2.take (slotSize inf s).toNat) else none

/-- The piece that the scan claims for a slot `s` with the bytes `content`: the
first piece `j` with `s <= j < N - 1` whose published hash is the hash of the
bytes, else the last piece when its published hash is the hash of the first
`tr_pieceSize( N - 1 )` bytes, else none. -/
def scanMatch (sha1 : List Nat → List Nat) (inf : tr_info_t) (s : Int) (content : List Nat) :
    Option Int :=
  match ((upTo (inf.pieceCount - 1 - s)).map (fun k => s + k)).find?
      (fun j => decide ((sha1 content).take 20 = pieceHash inf j)) with
  | some j => some j
  | none =>
    if (sha1 (content.take (tr_pieceSize inf (inf.pieceCount - 1)).toNat)).take 20 =
        pieceHash inf (inf.pieceCount - 1) then some (inf.pieceCount - 1)
    else none

/-- What the scan keeps while it runs over the slots, before slot `k`: the
torrent and its files, the sizes of the tables, and every slot from `k` on
still free. -/
structure ScanBase (tor0 t : tr_torrent_t) (k : Int) : Prop where
  info : t.info = tor0.info
  blockSize : t.blockSize = tor0.blockSize
  blockCount : t.blockCount = tor0.blockCount
  fds : t.io.fds = tor0.io.fds
  lenP : (t.io.pieceSlot.length : Int) = tor0.info.pieceCount
  lenS : (t.io.slotPiece.length : Int) = tor0.info.pieceCount
  lenB : (t.blockHave.length : Int) = tor0.blockCount
  lenF : (t.bitfield.length : Int) = (tor0.info.pieceCount + 7) / 8
  free : ∀ i, k ≤ i → i < tor0.info.pieceCount → arrGet t.io.slotPiece i = -1

/-- What the scan has done for the slot `s` in the state `t`: the slot is free
when its bytes match no piece that the scan compares them with; otherwise it
holds the piece `j` matched, the bit of `j` is set, every block of `j` is
have, and `pieceSlot[j]` is `s` unless a later slot claimed `j` too. -/
def ScanDone (sha1 : List Nat → List Nat) (tor0 t : tr_torrent_t) (s : Int) : Prop :=
  ∀ content, slotBytes tor0.info tor0.io.fds s = some content →
    (scanMatch sha1 tor0.info s content = none → arrGet t.io.slotPiece s = -1) ∧
    ∀ j, scanMatch sha1 tor0.info s content = some j →
      arrGet t.io.slotPiece s = j ∧ tr_bitfieldHas t.bitfield j = true ∧
      (∀ b ∈ pieceBlocks tor0 j, arrGet t.blockHave b < 0) ∧
      (arrGet t.io.pieceSlot j = s ∨
        ∃ s1, s < s1 ∧ s1 < tor0.info.pieceCount ∧ arrGet t.io.slotPiece s1 = j)

end Transmission
namespace Transmission

/-! ## Bencoded values (`bencode.c`) -/

/-- Modelled from the spec: the structure `benc_val_t` of the absent header
`bencode.h`, as `bencode.c` fills it: the type of the value, the positions
`begin` and `end` of its encoding in the buffer, and the integer, the string
(`val.s.i` bytes) or the items of the list or dictionary. -/
inductive benc_val_t where
  | int (i : Int) (begin_ end_ : Nat)
  | str (s : List Nat) (begin_ end_ : Nat)
  | list (vals : List benc_val_t) (begin_ end_ : Nat)
  | dict (vals : List benc_val_t) (begin_ end_ : Nat)

/-- The field `begin` of a value. -/
def benc_val_t.begin : benc_val_t → Nat
  | benc_val_t.int _ b _ => b
  | benc_val_t.str _ b _ => b
  | benc_val_t.list _ b _ => b
  | benc_val_t.dict _ b _ => b

/-- The field `end` of a value. -/
def benc_val_t.endPos : benc_val_t → Nat
  | benc_val_t.int _ _ e => e
  | benc_val_t.str _ _ e => e
  | benc_val_t.list _ _ e => e
  | benc_val_t.dict _ _ e => e

/-- The test `type == TYPE_STR`. -/
def benc_val_t.isStr : benc_val_t → Bool
  | benc_val_t.str _ _ _ => true
  | _ => false

/-- How `tr_bencLoad` ends: `return 0` with the value filled, `return 1`, or no
defined result (a read outside the buffer, or the fuel of the model run out). -/
inductive BencRes where
  | ok (val : benc_val_t)
  | fail
  | undefined

/-- The C test `isspace` in the C locale. -/
def isSpace (c : Nat) : Bool := c = 32 || (9 ≤ c && c ≤ 13)

/-- The C test `isdigit`. -/
def isDigit (c : Nat) : Bool := 48 ≤ c && c ≤ 57

/-- The digits that `strtoll` reads from position `p` on, with the value read so
far in `acc`: the value and the position of the first byte that is no digit.
`none` when the buffer ends before such a byte. -/
def readDigits (buf : List Nat) : Nat → Nat → Nat → Option (Nat × Nat)
  | 0, _, _ => none
  | fuel + 1, p, acc =>
    match buf.get? p with
    | none => none
    | some c =>
      if isDigit c then readDigits buf fuel (p + 1) (acc * 10 + (c - 48))
      else some (acc, p)

/-- The white space that `strtoll` skips from position `p` on. -/
def skipSpace (buf : List Nat) : Nat → Nat → Option Nat
  | 0, _ => none
  | fuel + 1, p =>
    match buf.get? p with
    | none => none
    | some c => if isSpace c then skipSpace buf fuel (p + 1) else some p

/-- The C function `strtoll( &buf[pos], &p, 10 )` for a result type of `bits`
bits: white space, an optional sign and decimal digits; the value (clamped to
the range of the type) and the position `p` of the first byte not read, which
is `pos` when there is no digit.  `none` when the buffer ends first. -/
def strtoll (bits : Nat) (buf : List Nat) (pos : Nat) : Option (Int × Nat) :=
  match skipSpace buf (buf.length + 1) pos with
  | none => none
  | some p1 =>
    match buf.get? p1 with
    | none => none
    | some c =>
      let neg := decide (c = 45)
      let p2 := if c = 45 ∨ c = 43 then p1 + 1 else p1
      match buf.get? p2 with
      | none => none
      | some d =>
        if isDigit d then
          match readDigits buf (buf.length + 1) p2 0 with
          | none => none
          | some r =>
            let v : Int := if neg then -(r.1 : Int) else (r.1 : Int)
            some (max (-(2 ^ (bits - 1) : Int)) (min v (2 ^ (bits - 1) - 1)), r.2)
        else some (0, pos)

/-- The value of a C conversion to `int`: the low 32 bits, signed. -/
def toInt32 (a : Int) : Int :=
  let v := a % 4294967296
  if v < 2147483648 then v else v - 4294967296

mutual
/-- The function `tr_bencLoad` for the value at position `pos` of the buffer;
`fuel` bounds the depth of the calls. -/
def tr_bencLoad : Nat → List Nat → Nat → BencRes
  | 0, _, _ => BencRes.undefined
  | fuel + 1, buf, pos =>
    match buf.get? pos with
    | none => BencRes.undefined
    | some c =>
      if c = 105 then
        match strtoll 64 buf (pos + 1) with
        | none => BencRes.undefined
        | some r =>
          if r.2 = pos + 1 then BencRes.fail
          else
            match buf.get? r.2 with
            | none => BencRes.undefined
            | some e =>
              if e ≠ 101 then BencRes.fail
              else BencRes.ok (benc_val_t.int r.1 pos (r.2 + 1))
      else if c = 108 ∨ c = 100 then
        match bencItems fuel buf (pos + 1) (decide (c = 100)) true [] with
        | none => BencRes.undefined
        | some none => BencRes.fail
        | some (some r) =>
          if c = 100 ∧ r.1.length % 2 = 1 then BencRes.fail
          else if c = 100 then BencRes.ok (benc_val_t.dict r.1 pos (r.2 + 1))
          else BencRes.ok (benc_val_t.list r.1 pos (r.2 + 1))
      else
        match strtoll 64 buf pos with
        | none => BencRes.undefined
        | some r =>
          if r.2 = pos then BencRes.fail
          else
            match buf.get? r.2 with
            | none => BencRes.undefined
            | some e =>
              if e ≠ 58 then BencRes.fail
              else if toInt32 r.1 < 0 then BencRes.undefined
              else if buf.length < r.2 + 1 + (toInt32 r.1).toNat then BencRes.undefined
              else
                BencRes.ok (benc_val_t.str ((buf.drop (r.2 + 1)).take (toInt32 r.1).toNat) pos
                  (r.2 + 1 + (toInt32 r.1).toNat))
/-- The loop `while( cur[0] != 'e' )` of `tr_bencLoad`: the items read and the
position of the `e`; `some none` stands for `return 1`. -/
def bencItems : Nat → List Nat → Nat → Bool → Bool → List benc_val_t →
    Option (Option (List benc_val_t × Nat))
  | 0, _, _, _, _, _ => none
  | fuel + 1, buf, cur, isDict, strExpected, acc =>
    match buf.get? cur with
    | none => none
    | some c =>
      if c = 101 then some (some (acc, cur))
      else
        match tr_bencLoad fuel buf cur with
        | BencRes.undefined => none
        | BencRes.fail => some none
        | BencRes.ok v =>
          if isDict && strExpected && !v.isStr then some none
          else bencItems fuel buf v.endPos isDict (!strExpected) (acc ++ [v])
end

/-- The C string that starts a byte array: the bytes before the first NUL. -/
def cstr (s : List Nat) : List Nat := s.takeWhile (fun c => c ≠ 0)

/-- The string `val.s.s` of a value, `none` when it is no string. -/
def benc_val_t.strOf : benc_val_t → Option (List Nat)
  | benc_val_t.str s _ _ => some s
  | _ => none

/-- The loop of `tr_bencDictFind` over the items `vals[i]`, `vals[i+1]`. -/
def dictFindLoop (key : List Nat) : List benc_val_t → Option benc_val_t
  | k :: v :: rest =>
    if (k.strOf.map cstr) = some key then some v else dictFindLoop key rest
  | _ => none

/-- The function `tr_bencDictFind`: `none` stands for `NULL`. -/
def tr_bencDictFind (val : benc_val_t) (key : List Nat) : Option benc_val_t :=
  match val with
  | benc_val_t.dict vals _ _ => dictFindLoop key vals
  | _ => none

mutual
/-- The encoding of the value `v` occupies exactly the bytes from `v.begin` to
`v.end` of the buffer: an integer is `i`, a numeral as `strtoll` reads it, and
`e`; a string is a numeral for its length, `:` and that many bytes; a list or
dictionary is `l` or `d`, its items one after the other, and `e`. -/
inductive Spans (buf : List Nat) : benc_val_t → Prop
  | int (i : Int) (b p : Nat) :
      buf.get? b = some 105 → strtoll 64 buf (b + 1) = some (i, p) → p ≠ b + 1 →
      buf.get? p = some 101 → Spans buf (benc_val_t.int i b (p + 1))
  | str (n : Int) (b p : Nat) :
      strtoll 64 buf b = some (n, p) → p ≠ b → buf.get? p = some 58 →
      0 ≤ toInt32 n → p + 1 + (toInt32 n).toNat ≤ buf.length →
      Spans buf (benc_val_t.str ((buf.drop (p + 1)).take (toInt32 n).toNat) b
        (p + 1 + (toInt32 n).toNat))
  | list (vals : List benc_val_t) (b q : Nat) :
      buf.get? b = some 108 → SpansItems buf (b + 1) vals q → buf.get? q = some 101 →
      Spans buf (benc_val_t.list vals b (q + 1))
  | dict (vals : List benc_val_t) (b q : Nat) :
      buf.get? b = some 100 → SpansItems buf (b + 1) vals q → buf.get? q = some 101 →
      vals.length % 2 = 0 → Spans buf (benc_val_t.dict vals b (q + 1))
/-- The encodings of the items `vals` occupy the bytes from `p` to `q`, one
after the other. -/
inductive SpansItems (buf : List Nat) : Nat → List benc_val_t → Nat → Prop
  | nil (p : Nat) : SpansItems buf p [] p
  | cons (v : benc_val_t) (vs : List benc_val_t) (q : Nat) :
      Spans buf v → v.begin < v.endPos → SpansItems buf v.endPos vs q →
      SpansItems buf v.begin (v :: vs) q
end

end Transmission
namespace Transmission

/-! ## The metafile (`metainfo.c`) -/

/-- The loop of `strcatUTF8` over the bytes of `append`: ASCII bytes and 2-, 3-
and 4-byte UTF-8 sequences are copied, every other byte is taken as ISO 8859-1
and converted.  A byte read past the end of the string is its NUL. -/
def utf8Loop : Nat → List Nat → List Nat
  | 0, _ => []
  | _ + 1, [] => []
  | fuel + 1, c :: rest =>
    let p1 := rest.getD 0 0
    let p2 := rest.getD 1 0
    let p3 := rest.getD 2 0
    if c &&& 128 = 0 then c :: utf8Loop fuel rest
    else if c &&& 224 = 192 ∧ p1 &&& 192 = 128 then
      c :: p1 :: utf8Loop fuel (rest.drop 1)
    else if c &&& 240 = 224 ∧ p1 &&& 192 = 128 ∧ p2 &&& 192 = 128 then
      c :: p1 :: p2 :: utf8Loop fuel (rest.drop 2)
    else if c &&& 248 = 240 ∧ p1 &&& 192 = 128 ∧ p2 &&& 192 = 128 ∧ p3 &&& 192 = 128 then
      c :: p1 :: p2 :: p3 :: utf8Loop fuel (rest.drop 3)
    else (192 ||| ((c &&& 255) >>> 6)) :: (128 ||| (c &&& 63)) :: utf8Loop fuel rest

/-- The constant `MAX_PATH_LENGTH` of `transmission.h`. -/
def MAX_PATH_LENGTH : Nat := 1024

/-- The function `strcatUTF8( s, append )` on a destination array of `size`
bytes that holds the C string `s` and zeros after it (the arrays are part of
`calloc`ed structures): the C string in the array afterwards.  The function
tests no bound and stores no terminator; `none` when the bytes written and a
NUL after them do not fit in the array (a write past its end, or an array
without a NUL, which the next call would read past). -/
def strcatUTF8 (size : Nat) (s append : List Nat) : Option (List Nat) :=
  let out := cstr s ++ utf8Loop (cstr append).length (cstr append)
  if out.length < size then some out else none

/-- How `tr_metainfoParse` ends: `return 0` with the structure filled,
`return 1`, or no defined result (a `NULL` pointer or the wrong member of the
union is read, a division by zero, a read outside the buffer). -/
inductive MetaRes where
  | ok (inf : tr_info_t)
  | fail
  | undefined
deriving DecidableEq, Repr

/-- The bytes of `"http://"`. -/
def strHttp : List Nat := [104, 116, 116, 112, 58, 47, 47]

/-- The bytes of the keys that `tr_metainfoParse` looks up. -/
def keyInfo : List Nat := [105, 110, 102, 111]

/-- The key `"announce"`. -/
def keyAnnounce : List Nat := [97, 110, 110, 111, 117, 110, 99, 101]

/-- The key `"piece length"`. -/
def keyPieceLength : List Nat := [112, 105, 101, 99, 101, 32, 108, 101, 110, 103, 116, 104]

/-- The key `"pieces"`. -/
def keyPieces : List Nat := [112, 105, 101, 99, 101, 115]

/-- The key `"files"`. -/
def keyFiles : List Nat := [102, 105, 108, 101, 115]

/-- The key `"name"`. -/
def keyName : List Nat := [110, 97, 109, 101]

/-- The key `"path"`. -/
def keyPath : List Nat := [112, 97, 116, 104]

/-- The key `"length"`. -/
def keyLength : List Nat := [108, 101, 110, 103, 116, 104]

/-- The integer `val.i` of a value, `none` when it is no integer. -/
def benc_val_t.intOf : benc_val_t → Option Int
  | benc_val_t.int i _ _ => some i
  | _ => none

/-- The items `val.l.vals` of a list or dictionary, `none` for another value. -/
def benc_val_t.itemsOf : benc_val_t → Option (List benc_val_t)
  | benc_val_t.list vals _ _ => some vals
  | benc_val_t.dict vals _ _ => some vals
  | _ => none

/-- The text that `snprintf( dst, size, fmt )` stores when it is called with a
format and no further argument: `%%` gives `%`, any other conversion reads an
argument that is not there (`none`). -/
def formatNoArgs : List Nat → Option (List Nat)
  | [] => some []
  | 37 :: 37 :: rest => (formatNoArgs rest).map (fun s => 37 :: s)
  | 37 :: _ => none
  | c :: rest => (formatNoArgs rest).map (fun s => c :: s)

/-- The C string in `dst` after `snprintf( dst, size, fmt )`. -/
def snprintfNoArgs (size : Nat) (fmt : List Nat) : Option (List Nat) :=
  (formatNoArgs (cstr fmt)).map (fun s => s.take (size - 1))

/-- The C function `atoi` on a C string. -/
def atoi (s : List Nat) : Int :=
  match strtoll 64 (cstr s ++ [0]) 0 with
  | some r => toInt32 r.1
  | none => 0

/-- The part `Parse announce URL` of `tr_metainfoParse` for the C string `url`,
up to the `snprintf`: the bytes copied into `trackerAddress`, the port and the
string at `s2`; `none` for `return 1`. -/
def parseAnnounce (url : List Nat) : Option (List Nat × Int × List Nat) :=
  if url.take 7 ≠ strHttp then none
  else
    let rest := url.drop 7
    let s := rest.indexOf 58
    let s2 := rest.indexOf 47
    if s < rest.length ∧ s2 < rest.length ∧ s < s2 then
      some (rest.take s, atoi (rest.drop (s + 1)), rest.drop s2)
    else if s2 < rest.length then some (rest.take s2, 80, rest.drop s2)
    else none

/-- The name that the loop over the `path` items builds for a file in the
array `inf->files[i].name` of `MAX_PATH_LENGTH` bytes that holds `name`: `/`
and the item are appended for every item.  `none` when an item is no string
or the name does not fit in the array. -/
def filePath (name : List Nat) : List benc_val_t → Option (List Nat)
  | [] => some name
  | v :: rest =>
    match strcatUTF8 MAX_PATH_LENGTH name [47] with
    | none => none
    | some name1 =>
      match v.strOf with
      | none => none
      | some s =>
        match strcatUTF8 MAX_PATH_LENGTH name1 s with
        | none => none
        | some name2 => filePath name2 rest

/-- The loop of the multi-file mode over the items of `files`: names and
lengths; `name` is the C string in `inf->name`.  `none` when a `path` or
`length` entry is missing or of another type (a `NULL` pointer or the wrong
member of the union is read) or a name does not fit in its array. -/
def fileEntries (name : List Nat) : List benc_val_t → Option (List (List Nat × Int))
  | [] => some []
  | f :: rest =>
    match tr_bencDictFind f keyPath with
    | none => none
    | some path =>
      match path.itemsOf with
      | none => none
      | some items =>
        match (strcatUTF8 MAX_PATH_LENGTH [] name).bind (fun n => filePath n items) with
        | none => none
        | some fileName =>
          match tr_bencDictFind f keyLength with
          | none => none
          | some len =>
            match len.intOf with
            | none => none
            | some l =>
              match fileEntries name rest with
              | none => none
              | some entries => some ((fileName, l % 18446744073709551616) :: entries)

/-- The names and lengths of the files, in multi-file or single-file mode;
`none` when an entry that the code reads without a test is missing or a name
does not fit in its array of `MAX_PATH_LENGTH` bytes. -/
def metainfoFiles (beInfo : benc_val_t) : Option (List Nat × List (List Nat × Int)) :=
  match tr_bencDictFind beInfo keyFiles with
  | some list =>
    match tr_bencDictFind beInfo keyName with
    | none => none
    | some nameVal =>
      match nameVal.strOf with
      | none => none
      | some name =>
        match strcatUTF8 MAX_PATH_LENGTH [] name with
        | none => none
        | some infName =>
          match list.itemsOf with
          | none => none
          | some items =>
            (fileEntries infName items).map (fun entries => (infName, entries))
  | none =>
    match tr_bencDictFind beInfo keyName with
    | none => none
    | some nameVal =>
      match nameVal.strOf with
      | none => none
      | some name =>
        match strcatUTF8 MAX_PATH_LENGTH [] name with
        | none => none
        | some infName =>
          match tr_bencDictFind beInfo keyLength with
          | none => none
          | some len =>
            match len.intOf with
            | none => none
            | some l => some (infName, [(infName, l % 18446744073709551616)])

/-- The function `tr_metainfoParse`; `file` is the content of the metafile,
`none` when it cannot be read, and `fuel` bounds the nesting of the values.
The host is copied into `trackerAddress[256]` (no defined string when it has
256 bytes or more), and the string at `s2` is the format of the `snprintf`
that fills `trackerAnnounce`. -/
def tr_metainfoParse (sha1 : List Nat → List Nat) (fuel : Nat) (file : Option (List Nat)) :
    MetaRes :=
  match file with
  | none => MetaRes.fail
  | some buf =>
    if buf = [] then MetaRes.fail
    else
      match tr_bencLoad fuel buf 0 with
      | BencRes.undefined => MetaRes.undefined
      | BencRes.fail => MetaRes.fail
      | BencRes.ok meta =>
        match tr_bencDictFind meta keyInfo with
        | none => MetaRes.fail
        | some beInfo =>
          let hash := sha1 ((buf.drop beInfo.begin).take (beInfo.endPos - beInfo.begin))
          match tr_bencDictFind meta keyAnnounce with
          | none => MetaRes.fail
          | some ann =>
            match ann.strOf with
            | none => MetaRes.undefined
            | some a =>
              match parseAnnounce (cstr a) with
              | none => MetaRes.fail
              | some tracker =>
                if 256 ≤ tracker.1.length then MetaRes.undefined
                else
                match snprintfNoArgs MAX_PATH_LENGTH tracker.2.2 with
                | none => MetaRes.undefined
                | some announce =>
                match tr_bencDictFind beInfo keyPieceLength with
                | none => MetaRes.fail
                | some pl =>
                  match pl.intOf with
                  | none => MetaRes.undefined
                  | some plen =>
                    match (tr_bencDictFind beInfo keyPieces).bind benc_val_t.strOf with
                    | none => MetaRes.undefined
                    | some pieces =>
                      if pieces.length % 20 ≠ 0 then MetaRes.fail
                      else
                        match metainfoFiles beInfo with
                        | none => MetaRes.undefined
                        | some files =>
                          let pieceSize := toInt32 plen
                          let pieceCount : Int := pieces.length / 20
                          let totalSize :=
                            (files.2.map (fun f => f.2)).sum % 18446744073709551616
                          let p64 := pieceSize % 18446744073709551616
                          if p64 = 0 then MetaRes.undefined
                          else if pieceCount % 18446744073709551616 ≠
                              ((totalSize + p64 - 1) % 18446744073709551616) / p64 then
                            MetaRes.fail
                          else
                            MetaRes.ok
                              { hash := hash, pieceSize := pieceSize,
                                pieceCount := pieceCount, totalSize := totalSize,
                                pieces := pieces, files := files.2.map (fun f => f.2),
                                name := files.1, trackerAddress := tracker.1,
                                trackerPort := tracker.2.1, trackerAnnounce := announce,
                                fileNames := files.2.map (fun f => f.1) }

end Transmission
namespace Transmission

/-! ## Example metafiles -/

/-- The metafile
`d8:announce15:http://t.io/ann4:infod6:lengthi5e4:name1:x12:piece lengthi8eee`:
a dictionary with `announce` and `info`, whose `info` has `length`, `name` and
`piece length` but no `pieces`. -/
def metaNoPieces : List Nat :=
  [100, 56, 58, 97, 110, 110, 111, 117, 110, 99, 101, 49, 53, 58, 104, 116, 116, 112, 58, 47,
   47, 116, 46, 105, 111, 47, 97, 110, 110, 52, 58, 105, 110, 102, 111, 100, 54, 58, 108, 101,
   110, 103, 116, 104, 105, 53, 101, 52, 58, 110, 97, 109, 101, 49, 58, 120, 49, 50, 58, 112,
   105, 101, 99, 101, 32, 108, 101, 110, 103, 116, 104, 105, 56, 101, 101, 101]

/-- The metafile
`d8:announce13:http://t.io/a4:infod6:lengthi5e4:name1:x12:piece lengthi-1e6:pieces0:ee`:
one file of 5 bytes, a piece length of -1 and an empty `pieces` string. -/
def metaNegPiece : List Nat :=
  [100, 56, 58, 97, 110, 110, 111, 117, 110, 99, 101, 49, 51, 58, 104, 116, 116, 112, 58, 47,
   47, 116, 46, 105, 111, 47, 97, 52, 58, 105, 110, 102, 111, 100, 54, 58, 108, 101, 110, 103,
   116, 104, 105, 53, 101, 52, 58, 110, 97, 109, 101, 49, 58, 120, 49, 50, 58, 112, 105, 101,
   99, 101, 32, 108, 101, 110, 103, 116, 104, 105, 45, 49, 101, 54, 58, 112, 105, 101, 99, 101,
   115, 48, 58, 101, 101]

/-- The metafile
`d8:announce13:http://t.io/a4:infod6:lengthi5e4:name1:x12:piece lengthi8e6:pieces20:ABCDEFGHIJKLMNOPQRSTee`:
one file `x` of 5 bytes in one piece of 8 bytes. -/
def metaGood : List Nat :=
  [100, 56, 58, 97, 110, 110, 111, 117, 110, 99, 101, 49, 51, 58, 104, 116, 116, 112, 58, 47,
   47, 116, 46, 105, 111, 47, 97, 52, 58, 105, 110, 102, 111, 100, 54, 58, 108, 101, 110, 103,
   116, 104, 105, 53, 101, 52, 58, 110, 97, 109, 101, 49, 58, 120, 49, 50, 58, 112, 105, 101,
   99, 101, 32, 108, 101, 110, 103, 116, 104, 105, 56, 101, 54, 58, 112, 105, 101, 99, 101, 115,
   50, 48, 58, 65, 66, 67, 68, 69, 70, 71, 72, 73, 74, 75, 76, 77, 78, 79, 80, 81, 82, 83, 84,
   101, 101]

end Transmission
namespace Transmission

/-! ## The tracker client (`tracker.c`) and the session loop (`downloadLoop`) -/

/-- The bit `TR_STATUS_PAUSE` of the status of a torrent. -/
def TR_STATUS_PAUSE : Int := 1

/-- The bit `TR_STATUS_CHECK`. -/
def TR_STATUS_CHECK : Int := 2

/-- The bit `TR_STATUS_DOWNLOAD`. -/
def TR_STATUS_DOWNLOAD : Int := 4

/-- The bit `TR_STATUS_SEED`. -/
def TR_STATUS_SEED : Int := 8

/-- The bit `TR_TRACKER_ERROR`. -/
def TR_TRACKER_ERROR : Int := 32

/-- The status `TC_STATUS_IDLE` of the tracker client. -/
def TC_STATUS_IDLE : Int := 1

/-- The status `TC_STATUS_CONNECT`. -/
def TC_STATUS_CONNECT : Int := 2

/-- The status `TC_STATUS_RECV`. -/
def TC_STATUS_RECV : Int := 4

/-- Modelled from the spec: the constant `TR_ANNOUNCE_INTERVAL` of the absent
header `internal.h`, in seconds ("the configured interval (default 300 s)"). -/
def TR_ANNOUNCE_INTERVAL : Int := 300

/-- The structure `tr_tracker_s`; `buf` holds the `pos` bytes of the answer
received so far, the pointer to the torrent and the socket are left out. -/
structure tr_tracker_t where
  started : Int
  completed : Int
  stopped : Int
  date : Int
  status : Int
  size : Int
  pos : Int
  buf : List Nat
deriving DecidableEq, Repr

/-- The tracker client that `tr_trackerInit` allocates. -/
def tr_trackerInit : tr_tracker_t :=
  { started := 1, completed := 0, stopped := 0, date := 0, status := TC_STATUS_IDLE,
    size := 1024, pos := 0, buf := [] }

/-- The function `tr_trackerCompleted`.  No function of the sources calls it. -/
def tr_trackerCompleted (tc : tr_tracker_t) : tr_tracker_t :=
  { tc with completed := 1 }

/-- Modelled from the spec: what `tr_netSend` and `tr_netRecv` of the absent
header `net.h` return ("sockets … return one of `OK(n)` / `BLOCK` / `CLOSE`"):
the bytes transferred, `TR_NET_BLOCK` or `TR_NET_CLOSE`. -/
inductive NetRet where
  | ok (data : List Nat)
  | block
  | close
deriving DecidableEq, Repr

/-- What the network and the clock deliver during one `tr_trackerPulse`: the
value of `tr_date`, whether `tr_netResolve` fails, the socket that
`tr_netOpen` returns, and the results of `tr_netSend` and `tr_netRecv`. -/
structure TrackerNet where
  now : Int
  resolveFails : Bool
  socket : Int
  sendRet : NetRet
  recvRet : NetRet
deriving DecidableEq, Repr

/-- The string `"&event=started"`. -/
def strEventStarted : List Nat :=
  [38, 101, 118, 101, 110, 116, 61, 115, 116, 97, 114, 116, 101, 100]

/-- The string `"&event=completed"`. -/
def strEventCompleted : List Nat :=
  [38, 101, 118, 101, 110, 116, 61, 99, 111, 109, 112, 108, 101, 116, 101, 100]

/-- The string `"&event=stopped"`. -/
def strEventStopped : List Nat :=
  [38, 101, 118, 101, 110, 116, 61, 115, 116, 111, 112, 112, 101, 100]

/-- The values that `sendQuery` formats into the request: the path, the port,
the counters, `left`, `numwant` and the event. -/
structure AnnounceQuery where
  announce : List Nat
  port : Int
  uploaded : Int
  downloaded : Int
  left : Int
  numwant : Int
  event : List Nat
deriving DecidableEq, Repr

/-- The request that `sendQuery` builds. -/
def announceQuery (tor : tr_torrent_t) (tc : tr_tracker_t) : AnnounceQuery :=
  let event :=
    if tc.started ≠ 0 then strEventStarted
    else if tc.completed ≠ 0 then strEventCompleted
    else if tc.stopped ≠ 0 then strEventStopped
    else []
  let left := (((tor.blockCount - tor.blockHaveCount) % 18446744073709551616) *
    (tor.blockSize % 18446744073709551616)) % 18446744073709551616
  { announce := tor.info.trackerAnnounce, port := tor.bindPort, uploaded := tor.uploaded9,
    downloaded := tor.downloaded9, left := min left tor.info.totalSize,
    numwant := TR_MAX_PEER_COUNT - tor.peers.length, event := event }

/-- The function `sendQuery`. -/
def sendQuery (net : TrackerNet) (tc : tr_tracker_t) : tr_tracker_t :=
  match net.sendRet with
  | NetRet.close => { tc with status := TC_STATUS_IDLE }
  | NetRet.block =>
    if net.now > tc.date + TR_ANNOUNCE_INTERVAL * 3000 then { tc with status := TC_STATUS_IDLE }
    else tc
  | NetRet.ok _ => { tc with status := TC_STATUS_RECV, pos := 0, buf := [] }

/-- The string `"d8:interval"`. -/
def strInterval : List Nat := [100, 56, 58, 105, 110, 116, 101, 114, 118, 97, 108]

/-- The string `"d8:complete"`. -/
def strComplete : List Nat := [100, 56, 58, 99, 111, 109, 112, 108, 101, 116, 101]

/-- The string `"d14:failure reason"`. -/
def strFailure : List Nat :=
  [100, 49, 52, 58, 102, 97, 105, 108, 117, 114, 101, 32, 114, 101, 97, 115, 111, 110]

/-- The key `"failure reason"`. -/
def keyFailureReason : List Nat :=
  [102, 97, 105, 108, 117, 114, 101, 32, 114, 101, 97, 115, 111, 110]

/-- The key `"peers"`. -/
def keyPeers : List Nat := [112, 101, 101, 114, 115]

/-- The key `"ip"`. -/
def keyIp : List Nat := [105, 112]

/-- The key `"port"`. -/
def keyPort : List Nat := [112, 111, 114, 116]

/-- The loop of `recvAnswer` that looks for the beginning of the dictionary:
the first `i < pos - 18` at which one of the three prefixes stands. -/
def findAnswerDict (buf : List Nat) (pos : Int) : Option Nat :=
  (List.range (pos - 18).toNat).find? (fun i =>
    decide ((buf.drop i).take 11 = strInterval) || decide ((buf.drop i).take 11 = strComplete) ||
    decide ((buf.drop i).take 18 = strFailure))

/-- A call of `tr_peerAddOld( tor, ip, port )` or of
`tr_peerAddCompact( tor, addr, port, -1 )` that `recvAnswer` makes. -/
inductive PeerOffer where
  | old (ip : List Nat) (port : Int)
  | compact (addr port : List Nat)
deriving DecidableEq, Repr

/-- The loop of `recvAnswer` over the items of a `peers` list; `none` when an
`ip` is no string or a `port` no integer. -/
def oldOffers : List benc_val_t → Option (List PeerOffer)
  | [] => some []
  | v :: rest =>
    match tr_bencDictFind v keyIp with
    | none => oldOffers rest
    | some ip =>
      match ip.strOf with
      | none => none
      | some s =>
        match tr_bencDictFind v keyPort with
        | none => oldOffers rest
        | some port =>
          match port.intOf with
          | none => none
          | some p => (oldOffers rest).map (fun l => PeerOffer.old s (toInt32 p) :: l)

/-- The loop of `recvAnswer` over the 6-byte records of a compact `peers`
string of `n` records. -/
def compactOffers (s : List Nat) (n : Nat) : List PeerOffer :=
  (List.range n).map (fun i =>
    PeerOffer.compact ((s.drop (6 * i)).take 4) ((s.drop (6 * i + 4)).take 2))

/-- What a pulse of the tracker client leaves: the torrent, the client, the
peers offered to the peer table and the request sent, if one was. -/
structure PulseOut where
  tor : tr_torrent_t
  tc : tr_tracker_t
  offers : List PeerOffer
  query : Option AnnounceQuery
deriving DecidableEq, Repr

/-- The part of `recvAnswer` after the connection was closed and something
was received: the dictionary is looked for, loaded and read.  The torrent
afterwards and the peers offered; `none` when the code reads what is not there
(bytes not received, the wrong member of a value, a missing `snprintf`
argument). -/
def answerParse (fuel : Nat) (tor : tr_torrent_t) (buf : List Nat) (pos : Int) :
    Option (tr_torrent_t × List PeerOffer) :=
  match findAnswerDict buf pos with
  | none => some (tor, [])
  | some i =>
    match tr_bencLoad fuel buf i with
    | BencRes.undefined => none
    | BencRes.fail => some (tor, [])
    | BencRes.ok beAll =>
      match tr_bencDictFind beAll keyFailureReason with
      | some reason =>
        match reason.strOf with
        | none => none
        | some s =>
          (snprintfNoArgs 128 s).map (fun e =>
            ({ tor with status := Int.ofNat (tor.status.toNat ||| 32), error := e }, []))
      | none =>
        let tor1 := { tor with status := Int.ofNat (tor.status.toNat &&& 4294967263) }
        match tr_bencDictFind beAll keyPeers with
        | none => some (tor1, [])
        | some bePeers =>
          match bePeers with
          | benc_val_t.list vals _ _ => (oldOffers vals).map (fun l => (tor1, l))
          | benc_val_t.str s _ _ =>
            if s.length % 6 ≠ 0 then some (tor1, [])
            else some (tor1, compactOffers s (s.length / 6))
          | _ => some (tor1, [])

/-- The first lines of `recvAnswer`: the buffer is doubled when it is full. -/
def growBuf (tc : tr_tracker_t) : tr_tracker_t :=
  if tc.pos = tc.size then { tc with size := tc.size * 2 } else tc

/-- The lines of `recvAnswer` that follow `tr_netClose`: the three flags are
cleared and the client is idle again. -/
def answerDone (tc : tr_tracker_t) : tr_tracker_t :=
  { tc with started := 0, completed := 0, stopped := 0, status := TC_STATUS_IDLE }

/-- The function `recvAnswer`; `fuel` bounds the depth of the bencoded answer. -/
def recvAnswer (fuel : Nat) (net : TrackerNet) (tor : tr_torrent_t) (tc : tr_tracker_t) :
    Option (tr_torrent_t × tr_tracker_t × List PeerOffer) :=
  match net.recvRet with
  | NetRet.block => some (tor, growBuf tc, [])
  | NetRet.ok data =>
    let got := data.take ((growBuf tc).size - (growBuf tc).pos).toNat
    some (tor, { growBuf tc with pos := (growBuf tc).pos + got.length,
                                 buf := (growBuf tc).buf ++ got }, [])
  | NetRet.close =>
    if (growBuf tc).pos < 1 then some (tor, answerDone (growBuf tc), [])
    else
      (answerParse fuel tor (growBuf tc).buf (growBuf tc).pos).map (fun r =>
        (r.1, answerDone (growBuf tc), r.2))

/-- The condition of `tr_trackerPulse` under which the client connects: it is
idle and an event is pending for a second, or the announce interval is over. -/
def pulseDue (net : TrackerNet) (tc : tr_tracker_t) : Prop :=
  tc.status.toNat &&& 1 ≠ 0 ∧
    (((tc.started ≠ 0 ∨ tc.completed ≠ 0 ∨ tc.stopped ≠ 0) ∧ net.now > tc.date + 1000) ∨
      net.now > tc.date + 1000 * TR_ANNOUNCE_INTERVAL)

instance (net : TrackerNet) (tc : tr_tracker_t) : Decidable (pulseDue net tc) := by
  unfold pulseDue
  infer_instance

/-- The second half of `tr_trackerPulse`: a connecting client sends its
request, a receiving client reads the answer. -/
def pulseTransfer (fuel : Nat) (net : TrackerNet) (tor : tr_torrent_t) (tc : tr_tracker_t) :
    Option PulseOut :=
  if tc.status.toNat &&& 2 ≠ 0 then
    if (sendQuery net tc).status.toNat &&& 4 ≠ 0 then
      (recvAnswer fuel net tor (sendQuery net tc)).map (fun r =>
        { tor := r.1, tc := r.2.1, offers := r.2.2, query := some (announceQuery tor tc) })
    else some { tor := tor, tc := sendQuery net tc, offers := [],
                query := some (announceQuery tor tc) }
  else if tc.status.toNat &&& 4 ≠ 0 then
    (recvAnswer fuel net tor tc).map (fun r =>
      { tor := r.1, tc := r.2.1, offers := r.2.2, query := none })
  else some { tor := tor, tc := tc, offers := [], query := none }

/-- The function `tr_trackerPulse`. -/
def tr_trackerPulse (fuel : Nat) (net : TrackerNet) (tor : tr_torrent_t) (tc : tr_tracker_t) :
    Option PulseOut :=
  if pulseDue net tc then
    if net.resolveFails = true ∨ net.socket < 0 then
      some { tor := tor, tc := { tc with date := net.now }, offers := [], query := none }
    else pulseTransfer fuel net tor { tc with date := net.now, status := TC_STATUS_CONNECT }
  else pulseTransfer fuel net tor tc

/-- One iteration of the `while( !tor->die )` loop of `downloadLoop`, up to
the wait: the test for completion, `tr_peerPulse` (the function `peerPulse`,
which gets the torrent and not the tracker client) and `tr_trackerPulse`. -/
def downloadTick (fuel : Nat) (peerPulse : tr_torrent_t → tr_torrent_t) (net : TrackerNet)
    (tor : tr_torrent_t) (tc : tr_tracker_t) : Option PulseOut :=
  let tor1 := if tor.blockHaveCount ≥ tor.blockCount then { tor with status := TR_STATUS_SEED }
              else tor
  tr_trackerPulse fuel net (peerPulse tor1) tc

end Transmission
namespace Transmission

/-! ## The scrape (`tr_trackerScrape`) -/

/-- What the network and the clock deliver during a `tr_trackerScrape`:
whether `tr_netResolve` fails, the socket that `tr_netOpen` returns, the value
of `tr_date` before each of the two loops, the result of every `tr_netSend`
and `tr_netRecv` together with the value of `tr_date` after it, and the
integer `closeRet` that the last `tr_netRecv` returned (it has the bit
`TR_NET_CLOSE`). -/
structure ScrapeNet where
  resolveFails : Bool
  socket : Int
  sendStart : Int
  sends : List (NetRet × Int)
  recvStart : Int
  recvs : List (NetRet × Int)
  closeRet : Int
deriving DecidableEq, Repr

/-- How `tr_trackerScrape` ends: with a result and the counts it has stored in
`*seeders` and `*leechers`, with a read of something that is not there, or
still waiting when the events listed are used up. -/
inductive ScrapeRes where
  | done (code : Int) (seeders leechers : Option Int)
  | undefined
  | waiting
deriving DecidableEq, Repr

/-- The first `for( date = tr_date();; )` loop of `tr_trackerScrape`: `some
true` when the request was sent, `some false` for `return 1`. -/
def scrapeSend (date : Int) : List (NetRet × Int) → Option Bool
  | [] => none
  | (NetRet.close, _) :: _ => some false
  | (NetRet.block, now) :: rest => if now > date + 10000 then some false else scrapeSend date rest
  | (NetRet.ok _, _) :: _ => some true

/-- The second loop: the bytes received when the connection closes, `some
none` for `return 1`. -/
def scrapeRecv (date : Int) : List (NetRet × Int) → List Nat → Option (Option (List Nat))
  | [], _ => none
  | (NetRet.close, _) :: _, buf => some (some buf)
  | (NetRet.block, now) :: rest, buf =>
    if now > date + 10000 then some none else scrapeRecv date rest buf
  | (NetRet.ok data, _) :: rest, buf => scrapeRecv date rest (buf ++ data.take (1024 - buf.length))

/-- The string `"d5:files"`. -/
def strFiles : List Nat := [100, 53, 58, 102, 105, 108, 101, 115]

/-- The key `"complete"`. -/
def keyComplete : List Nat := [99, 111, 109, 112, 108, 101, 116, 101]

/-- The key `"incomplete"`. -/
def keyIncomplete : List Nat := [105, 110, 99, 111, 109, 112, 108, 101, 116, 101]

/-- The test `!strncmp( &buf[i], key, n )` for a key of `n` bytes without NUL;
`none` when a byte is read that was not received. -/
def prefixAt (buf : List Nat) : Nat → List Nat → Option Bool
  | _, [] => some true
  | i, c :: rest =>
    match buf.get? i with
    | none => none
    | some b => if b = c then prefixAt buf (i + 1) rest else some false

/-- The loop `for( i = 0; i < ret - 8; i++ )` of `tr_trackerScrape` from `i`
on, with `left` iterations to go: the `i` at which `"d5:files"` stands, `some
none` when the loop ends without one. -/
def scanFiles (buf : List Nat) : Nat → Nat → Option (Option Nat)
  | 0, _ => some none
  | left + 1, i =>
    match prefixAt buf i strFiles with
    | none => none
    | some true => some (some i)
    | some false => scanFiles buf left (i + 1)

/-- The part of `tr_trackerScrape` after the answer was received. -/
def scrapeParse (fuel : Nat) (closeRet : Int) (buf : List Nat) : ScrapeRes :=
  if buf.length < 1 then ScrapeRes.done 1 none none
  else
    match scanFiles buf (closeRet - 8).toNat 0 with
    | none => ScrapeRes.undefined
    | some none => ScrapeRes.done 1 none none
    | some (some i) =>
      match tr_bencLoad fuel buf i with
      | BencRes.undefined => ScrapeRes.undefined
      | BencRes.fail => ScrapeRes.done 1 none none
      | BencRes.ok scrape =>
        match tr_bencDictFind scrape keyFiles with
        | none => ScrapeRes.done 1 none none
        | some files =>
          match files.itemsOf.bind (fun vals => vals.get? 1) with
          | none => ScrapeRes.undefined
          | some val1 =>
            match tr_bencDictFind val1 keyComplete with
            | none => ScrapeRes.done 1 none none
            | some c =>
              match c.intOf with
              | none => ScrapeRes.undefined
              | some s =>
                match tr_bencDictFind val1 keyIncomplete with
                | none => ScrapeRes.done 1 (some (toInt32 s)) none
                | some l =>
                  match l.intOf with
                  | none => ScrapeRes.undefined
                  | some n => ScrapeRes.done 0 (some (toInt32 s)) (some (toInt32 n))

/-- The function `tr_trackerScrape` (which `tr_torrentScrape` returns the
result of). -/
def tr_trackerScrape (fuel : Nat) (net : ScrapeNet) (tor : tr_torrent_t) : ScrapeRes :=
  if cstr tor.scrape = [] then ScrapeRes.done 1 none none
  else if net.resolveFails then ScrapeRes.done 0 none none
  else if net.socket < 0 then ScrapeRes.done 1 none none
  else
    match scrapeSend net.sendStart net.sends with
    | none => ScrapeRes.waiting
    | some false => ScrapeRes.done 1 none none
    | some true =>
      match scrapeRecv net.recvStart net.recvs [] with
      | none => ScrapeRes.waiting
      | some none => ScrapeRes.done 1 none none
      | some (some buf) => scrapeParse fuel net.closeRet buf

end Transmission
namespace Transmission

/-! ## The command line client (`transmissioncli.c`) -/

/-- The static variables that `parseCommandLine` sets. -/
structure CliFlags where
  showHelp : Int
  showInfo : Int
  showScrape : Int
  verboseLevel : Int
  bindPort : Int
  uploadLimit : Int
  torrentPath : Option (List Nat)
deriving DecidableEq, Repr

/-- The initial values of the static variables. -/
def cliDefaults : CliFlags :=
  { showHelp := 0, showInfo := 0, showScrape := 0, verboseLevel := 0, bindPort := 9090,
    uploadLimit := 20, torrentPath := none }

/-- What a run of the client gets from outside: `argc` and `argv`, the values
that `getopt_long` returns before `-1`, each with its `optarg`, and the value
of `optind` then; the content of the file named `argv[optind]` (`none` when it
cannot be read); whether the scrape returns and whether `SIGINT` ever comes. -/
structure CliIn where
  argc : Int
  argv : List (List Nat)
  opts : List (Int × List Nat)
  optind : Int
  file : Option (List Nat)
  scrapeReturns : Bool
  interrupted : Bool
deriving DecidableEq, Repr

/-- The `switch` of `parseCommandLine` for the options that `getopt_long`
returns; `none` stands for `return 1`. -/
def parseOptions : List (Int × List Nat) → CliFlags → Option CliFlags
  | [], f => some f
  | (c, optarg) :: rest, f =>
    if c = 104 then parseOptions rest { f with showHelp := 1 }
    else if c = 105 then parseOptions rest { f with showInfo := 1 }
    else if c = 115 then parseOptions rest { f with showScrape := 1 }
    else if c = 118 then parseOptions rest { f with verboseLevel := atoi optarg }
    else if c = 112 then parseOptions rest { f with bindPort := atoi optarg }
    else if c = 117 then parseOptions rest { f with uploadLimit := atoi optarg }
    else none

/-- The function `parseCommandLine`: its result and the static variables. -/
def parseCommandLine (inp : CliIn) : Int × CliFlags :=
  match parseOptions inp.opts cliDefaults with
  | none => (1, cliDefaults)
  | some f =>
    if inp.optind > inp.argc - 1 then ((if f.showHelp = 0 then 1 else 0), f)
    else (0, { f with torrentPath := inp.argv.get? inp.optind.toNat })

/-- The function `main`: the exit code, `none` when the run does not end or
reads what is not there.  `tr_torrentInit` on the fresh handle returns what
`tr_metainfoParse` returns. -/
def main (sha1 : List Nat → List Nat) (fuel : Nat) (inp : CliIn) : Option Int :=
  let r := parseCommandLine inp
  if r.1 ≠ 0 then some 1
  else if r.2.showHelp ≠ 0 then some 0
  else if r.2.bindPort < 1 ∨ r.2.bindPort > 65535 then some 1
  else
    match tr_metainfoParse sha1 fuel inp.file with
    | MetaRes.undefined => none
    | MetaRes.fail => some 0
    | MetaRes.ok inf =>
      if r.2.showInfo ≠ 0 then (if inf.pieceSize = 0 then none else some 0)
      else if r.2.showScrape ≠ 0 then (if inp.scrapeReturns then some 0 else none)
      else if inp.interrupted then some 0
      else none

end Transmission
namespace Transmission

/-! ## Example sessions for the tracker client and the command line -/

/-- The scenario torrent after the blocks of the pieces 0, 1 and 2 were taken
in: every block is had. -/
def scenarioTor012 : tr_torrent_t :=
  ((tr_ioWrite padHash 4 (markBlock scenarioTor01 2) 2 0 4 scenarioData2 scenarioHeap).map
    (fun r => r.2)).getD scenarioTor

/-- The complete scenario torrent in the session loop, with the status
`TR_STATUS_DOWNLOAD` that `downloadLoop` has set at its start. -/
def completeSession : tr_torrent_t := { scenarioTor012 with status := TR_STATUS_DOWNLOAD }

/-- The tracker client after the first announce was answered, idle since the
date 1000. -/
def idleClient : tr_tracker_t := { tr_trackerInit with started := 0, date := 1000 }

/-- A pulse at the date 400000, after the announce interval: the tracker is
reached, the request is sent at once and no answer is there yet. -/
def announceNet : TrackerNet :=
  { now := 400000, resolveFails := false, socket := 5, sendRet := NetRet.ok [],
    recvRet := NetRet.block }

/-- The scenario torrent while it downloads. -/
def downloadingSession : tr_torrent_t := { scenarioTor with status := TR_STATUS_DOWNLOAD }

/-- The tracker client that has received `answer` and waits for more. -/
def answerClient (answer : List Nat) : tr_tracker_t :=
  { tr_trackerInit with started := 0, date := 400000, status := TC_STATUS_RECV,
                        pos := answer.length, buf := answer }

/-- A pulse in which the tracker closes the connection. -/
def closeNet : TrackerNet :=
  { now := 400500, resolveFails := false, socket := 5, sendRet := NetRet.ok [],
    recvRet := NetRet.close }

/-- The answer `d14:failure reason6:deniede`. -/
def answerDenied : List Nat :=
  [100, 49, 52, 58, 102, 97, 105, 108, 117, 114, 101, 32, 114, 101, 97, 115, 111, 110, 54, 58,
   100, 101, 110, 105, 101, 100, 101]

/-- The answer `d14:failure reason6:denied e`, with a blank before the last
byte. -/
def answerDeniedBlank : List Nat :=
  [100, 49, 52, 58, 102, 97, 105, 108, 117, 114, 101, 32, 114, 101, 97, 115, 111, 110, 54, 58,
   100, 101, 110, 105, 101, 100, 32, 101]

/-- The answer `d14:failure reason8:50%% offe`, whose reason is the text
`50%% off`. -/
def answerPercent : List Nat :=
  [100, 49, 52, 58, 102, 97, 105, 108, 117, 114, 101, 32, 114, 101, 97, 115, 111, 110, 56, 58,
   53, 48, 37, 37, 32, 111, 102, 102, 101]

/-- The scenario torrent with the scrape address `/scrape`. -/
def scrapeSession : tr_torrent_t :=
  { scenarioTor with scrape := [47, 115, 99, 114, 97, 112, 101] }

/-- A scrape during which the name of the tracker cannot be resolved. -/
def unresolvedNet : ScrapeNet :=
  { resolveFails := true, socket := 0, sendStart := 0, sends := [], recvStart := 0, recvs := [],
    closeRet := 0 }

/-- The command line `transmissioncli a.torrent` when the file `a.torrent`
does not exist. -/
def cliMissingFile : CliIn :=
  { argc := 2,
    argv := [[116, 114, 97, 110, 115, 109, 105, 115, 115, 105, 111, 110, 99, 108, 105],
             [97, 46, 116, 111, 114, 114, 101, 110, 116]],
    opts := [], optind := 1, file := none, scrapeReturns := true, interrupted := true }

/-- The command line `transmissioncli -x a.torrent`, with an option that
`getopt_long` does not know (it returns `?`). -/
def cliBadOption : CliIn :=
  { cliMissingFile with argc := 3, opts := [(63, [])], optind := 2 }

end Transmission
namespace Transmission

/-! ## Progress of the reorderer -/

/-- The number of slots `s < slotsUsed` with `slotPiece[s] = s`. -/
def identitySlots (io : tr_io_t) : Nat :=
  ((Finset.Ico 0 io.slotsUsed).filter (fun s => arrGet io.slotPiece s = s)).card

/-- The slot map of the scenario torrent after the first write of piece 2 and
the placement of piece 0, before the reorderer runs: piece 2 in slot 0, piece
0 in slot 1. -/
def scenarioIoUnsorted : tr_io_t := placePiece scenarioIo2 0

end Transmission
namespace Transmission

/-! ## Piece selection: the claims about `chooseBlock` -/

/-- A candidate piece for a peer with the bitfield `bf`: the peer advertises it
and we have not verified it. -/
def Candidate (tor : tr_torrent_t) (bf : List Nat) (p : Int) : Prop :=
  tr_bitfieldHas bf p = true ∧ tr_bitfieldHas tor.bitfield p = false

instance (tor : tr_torrent_t) (bf : List Nat) (p : Int) : Decidable (Candidate tor bf p) := by
  unfold Candidate
  infer_instance

/-- The number `missing(p)` in the words of the specification: the blocks of
the piece with `blockHave = 0`. -/
def specMissing (tor : tr_torrent_t) (p : Int) : Int :=
  ((pieceBlocks tor p).filter (fun b => decide (arrGet tor.blockHave b = 0))).length

/-- The tests of the first loop of `chooseBlock` that let piece `p` through to
the pool: the peer has it, we do not, and `missingBlocks` is at least 1. -/
def Wanted (tor : tr_torrent_t) (bf : List Nat) (p : Int) : Prop :=
  tr_bitfieldHas bf p = true ∧ tr_bitfieldHas tor.bitfield p = false ∧ 1 ≤ missingBlocks tor p

instance (tor : tr_torrent_t) (bf : List Nat) (p : Int) : Decidable (Wanted tor bf p) := by
  unfold Wanted
  infer_instance

/-- The block `b` is the lowest block of piece `p` with `blockHave = 0`. -/
def FirstMissing (tor : tr_torrent_t) (p b : Int) : Prop :=
  b ∈ pieceBlocks tor p ∧ arrGet tor.blockHave b = 0 ∧
    ∀ c ∈ pieceBlocks tor p, arrGet tor.blockHave c = 0 → b ≤ c

/-- A random source as `tr_rand`: for `n > 0` a value from `0` to `n - 1`. -/
def RandInRange (rand : Int → Int) : Prop :=
  ∀ n, 0 < n → 0 ≤ rand n ∧ rand n < n

/-- A connected peer with the id byte `k` that does not choke us, advertises the
three pieces of the scenario torrent and knows that we are interested. -/
def crowdPeer (k : Nat) : tr_peer_t :=
  { scenarioPeer with id := List.replicate 20 k, amInterested := 1 }

/-- The scenario torrent with the pieces 0 and 1 verified and eight peers of
which none has a request yet. -/
def crowded0 : tr_torrent_t :=
  { scenarioTor01 with peers := (List.range 8).map (fun k => crowdPeer (k + 10)) }

/-- The session after `tr_peerPulse` has topped up the requests of the peers 0
to 6: each of them holds eight requests for block 2, the only block missing. -/
def crowded7 : tr_torrent_t :=
  (List.range 7).foldl (fun t i => requestTopUp scenarioRand t i) crowded0

/-- The session in the course of the top-up of peer 7, after five requests. -/
def crowded61 : tr_torrent_t := requestLoop scenarioRand 7 5 crowded7

/-- A connected peer that does not choke us and advertises piece 0 only. -/
def onePiecePeer : tr_peer_t :=
  { scenarioPeer with id := List.replicate 20 9, bitfield := some [128] }

/-- The fresh scenario torrent with two connected peers that do not choke us:
the scenario peer, which advertises the three pieces, and a peer that
advertises piece 0 only. -/
def twoPeers0 : tr_torrent_t :=
  { tr_torrentInit scenarioInfo (List.replicate 20 1) with
    peers := [scenarioPeer, onePiecePeer] }

/-- The session after the requests of the first peer were topped up: eight
requests, `blockHave = [3, 3, 2]`. -/
def twoPeers1 : tr_torrent_t := requestTopUp scenarioRand twoPeers0 0

end Transmission
namespace Transmission

/-! ## The have count and the piece bitfield -/

/-- The total number of blocks of the pieces whose bit is set in the piece
bitfield. -/
def verifiedBlocks (tor : tr_torrent_t) : Int :=
  (((upTo tor.info.pieceCount).filter (fun p => tr_bitfieldHas tor.bitfield p)).map
    (fun p => tr_pieceCountBlocks tor p)).sum

/-- The number of blocks of piece `p` that are marked have (`blockHave < 0`). -/
def heldBlocks (tor : tr_torrent_t) (p : Int) : Int :=
  ((pieceBlocks tor p).filter (fun b => decide (arrGet tor.blockHave b < 0))).length

/-- The number of blocks marked have in the pieces whose bit is not set. -/
def partialBlocks (tor : tr_torrent_t) : Int :=
  (((upTo tor.info.pieceCount).filter (fun p => !tr_bitfieldHas tor.bitfield p)).map
    (fun p => heldBlocks tor p)).sum

/-- The states reached from `tor0` by taking in blocks the way the `piece` case
of `parseMessage` does (`storeBlock`: the block is marked, then `tr_ioWrite` is
called), each for a block of a piece of the torrent that is not marked have,
whatever the write and the hash check give. -/
inductive BlockRun (sha1 : List Nat → List Nat) (tor0 : tr_torrent_t) : tr_torrent_t → Prop
  | start : BlockRun sha1 tor0 tor0
  | store (tor tor1 : tr_torrent_t) (index begin length : Int) (data heap : List Nat)
      (fuel : Nat) :
      BlockRun sha1 tor0 tor →
      index ∈ upTo tor0.info.pieceCount →
      tr_block tor index begin ∈ pieceBlocks tor index →
      0 ≤ arrGet tor.blockHave (tr_block tor index begin) →
      storeBlock sha1 fuel tor index begin length data heap = some tor1 →
      BlockRun sha1 tor0 tor1

/-- What a run of block writes from `tor0` keeps: the geometry, the have count
as the number of blocks marked have, piece by piece, and every block of a
piece whose bit is set marked have. -/
structure HaveInv (tor0 tor : tr_torrent_t) : Prop where
  info : tor.info = tor0.info
  blockSize : tor.blockSize = tor0.blockSize
  blockCount : tor.blockCount = tor0.blockCount
  lenB : tor.blockHave.length = tor0.blockHave.length
  count : tor.blockHaveCount = ((upTo tor0.info.pieceCount).map (heldBlocks tor)).sum
  complete : ∀ p ∈ upTo tor0.info.pieceCount, tr_bitfieldHas tor.bitfield p = true →
    ∀ b ∈ pieceBlocks tor0 p, arrGet tor.blockHave b < 0

/-- A torrent of one piece of 16385 bytes, hence of two blocks, of 16384 bytes
and of one byte. -/
def twoBlockInfo : tr_info_t :=
  { hash := [], pieceSize := 16385, pieceCount := 1, totalSize := 16385,
    pieces := List.replicate 20 0, files := [16385] }

/-- The two-block torrent, fresh. -/
def twoBlockTor : tr_torrent_t := tr_torrentInit twoBlockInfo []

/-- The two-block torrent after its second block, the byte at offset 16384,
was taken in. -/
def twoBlockTor1 : tr_torrent_t :=
  (storeBlock padHash 4 twoBlockTor 0 16384 1 [7] []).getD twoBlockTor

end Transmission
namespace Transmission

/-! ## Example: a piece length that is no multiple of the block size -/

/-- The metafile
`d8:announce13:http://t.io/a4:infod6:lengthi40000e4:name1:x12:piece lengthi20000e6:pieces40:ABCDEFGHIJKLMNOPQRSTUVWXYZabcdefghijklmnee`:
one file `x` of 40000 bytes in two pieces of 20000 bytes. -/
def metaOddPiece : List Nat :=
  [100, 56, 58, 97, 110, 110, 111, 117, 110, 99, 101, 49, 51, 58, 104, 116, 116, 112, 58, 47,
   47, 116, 46, 105, 111, 47, 97, 52, 58, 105, 110, 102, 111, 100, 54, 58, 108, 101, 110, 103,
   116, 104, 105, 52, 48, 48, 48, 48, 101, 52, 58, 110, 97, 109, 101, 49, 58, 120, 49, 50, 58,
   112, 105, 101, 99, 101, 32, 108, 101, 110, 103, 116, 104, 105, 50, 48, 48, 48, 48, 101, 54,
   58, 112, 105, 101, 99, 101, 115, 52, 48, 58, 65, 66, 67, 68, 69, 70, 71, 72, 73, 74, 75, 76,
   77, 78, 79, 80, 81, 82, 83, 84, 85, 86, 87, 88, 89, 90, 97, 98, 99, 100, 101, 102, 103, 104,
   105, 106, 107, 108, 109, 110, 101, 101]

/-- The structure that `tr_metainfoParse` fills for `metaOddPiece`. -/
def oddPieceInfo : tr_info_t :=
  { hash := padHash ((metaOddPiece.drop 33).take 99),
    pieceSize := 20000, pieceCount := 2, totalSize := 40000,
    pieces := [65, 66, 67, 68, 69, 70, 71, 72, 73, 74, 75, 76, 77, 78, 79, 80, 81, 82, 83, 84,
      85, 86, 87, 88, 89, 90, 97, 98, 99, 100, 101, 102, 103, 104, 105, 106, 107, 108, 109, 110],
    files := [40000], name := [120], trackerAddress := [116, 46, 105, 111],
    trackerPort := 80, trackerAnnounce := [47, 97], fileNames := [[120]] }

/-- The session of `oddPieceInfo` as `tr_torrentInit` leaves it, with one
connected peer that has both pieces. -/
def oddPieceSession : tr_torrent_t :=
  { tr_torrentInit oddPieceInfo (List.replicate 20 1) with
    peers := [{ scenarioPeer with bitfield := some [192] }] }

end Transmission
namespace Transmission

/-! ## The indices that `invertSlots` uses -/

/-- The call of `invertSlots` that the loop body of `reorderPieces` makes for
piece `i` in the slot map `io`, if it makes one: the slots `slot1` and
`slot2`, and the values `piece1 = slotPiece[slot1]` and
`piece2 = slotPiece[slot2]` at which `invertSlots` then writes `pieceSlot`. -/
def reorderStepCall (io : tr_io_t) (i : Int) : Option (Int × Int × Int × Int) :=
  if arrGet io.pieceSlot i < 0 then none
  else if arrGet io.pieceSlot i = i then none
  else if i ≥ io.slotsUsed then none
  else some (arrGet io.pieceSlot i, i, arrGet io.slotPiece (arrGet io.pieceSlot i),
    arrGet io.slotPiece i)

/-- The calls of `invertSlots` made by the first pass of the loop of
`reorderPieces` from the slot map `io` on, in order. -/
def reorderPassCalls (inf : tr_info_t) (io : tr_io_t) : List (Int × Int × Int × Int) :=
  ((upTo inf.pieceCount).foldl
    (fun (acc : (tr_io_t × Bool) × List (Int × Int × Int × Int)) i =>
      (reorderStep inf acc.1 i, acc.2 ++ (reorderStepCall acc.1.1 i).toList))
    ((io, false), [])).2

/-- The scenario torrent, fresh, over a file of 20 zero bytes (the full length
of the content, none of it downloaded). -/
def zeroDisk : tr_torrent_t :=
  { scenarioTor with io := { scenarioTor.io with fds := [List.replicate 20 0] } }

/-- The state that the full scan gives for `zeroDisk`. -/
def zeroScanned : tr_torrent_t := fullScan padHash zeroDisk scenarioHeap

end Transmission
namespace Transmission

/-! ## Example sessions: frames that the checks of `parseMessage` let through -/

/-- The session `sessionChoked` (eight requests sent, then a `choke` frame
received) after the peer has delivered the block of the first request. -/
def sessionChokedPiece : tr_torrent_t :=
  (peerReceive padHash 4 scenarioHeap sessionChoked 0 (pieceFrame 1 0 scenarioData1)).getD
    session0

/-- The state in which a restart of the session `scenarioTor01` (pieces 0 and 1
had) leaves `openAndCheckFiles`, the resume file being the one written when
the session was stopped. -/
def scenarioRestarted : tr_torrent_t :=
  openAndCheckFiles padHash scenarioTor01 scenarioResume scenarioStats scenarioHeap

/-- The number of blocks `b < M` with `blockHave[b] < 0`. -/
def haveBlocks (tor : tr_torrent_t) : Nat :=
  ((upTo tor.blockCount).filter (fun b => decide (arrGet tor.blockHave b < 0))).length

/-- The frame `<len = 5><4><piece>` of a `have` message. -/
def haveFrame (piece : Int) : List Nat := htonl 5 ++ [4] ++ htonl piece

/-- The scenario session after the peer has sent `have` for piece 5 (the
torrent has the pieces 0, 1 and 2). -/
def sessionHave5 : tr_torrent_t :=
  (peerReceive padHash 4 scenarioHeap session0 0 (haveFrame 5)).getD session0

/-- A frame of length 1 with id 6: a request without its payload. -/
def bareRequest : List Nat := htonl 1 ++ [6]

/-- The bytes `first` and then the bytes `second` delivered to peer 0 of the
session `sessionUnchoked` in two reads, `parseMessage` being called after
each. -/
def splitReads (first second : List Nat) : Option tr_torrent_t :=
  (peerReceive padHash 4 scenarioHeap sessionUnchoked 0 first).bind
    (fun t => peerReceive padHash 4 scenarioHeap t 0 second)

/-- The same bytes delivered in one read. -/
def singleRead (first second : List Nat) : Option tr_torrent_t :=
  peerReceive padHash 4 scenarioHeap sessionUnchoked 0 (first ++ second)

/-- The part of the state of peer 0 looked at in the example: the number of
entries of the outbound ring, its first entry, the interest flag of the peer
and the unconsumed bytes. -/
def outHead (tor : tr_torrent_t) : Int × tr_request_t × Int × List Nat :=
  ((getPeer tor 0).outRequestCount, reqGet (getPeer tor 0).outRequests 0,
    (getPeer tor 0).peerInterested, (getPeer tor 0).buf)

end Transmission
namespace Transmission

/-- The example run after the unchoked peer has sent a request for piece 0. -/
def runServing : tr_torrent_t :=
  (peerReceive padHash 4 scenarioHeap runUnchoked 0
    (htonl 13 ++ [6] ++ htonl 0 ++ htonl 0 ++ htonl 8)).getD runStart

end Transmission
namespace Transmission

/-! ## Example metafiles: announce URLs with a percent sign -/

/-- The metafile
`d8:announce16:http://t.io/a%%b4:infod6:lengthi5e4:name1:x12:piece lengthi8e6:pieces20:ABCDEFGHIJKLMNOPQRSTee`:
the metafile `metaGood` with the announce URL `http://t.io/a%%b`. -/
def metaPercent : List Nat :=
  [100, 56, 58, 97, 110, 110, 111, 117, 110, 99, 101, 49, 54, 58, 104, 116, 116, 112, 58, 47,
   47, 116, 46, 105, 111, 47, 97, 37, 37, 98, 52, 58, 105, 110, 102, 111, 100, 54, 58, 108,
   101, 110, 103, 116, 104, 105, 53, 101, 52, 58, 110, 97, 109, 101, 49, 58, 120, 49, 50, 58,
   112, 105, 101, 99, 101, 32, 108, 101, 110, 103, 116, 104, 105, 56, 101, 54, 58, 112, 105,
   101, 99, 101, 115, 50, 48, 58, 65, 66, 67, 68, 69, 70, 71, 72, 73, 74, 75, 76, 77, 78, 79,
   80, 81, 82, 83, 84, 101, 101]

/-- The metafile
`d8:announce20:http://t.io/a?k=%2fb4:infod6:lengthi5e4:name1:x12:piece lengthi8e6:pieces20:ABCDEFGHIJKLMNOPQRSTee`:
the metafile `metaGood` with the announce URL `http://t.io/a?k=%2fb`. -/
def metaEscape : List Nat :=
  [100, 56, 58, 97, 110, 110, 111, 117, 110, 99, 101, 50, 48, 58, 104, 116, 116, 112, 58, 47,
   47, 116, 46, 105, 111, 47, 97, 63, 107, 61, 37, 50, 102, 98, 52, 58, 105, 110, 102, 111,
   100, 54, 58, 108, 101, 110, 103, 116, 104, 105, 53, 101, 52, 58, 110, 97, 109, 101, 49, 58,
   120, 49, 50, 58, 112, 105, 101, 99, 101, 32, 108, 101, 110, 103, 116, 104, 105, 56, 101, 54,
   58, 112, 105, 101, 99, 101, 115, 50, 48, 58, 65, 66, 67, 68, 69, 70, 71, 72, 73, 74, 75, 76,
   77, 78, 79, 80, 81, 82, 83, 84, 101, 101]

end Transmission
namespace Transmission

/-! ## UTF-8 as `strcatUTF8` is said to treat it -/

/-- The bytes start with a structurally valid 2-, 3- or 4-byte UTF-8 sequence: a
lead byte `110xxxxx`, `1110xxxx` or `11110xxx` followed by one, two or three
continuation bytes `10xxxxxx`. -/
def StartsSeq (s : List Nat) : Prop :=
  (∃ c c1 rest, s = c :: c1 :: rest ∧ c &&& 224 = 192 ∧ c1 &&& 192 = 128) ∨
  (∃ c c1 c2 rest, s = c :: c1 :: c2 :: rest ∧ c &&& 240 = 224 ∧ c1 &&& 192 = 128 ∧
    c2 &&& 192 = 128) ∨
  (∃ c c1 c2 c3 rest, s = c :: c1 :: c2 :: c3 :: rest ∧ c &&& 248 = 240 ∧
    c1 &&& 192 = 128 ∧ c2 &&& 192 = 128 ∧ c3 &&& 192 = 128)

/-- Structurally valid UTF-8: ASCII bytes and 2-, 3- and 4-byte sequences, one
after the other. -/
inductive Utf8Valid : List Nat → Prop
  | nil : Utf8Valid []
  | ascii (c : Nat) (rest : List Nat) : c < 128 → Utf8Valid rest → Utf8Valid (c :: rest)
  | two (c c1 : Nat) (rest : List Nat) : c &&& 224 = 192 → c1 &&& 192 = 128 →
      Utf8Valid rest → Utf8Valid (c :: c1 :: rest)
  | three (c c1 c2 : Nat) (rest : List Nat) : c &&& 240 = 224 → c1 &&& 192 = 128 →
      c2 &&& 192 = 128 → Utf8Valid rest → Utf8Valid (c :: c1 :: c2 :: rest)
  | four (c c1 c2 c3 : Nat) (rest : List Nat) : c &&& 248 = 240 → c1 &&& 192 = 128 →
      c2 &&& 192 = 128 → c3 &&& 192 = 128 → Utf8Valid rest →
      Utf8Valid (c :: c1 :: c2 :: c3 :: rest)

/-- The transcoding that the specification describes, as a relation between the
string appended and the bytes written: every ASCII byte and every
structurally valid 2-, 3- or 4-byte sequence is copied unchanged, and every
other byte `b >= 0x80` is replaced by the two bytes `0xC0 | (b >> 6)` and
`0x80 | (b & 0x3F)`. -/
inductive Transcodes : List Nat → List Nat → Prop
  | nil : Transcodes [] []
  | ascii (c : Nat) (rest out : List Nat) : c < 128 → Transcodes rest out →
      Transcodes (c :: rest) (c :: out)
  | two (c c1 : Nat) (rest out : List Nat) : c &&& 224 = 192 → c1 &&& 192 = 128 →
      Transcodes rest out → Transcodes (c :: c1 :: rest) (c :: c1 :: out)
  | three (c c1 c2 : Nat) (rest out : List Nat) : c &&& 240 = 224 → c1 &&& 192 = 128 →
      c2 &&& 192 = 128 → Transcodes rest out →
      Transcodes (c :: c1 :: c2 :: rest) (c :: c1 :: c2 :: out)
  | four (c c1 c2 c3 : Nat) (rest out : List Nat) : c &&& 248 = 240 → c1 &&& 192 = 128 →
      c2 &&& 192 = 128 → c3 &&& 192 = 128 → Transcodes rest out →
      Transcodes (c :: c1 :: c2 :: c3 :: rest) (c :: c1 :: c2 :: c3 :: out)
  | latin (b : Nat) (rest out : List Nat) : 128 ≤ b → ¬ StartsSeq (b :: rest) →
      Transcodes rest out →
      Transcodes (b :: rest) ((192 ||| (b >>> 6)) :: (128 ||| (b &&& 63)) :: out)

end Transmission
namespace Transmission

/-! ## Bencoded value trees and their canonical encoding -/

mutual
/-- A bencode value tree as the specification lists it: an integer, a byte
string, a list of values, or a dictionary of values under string keys. -/
inductive BencTree where
  | int (i : Int)
  | str (s : List Nat)
  | list (vals : BencList)
  | dict (items : BencDict)
/-- The values of a list, in order. -/
inductive BencList where
  | nil
  | cons (v : BencTree) (vs : BencList)
/-- The key/value items of a dictionary, in order. -/
inductive BencDict where
  | nil
  | cons (key : List Nat) (v : BencTree) (rest : BencDict)
end

/-- The decimal digits of `n` as ASCII bytes, least significant first. -/
def digitsRev : Nat → Nat → List Nat
  | 0, _ => []
  | fuel + 1, n => if n < 10 then [48 + n] else (48 + n % 10) :: digitsRev fuel (n / 10)

/-- The decimal numeral of `n` as ASCII bytes. -/
def decimal (n : Nat) : List Nat := (digitsRev (n + 1) n).reverse

/-- The decimal numeral of an integer: `-` before the digits of a negative one. -/
def numeral (i : Int) : List Nat :=
  (if i < 0 then [45] else []) ++ decimal i.natAbs

mutual
/-- The canonical encoding of a value tree: `i<numeral>e`, `<length>:<bytes>`,
`l<items>e`, `d<key><value>...e`. -/
def encode : BencTree → List Nat
  | BencTree.int i => [105] ++ numeral i ++ [101]
  | BencTree.str s => decimal s.length ++ [58] ++ s
  | BencTree.list vs => [108] ++ encodeList vs ++ [101]
  | BencTree.dict ps => [100] ++ encodeDict ps ++ [101]
/-- The encodings of the values of a list, one after the other. -/
def encodeList : BencList → List Nat
  | BencList.nil => []
  | BencList.cons v vs => encode v ++ encodeList vs
/-- The encodings of the keys and values of a dictionary, one after the other. -/
def encodeDict : BencDict → List Nat
  | BencDict.nil => []
  | BencDict.cons k v rest => (decimal k.length ++ [58] ++ k) ++ encode v ++ encodeDict rest
end

mutual
/-- The value that `tr_bencLoad` is to fill for the tree `t` encoded at position
`p` of the buffer: the same tree, a dictionary as its keys and values in
order, every value with the positions `begin` and `end` of its encoding. -/
def loaded : BencTree → Nat → benc_val_t
  | BencTree.int i, p => benc_val_t.int i p (p + ([105] ++ numeral i ++ [101]).length)
  | BencTree.str s, p => benc_val_t.str s p (p + (decimal s.length ++ [58] ++ s).length)
  | BencTree.list vs, p =>
    benc_val_t.list (loadedList vs (p + 1)) p (p + ([108] ++ encodeList vs ++ [101]).length)
  | BencTree.dict ps, p =>
    benc_val_t.dict (loadedDict ps (p + 1)) p (p + ([100] ++ encodeDict ps ++ [101]).length)
/-- The items of a list encoded from position `p` on. -/
def loadedList : BencList → Nat → List benc_val_t
  | BencList.nil, _ => []
  | BencList.cons v vs, p => loaded v p :: loadedList vs (p + (encode v).length)
/-- The items of a dictionary encoded from position `p` on: key, value, key,
value, and so on. -/
def loadedDict : BencDict → Nat → List benc_val_t
  | BencDict.nil, _ => []
  | BencDict.cons k v rest, p =>
    benc_val_t.str k p (p + (decimal k.length ++ [58] ++ k).length) ::
      loaded v (p + (decimal k.length ++ [58] ++ k).length) ::
      loadedDict rest (p + (decimal k.length ++ [58] ++ k).length + (encode v).length)
end

mutual
/-- The tree fits the C types of `benc_val_t`: every integer is in the range of
`int64_t` and every string, keys included, is shorter than `2^31` bytes. -/
def fits : BencTree → Bool
  | BencTree.int i => decide (-9223372036854775808 ≤ i ∧ i < 9223372036854775808)
  | BencTree.str s => decide (s.length < 2147483648)
  | BencTree.list vs => fitsList vs
  | BencTree.dict ps => fitsDict ps
/-- Every value of the list fits. -/
def fitsList : BencList → Bool
  | BencList.nil => true
  | BencList.cons v vs => fits v && fitsList vs
/-- Every key and value of the dictionary fits. -/
def fitsDict : BencDict → Bool
  | BencDict.nil => true
  | BencDict.cons k v rest => decide (k.length < 2147483648) && fits v && fitsDict rest
end

/-- The value under the first key of the dictionary whose bytes before its first
NUL byte are those of `key` (the comparison that `strcmp` makes). -/
def findFirst (key : List Nat) : BencDict → Option BencTree
  | BencDict.nil => none
  | BencDict.cons k v rest => if cstr k = key then some v else findFirst key rest

/-- The value under the first key of the dictionary that is equal to `key`. -/
def findEqual (key : List Nat) : BencDict → Option BencTree
  | BencDict.nil => none
  | BencDict.cons k v rest => if k = key then some v else findEqual key rest

/-- Example tree: the dictionary `d1:ai-7e2:bcl0:i0eee`. -/
def exampleTree : BencTree :=
  BencTree.dict (BencDict.cons [97] (BencTree.int (-7))
    (BencDict.cons [98, 99]
      (BencTree.list (BencList.cons (BencTree.str []) (BencList.cons (BencTree.int 0)
        BencList.nil)))
      BencDict.nil))

/-- Example tree: a dictionary whose only key is `a`, a NUL byte, `b`. -/
def nulKeyTree : BencTree :=
  BencTree.dict (BencDict.cons [97, 0, 98] (BencTree.int 1) BencDict.nil)

end Transmission

namespace Transmission

/-- No key of the dictionary holds a NUL byte. -/
def keysNulFree : BencDict → Bool
  | BencDict.nil => true
  | BencDict.cons k _ rest => decide (0 ∉ k) && keysNulFree rest

/-- The items of the dictionary `d1:ai-7e2:bcl0:i0eee` of `exampleTree`. -/
def exampleItems : BencDict :=
  BencDict.cons [97] (BencTree.int (-7))
    (BencDict.cons [98, 99]
      (BencTree.list (BencList.cons (BencTree.str []) (BencList.cons (BencTree.int 0)
        BencList.nil)))
      BencDict.nil)

end Transmission

namespace Transmission

/-! ## A piece of two blocks around an empty file -/

/-- A stand-in for SHA-1 that depends on every byte of the data: the sum of the
bytes modulo 251, padded to 20 bytes. -/
def sumHash (d : List Nat) : List Nat :=
  (d.sum % 251) :: List.replicate 19 0

/-- The first block of the example: 16384 bytes `1`. -/
def gapBlock0 : List Nat := List.replicate 16384 1

/-- The second block of the example: 16384 bytes `2`. -/
def gapBlock1 : List Nat := List.replicate 16384 2

/-- Content of a fresh `malloc( 32768 )` block in the example. -/
def gapHeap : List Nat := List.replicate 32768 0

/-- A torrent of one piece of 32768 bytes in three files of 16384, 0 and 16384
bytes; the published hash is that of `gapBlock0 ++ gapBlock1`. -/
def gapInfo : tr_info_t :=
  { hash := [], pieceSize := 32768, pieceCount := 1, totalSize := 32768,
    pieces := [207, 0, 0, 0, 0, 0, 0, 0, 0, 0, 0, 0, 0, 0, 0, 0, 0, 0, 0, 0],
    files := [16384, 0, 16384] }

/-- The torrent of the example as `tr_torrentInit` leaves it: two blocks of
16384 bytes, nothing had. -/
def gapTor : tr_torrent_t := tr_torrentInit gapInfo []

/-- The torrent of the example after its first block was taken in. -/
def gapTorA : tr_torrent_t :=
  { gapTor with
    blockHave := [-1, 0], blockHaveCount := 1,
    io := { fds := [gapBlock0, [], []], pieceSlot := [0], slotPiece := [0],
            slotsUsed := 1 } }

/-- The torrent of the example after both blocks were taken in. -/
def gapTorB : tr_torrent_t :=
  { gapTor with
    blockHave := [0, 0], blockHaveCount := 0,
    io := { fds := [gapBlock0, [], gapBlock1], pieceSlot := [0], slotPiece := [0],
            slotsUsed := 1 } }

end Transmission

namespace Transmission

/-! ## A metafile with a name longer than the arrays of `tr_info_t` -/

/-- A name of 1100 bytes `a`. -/
def longName : List Nat := List.replicate 1100 97

/-- The metafile
`d8:announce13:http://t.io/a4:infod6:lengthi5e4:name1100:aaa…a12:piece lengthi8e6:pieces20:ABCDEFGHIJKLMNOPQRSTee`:
the metafile `metaGood` with the name `longName` in place of `x`. -/
def metaLongName : List Nat :=
  [100, 56, 58, 97, 110, 110, 111, 117, 110, 99, 101, 49, 51, 58, 104, 116, 116, 112, 58, 47, 47,
   116, 46, 105, 111, 47, 97, 52, 58, 105, 110, 102, 111, 100, 54, 58, 108, 101, 110, 103, 116,
   104, 105, 53, 101, 52, 58, 110, 97, 109, 101, 49, 49, 48, 48, 58] ++
  longName ++
  [49, 50, 58, 112, 105, 101, 99, 101, 32, 108, 101, 110, 103, 116, 104, 105, 56, 101, 54, 58,
   112, 105, 101, 99, 101, 115, 50, 48, 58, 65, 66, 67, 68, 69, 70, 71, 72, 73, 74, 75, 76, 77,
   78, 79, 80, 81, 82, 83, 84, 101, 101]

end Transmission

/-! # Theorems -/

namespace Transmission

theorem arrSet_length (a : List Int) (i v : Int) : (arrSet a i v).length = a.length := by
  unfold arrSet; split <;> simp

theorem arrGet_arrSet (a : List Int) (i j v : Int) :
    arrGet (arrSet a i v) j =
      if i = j ∧ 0 ≤ i ∧ i < a.length then v else arrGet a j := by
  unfold arrGet arrSet
  by_cases hi : 0 ≤ i <;> by_cases hj : 0 ≤ j
  · simp only [hi, hj, if_true, true_and]
    by_cases hij : i = j
    · subst hij
      by_cases hl : i < a.length
      · have : i.toNat < a.length := by omega
        simp [hl, List.getD_eq_getElem?_getD, List.getElem?_set, this]
      · have h1 : ¬ i.toNat < a.length := by omega
        have h2 : a[i.toNat]? = none := List.getElem?_eq_none (by omega)
        simp [hl, List.getD_eq_getElem?_getD, List.getElem?_set, h1, h2]
    · have : i.toNat ≠ j.toNat := by omega
      simp [hij, List.getD_eq_getElem?_getD, List.getElem?_set, this]
  · have : i ≠ j := by omega
    simp [hi, hj, this]
  · have : i ≠ j := by omega
    simp [hi, hj, this]
  · simp [hi, hj]

theorem mem_upTo (n i : Int) : i ∈ upTo n ↔ 0 ≤ i ∧ i < n := by
  unfold upTo
  simp only [List.mem_map, List.mem_range]
  constructor
  · rintro ⟨k, hk, rfl⟩
    simp only [Int.ofNat_eq_coe]
    omega
  · rintro ⟨h0, hn⟩
    exact ⟨i.toNat, by omega, by simp [Int.toNat_of_nonneg h0]⟩

end Transmission
namespace Transmission

theorem invertSlots_slotsUsed (inf : tr_info_t) (io : tr_io_t) (a b : Int) :
    (invertSlots inf io a b).slotsUsed = io.slotsUsed := rfl

theorem invertSlots_pieceSlot (inf : tr_info_t) (io : tr_io_t) (a b : Int) :
    (invertSlots inf io a b).pieceSlot =
      arrSet (arrSet io.pieceSlot (arrGet io.slotPiece a) b) (arrGet io.slotPiece b) a := rfl

theorem invertSlots_slotPiece (inf : tr_info_t) (io : tr_io_t) (a b : Int) :
    (invertSlots inf io a b).slotPiece =
      arrSet (arrSet io.slotPiece a (arrGet io.slotPiece b)) b (arrGet io.slotPiece a) := rfl

/-- The two tables after the inversion that `reorderPieces` performs for a
piece `i` that is placed, not in slot `i`, with `i < slotsUsed`. -/
theorem invertSlots_tables (inf : tr_info_t) (n : Int) (io : tr_io_t) (h : SlotInv n io)
    (i : Int) (hi0 : 0 ≤ i) (hin : i < n) (hpl : ¬ arrGet io.pieceSlot i < 0)
    (_hne : arrGet io.pieceSlot i ≠ i) (hiu : i < io.slotsUsed) :
    (∀ q, arrGet (invertSlots inf io (arrGet io.pieceSlot i) i).pieceSlot q =
      if q = arrGet io.slotPiece i then arrGet io.pieceSlot i
      else if q = i then i else arrGet io.pieceSlot q) ∧
    (∀ s, arrGet (invertSlots inf io (arrGet io.pieceSlot i) i).slotPiece s =
      if s = i then i
      else if s = arrGet io.pieceSlot i then arrGet io.slotPiece i
      else arrGet io.slotPiece s) := by
  have hp := h.pieces i hi0 hin
  have hs := h.slots i hi0 hiu
  have hlp := h.lenP
  have hls := h.lenS
  have hu := h.usedN
  rcases hp with hp | ⟨ha0, hau, hsa⟩
  · omega
  obtain ⟨hj0, hjn, hpj⟩ := hs
  constructor
  · intro q
    rw [invertSlots_pieceSlot, hsa, arrGet_arrSet, arrGet_arrSet, arrSet_length]
    by_cases h1 : q = arrGet io.slotPiece i
    · have : arrGet io.slotPiece i = q ∧ 0 ≤ arrGet io.slotPiece i ∧
          arrGet io.slotPiece i < (io.pieceSlot.length : Int) := ⟨h1.symm, hj0, by omega⟩
      rw [if_pos this, if_pos h1]
    · have h1' : ¬ (arrGet io.slotPiece i = q ∧ 0 ≤ arrGet io.slotPiece i ∧
          arrGet io.slotPiece i < (io.pieceSlot.length : Int)) := fun hh => h1 hh.1.symm
      rw [if_neg h1', if_neg h1]
      by_cases h2 : q = i
      · have : i = q ∧ 0 ≤ i ∧ i < (io.pieceSlot.length : Int) := ⟨h2.symm, hi0, by omega⟩
        rw [if_pos this, if_pos h2]
      · have h2' : ¬ (i = q ∧ 0 ≤ i ∧ i < (io.pieceSlot.length : Int)) :=
          fun hh => h2 hh.1.symm
        rw [if_neg h2', if_neg h2]
  · intro s
    rw [invertSlots_slotPiece, hsa, arrGet_arrSet, arrGet_arrSet, arrSet_length]
    by_cases h1 : s = i
    · have : i = s ∧ 0 ≤ i ∧ i < (io.slotPiece.length : Int) := ⟨h1.symm, hi0, by omega⟩
      rw [if_pos this, if_pos h1]
    · have h1' : ¬ (i = s ∧ 0 ≤ i ∧ i < (io.slotPiece.length : Int)) :=
        fun hh => h1 hh.1.symm
      rw [if_neg h1', if_neg h1]
      by_cases h2 : s = arrGet io.pieceSlot i
      · have : arrGet io.pieceSlot i = s ∧ 0 ≤ arrGet io.pieceSlot i ∧
            arrGet io.pieceSlot i < (io.slotPiece.length : Int) :=
          ⟨h2.symm, ha0, by omega⟩
        rw [if_pos this, if_pos h2]
      · have h2' : ¬ (arrGet io.pieceSlot i = s ∧ 0 ≤ arrGet io.pieceSlot i ∧
            arrGet io.pieceSlot i < (io.slotPiece.length : Int)) := fun hh => h2 hh.1.symm
        rw [if_neg h2', if_neg h2]

end Transmission
namespace Transmission

/-- An inversion made by `reorderPieces` keeps the invariants. -/
theorem invertSlots_inv (inf : tr_info_t) (n : Int) (io : tr_io_t) (h : SlotInv n io)
    (i : Int) (hi0 : 0 ≤ i) (hin : i < n) (hpl : ¬ arrGet io.pieceSlot i < 0)
    (hne : arrGet io.pieceSlot i ≠ i) (hiu : i < io.slotsUsed) :
    SlotInv n (invertSlots inf io (arrGet io.pieceSlot i) i) := by
  obtain ⟨hP, hS⟩ := invertSlots_tables inf n io h i hi0 hin hpl hne hiu
  have hp := h.pieces i hi0 hin
  have hs := h.slots i hi0 hiu
  rcases hp with hp | ⟨ha0, hau, hsa⟩
  · omega
  obtain ⟨hj0, hjn, hpj⟩ := hs
  refine ⟨?_, ?_, h.used0, h.usedN, ?_, ?_, ?_⟩
  · rw [invertSlots_pieceSlot, arrSet_length, arrSet_length]; exact h.lenP
  · rw [invertSlots_slotPiece, arrSet_length, arrSet_length]; exact h.lenS
  · intro p hp0 hpn
    rw [invertSlots_slotsUsed]
    simp only [hP, hS]
    by_cases h1 : p = arrGet io.slotPiece i
    · right
      rw [if_pos h1]
      refine ⟨ha0, hau, ?_⟩
      rw [if_neg hne, if_pos rfl]; exact h1.symm
    · rw [if_neg h1]
      by_cases h2 : p = i
      · right
        rw [if_pos h2, if_pos rfl]
        exact ⟨hi0, hiu, h2.symm⟩
      · rw [if_neg h2]
        rcases h.pieces p hp0 hpn with h3 | ⟨h30, h3u, h3s⟩
        · left; exact h3
        · right
          refine ⟨h30, h3u, ?_⟩
          have e1 : arrGet io.pieceSlot p ≠ i := by
            intro e; rw [e] at h3s; exact h1 h3s.symm
          have e2 : arrGet io.pieceSlot p ≠ arrGet io.pieceSlot i := by
            intro e; rw [e, hsa] at h3s; exact h2 h3s.symm
          rw [if_neg e1, if_neg e2]; exact h3s
  · intro s hs0 hsu
    rw [invertSlots_slotsUsed] at hsu
    simp only [hP, hS]
    by_cases h1 : s = i
    · rw [if_pos h1]
      have e : i ≠ arrGet io.slotPiece i := by
        intro e; rw [← e] at hpj; exact hne hpj
      rw [if_neg e, if_pos rfl]
      exact ⟨hi0, hin, h1.symm⟩
    · rw [if_neg h1]
      by_cases h2 : s = arrGet io.pieceSlot i
      · rw [if_pos h2, if_pos rfl]
        exact ⟨hj0, hjn, h2.symm⟩
      · rw [if_neg h2]
        obtain ⟨h30, h3n, h3p⟩ := h.slots s hs0 hsu
        refine ⟨h30, h3n, ?_⟩
        have e1 : arrGet io.slotPiece s ≠ arrGet io.slotPiece i := by
          intro e; rw [e, hpj] at h3p; exact h1 h3p.symm
        have e2 : arrGet io.slotPiece s ≠ i := by
          intro e; rw [e] at h3p; exact h2 h3p.symm
        rw [if_neg e1, if_neg e2]; exact h3p
  · intro s hsu hsn
    rw [invertSlots_slotsUsed] at hsu
    rw [hS]
    have e1 : s ≠ i := by omega
    have e2 : s ≠ arrGet io.pieceSlot i := by omega
    rw [if_neg e1, if_neg e2]
    exact h.free s hsu hsn

/-- An inversion made by `reorderPieces` keeps every piece placed or not
placed, as it was. -/
theorem invertSlots_placed (inf : tr_info_t) (n : Int) (io : tr_io_t) (h : SlotInv n io)
    (i : Int) (hi0 : 0 ≤ i) (hin : i < n) (hpl : ¬ arrGet io.pieceSlot i < 0)
    (hne : arrGet io.pieceSlot i ≠ i) (hiu : i < io.slotsUsed) (q : Int) :
    (0 ≤ arrGet (invertSlots inf io (arrGet io.pieceSlot i) i).pieceSlot q ↔
      0 ≤ arrGet io.pieceSlot q) := by
  obtain ⟨hP, _⟩ := invertSlots_tables inf n io h i hi0 hin hpl hne hiu
  obtain ⟨_, _, hpj⟩ := h.slots i hi0 hiu
  rw [hP]
  by_cases h1 : q = arrGet io.slotPiece i
  · rw [if_pos h1, h1, hpj]; omega
  · rw [if_neg h1]
    by_cases h2 : q = i
    · rw [if_pos h2, h2]; omega
    · rw [if_neg h2]

/-- An inversion made by `reorderPieces` puts one more piece in its own slot. -/
theorem invertSlots_inPlace (inf : tr_info_t) (n : Int) (io : tr_io_t) (h : SlotInv n io)
    (i : Int) (hi0 : 0 ≤ i) (hin : i < n) (hpl : ¬ arrGet io.pieceSlot i < 0)
    (hne : arrGet io.pieceSlot i ≠ i) (hiu : i < io.slotsUsed) :
    inPlace n io < inPlace n (invertSlots inf io (arrGet io.pieceSlot i) i) := by
  obtain ⟨hP, _⟩ := invertSlots_tables inf n io h i hi0 hin hpl hne hiu
  obtain ⟨_, _, hpj⟩ := h.slots i hi0 hiu
  unfold inPlace
  apply Finset.card_lt_card
  rw [Finset.ssubset_iff_of_subset]
  · refine ⟨i, ?_, ?_⟩
    · simp only [Finset.mem_filter, Finset.mem_Ico]
      refine ⟨⟨hi0, hin⟩, ?_⟩
      rw [hP]
      have e : i ≠ arrGet io.slotPiece i := by
        intro e; rw [← e] at hpj; exact hne hpj
      rw [if_neg e, if_pos rfl]
    · simp only [Finset.mem_filter, Finset.mem_Ico, not_and]
      intro _; exact hne
  · intro q
    simp only [Finset.mem_filter, Finset.mem_Ico]
    rintro ⟨hq, hqq⟩
    refine ⟨hq, ?_⟩
    rw [hP]
    have e1 : q ≠ arrGet io.slotPiece i := by
      intro e; rw [← e, hqq] at hpj; rw [← hpj] at hne; exact hne hqq
    have e2 : q ≠ i := by
      intro e; rw [e] at hqq; exact hne hqq
    rw [if_neg e1, if_neg e2]; exact hqq

end Transmission
namespace Transmission

theorem PassRel.refl (n : Int) (io : tr_io_t) (h : SlotInv n io) : PassRel n io io :=
  ⟨h, rfl, fun _ => Iff.rfl, le_refl _⟩

theorem PassRel.trans {n : Int} {a b c : tr_io_t} (h1 : PassRel n a b) (h2 : PassRel n b c) :
    PassRel n a c :=
  ⟨h2.inv, h2.used.trans h1.used, fun q => (h2.placed q).trans (h1.placed q),
    le_trans h1.mono h2.mono⟩

/-- One iteration of the loop body of `reorderPieces`. -/
theorem reorderStep_spec (inf : tr_info_t) (n : Int) (st : tr_io_t × Bool)
    (h : SlotInv n st.1) (i : Int) (hi0 : 0 ≤ i) (hin : i < n) :
    PassRel n st.1 (reorderStep inf st i).1 ∧
    ((reorderStep inf st i).2 = true →
      st.2 = true ∨ inPlace n st.1 < inPlace n (reorderStep inf st i).1) ∧
    (st.2 = true → (reorderStep inf st i).2 = true) ∧
    ((reorderStep inf st i).2 = false → (reorderStep inf st i).1 = st.1 ∧ Settled st.1 i) := by
  unfold reorderStep
  by_cases h1 : arrGet st.1.pieceSlot i < 0
  · simp only [if_pos h1]
    exact ⟨PassRel.refl n _ h, fun e => Or.inl e, fun e => e, fun _ => ⟨trivial, Or.inl h1⟩⟩
  · simp only [if_neg h1]
    by_cases h2 : arrGet st.1.pieceSlot i = i
    · simp only [if_pos h2]
      exact ⟨PassRel.refl n _ h, fun e => Or.inl e, fun e => e,
        fun _ => ⟨trivial, Or.inr (Or.inl h2)⟩⟩
    · simp only [if_neg h2]
      by_cases h3 : i ≥ st.1.slotsUsed
      · simp only [if_pos h3]
        exact ⟨PassRel.refl n _ h, fun e => Or.inl e, fun e => e,
          fun _ => ⟨trivial, Or.inr (Or.inr h3)⟩⟩
      · simp only [if_neg h3]
        have hiu : i < st.1.slotsUsed := by omega
        have hlt := invertSlots_inPlace inf n st.1 h i hi0 hin h1 h2 hiu
        refine ⟨⟨invertSlots_inv inf n st.1 h i hi0 hin h1 h2 hiu, rfl,
          invertSlots_placed inf n st.1 h i hi0 hin h1 h2 hiu, le_of_lt hlt⟩,
          fun _ => Or.inr hlt, fun _ => trivial, fun e => ?_⟩
        exact absurd e (by simp)

/-- The `for` loop of `reorderPieces` over the pieces of `l`. -/
theorem reorderFold_spec (inf : tr_info_t) (n : Int) (l : List Int)
    (hl : ∀ i ∈ l, 0 ≤ i ∧ i < n) (st : tr_io_t × Bool) (h : SlotInv n st.1) :
    PassRel n st.1 (l.foldl (reorderStep inf) st).1 ∧
    ((l.foldl (reorderStep inf) st).2 = true →
      st.2 = true ∨ inPlace n st.1 < inPlace n (l.foldl (reorderStep inf) st).1) ∧
    (st.2 = true → (l.foldl (reorderStep inf) st).2 = true) ∧
    ((l.foldl (reorderStep inf) st).2 = false →
      (l.foldl (reorderStep inf) st).1 = st.1 ∧ ∀ i ∈ l, Settled st.1 i) := by
  induction l generalizing st with
  | nil =>
    simp only [List.foldl_nil]
    exact ⟨PassRel.refl n _ h, fun e => Or.inl e, fun e => e,
      fun _ => ⟨trivial, fun i hi => absurd hi (List.not_mem_nil i)⟩⟩
  | cons a l ih =>
    simp only [List.foldl_cons]
    have ha := hl a (List.mem_cons_self a l)
    obtain ⟨s1, s2, s3, s4⟩ := reorderStep_spec inf n st h a ha.1 ha.2
    obtain ⟨r1, r2, r3, r4⟩ := ih (fun i hi => hl i (List.mem_cons_of_mem a hi))
      (reorderStep inf st a) s1.inv
    refine ⟨s1.trans r1, ?_, fun e => r3 (s3 e), ?_⟩
    · intro e
      rcases r2 e with e1 | e1
      · rcases s2 e1 with e2 | e2
        · exact Or.inl e2
        · exact Or.inr (lt_of_lt_of_le e2 r1.mono)
      · exact Or.inr (lt_of_le_of_lt s1.mono e1)
    · intro e
      obtain ⟨q1, q2⟩ := r4 e
      have hb : (reorderStep inf st a).2 = false := by
        cases hb : (reorderStep inf st a).2 with
        | false => rfl
        | true => rw [r3 hb] at e; exact absurd e (by simp)
      obtain ⟨p1, p2⟩ := s4 hb
      refine ⟨q1.trans p1, ?_⟩
      intro i hi
      rcases List.mem_cons.mp hi with rfl | hi
      · exact p2
      · rw [← p1]; exact q2 i hi

/-- One pass of `reorderPieces`. -/
theorem reorderPass_spec (inf : tr_info_t) (io : tr_io_t) (h : SlotInv inf.pieceCount io) :
    PassRel inf.pieceCount io (reorderPass inf io).1 ∧
    ((reorderPass inf io).2 = true →
      inPlace inf.pieceCount io < inPlace inf.pieceCount (reorderPass inf io).1) ∧
    ((reorderPass inf io).2 = false → (reorderPass inf io).1 = io ∧
      ∀ i, 0 ≤ i → i < inf.pieceCount → Settled io i) := by
  obtain ⟨r1, r2, _, r4⟩ := reorderFold_spec inf inf.pieceCount (upTo inf.pieceCount)
    (fun i hi => (mem_upTo _ i).mp hi) (io, false) h
  refine ⟨r1, fun e => ?_, fun e => ?_⟩
  · rcases r2 e with e1 | e1
    · exact absurd e1 (by simp)
    · exact e1
  · obtain ⟨q1, q2⟩ := r4 e
    exact ⟨q1, fun i h0 hn => q2 i ((mem_upTo _ i).mpr ⟨h0, hn⟩)⟩

/-- What `reorderPieces` has done when it returns. -/
theorem reorderPieces_sound (inf : tr_info_t) (fuel : Nat) (io io1 : tr_io_t)
    (h : SlotInv inf.pieceCount io) (hr : reorderPieces inf fuel io = some io1) :
    PassRel inf.pieceCount io io1 ∧ ∀ i, 0 ≤ i → i < inf.pieceCount → Settled io1 i := by
  induction fuel generalizing io with
  | zero => simp [reorderPieces] at hr
  | succ k ih =>
    obtain ⟨p1, _, p3⟩ := reorderPass_spec inf io h
    unfold reorderPieces at hr
    simp only at hr
    by_cases hb : (reorderPass inf io).2 = true
    · rw [if_pos hb] at hr
      obtain ⟨q1, q2⟩ := ih _ p1.inv hr
      exact ⟨p1.trans q1, q2⟩
    · rw [if_neg hb] at hr
      have hb' : (reorderPass inf io).2 = false := by simpa using hb
      obtain ⟨e1, e2⟩ := p3 hb'
      have : io1 = io := by
        rw [← e1]; exact (Option.some.inj hr).symm
      subst this
      exact ⟨PassRel.refl _ _ h, e2⟩

theorem inPlace_le (n : Int) (io : tr_io_t) : inPlace n io ≤ n.toNat := by
  unfold inPlace
  calc ((Finset.Ico 0 n).filter (fun p => arrGet io.pieceSlot p = p)).card
      ≤ (Finset.Ico 0 n).card := Finset.card_filter_le _ _
    _ = n.toNat := by simp

/-- The function `reorderPieces` returns: a pass that inverted two slots put
one more piece in place, so `pieceCount + 1` passes are enough. -/
theorem reorderPieces_returns (inf : tr_info_t) (fuel : Nat) (io : tr_io_t)
    (h : SlotInv inf.pieceCount io)
    (hf : inf.pieceCount.toNat - inPlace inf.pieceCount io < fuel) :
    ∃ io1, reorderPieces inf fuel io = some io1 := by
  induction fuel generalizing io with
  | zero => omega
  | succ k ih =>
    obtain ⟨p1, p2, _⟩ := reorderPass_spec inf io h
    unfold reorderPieces
    simp only
    by_cases hb : (reorderPass inf io).2 = true
    · rw [if_pos hb]
      have hlt := p2 hb
      have hle := inPlace_le inf.pieceCount (reorderPass inf io).1
      exact ih _ p1.inv (by omega)
    · rw [if_neg hb]
      exact ⟨_, rfl⟩

end Transmission
namespace Transmission

theorem arrGet_replicate (k : Nat) (v p : Int) (h0 : 0 ≤ p) (hk : p < k) :
    arrGet (List.replicate k v) p = v := by
  unfold arrGet
  rw [if_pos h0, List.getD_eq_getElem?_getD, List.getElem?_replicate]
  have : p.toNat < k := by omega
  simp [this]

/-- The empty slot map satisfies the invariants. -/
theorem emptyIo_inv (inf : tr_info_t) (hn : 0 ≤ inf.pieceCount) :
    SlotInv inf.pieceCount (emptyIo inf) := by
  refine ⟨?_, ?_, le_refl _, hn, ?_, ?_, ?_⟩
  · simp [emptyIo, Int.toNat_of_nonneg hn]
  · simp [emptyIo, Int.toNat_of_nonneg hn]
  · intro p h0 h1
    left
    exact arrGet_replicate _ _ p h0 (by omega)
  · intro s h0 h1
    simp only [emptyIo] at h1
    omega
  · intro s _ h1
    exact arrGet_replicate _ _ s (by simp only [emptyIo] at *; omega) (by omega)

/-- With a piece still unplaced, some slot is still unused. -/
theorem slotsUsed_lt (n : Int) (io : tr_io_t) (h : SlotInv n io) (piece : Int)
    (hp0 : 0 ≤ piece) (hpn : piece < n) (hun : arrGet io.pieceSlot piece < 0) :
    io.slotsUsed < n := by
  by_contra hge
  have hu : io.slotsUsed = n := le_antisymm h.usedN (not_lt.mp hge)
  have hcard : (Finset.Ico (0 : Int) n).card ≤ ((Finset.Ico (0 : Int) n).erase piece).card := by
    apply Finset.card_le_card_of_injOn (fun s => arrGet io.slotPiece s)
    · intro s hs
      have hs' := Finset.mem_Ico.mp (Finset.mem_coe.mp hs)
      obtain ⟨a, b, c⟩ := h.slots s hs'.1 (by omega)
      apply Finset.mem_coe.mpr
      rw [Finset.mem_erase, Finset.mem_Ico]
      refine ⟨?_, a, b⟩
      intro e
      rw [e] at c
      omega
    · intro s hs t ht e
      have hs' := Finset.mem_Ico.mp (Finset.mem_coe.mp hs)
      have ht' := Finset.mem_Ico.mp (Finset.mem_coe.mp ht)
      obtain ⟨_, _, c⟩ := h.slots s hs'.1 (by omega)
      obtain ⟨_, _, d⟩ := h.slots t ht'.1 (by omega)
      have e' : arrGet io.slotPiece s = arrGet io.slotPiece t := e
      rw [← c, ← d, e']
  have hmem : piece ∈ Finset.Ico (0 : Int) n := Finset.mem_Ico.mpr ⟨hp0, hpn⟩
  have hpos : 0 < (Finset.Ico (0 : Int) n).card := Finset.card_pos.mpr ⟨piece, hmem⟩
  rw [Finset.card_erase_of_mem hmem] at hcard
  omega

/-- Under the invariants no slot below `slotsUsed` is free. -/
theorem findEmptySlot_none (n : Int) (io : tr_io_t) (h : SlotInv n io) :
    findEmptySlot io = none := by
  unfold findEmptySlot
  rw [List.find?_eq_none]
  intro s hs
  obtain ⟨h0, h1⟩ := (mem_upTo _ s).mp hs
  obtain ⟨a, _, _⟩ := h.slots s h0 h1
  simp only [decide_eq_true_eq, not_lt]
  exact a

/-- The placement made by `findSlotForPiece` for a piece without a slot. -/
theorem placePiece_spec (n : Int) (io : tr_io_t) (h : SlotInv n io) (piece : Int)
    (hp0 : 0 ≤ piece) (hpn : piece < n) (hun : arrGet io.pieceSlot piece < 0) :
    SlotInv n (placePiece io piece) ∧
    (placePiece io piece).slotsUsed = io.slotsUsed + 1 ∧
    (∀ q, 0 ≤ arrGet (placePiece io piece).pieceSlot q ↔
      (0 ≤ arrGet io.pieceSlot q ∨ q = piece)) := by
  have hlt := slotsUsed_lt n io h piece hp0 hpn hun
  have hu0 := h.used0
  have hlp := h.lenP
  have hls := h.lenS
  have hP : ∀ q, arrGet (placePiece io piece).pieceSlot q =
      if q = piece then io.slotsUsed else arrGet io.pieceSlot q := by
    intro q
    unfold placePiece
    rw [findEmptySlot_none n io h]
    simp only
    rw [arrGet_arrSet]
    by_cases e : q = piece
    · rw [if_pos e, if_pos ⟨e.symm, hp0, by omega⟩]
    · rw [if_neg e, if_neg (fun hh => e hh.1.symm)]
  have hS : ∀ s, arrGet (placePiece io piece).slotPiece s =
      if s = io.slotsUsed then piece else arrGet io.slotPiece s := by
    intro s
    unfold placePiece
    rw [findEmptySlot_none n io h]
    simp only
    rw [arrGet_arrSet]
    by_cases e : s = io.slotsUsed
    · rw [if_pos e, if_pos ⟨e.symm, hu0, by omega⟩]
    · rw [if_neg e, if_neg (fun hh => e hh.1.symm)]
  have hU : (placePiece io piece).slotsUsed = io.slotsUsed + 1 := by
    unfold placePiece
    rw [findEmptySlot_none n io h]
  refine ⟨⟨?_, ?_, ?_, ?_, ?_, ?_, ?_⟩, hU, ?_⟩
  · unfold placePiece
    rw [findEmptySlot_none n io h]
    simp only [arrSet_length]; exact hlp
  · unfold placePiece
    rw [findEmptySlot_none n io h]
    simp only [arrSet_length]; exact hls
  · rw [hU]; omega
  · rw [hU]; omega
  · intro p h0 h1
    rw [hU, hP, hS]
    by_cases e : p = piece
    · right
      rw [if_pos e, if_pos rfl]
      exact ⟨hu0, by omega, e.symm⟩
    · rw [if_neg e]
      rcases h.pieces p h0 h1 with h3 | ⟨a, b, c⟩
      · left; exact h3
      · right
        rw [if_neg (by omega)]
        exact ⟨a, by omega, c⟩
  · intro s h0 h1
    rw [hU] at h1
    rw [hS]
    by_cases e : s = io.slotsUsed
    · rw [if_pos e, hP, if_pos rfl]
      exact ⟨hp0, hpn, e.symm⟩
    · rw [if_neg e]
      obtain ⟨a, b, c⟩ := h.slots s h0 (by omega)
      refine ⟨a, b, ?_⟩
      rw [hP]
      have : arrGet io.slotPiece s ≠ piece := by
        intro e2; rw [e2] at c; omega
      rw [if_neg this]; exact c
  · intro s h0 h1
    rw [hU] at h0
    rw [hS, if_neg (by omega)]
    exact h.free s (by omega) h1
  · intro q
    rw [hP]
    by_cases e : q = piece
    · rw [if_pos e]
      constructor
      · intro _; exact Or.inr e
      · intro _; exact hu0
    · rw [if_neg e]
      constructor
      · intro hh; exact Or.inl hh
      · rintro (hh | hh)
        · exact hh
        · exact absurd hh e

/-- What `findSlotForPiece` has done when it returns, for a piece without a slot. -/
theorem findSlotForPiece_sound (inf : tr_info_t) (fuel : Nat) (io io1 : tr_io_t)
    (h : SlotInv inf.pieceCount io) (piece : Int) (hp0 : 0 ≤ piece)
    (hpn : piece < inf.pieceCount) (hun : arrGet io.pieceSlot piece < 0)
    (hr : findSlotForPiece inf fuel io piece = some io1) :
    SlotInv inf.pieceCount io1 ∧ io1.slotsUsed = io.slotsUsed + 1 ∧
    (∀ q, 0 ≤ arrGet io1.pieceSlot q ↔ (0 ≤ arrGet io.pieceSlot q ∨ q = piece)) ∧
    ∀ i, 0 ≤ i → i < inf.pieceCount → Settled io1 i := by
  obtain ⟨a, b, c⟩ := placePiece_spec inf.pieceCount io h piece hp0 hpn hun
  obtain ⟨r, s⟩ := reorderPieces_sound inf fuel _ io1 a hr
  exact ⟨r.inv, r.used.trans b, fun q => (r.placed q).trans (c q), s⟩

/-- The function `findSlotForPiece` returns, within `pieceCount + 1` passes of
the reorderer. -/
theorem findSlotForPiece_returns (inf : tr_info_t) (io : tr_io_t)
    (h : SlotInv inf.pieceCount io) (piece : Int) (hp0 : 0 ≤ piece)
    (hpn : piece < inf.pieceCount) (hun : arrGet io.pieceSlot piece < 0) :
    ∃ io1, findSlotForPiece inf (inf.pieceCount.toNat + 1) io piece = some io1 := by
  obtain ⟨a, _, _⟩ := placePiece_spec inf.pieceCount io h piece hp0 hpn hun
  exact reorderPieces_returns inf _ _ a (by omega)

/-- Every reachable slot map satisfies the invariants, and every piece is settled. -/
theorem SlotReach.inv (inf : tr_info_t) (hn : 0 ≤ inf.pieceCount) (io : tr_io_t)
    (hr : SlotReach inf io) :
    SlotInv inf.pieceCount io ∧ ∀ i, 0 ≤ i → i < inf.pieceCount → Settled io i := by
  induction hr with
  | empty =>
    refine ⟨emptyIo_inv inf hn, ?_⟩
    intro i h0 h1
    left
    rw [show (emptyIo inf).pieceSlot = List.replicate inf.pieceCount.toNat (-1) from rfl,
      arrGet_replicate _ _ i h0 (by omega)]
    omega
  | place io io1 piece fuel _ hp0 hpn hun hf ih =>
    obtain ⟨a, _, _, d⟩ := findSlotForPiece_sound inf fuel io io1 ih.1 piece hp0 hpn hun hf
    exact ⟨a, d⟩

end Transmission
namespace Transmission

/-- First writes of distinct pieces without a slot, one after the other. -/
theorem placeAll_spec (inf : tr_info_t) (order : List Int) (io : tr_io_t)
    (h : SlotInv inf.pieceCount io)
    (hs : ∀ i, 0 ≤ i → i < inf.pieceCount → Settled io i)
    (hnd : order.Nodup)
    (hord : ∀ p ∈ order, 0 ≤ p ∧ p < inf.pieceCount ∧ arrGet io.pieceSlot p < 0) :
    (∃ io1, placeAll inf (inf.pieceCount.toNat + 1) order io = some io1) ∧
    ∀ fuel io1, placeAll inf fuel order io = some io1 →
      SlotInv inf.pieceCount io1 ∧ io1.slotsUsed = io.slotsUsed + order.length ∧
      (∀ q, 0 ≤ arrGet io1.pieceSlot q ↔ (0 ≤ arrGet io.pieceSlot q ∨ q ∈ order)) ∧
      ∀ i, 0 ≤ i → i < inf.pieceCount → Settled io1 i := by
  induction order generalizing io with
  | nil =>
    refine ⟨⟨io, rfl⟩, ?_⟩
    intro fuel io1 hr
    have : io1 = io := (Option.some.inj hr).symm
    subst this
    refine ⟨h, by simp, fun q => by simp, hs⟩
  | cons p ps ih =>
    obtain ⟨hp0, hpn, hpu⟩ := hord p (List.mem_cons_self p ps)
    have hnd' := List.nodup_cons.mp hnd
    have step : ∀ fuel io2, findSlotForPiece inf fuel io p = some io2 →
        SlotInv inf.pieceCount io2 ∧
        (∀ i, 0 ≤ i → i < inf.pieceCount → Settled io2 i) ∧
        (∀ q ∈ ps, 0 ≤ q ∧ q < inf.pieceCount ∧ arrGet io2.pieceSlot q < 0) ∧
        io2.slotsUsed = io.slotsUsed + 1 ∧
        (∀ q, 0 ≤ arrGet io2.pieceSlot q ↔ (0 ≤ arrGet io.pieceSlot q ∨ q = p)) := by
      intro fuel io2 h2
      obtain ⟨a, b, c, d⟩ := findSlotForPiece_sound inf fuel io io2 h p hp0 hpn hpu h2
      refine ⟨a, d, ?_, b, c⟩
      intro q hq
      obtain ⟨q0, qn, qu⟩ := hord q (List.mem_cons_of_mem p hq)
      refine ⟨q0, qn, ?_⟩
      have hne : q ≠ p := fun e => hnd'.1 (e ▸ hq)
      by_contra hge
      have := (c q).mp (not_lt.mp hge)
      rcases this with e | e
      · omega
      · exact hne e
    constructor
    · obtain ⟨io2, h2⟩ := findSlotForPiece_returns inf io h p hp0 hpn hpu
      obtain ⟨a, b, c, _, _⟩ := step _ io2 h2
      obtain ⟨⟨io1, h1⟩, _⟩ := ih io2 a b hnd'.2 c
      exact ⟨io1, by simp only [placeAll, h2, Option.some_bind]; exact h1⟩
    · intro fuel io1 hr
      simp only [placeAll] at hr
      cases h2 : findSlotForPiece inf fuel io p with
      | none => rw [h2] at hr; simp at hr
      | some io2 =>
        rw [h2, Option.some_bind] at hr
        obtain ⟨a, b, c, d, e⟩ := step fuel io2 h2
        obtain ⟨_, r⟩ := ih io2 a b hnd'.2 c
        obtain ⟨r1, r2, r3, r4⟩ := r fuel io1 hr
        refine ⟨r1, ?_, ?_, r4⟩
        · rw [r2, d, List.length_cons]; push_cast; ring
        · intro q
          rw [r3 q, e q, List.mem_cons]
          tauto

theorem upTo_nodup (n : Int) : (upTo n).Nodup := by
  unfold upTo
  apply List.Nodup.map
  · intro a b e; exact Int.ofNat.inj e
  · exact List.nodup_range _

theorem upTo_length (n : Int) : (upTo n).length = n.toNat := by
  simp [upTo]

/-- C4 (I1): in every slot map reachable from the empty map by
`findSlotForPiece` calls for pieces not yet placed, every piece `p` with
`pieceSlot[p] >= 0` satisfies `slotPiece[pieceSlot[p]] = p`. -/
theorem C4_pieceSlot_slotPiece_inverse (inf : tr_info_t) (io : tr_io_t)
    (hr : SlotReach inf io) (p : Int) (h0 : 0 ≤ p) (hn : p < inf.pieceCount)
    (hp : 0 ≤ arrGet io.pieceSlot p) :
    arrGet io.slotPiece (arrGet io.pieceSlot p) = p := by
  obtain ⟨hinv, _⟩ := SlotReach.inv inf (by omega) io hr
  rcases hinv.pieces p h0 hn with e | ⟨_, _, e⟩
  · omega
  · exact e

theorem scenarioIo201_reach : SlotReach scenarioInfo scenarioIo201 :=
  SlotReach.place scenarioIo20 scenarioIo201 1 4
    (SlotReach.place scenarioIo2 scenarioIo20 0 4
      (SlotReach.place (emptyIo scenarioInfo) scenarioIo2 2 4 SlotReach.empty
        (by decide) (by decide) (by decide) (by decide))
      (by decide) (by decide) (by decide) (by decide))
    (by decide) (by decide) (by decide) (by decide)

/-- Witness for C4: the scenario torrent after the first writes of pieces 2, 0, 1. -/
theorem C4_witness :
    SlotReach scenarioInfo scenarioIo201 ∧ (0 : Int) ≤ 2 ∧
    (2 : Int) < scenarioInfo.pieceCount ∧ 0 ≤ arrGet scenarioIo201.pieceSlot 2 ∧
    arrGet scenarioIo201.slotPiece (arrGet scenarioIo201.pieceSlot 2) = 2 :=
  ⟨scenarioIo201_reach, by decide, by decide, by decide,
    C4_pieceSlot_slotPiece_inverse scenarioInfo scenarioIo201 scenarioIo201_reach 2
      (by decide) (by decide) (by decide)⟩

/-- C5 (I2): in every slot map reachable from the empty map by
`findSlotForPiece` calls for pieces not yet placed (of a torrent with
`pieceCount >= 0`), `slotsUsed <= N` and `slotPiece[s] = -1` for every
`s >= slotsUsed`; and whenever a piece is still without a slot, no slot below
`slotsUsed` is free and `slotsUsed < N`, so the branch that extends the file
is never taken with `slotsUsed = N`. -/
theorem C5_slotsUsed_bound (inf : tr_info_t) (hn : 0 ≤ inf.pieceCount) (io : tr_io_t)
    (hr : SlotReach inf io) :
    io.slotsUsed ≤ inf.pieceCount ∧
    (∀ s, io.slotsUsed ≤ s → s < inf.pieceCount → arrGet io.slotPiece s = -1) ∧
    (∀ piece, 0 ≤ piece → piece < inf.pieceCount → arrGet io.pieceSlot piece < 0 →
      findEmptySlot io = none ∧ io.slotsUsed < inf.pieceCount) := by
  obtain ⟨hinv, _⟩ := SlotReach.inv inf hn io hr
  refine ⟨hinv.usedN, hinv.free, ?_⟩
  intro piece h0 h1 h2
  exact ⟨findEmptySlot_none _ io hinv, slotsUsed_lt _ io hinv piece h0 h1 h2⟩

theorem scenarioIo20_reach : SlotReach scenarioInfo scenarioIo20 :=
  SlotReach.place scenarioIo2 scenarioIo20 0 4
    (SlotReach.place (emptyIo scenarioInfo) scenarioIo2 2 4 SlotReach.empty
      (by decide) (by decide) (by decide) (by decide))
    (by decide) (by decide) (by decide) (by decide)

/-- Witness for C5: the scenario torrent after the first writes of pieces 2 and 0. -/
theorem C5_witness :
    (0 : Int) ≤ scenarioInfo.pieceCount ∧ SlotReach scenarioInfo scenarioIo20 ∧
    (scenarioIo20.slotsUsed ≤ scenarioInfo.pieceCount ∧
    (∀ s, scenarioIo20.slotsUsed ≤ s → s < scenarioInfo.pieceCount →
      arrGet scenarioIo20.slotPiece s = -1) ∧
    (∀ piece, 0 ≤ piece → piece < scenarioInfo.pieceCount →
      arrGet scenarioIo20.pieceSlot piece < 0 →
      findEmptySlot scenarioIo20 = none ∧
        scenarioIo20.slotsUsed < scenarioInfo.pieceCount)) :=
  ⟨by decide, scenarioIo20_reach,
    C5_slotsUsed_bound scenarioInfo (by decide) scenarioIo20 scenarioIo20_reach⟩

/-- C6 (R2): for every `N >= 1` and every order in which the `N` distinct
pieces are first written, the placements (each `findSlotForPiece`, reorderer
included) starting from the empty slot map all return, and the final state
has `pieceSlot[p] = p` for every piece `p` and `slotsUsed = N`. -/
theorem C6_any_order_ends_in_identity (inf : tr_info_t) (hn : 1 ≤ inf.pieceCount)
    (order : List Int) (hperm : order.Perm (upTo inf.pieceCount)) :
    (∃ fuel io1, placeAll inf fuel order (emptyIo inf) = some io1) ∧
    ∀ fuel io1, placeAll inf fuel order (emptyIo inf) = some io1 →
      (∀ p, 0 ≤ p → p < inf.pieceCount → arrGet io1.pieceSlot p = p) ∧
      io1.slotsUsed = inf.pieceCount := by
  have hn0 : 0 ≤ inf.pieceCount := by omega
  have hmem : ∀ p, p ∈ order ↔ 0 ≤ p ∧ p < inf.pieceCount := fun p =>
    (hperm.mem_iff).trans (mem_upTo _ p)
  have hempty : ∀ p, 0 ≤ p → p < inf.pieceCount → arrGet (emptyIo inf).pieceSlot p = -1 :=
    fun p h0 h1 => arrGet_replicate _ _ p h0 (by omega)
  obtain ⟨ex, all⟩ := placeAll_spec inf order (emptyIo inf) (emptyIo_inv inf hn0)
    (fun i h0 h1 => Or.inl (by rw [hempty i h0 h1]; omega))
    (hperm.nodup_iff.mpr (upTo_nodup _))
    (fun p hp => by
      obtain ⟨h0, h1⟩ := (hmem p).mp hp
      exact ⟨h0, h1, by rw [hempty p h0 h1]; omega⟩)
  refine ⟨⟨_, ex⟩, ?_⟩
  intro fuel io1 hr
  obtain ⟨_, r2, r3, r4⟩ := all fuel io1 hr
  have hlen : (order.length : Int) = inf.pieceCount := by
    rw [hperm.length_eq, upTo_length]; omega
  have hu : io1.slotsUsed = inf.pieceCount := by
    rw [r2, hlen]; simp [emptyIo]
  refine ⟨?_, hu⟩
  intro p h0 h1
  have hpl : 0 ≤ arrGet io1.pieceSlot p := (r3 p).mpr (Or.inr ((hmem p).mpr ⟨h0, h1⟩))
  rcases r4 p h0 h1 with e | e | e
  · omega
  · exact e
  · omega

/-- Witness for C6: `N = 3`, the order 2, 0, 1 of scenario 2. -/
theorem C6_witness :
    (1 : Int) ≤ scenarioInfo.pieceCount ∧
    List.Perm [2, 0, 1] (upTo scenarioInfo.pieceCount) ∧
    ((∃ fuel io1, placeAll scenarioInfo fuel [2, 0, 1] (emptyIo scenarioInfo) = some io1) ∧
    ∀ fuel io1, placeAll scenarioInfo fuel [2, 0, 1] (emptyIo scenarioInfo) = some io1 →
      (∀ p, 0 ≤ p → p < scenarioInfo.pieceCount → arrGet io1.pieceSlot p = p) ∧
      io1.slotsUsed = scenarioInfo.pieceCount) :=
  ⟨by decide, by decide,
    C6_any_order_ends_in_identity scenarioInfo (by decide) [2, 0, 1] (by decide)⟩

end Transmission
namespace Transmission

/-! ## `tr_ioWrite` -/

theorem byteGet_byteSet (a : List Nat) (i j : Int) (v : Nat) :
    byteGet (byteSet a i v) j =
      if i = j ∧ 0 ≤ i ∧ i < a.length then v else byteGet a j := by
  unfold byteGet byteSet
  by_cases hi : 0 ≤ i <;> by_cases hj : 0 ≤ j
  · simp only [hi, hj, if_true, true_and]
    by_cases hij : i = j
    · subst hij
      by_cases hl : i < a.length
      · have : i.toNat < a.length := by omega
        simp [hl, List.getD_eq_getElem?_getD, List.getElem?_set, this]
      · have h1 : ¬ i.toNat < a.length := by omega
        have h2 : a[i.toNat]? = none := List.getElem?_eq_none (by omega)
        simp [hl, List.getD_eq_getElem?_getD, List.getElem?_set, h1, h2]
    · have : i.toNat ≠ j.toNat := by omega
      simp [hij, List.getD_eq_getElem?_getD, List.getElem?_set, this]
  · have : i ≠ j := by omega
    simp [hi, hj, this]
  · have : i ≠ j := by omega
    simp [hi, hj, this]
  · simp [hi, hj]

theorem byteSet_length (a : List Nat) (i : Int) (v : Nat) :
    (byteSet a i v).length = a.length := by
  unfold byteSet; split <;> simp

theorem tr_bitfieldAdd_length (bf : List Nat) (i : Int) :
    (tr_bitfieldAdd bf i).length = bf.length := byteSet_length _ _ _

/-- Setting bit `i` leaves every other bit as it was. -/
theorem tr_bitfieldHas_add_ne (bf : List Nat) (i q : Int) (h : q ≠ i) :
    tr_bitfieldHas (tr_bitfieldAdd bf i) q = tr_bitfieldHas bf q := by
  unfold tr_bitfieldHas tr_bitfieldAdd
  rw [byteGet_byteSet]
  by_cases hc : i / 8 = q / 8 ∧ 0 ≤ i / 8 ∧ i / 8 < (bf.length : Int)
  · rw [if_pos hc, Nat.testBit_or, Nat.testBit_two_pow, hc.1]
    have : ¬ (7 - (i % 8).toNat = 7 - (q % 8).toNat) := by omega
    simp [this]
  · rw [if_neg hc]

/-- Setting bit `i` of a bitfield that has a byte for it sets it. -/
theorem tr_bitfieldHas_add_self (bf : List Nat) (i : Int) (h0 : 0 ≤ i)
    (h1 : i < 8 * (bf.length : Int)) : tr_bitfieldHas (tr_bitfieldAdd bf i) i = true := by
  unfold tr_bitfieldHas tr_bitfieldAdd
  rw [byteGet_byteSet]
  have hc : i / 8 = i / 8 ∧ 0 ≤ i / 8 ∧ i / 8 < (bf.length : Int) := ⟨rfl, by omega, by omega⟩
  rw [if_pos hc, Nat.testBit_or, Nat.testBit_two_pow]
  simp

theorem resetBlocks_fields (tor : tr_torrent_t) (l : List Int) :
    (resetBlocks tor l).info = tor.info ∧ (resetBlocks tor l).blockSize = tor.blockSize ∧
    (resetBlocks tor l).blockCount = tor.blockCount ∧
    (resetBlocks tor l).bitfield = tor.bitfield ∧ (resetBlocks tor l).io = tor.io ∧
    (resetBlocks tor l).peers = tor.peers ∧ (resetBlocks tor l).id = tor.id ∧
    (resetBlocks tor l).blockHaveCount = tor.blockHaveCount - l.length ∧
    (resetBlocks tor l).blockHave.length = tor.blockHave.length := by
  induction l generalizing tor with
  | nil => simp [resetBlocks]
  | cons a l ih =>
    have := ih { tor with blockHave := arrSet tor.blockHave a 0,
                          blockHaveCount := tor.blockHaveCount - 1 }
    simp only [resetBlocks, List.foldl_cons] at this ⊢
    obtain ⟨a1, a2, a3, a4, a5, a6, a7, a8, a9⟩ := this
    refine ⟨a1, a2, a3, a4, a5, a6, a7, ?_, ?_⟩
    · rw [a8, List.length_cons]; push_cast; ring
    · rw [a9, arrSet_length]

theorem resetBlocks_blockHave (tor : tr_torrent_t) (l : List Int) (b : Int) :
    arrGet (resetBlocks tor l).blockHave b =
      if b ∈ l then 0 else arrGet tor.blockHave b := by
  induction l generalizing tor with
  | nil => simp [resetBlocks]
  | cons a l ih =>
    have := ih { tor with blockHave := arrSet tor.blockHave a 0,
                          blockHaveCount := tor.blockHaveCount - 1 }
    simp only [resetBlocks, List.foldl_cons] at this ⊢
    rw [this]
    by_cases h1 : b ∈ l
    · simp [h1]
    · rw [if_neg h1, arrGet_arrSet]
      by_cases h2 : b = a
      · subst h2
        by_cases h3 : 0 ≤ b ∧ b < (tor.blockHave.length : Int)
        · simp [h3]
        · have : arrGet tor.blockHave b = 0 := by
            unfold arrGet
            by_cases h4 : 0 ≤ b
            · rw [if_pos h4, List.getD_eq_getElem?_getD,
                List.getElem?_eq_none (by omega)]
              rfl
            · rw [if_neg h4]
          simp [this]
      · have : ¬ (a = b ∧ 0 ≤ a ∧ a < (tor.blockHave.length : Int)) :=
          fun hh => h2 hh.1.symm
        rw [if_neg this]
        simp [h2, h1]

/-- The ways in which `tr_ioWrite` returns. -/
theorem tr_ioWrite_cases (sha1 : List Nat → List Nat) (fuel : Nat) (tor tor1 : tr_torrent_t)
    (index begin length : Int) (buf heap : List Nat) (r : Int)
    (h : tr_ioWrite sha1 fuel tor index begin length buf heap = some (r, tor1)) :
    ∃ c io1, ioWriteBytes tor.info fuel tor.io index begin length buf = some (c, io1) ∧
      ((c ≠ 0 ∧ r = 1 ∧ tor1 = { tor with io := io1 }) ∨
       (c = 0 ∧ r = 0 ∧ pieceComplete tor index = false ∧ tor1 = { tor with io := io1 }) ∨
       (c = 0 ∧ r = 0 ∧ pieceComplete tor index = true ∧
         hashMatches sha1 tor.info io1 index heap = false ∧
         tor1 = resetBlocks { tor with io := io1 } (pieceBlocks tor index)) ∨
       (c = 0 ∧ r = 0 ∧ pieceComplete tor index = true ∧
         hashMatches sha1 tor.info io1 index heap = true ∧
         tor1 = { tor with io := io1, bitfield := tr_bitfieldAdd tor.bitfield index })) := by
  unfold tr_ioWrite at h
  cases hw : ioWriteBytes tor.info fuel tor.io index begin length buf with
  | none => rw [hw] at h; simp at h
  | some w =>
    obtain ⟨c, io1⟩ := w
    rw [hw] at h
    simp only [Option.map_some', Option.some.injEq] at h
    refine ⟨c, io1, rfl, ?_⟩
    by_cases hc : c ≠ 0
    · rw [if_pos hc] at h
      left
      exact ⟨hc, (Prod.mk.inj h).1.symm, (Prod.mk.inj h).2.symm⟩
    · rw [if_neg hc] at h
      have hc0 : c = 0 := not_not.mp hc
      right
      have hpc : pieceComplete { tor with io := io1 } index = pieceComplete tor index := rfl
      have hpb : pieceBlocks { tor with io := io1 } index = pieceBlocks tor index := rfl
      rw [hpc, hpb] at h
      cases hcomp : pieceComplete tor index with
      | false =>
        rw [hcomp] at h
        simp only [Bool.false_eq_true, not_false_eq_true, if_true] at h
        left
        exact ⟨hc0, (Prod.mk.inj h).1.symm, rfl, (Prod.mk.inj h).2.symm⟩
      | true =>
        rw [hcomp] at h
        simp only [not_true_eq_false, if_false] at h
        right
        cases hh : hashMatches sha1 tor.info io1 index heap with
        | false =>
          rw [hh] at h
          simp only [Bool.false_eq_true, not_false_eq_true, if_true] at h
          left
          exact ⟨hc0, (Prod.mk.inj h).1.symm, rfl, rfl, (Prod.mk.inj h).2.symm⟩
        | true =>
          rw [hh] at h
          simp only [not_true_eq_false, if_false] at h
          right
          exact ⟨hc0, (Prod.mk.inj h).1.symm, rfl, rfl, (Prod.mk.inj h).2.symm⟩

end Transmission
namespace Transmission

theorem pieceBlocks_congr (t1 t2 : tr_torrent_t) (h1 : t1.info = t2.info)
    (h2 : t1.blockSize = t2.blockSize) (h3 : t1.blockCount = t2.blockCount) (p : Int) :
    pieceBlocks t1 p = pieceBlocks t2 p := by
  unfold pieceBlocks tr_pieceCountBlocks tr_pieceStartBlock
  rw [h1, h2, h3]

theorem pieceComplete_iff (tor : tr_torrent_t) (p : Int) :
    pieceComplete tor p = true ↔ ∀ b ∈ pieceBlocks tor p, arrGet tor.blockHave b < 0 := by
  unfold pieceComplete
  rw [List.all_eq_true]
  constructor
  · intro h b hb; exact of_decide_eq_true (h b hb)
  · intro h b hb; exact decide_eq_true (h b hb)

end Transmission
namespace Transmission

theorem gap_write0 (b0 : List Nat) (h0 : b0.length = 16384) :
    readOrWriteBytes gapInfo [[], [], []] 0 16384 b0 true = (0, [b0, [], []], b0) := by
  simp [readOrWriteBytes, tr_pieceSize, findFile, rwFiles, fileWrite, gapInfo, h0]

theorem gap_write1 (b0 b1 : List Nat) (h1 : b1.length = 16384) :
    readOrWriteBytes gapInfo [b0, [], []] 16384 16384 b1 true = (0, [b0, [], b1], b1) := by
  simp [readOrWriteBytes, tr_pieceSize, findFile, rwFiles, fileWrite, gapInfo, h1]

theorem gap_read (b0 b1 heap : List Nat) (h0 : b0.length = 16384) :
    readOrWriteBytes gapInfo [b0, [], b1] 0 32768 heap false =
      (1, [b0, [], b1], b0 ++ heap.drop 16384) := by
  simp [readOrWriteBytes, tr_pieceSize, findFile, rwFiles, fileRead, gapInfo, h0]

theorem gapBlock0_length : gapBlock0.length = 16384 := List.length_replicate _ _

theorem gapBlock1_length : gapBlock1.length = 16384 := List.length_replicate _ _

theorem gap_slot :
    findSlotForPiece gapInfo 4 (emptyIo gapInfo) 0 =
      some { fds := [[], [], []], pieceSlot := [0], slotPiece := [0], slotsUsed := 1 } := by
  decide

theorem gap_data_hash : (sumHash (gapBlock0 ++ gapBlock1)).take 20 = pieceHash gapInfo 0 := by
  have e : (gapBlock0 ++ gapBlock1).sum = 49152 := by
    rw [List.sum_append, gapBlock0, gapBlock1, List.sum_replicate, List.sum_replicate]
    rfl
  unfold sumHash
  rw [e]
  decide

theorem gap_readBack (io : tr_io_t) (h : io.fds = [gapBlock0, [], gapBlock1])
    (hs : io.pieceSlot = [0]) :
    pieceReadBack gapInfo io 0 gapHeap = gapBlock0 ++ List.replicate 16384 0 := by
  unfold pieceReadBack
  rw [h, hs]
  have e1 : arrGet [0] 0 * gapInfo.pieceSize = 0 := by decide
  have e2 : tr_pieceSize gapInfo 0 = 32768 := by decide
  rw [e1, e2, gap_read gapBlock0 gapBlock1 gapHeap gapBlock0_length]
  show List.take 32768 (gapBlock0 ++ List.drop 16384 gapHeap) = _
  have e3 : List.drop 16384 gapHeap = List.replicate 16384 0 := by
    rw [gapHeap, List.drop_replicate]
  rw [e3, List.take_of_length_le]
  rw [List.length_append, gapBlock0_length, List.length_replicate]

theorem gapTorA_eq :
    tr_ioWrite sumHash 4 (markBlock gapTor 0) 0 0 16384 gapBlock0 gapHeap =
      some (0, gapTorA) := by
  have hio : (markBlock gapTor 0).io = emptyIo gapInfo := rfl
  have hinf : (markBlock gapTor 0).info = gapInfo := rfl
  have hw : ioWriteBytes gapInfo 4 (emptyIo gapInfo) 0 0 16384 gapBlock0 =
      some (0, { fds := [gapBlock0, [], []], pieceSlot := [0], slotPiece := [0],
                 slotsUsed := 1 }) := by
    unfold ioWriteBytes
    rw [if_pos (by decide), gap_slot]
    simp only [Option.map_some']
    have e1 : arrGet [0] 0 * gapInfo.pieceSize + 0 = 0 := by decide
    rw [e1, gap_write0 gapBlock0 gapBlock0_length]
  unfold tr_ioWrite
  rw [hio, hinf, hw]
  simp only [Option.map_some']
  rw [if_neg (by decide), if_pos (by decide)]
  rfl

theorem gapTorB_eq :
    tr_ioWrite sumHash 4 (markBlock gapTorA 1) 0 16384 16384 gapBlock1 gapHeap =
      some (0, gapTorB) := by
  have hio : (markBlock gapTorA 1).io =
      { fds := [gapBlock0, [], []], pieceSlot := [0], slotPiece := [0], slotsUsed := 1 } := rfl
  have hinf : (markBlock gapTorA 1).info = gapInfo := rfl
  have hw : ioWriteBytes gapInfo 4
      { fds := [gapBlock0, [], []], pieceSlot := [0], slotPiece := [0], slotsUsed := 1 }
      0 16384 16384 gapBlock1 =
      some (0, { fds := [gapBlock0, [], gapBlock1], pieceSlot := [0], slotPiece := [0],
                 slotsUsed := 1 }) := by
    unfold ioWriteBytes
    rw [if_neg (by decide)]
    simp only [Option.map_some']
    have e1 : arrGet [0] 0 * gapInfo.pieceSize + 16384 = 16384 := by decide
    rw [e1, gap_write1 gapBlock0 gapBlock1 gapBlock1_length]
  have hh : hashMatches sumHash gapInfo
      { fds := [gapBlock0, [], gapBlock1], pieceSlot := [0], slotPiece := [0], slotsUsed := 1 }
      0 gapHeap = false := by
    unfold hashMatches
    rw [gap_readBack _ rfl rfl]
    have e : (gapBlock0 ++ List.replicate 16384 0).sum = 16384 := by
      rw [List.sum_append, gapBlock0, List.sum_replicate, List.sum_replicate]
      rfl
    unfold sumHash
    rw [e]
    decide
  unfold tr_ioWrite
  rw [hio, hinf, hw]
  simp only [Option.map_some']
  rw [if_neg (by decide), if_neg (by decide)]
  simp only [hh]
  rfl

/-- C1, the code at the failing input: a torrent of one piece of 32768 bytes
(two blocks of 16384 bytes) in three files of 16384, 0 and 16384 bytes.  Both
blocks are written with the published data and both calls of `tr_ioWrite`
return 0; the first leaves the bitfield and the block table as they were.  At
the second call every block of piece 0 is marked have and the files hold the
published bytes, whose hash is the published hash; but the read back stops at
the empty file, where `fread` of zero bytes returns 0, so the buffer that is
hashed keeps the `malloc` content from byte 16384 on.  The call returns 0 with
bit 0 not set, both blocks reset to 0 and the have count at 0. -/
theorem C1_correct_piece_left_unverified_across_empty_file :
    tr_ioWrite sumHash 4 (markBlock gapTor 0) 0 0 16384 gapBlock0 gapHeap =
      some (0, gapTorA) ∧
    pieceComplete (markBlock gapTor 0) 0 = false ∧
    gapTorA.bitfield = (markBlock gapTor 0).bitfield ∧
    gapTorA.blockHave = (markBlock gapTor 0).blockHave ∧
    tr_ioWrite sumHash 4 (markBlock gapTorA 1) 0 16384 16384 gapBlock1 gapHeap =
      some (0, gapTorB) ∧
    pieceBlocks gapTor 0 = [0, 1] ∧
    pieceComplete (markBlock gapTorA 1) 0 = true ∧
    gapTorB.io.fds = [gapBlock0, [], gapBlock1] ∧
    arrGet gapTorB.io.pieceSlot 0 = 0 ∧
    (sumHash (gapBlock0 ++ gapBlock1)).take 20 = pieceHash gapInfo 0 ∧
    pieceReadBack gapInfo gapTorB.io 0 gapHeap = gapBlock0 ++ List.replicate 16384 0 ∧
    tr_bitfieldHas gapTorB.bitfield 0 = false ∧
    gapTorB.blockHave = [0, 0] ∧ gapTorB.blockHaveCount = 0 :=
  ⟨gapTorA_eq, by decide, rfl, rfl, gapTorB_eq, by decide, by decide, rfl, by decide,
    gap_data_hash, gap_readBack _ rfl rfl, by decide, rfl, rfl⟩

end Transmission
namespace Transmission

theorem scenarioTor_layout : BlockLayout scenarioTor :=
  ⟨by decide, by decide, by decide, by decide⟩

theorem scenarioTor2_eq :
    tr_ioWrite padHash 4 (markBlock scenarioTor 2) 2 0 4 scenarioData2 scenarioHeap =
      some (0, scenarioTor2) := by decide

theorem scenarioTor20_eq :
    tr_ioWrite padHash 4 (markBlock scenarioTor2 0) 0 0 8 scenarioData0 scenarioHeap =
      some (0, scenarioTor20) := by decide

end Transmission
namespace Transmission

/-- The slot tables after the first part of `tr_ioWrite`: those of the call of
`findSlotForPiece` when the piece had no slot, the old ones otherwise. -/
theorem ioWriteBytes_tables (inf : tr_info_t) (fuel : Nat) (io io1 : tr_io_t)
    (index begin length : Int) (buf : List Nat) (c : Int)
    (h : ioWriteBytes inf fuel io index begin length buf = some (c, io1)) :
    (0 ≤ arrGet io.pieceSlot index →
      io1.pieceSlot = io.pieceSlot ∧ io1.slotPiece = io.slotPiece ∧
        io1.slotsUsed = io.slotsUsed) ∧
    (arrGet io.pieceSlot index < 0 →
      ∃ io2, findSlotForPiece inf fuel io index = some io2 ∧
        io1.pieceSlot = io2.pieceSlot ∧ io1.slotPiece = io2.slotPiece ∧
        io1.slotsUsed = io2.slotsUsed) := by
  unfold ioWriteBytes at h
  constructor
  · intro hp
    rw [if_neg (by omega)] at h
    simp only [Option.map_some', Option.some.injEq, Prod.mk.injEq] at h
    obtain ⟨_, h2⟩ := h
    subst h2
    exact ⟨rfl, rfl, rfl⟩
  · intro hp
    rw [if_pos hp] at h
    cases hf : findSlotForPiece inf fuel io index with
    | none => rw [hf] at h; simp at h
    | some io2 =>
      rw [hf] at h
      simp only [Option.map_some', Option.some.injEq, Prod.mk.injEq] at h
      obtain ⟨_, h2⟩ := h
      subst h2
      exact ⟨io2, rfl, rfl, rfl, rfl⟩

/-- C3: when a `tr_ioWrite` completes piece `index` (the write succeeded and all
blocks of the piece are marked have) and the SHA-1 of the bytes read back
differs from the published hash, every block of the piece is reset to 0 in
the block table and no other entry changes, the have count decreases by the
number of blocks of the piece, the piece bitfield is unchanged (bit `index`
stays clear), and the slot tables are those left by the placement: unchanged
when the piece had a slot, those of `findSlotForPiece` otherwise; under the
slot invariants the piece still occupies a slot. -/
theorem C3_hash_mismatch_resets_piece (sha1 : List Nat → List Nat) (fuel : Nat)
    (tor tor1 : tr_torrent_t) (index begin length : Int) (buf heap : List Nat)
    (h : tr_ioWrite sha1 fuel tor index begin length buf heap = some (0, tor1))
    (hc : pieceComplete tor index = true)
    (hh : hashMatches sha1 tor1.info tor1.io index heap = false) :
    (∀ b ∈ pieceBlocks tor index, arrGet tor1.blockHave b = 0) ∧
    (∀ b, b ∉ pieceBlocks tor index → arrGet tor1.blockHave b = arrGet tor.blockHave b) ∧
    tor1.blockHaveCount = tor.blockHaveCount - (pieceBlocks tor index).length ∧
    tor1.bitfield = tor.bitfield ∧
    (0 ≤ arrGet tor.io.pieceSlot index →
      tor1.io.pieceSlot = tor.io.pieceSlot ∧ tor1.io.slotPiece = tor.io.slotPiece ∧
        tor1.io.slotsUsed = tor.io.slotsUsed) ∧
    (arrGet tor.io.pieceSlot index < 0 →
      ∃ io2, findSlotForPiece tor.info fuel tor.io index = some io2 ∧
        tor1.io.pieceSlot = io2.pieceSlot ∧ tor1.io.slotPiece = io2.slotPiece ∧
        tor1.io.slotsUsed = io2.slotsUsed) ∧
    (SlotInv tor.info.pieceCount tor.io → 0 ≤ index → index < tor.info.pieceCount →
      0 ≤ arrGet tor1.io.pieceSlot index ∧
        arrGet tor1.io.slotPiece (arrGet tor1.io.pieceSlot index) = index) := by
  obtain ⟨c, io1, hio, hcase⟩ := tr_ioWrite_cases sha1 fuel tor tor1 index begin length buf heap 0 h
  obtain ⟨s1, s2⟩ := ioWriteBytes_tables tor.info fuel tor.io io1 index begin length buf c hio
  rcases hcase with ⟨_, h1, _⟩ | ⟨_, _, hc', _⟩ | ⟨_, _, _, _, ht⟩ | ⟨_, _, _, hh', ht⟩
  · omega
  · rw [hc] at hc'; exact absurd hc' (by simp)
  · obtain ⟨_, _, _, f4, f5, _, _, f8, _⟩ := resetBlocks_fields { tor with io := io1 }
      (pieceBlocks tor index)
    have hbh := resetBlocks_blockHave { tor with io := io1 } (pieceBlocks tor index)
    subst ht
    rw [f5] at *
    refine ⟨?_, ?_, f8, f4, s1, s2, ?_⟩
    · intro b hb
      rw [hbh b, if_pos hb]
    · intro b hb
      rw [hbh b, if_neg hb]
    · intro hinv h0 hn
      show 0 ≤ arrGet io1.pieceSlot index ∧ arrGet io1.slotPiece (arrGet io1.pieceSlot index) = index
      by_cases hp : 0 ≤ arrGet tor.io.pieceSlot index
      · obtain ⟨e1, e2, _⟩ := s1 hp
        rw [e1, e2]
        rcases hinv.pieces index h0 hn with e | ⟨_, _, e⟩
        · omega
        · exact ⟨hp, e⟩
      · have hp' : arrGet tor.io.pieceSlot index < 0 := by omega
        obtain ⟨io2, hf, e1, e2, _⟩ := s2 hp'
        obtain ⟨hinv2, _, hpl, _⟩ :=
          findSlotForPiece_sound tor.info fuel tor.io io2 hinv index h0 hn hp' hf
        rw [e1, e2]
        have hpos : 0 ≤ arrGet io2.pieceSlot index := (hpl index).mpr (Or.inr rfl)
        rcases hinv2.pieces index h0 hn with e | ⟨_, _, e⟩
        · omega
        · exact ⟨hpos, e⟩
  · exfalso
    subst ht
    have : hashMatches sha1 tor.info io1 index heap = false := hh
    rw [hh'] at this
    exact absurd this (by simp)

theorem scenarioTorBad_eq :
    tr_ioWrite padHash 4 (markBlock scenarioTor2 0) 0 0 8 [1, 2, 3, 4, 5, 6, 7, 0]
      scenarioHeap = some (0, scenarioTorBad) := by decide

/-- Witness for C3: in the scenario torrent, after piece 2, corrupt bytes
complete piece 0; its block is reset and the slot tables stay as placed. -/
theorem C3_witness :
    tr_ioWrite padHash 4 (markBlock scenarioTor2 0) 0 0 8 [1, 2, 3, 4, 5, 6, 7, 0]
      scenarioHeap = some (0, scenarioTorBad) ∧
    pieceComplete (markBlock scenarioTor2 0) 0 = true ∧
    hashMatches padHash scenarioTorBad.info scenarioTorBad.io 0 scenarioHeap = false ∧
    (∀ b ∈ pieceBlocks (markBlock scenarioTor2 0) 0, arrGet scenarioTorBad.blockHave b = 0) ∧
    scenarioTorBad.blockHaveCount = (markBlock scenarioTor2 0).blockHaveCount -
      (pieceBlocks (markBlock scenarioTor2 0) 0).length ∧
    scenarioTorBad.bitfield = (markBlock scenarioTor2 0).bitfield ∧
    scenarioTorBad.blockHave = [0, 0, -1] ∧ scenarioTorBad.io.pieceSlot = [0, -1, 1] :=
  have h := C3_hash_mismatch_resets_piece padHash 4 (markBlock scenarioTor2 0)
    scenarioTorBad 0 0 8 [1, 2, 3, 4, 5, 6, 7, 0] scenarioHeap scenarioTorBad_eq
    (by decide) (by decide)
  ⟨scenarioTorBad_eq, by decide, by decide, h.1, h.2.2.1, h.2.2.2.1, by decide, by decide⟩

end Transmission
namespace Transmission

set_option maxRecDepth 100000 in
set_option maxHeartbeats 1000000 in
/-- C2, the code at the failing input: a torrent of three files of 12, 0 and 8
bytes (`P = 8`, `S = 20`).  The peer sends piece 1 and then piece 0, both
accepted.  Piece 1 is verified in slot 0; the first write of piece 0 makes the
reorderer invert slots 0 and 1, and `writeSlot` for slot 1 stops at the empty
file, where `fwrite` of zero bytes returns 0.  Afterwards bit 1 is still set
and `pieceSlot[1] = 1`, but the bytes read from slot 1 are not those of piece
1 and do not hash to the published hash. -/
theorem C2_verified_piece_lost_across_empty_file :
    peerReceive padHash 4 scenarioHeap emptyFile1 0 (pieceFrame 1 0 scenarioData1) =
      some emptyFile2 ∧
    peerReceive padHash 4 scenarioHeap emptyFile2 0 (pieceFrame 0 0 scenarioData0) =
      some emptyFile3 ∧
    emptyFile3.peers.length = 1 ∧
    tr_bitfieldHas emptyFile2.bitfield 1 = true ∧
    hashMatches padHash emptyFile2.info emptyFile2.io 1 scenarioHeap = true ∧
    tr_bitfieldHas emptyFile3.bitfield 1 = true ∧
    arrGet emptyFile3.io.pieceSlot 1 = 1 ∧
    emptyFile3.io.fds = [[1, 2, 3, 4, 5, 6, 7, 8, 11, 12, 13, 14], [], []] ∧
    pieceReadBack emptyFile3.info emptyFile3.io 1 scenarioHeap = [11, 12, 13, 14, 9, 9, 9, 9] ∧
    hashMatches padHash emptyFile3.info emptyFile3.io 1 scenarioHeap = false := by
  decide

set_option maxRecDepth 100000 in
set_option maxHeartbeats 1000000 in
/-- C7, the code at the failing input: in the scenario session the peer holds
eight requests (three of them for block 1) and sends piece 1 with a wrong
byte.  The frame is accepted, the hash check fails and block 1 is reset to 0;
two entries for block 1 stay in the ring.  When the peer is then removed,
`tr_peerRem` takes one off `blockHave[1]` for each of them: the entry becomes
`-2`, negative, although the bytes of block 1 were discarded; no piece is
verified and the have count is 0. -/
theorem C7_peer_removal_marks_discarded_block_have :
    peerReceive padHash 4 scenarioHeap session1 0
      (pieceFrame 1 0 [11, 12, 13, 14, 15, 16, 17, 0]) = some sessionBad ∧
    sessionBad.peers.length = 1 ∧
    sessionBad.blockHave = [3, 0, 2] ∧ sessionBad.blockHaveCount = 0 ∧
    ringCount sessionBad 1 = 2 ∧
    peerReceive padHash 4 scenarioHeap sessionBad 0 (htonl 2 ++ [0, 0]) =
      some sessionBadGone ∧
    sessionBadGone.peers.length = 0 ∧
    sessionBadGone.blockHave = [0, -2, 0] ∧ arrGet sessionBadGone.blockHave 1 < 0 ∧
    sessionBadGone.blockHaveCount = 0 ∧ sessionBadGone.bitfield = [0] := by
  decide

set_option maxRecDepth 100000 in
set_option maxHeartbeats 1000000 in
/-- C8, the code at the failing input: in the scenario session the peer holds
eight requests and `blockHave` equals the number of ring entries of every
block.  After a `choke` frame from the peer its ring is empty
(`inRequestCount = 0`) and the peer is still there, but `blockHave` is still
`[3, 3, 2]`: no entry was given back. -/
theorem C8_choke_keeps_outstanding_counts :
    session1.blockHave = [3, 3, 2] ∧
    [ringCount session1 0, ringCount session1 1, ringCount session1 2] = [3, 3, 2] ∧
    peerReceive padHash 4 scenarioHeap session1 0 (htonl 1 ++ [0]) = some sessionChoked ∧
    sessionChoked.peers.length = 1 ∧ (getPeer sessionChoked 0).inRequestCount = 0 ∧
    (getPeer sessionChoked 0).peerChoking = 1 ∧
    sessionChoked.blockHave = [3, 3, 2] ∧
    [ringCount sessionChoked 0, ringCount sessionChoked 1, ringCount sessionChoked 2] =
      [0, 0, 0] := by
  decide

end Transmission
namespace Transmission

/-! ## `parseMessage`: piece frames -/

theorem getPeer_setPeer (tor : tr_torrent_t) (i : Nat) (peer : tr_peer_t)
    (hi : i < tor.peers.length) : getPeer (setPeer tor i peer) i = peer := by
  unfold getPeer setPeer
  simp only [List.getD_eq_getElem?_getD, List.getElem?_set, hi, if_true]
  rfl

theorem getPeer_setPeer_ne (tor : tr_torrent_t) (i j : Nat) (peer : tr_peer_t)
    (hij : i ≠ j) : getPeer (setPeer tor i peer) j = getPeer tor j := by
  unfold getPeer setPeer
  simp only [List.getD_eq_getElem?_getD, List.getElem?_set, hij, if_false]

theorem setPeer_peers_length (tor : tr_torrent_t) (i : Nat) (peer : tr_peer_t) :
    (setPeer tor i peer).peers.length = tor.peers.length := by
  simp [setPeer]

theorem getPeer_sendHave (tor : tr_torrent_t) (piece : Int) (i : Nat)
    (hi : i < tor.peers.length) :
    (getPeer (tr_peerSendHave tor piece) i).inRequests = (getPeer tor i).inRequests ∧
    (getPeer (tr_peerSendHave tor piece) i).inRequestCount = (getPeer tor i).inRequestCount := by
  unfold getPeer tr_peerSendHave
  simp only [List.getD_eq_getElem?_getD, List.getElem?_map, List.getElem?_eq_getElem hi,
    Option.map_some', Option.getD_some]
  split <;> exact ⟨rfl, rfl⟩

theorem sendHave_peers_length (tor : tr_torrent_t) (piece : Int) :
    (tr_peerSendHave tor piece).peers.length = tor.peers.length := by
  simp [tr_peerSendHave]

/-- The ring after its head was taken off: one entry less, the others in order. -/
theorem popInRequest_spec (peer : tr_peer_t)
    (hcap : peer.inRequestCount ≤ peer.inRequests.length) :
    (popInRequest peer).inRequestCount = peer.inRequestCount - 1 ∧
    ∀ k, 0 ≤ k → k < peer.inRequestCount - 1 →
      reqGet (popInRequest peer).inRequests k = reqGet peer.inRequests (k + 1) := by
  refine ⟨rfl, ?_⟩
  intro k hk0 hk
  unfold popInRequest ringShift reqGet
  simp only [hk0, if_true, List.take_zero, List.nil_append, zero_add]
  have h1 : 0 ≤ k + 1 := by omega
  rw [if_pos h1]
  simp only [List.getD_eq_getElem?_getD]
  have hlt : k.toNat < (peer.inRequestCount - 1).toNat := by omega
  have hlen : (peer.inRequestCount - 1).toNat ≤ (List.drop 1 peer.inRequests).length := by
    rw [List.length_drop]; omega
  rw [List.getElem?_append_left (by rw [List.length_take]; omega)]
  rw [List.getElem?_take_of_lt hlt, List.getElem?_drop]
  have : 1 + k.toNat = (k + 1).toNat := by omega
  rw [this]

/-- The fields that `tr_ioWrite` never touches. -/
theorem tr_ioWrite_keeps (sha1 : List Nat → List Nat) (fuel : Nat) (tor tor1 : tr_torrent_t)
    (index begin length : Int) (buf heap : List Nat) (r : Int)
    (h : tr_ioWrite sha1 fuel tor index begin length buf heap = some (r, tor1)) :
    tor1.peers = tor.peers ∧ tor1.info = tor.info ∧ tor1.blockSize = tor.blockSize ∧
    tor1.blockCount = tor.blockCount := by
  obtain ⟨c, io1, _, hcase⟩ := tr_ioWrite_cases sha1 fuel tor tor1 index begin length buf heap r h
  rcases hcase with ⟨_, _, ht⟩ | ⟨_, _, _, ht⟩ | ⟨_, _, _, _, ht⟩ | ⟨_, _, _, _, ht⟩
  · subst ht; exact ⟨rfl, rfl, rfl, rfl⟩
  · subst ht; exact ⟨rfl, rfl, rfl, rfl⟩
  · obtain ⟨f1, f2, f3, _, _, f6, _⟩ := resetBlocks_fields { tor with io := io1 }
      (pieceBlocks tor index)
    subst ht
    exact ⟨f6, f1, f2, f3⟩
  · subst ht; exact ⟨rfl, rfl, rfl, rfl⟩

end Transmission
namespace Transmission

/-- What the statistics update leaves alone. -/
theorem countPieceBytes_keeps (tor : tr_torrent_t) (i : Nat) (newBytes : Int)
    (hi : i < tor.peers.length) :
    (countPieceBytes tor i newBytes).1.blockHave = tor.blockHave ∧
    (countPieceBytes tor i newBytes).1.blockHaveCount = tor.blockHaveCount ∧
    (countPieceBytes tor i newBytes).1.bitfield = tor.bitfield ∧
    (countPieceBytes tor i newBytes).1.io = tor.io ∧
    (countPieceBytes tor i newBytes).1.info = tor.info ∧
    (countPieceBytes tor i newBytes).1.blockSize = tor.blockSize ∧
    (countPieceBytes tor i newBytes).1.blockCount = tor.blockCount ∧
    (countPieceBytes tor i newBytes).1.id = tor.id ∧
    (countPieceBytes tor i newBytes).1.peers.length = tor.peers.length ∧
    (∀ j, j ≠ i → getPeer (countPieceBytes tor i newBytes).1 j = getPeer tor j) ∧
    ∃ n, getPeer (countPieceBytes tor i newBytes).1 i = { getPeer tor i with inTotal := n } := by
  unfold countPieceBytes
  simp only
  split
  · refine ⟨rfl, rfl, rfl, rfl, rfl, rfl, rfl, rfl, by simp [setPeer], ?_, ?_⟩
    · intro j hj
      exact getPeer_setPeer_ne tor i j _ (Ne.symm hj)
    · exact ⟨_, getPeer_setPeer tor i _ hi⟩
  · exact ⟨rfl, rfl, rfl, rfl, rfl, rfl, rfl, rfl, rfl, fun _ _ => rfl, ⟨_, rfl⟩⟩

/-- What taking the frame off the buffer leaves alone. -/
theorem consumeFrame_keeps (tor : tr_torrent_t) (i : Nat) (hi : i < tor.peers.length) :
    (consumeFrame tor i).blockHave = tor.blockHave ∧
    (consumeFrame tor i).blockHaveCount = tor.blockHaveCount ∧
    (consumeFrame tor i).bitfield = tor.bitfield ∧
    (consumeFrame tor i).io = tor.io ∧
    (consumeFrame tor i).info = tor.info ∧
    (consumeFrame tor i).blockSize = tor.blockSize ∧
    (consumeFrame tor i).blockCount = tor.blockCount ∧
    (consumeFrame tor i).id = tor.id ∧
    (consumeFrame tor i).peers.length = tor.peers.length ∧
    (∀ j, j ≠ i → getPeer (consumeFrame tor i) j = getPeer tor j) ∧
    getPeer (consumeFrame tor i) i =
      { getPeer tor i with
        buf := ((getPeer tor i).buf.drop 4).drop (ntohl (getPeer tor i).buf).toNat } := by
  unfold consumeFrame
  refine ⟨rfl, rfl, rfl, rfl, rfl, rfl, rfl, rfl, by simp [setPeer], ?_, ?_⟩
  · intro j hj
    exact getPeer_setPeer_ne tor i j _ (Ne.symm hj)
  · exact getPeer_setPeer tor i _ hi

/-- For a complete frame of a connected peer an iteration of `parseMessage`
enters the `switch` with the frame taken off the buffer. -/
theorem parseIter_frame (sha1 : List Nat → List Nat) (fuel : Nat) (heap : List Nat)
    (tor : tr_torrent_t) (i : Nat) (newBytes : Int) (id : Nat)
    (hst : (getPeer tor i).status = PEER_STATUS_CONNECTED)
    (hf : FrameAtFront tor i id) (hmax : frameLen tor i ≤ 9 + tor.blockSize) :
    parseIter sha1 fuel heap tor i newBytes =
      (match parseSwitch sha1 fuel heap (consumeFrame (countPieceBytes tor i newBytes).1 i) i
          (frameLen tor i) id (framePayload tor i) with
       | none => ParseIter.stop ParseOut.undefined
       | some none =>
         ParseIter.stop (ParseOut.violation (consumeFrame (countPieceBytes tor i newBytes).1 i))
       | some (some tor3) => ParseIter.again tor3 (countPieceBytes tor i newBytes).2) := by
  obtain ⟨h4, hl0, hcomp, hid⟩ := hf
  unfold frameLen at hmax
  have e1 : ¬ (getPeer tor i).buf.length < 4 := by omega
  have e2 : ¬ ((getPeer tor i).status.toNat &&& 4 ≠ 0) := by rw [hst]; decide
  have e3 : ¬ (ntohl (getPeer tor i).buf > 9 + tor.blockSize) := by omega
  have e4 : ¬ (ntohl (getPeer tor i).buf = 0) := by omega
  have e5 : ¬ (ntohl (getPeer tor i).buf < 0) := by omega
  have e6 : ¬ ((((getPeer tor i).buf.drop 4).length : Int) < ntohl (getPeer tor i).buf) := by
    omega
  unfold parseIter frameLen framePayload
  simp only [e1, e2, e3, e4, e5, e6, if_false, hid]

end Transmission
namespace Transmission

theorem tr_block_congr (t1 t2 : tr_torrent_t) (h1 : t1.info = t2.info)
    (h2 : t1.blockSize = t2.blockSize) (a b : Int) : tr_block t1 a b = tr_block t2 a b := by
  unfold tr_block; rw [h1, h2]

theorem pieceComplete_congr (t1 t2 : tr_torrent_t) (h1 : t1.info = t2.info)
    (h2 : t1.blockSize = t2.blockSize) (h3 : t1.blockCount = t2.blockCount)
    (h4 : t1.blockHave = t2.blockHave) (p : Int) :
    pieceComplete t1 p = pieceComplete t2 p := by
  unfold pieceComplete
  rw [pieceBlocks_congr t1 t2 h1 h2 h3, h4]

/-- The function `tr_ioWrite` returns when the slot invariants hold, the piece
is one of the torrent and the reorderer may make more than `pieceCount` passes. -/
theorem tr_ioWrite_returns (sha1 : List Nat → List Nat) (fuel : Nat) (tor : tr_torrent_t)
    (index begin length : Int) (buf heap : List Nat)
    (hinv : SlotInv tor.info.pieceCount tor.io) (h0 : 0 ≤ index)
    (hn : index < tor.info.pieceCount) (hfuel : tor.info.pieceCount.toNat < fuel) :
    ∃ r tor1, tr_ioWrite sha1 fuel tor index begin length buf heap = some (r, tor1) := by
  unfold tr_ioWrite ioWriteBytes
  by_cases hp : arrGet tor.io.pieceSlot index < 0
  · rw [if_pos hp]
    obtain ⟨a, _, _⟩ := placePiece_spec tor.info.pieceCount tor.io hinv index h0 hn hp
    obtain ⟨io1, h1⟩ := reorderPieces_returns tor.info fuel _ a (by omega)
    unfold findSlotForPiece
    rw [h1]
    exact ⟨_, _, rfl⟩
  · rw [if_neg hp]
    exact ⟨_, _, rfl⟩

/-- The case `7` of the `switch` for a frame that does not answer the head of
the ring: `return 1`. -/
theorem parsePiece_mismatch (sha1 : List Nat → List Nat) (fuel : Nat) (heap : List Nat)
    (tor : tr_torrent_t) (i : Nat) (len : Int) (payload : List Nat)
    (h : ¬ (ntohl payload = (reqGet (getPeer tor i).inRequests 0).index ∧
      ntohl (payload.drop 4) = (reqGet (getPeer tor i).inRequests 0).begin ∧
      len - 9 = (reqGet (getPeer tor i).inRequests 0).length)) :
    parsePiece sha1 fuel heap tor i len payload = some none := by
  unfold parsePiece
  simp only
  by_cases h1 : ntohl payload ≠ (reqGet (getPeer tor i).inRequests 0).index ∨
      ntohl (payload.drop 4) ≠ (reqGet (getPeer tor i).inRequests 0).begin
  · rw [if_pos h1]
  · rw [if_neg h1]
    have h2 : len - 9 ≠ (reqGet (getPeer tor i).inRequests 0).length := by
      intro e
      apply h
      refine ⟨?_, ?_, e⟩
      · by_contra hne; exact h1 (Or.inl hne)
      · by_contra hne; exact h1 (Or.inr hne)
    rw [if_pos h2]

/-- The case `7` of the `switch` for a frame that answers the head of the ring. -/
theorem parsePiece_match (sha1 : List Nat → List Nat) (fuel : Nat) (heap : List Nat)
    (tor : tr_torrent_t) (i : Nat) (len : Int) (payload : List Nat)
    (h : ntohl payload = (reqGet (getPeer tor i).inRequests 0).index ∧
      ntohl (payload.drop 4) = (reqGet (getPeer tor i).inRequests 0).begin ∧
      len - 9 = (reqGet (getPeer tor i).inRequests 0).length) :
    parsePiece sha1 fuel heap tor i len payload =
      if arrGet tor.blockHave (tr_block tor (ntohl payload) (ntohl (payload.drop 4))) < 0 then
        some (some (setPeer tor i (popInRequest (getPeer tor i))))
      else
        (storeBlock sha1 fuel tor (ntohl payload) (ntohl (payload.drop 4)) (len - 9)
          (payload.drop 8) heap).map (fun tor1 =>
            let tor2 := if tr_bitfieldHas tor1.bitfield (ntohl payload) then
              tr_peerSendHave tor1 (ntohl payload) else tor1
            some (setPeer tor2 i (popInRequest (getPeer tor2 i)))) := by
  unfold parsePiece
  simp only
  obtain ⟨h1, h2, h3⟩ := h
  have e1 : ¬ (ntohl payload ≠ (reqGet (getPeer tor i).inRequests 0).index ∨
      ntohl (payload.drop 4) ≠ (reqGet (getPeer tor i).inRequests 0).begin) := by
    intro hh
    rcases hh with hh | hh
    · exact hh h1
    · exact hh h2
  have e2 : ¬ (len - 9 ≠ (reqGet (getPeer tor i).inRequests 0).length) := fun hh => hh h3
  rw [if_neg e1, if_neg e2, ← h1, ← h2]

end Transmission
namespace Transmission

/-- The state in which the `switch` is entered differs from the state before
the iteration only in the buffer and the byte count of the peer. -/
theorem switchEntry_keeps (tor : tr_torrent_t) (i : Nat) (newBytes : Int)
    (hi : i < tor.peers.length) :
    (consumeFrame (countPieceBytes tor i newBytes).1 i).blockHave = tor.blockHave ∧
    (consumeFrame (countPieceBytes tor i newBytes).1 i).blockHaveCount = tor.blockHaveCount ∧
    (consumeFrame (countPieceBytes tor i newBytes).1 i).bitfield = tor.bitfield ∧
    (consumeFrame (countPieceBytes tor i newBytes).1 i).io = tor.io ∧
    (consumeFrame (countPieceBytes tor i newBytes).1 i).info = tor.info ∧
    (consumeFrame (countPieceBytes tor i newBytes).1 i).blockSize = tor.blockSize ∧
    (consumeFrame (countPieceBytes tor i newBytes).1 i).blockCount = tor.blockCount ∧
    (consumeFrame (countPieceBytes tor i newBytes).1 i).id = tor.id ∧
    (consumeFrame (countPieceBytes tor i newBytes).1 i).peers.length = tor.peers.length ∧
    (∀ j, j ≠ i →
      getPeer (consumeFrame (countPieceBytes tor i newBytes).1 i) j = getPeer tor j) ∧
    ∃ n b, getPeer (consumeFrame (countPieceBytes tor i newBytes).1 i) i =
      { getPeer tor i with inTotal := n, buf := b } := by
  obtain ⟨a1, a2, a3, a4, a5, a6, a7, a8, a9, a10, n, a11⟩ :=
    countPieceBytes_keeps tor i newBytes hi
  obtain ⟨b1, b2, b3, b4, b5, b6, b7, b8, b9, b10, b11⟩ :=
    consumeFrame_keeps (countPieceBytes tor i newBytes).1 i (by rw [a9]; exact hi)
  refine ⟨b1.trans a1, b2.trans a2, b3.trans a3, b4.trans a4, b5.trans a5, b6.trans a6,
    b7.trans a7, b8.trans a8, b9.trans a9, fun j hj => (b10 j hj).trans (a10 j hj), n,
    ((getPeer tor i).buf.drop 4).drop (ntohl (getPeer tor i).buf).toNat, ?_⟩
  rw [b11, a11]

end Transmission
namespace Transmission

theorem getPeer_congr (t1 t2 : tr_torrent_t) (h : t1.peers = t2.peers) (i : Nat) :
    getPeer t1 i = getPeer t2 i := by
  unfold getPeer; rw [h]

/-- What `storeBlock` does to the block table: the block becomes have, unless
the write completes the piece and the hash check fails, which resets the
whole piece. -/
theorem storeBlock_spec (sha1 : List Nat → List Nat) (fuel : Nat) (tor tor1 : tr_torrent_t)
    (index begin length : Int) (data heap : List Nat)
    (hb : 0 ≤ tr_block tor index begin ∧ tr_block tor index begin < tor.blockHave.length)
    (h : storeBlock sha1 fuel tor index begin length data heap = some tor1) :
    tor1.peers = tor.peers ∧ tor1.info = tor.info ∧
    ((arrGet tor1.blockHave (tr_block tor index begin) = -1 ∧
        tor1.blockHaveCount = tor.blockHaveCount + 1 ∧
        ∀ b, b ≠ tr_block tor index begin → arrGet tor1.blockHave b = arrGet tor.blockHave b) ∨
     (pieceComplete (markBlock tor (tr_block tor index begin)) index = true ∧
        hashMatches sha1 tor1.info tor1.io index heap = false ∧
        tor1.bitfield = tor.bitfield ∧
        (∀ b ∈ pieceBlocks tor index, arrGet tor1.blockHave b = 0) ∧
        tor1.blockHaveCount = tor.blockHaveCount + 1 - (pieceBlocks tor index).length)) := by
  unfold storeBlock at h
  cases hw : tr_ioWrite sha1 fuel (markBlock tor (tr_block tor index begin)) index begin length
      data heap with
  | none => rw [hw] at h; simp at h
  | some w =>
    obtain ⟨r, t⟩ := w
    rw [hw] at h
    simp only [Option.map_some', Option.some.injEq] at h
    subst h
    obtain ⟨k1, k2, _, _⟩ := tr_ioWrite_keeps sha1 fuel _ _ index begin length data heap r hw
    refine ⟨k1, k2, ?_⟩
    have hmark : arrGet (markBlock tor (tr_block tor index begin)).blockHave
        (tr_block tor index begin) = -1 ∧
        ∀ b, b ≠ tr_block tor index begin →
          arrGet (markBlock tor (tr_block tor index begin)).blockHave b =
            arrGet tor.blockHave b := by
      simp only [markBlock]
      refine ⟨?_, ?_⟩
      · rw [arrGet_arrSet, if_pos ⟨rfl, hb.1, hb.2⟩]
      · intro b hne
        rw [arrGet_arrSet, if_neg (fun hh => hne hh.1.symm)]
    obtain ⟨c, io1, _, hcase⟩ := tr_ioWrite_cases sha1 fuel _ _ index begin length data heap r hw
    rcases hcase with ⟨_, _, ht⟩ | ⟨_, _, _, ht⟩ | ⟨_, _, hc, hh, ht⟩ | ⟨_, _, _, _, ht⟩
    · subst ht; exact Or.inl ⟨hmark.1, rfl, hmark.2⟩
    · subst ht; exact Or.inl ⟨hmark.1, rfl, hmark.2⟩
    · right
      obtain ⟨f1, _, _, f4, f5, _, _, f8, _⟩ := resetBlocks_fields
        { markBlock tor (tr_block tor index begin) with io := io1 }
        (pieceBlocks (markBlock tor (tr_block tor index begin)) index)
      have hbh := resetBlocks_blockHave
        { markBlock tor (tr_block tor index begin) with io := io1 }
        (pieceBlocks (markBlock tor (tr_block tor index begin)) index)
      have hpb : pieceBlocks (markBlock tor (tr_block tor index begin)) index =
          pieceBlocks tor index := pieceBlocks_congr _ _ rfl rfl rfl index
      subst ht
      refine ⟨hc, ?_, f4, ?_, ?_⟩
      · rw [f1, f5]; exact hh
      · intro b hb'
        rw [hbh b, if_pos (by rw [hpb]; exact hb')]
      · rw [f8, hpb]; rfl
    · subst ht; exact Or.inl ⟨hmark.1, rfl, hmark.2⟩

/-- What `storeBlock` does to the block table, case by case: when the write of
the bytes succeeds, the block completes its piece and the bytes read back do
not hash to the published hash, the whole piece is reset; in every other case
the block is have afterwards. -/
theorem storeBlock_exact (sha1 : List Nat → List Nat) (fuel : Nat) (tor tor1 : tr_torrent_t)
    (index begin length : Int) (data heap : List Nat)
    (hb : 0 ≤ tr_block tor index begin ∧ tr_block tor index begin < tor.blockHave.length)
    (h : storeBlock sha1 fuel tor index begin length data heap = some tor1) :
    ∃ c, ioWriteBytes tor.info fuel tor.io index begin length data = some (c, tor1.io) ∧
      ((c = 0 ∧ pieceComplete (markBlock tor (tr_block tor index begin)) index = true ∧
          (sha1 (pieceReadBack tor.info tor1.io index heap)).take 20 ≠ pieceHash tor.info index) →
        tor1.bitfield = tor.bitfield ∧
        (∀ b ∈ pieceBlocks tor index, arrGet tor1.blockHave b = 0) ∧
        tor1.blockHaveCount = tor.blockHaveCount + 1 - (pieceBlocks tor index).length) ∧
      (¬ (c = 0 ∧ pieceComplete (markBlock tor (tr_block tor index begin)) index = true ∧
          (sha1 (pieceReadBack tor.info tor1.io index heap)).take 20 ≠ pieceHash tor.info index) →
        arrGet tor1.blockHave (tr_block tor index begin) = -1 ∧
        tor1.blockHaveCount = tor.blockHaveCount + 1 ∧
        (∀ b, b ≠ tr_block tor index begin → arrGet tor1.blockHave b = arrGet tor.blockHave b) ∧
        tor1.bitfield =
          if c = 0 ∧ pieceComplete (markBlock tor (tr_block tor index begin)) index = true
          then tr_bitfieldAdd tor.bitfield index else tor.bitfield) := by
  unfold storeBlock at h
  cases hw : tr_ioWrite sha1 fuel (markBlock tor (tr_block tor index begin)) index begin length
      data heap with
  | none => rw [hw] at h; simp at h
  | some w =>
    obtain ⟨r, t⟩ := w
    rw [hw] at h
    simp only [Option.map_some', Option.some.injEq] at h
    subst h
    have hmark : arrGet (markBlock tor (tr_block tor index begin)).blockHave
        (tr_block tor index begin) = -1 ∧
        ∀ b, b ≠ tr_block tor index begin →
          arrGet (markBlock tor (tr_block tor index begin)).blockHave b =
            arrGet tor.blockHave b := by
      simp only [markBlock]
      refine ⟨?_, ?_⟩
      · rw [arrGet_arrSet, if_pos ⟨rfl, hb.1, hb.2⟩]
      · intro b hne
        rw [arrGet_arrSet, if_neg (fun hh => hne hh.1.symm)]
    obtain ⟨c, io1, hio, hcase⟩ :=
      tr_ioWrite_cases sha1 fuel _ _ index begin length data heap r hw
    have hio' : ioWriteBytes tor.info fuel tor.io index begin length data = some (c, io1) := hio
    rcases hcase with ⟨hc, _, ht⟩ | ⟨hc0, _, hc, ht⟩ | ⟨hc0, _, hc, hh, ht⟩ | ⟨hc0, _, hc, hh, ht⟩
    · subst ht
      refine ⟨c, hio', fun hr => absurd hr.1 hc, fun _ => ⟨hmark.1, rfl, hmark.2, ?_⟩⟩
      rw [if_neg (fun hx => hc hx.1)]
      rfl
    · subst ht
      refine ⟨c, hio', fun hr => ?_, fun _ => ⟨hmark.1, rfl, hmark.2, ?_⟩⟩
      · rw [hc] at hr
        exact absurd hr.2.1 (by simp)
      · rw [if_neg (fun hx => by rw [hc] at hx; exact absurd hx.2 (by simp))]
        rfl
    · obtain ⟨f1, _, _, f4, f5, _, _, f8, _⟩ := resetBlocks_fields
        { markBlock tor (tr_block tor index begin) with io := io1 }
        (pieceBlocks (markBlock tor (tr_block tor index begin)) index)
      have hbh := resetBlocks_blockHave
        { markBlock tor (tr_block tor index begin) with io := io1 }
        (pieceBlocks (markBlock tor (tr_block tor index begin)) index)
      have hpb : pieceBlocks (markBlock tor (tr_block tor index begin)) index =
          pieceBlocks tor index := pieceBlocks_congr _ _ rfl rfl rfl index
      have hne : (sha1 (pieceReadBack tor.info io1 index heap)).take 20 ≠
          pieceHash tor.info index := by
        intro e
        have : hashMatches sha1 tor.info io1 index heap = true := by
          unfold hashMatches
          exact decide_eq_true e
        have hh' : hashMatches sha1 tor.info io1 index heap = false := hh
        rw [this] at hh'
        exact absurd hh' (by simp)
      subst ht
      refine ⟨c, by rw [f5]; exact hio', fun _ => ⟨f4, ?_, ?_⟩, fun hn => ?_⟩
      · intro b hb'
        rw [hbh b, if_pos (by rw [hpb]; exact hb')]
      · rw [f8, hpb]; rfl
      · exfalso
        apply hn
        refine ⟨hc0, hc, ?_⟩
        rw [f5]
        exact hne
    · have heq : (sha1 (pieceReadBack tor.info io1 index heap)).take 20 =
          pieceHash tor.info index := by
        have hh' : hashMatches sha1 tor.info io1 index heap = true := hh
        unfold hashMatches at hh'
        exact of_decide_eq_true hh'
      subst ht
      refine ⟨c, hio', fun hr => absurd heq hr.2.2, fun _ => ⟨hmark.1, rfl, hmark.2, ?_⟩⟩
      rw [if_pos ⟨hc0, hc⟩]
      rfl

end Transmission
namespace Transmission

/-- The case `7` of the `switch` is the piece case. -/
theorem parseSwitch_piece (sha1 : List Nat → List Nat) (fuel : Nat) (heap : List Nat)
    (tor : tr_torrent_t) (i : Nat) (len : Int) (payload : List Nat) :
    parseSwitch sha1 fuel heap tor i len 7 payload =
      parsePiece sha1 fuel heap tor i len payload := by
  simp [parseSwitch]

/-- An iteration of `parseMessage` for a piece frame that answers the head of
the ring of a connected peer. -/
theorem parseIter_piece_match (sha1 : List Nat → List Nat) (fuel : Nat)
    (heap : List Nat) (tor : tr_torrent_t) (i : Nat) (newBytes : Int)
    (hi : i < tor.peers.length)
    (hst : (getPeer tor i).status = PEER_STATUS_CONNECTED)
    (hf : FrameAtFront tor i 7)
    (hrlen : (ringHead tor i).length ≤ tor.blockSize)
    (hm : PieceMatchesHead tor i) :
    parseIter sha1 fuel heap tor i newBytes =
      (match (if arrGet tor.blockHave
            (tr_block tor (ringHead tor i).index (ringHead tor i).begin) < 0 then
          some (some (setPeer (consumeFrame (countPieceBytes tor i newBytes).1 i) i
            (popInRequest (getPeer (consumeFrame (countPieceBytes tor i newBytes).1 i) i))))
        else
          (storeBlock sha1 fuel (consumeFrame (countPieceBytes tor i newBytes).1 i)
            (ringHead tor i).index (ringHead tor i).begin
            (frameLen tor i - 9) ((framePayload tor i).drop 8) heap).map (fun tor1 =>
              let tor3 := if tr_bitfieldHas tor1.bitfield (ringHead tor i).index then
                tr_peerSendHave tor1 (ringHead tor i).index else tor1
              some (setPeer tor3 i (popInRequest (getPeer tor3 i))))) with
       | none => ParseIter.stop ParseOut.undefined
       | some none =>
         ParseIter.stop (ParseOut.violation (consumeFrame (countPieceBytes tor i newBytes).1 i))
       | some (some tor3) => ParseIter.again tor3 (countPieceBytes tor i newBytes).2) := by
  obtain ⟨k1, _, _, _, k5, k6, _, _, _, _, n, b, k11⟩ := switchEntry_keeps tor i newBytes hi
  have hring2 : (getPeer (consumeFrame (countPieceBytes tor i newBytes).1 i) i).inRequests =
      (getPeer tor i).inRequests := by rw [k11]
  have hmax : frameLen tor i ≤ 9 + tor.blockSize := by
    have m3 := hm.2.2
    linarith
  obtain ⟨m1, m2, m3⟩ := hm
  rw [parseIter_frame sha1 fuel heap tor i newBytes 7 hst hf hmax]
  rw [parseSwitch_piece, parsePiece_match sha1 fuel heap _ i (frameLen tor i) (framePayload tor i)
    (by rw [hring2]; exact ⟨m1, m2, m3⟩)]
  have e1 : ntohl (framePayload tor i) = (ringHead tor i).index := m1
  have e2 : ntohl ((framePayload tor i).drop 4) = (ringHead tor i).begin := m2
  rw [e1, e2, tr_block_congr _ tor k5 k6, k1]

/-- The ring of the peer after the head was popped in the state in which the
`switch` was entered. -/
theorem ringPopped_after_pop (tor t3 : tr_torrent_t) (i : Nat)
    (hcap : (getPeer tor i).inRequestCount ≤ (getPeer tor i).inRequests.length)
    (hi3 : i < t3.peers.length)
    (h1 : (getPeer t3 i).inRequests = (getPeer tor i).inRequests)
    (h2 : (getPeer t3 i).inRequestCount = (getPeer tor i).inRequestCount) :
    RingPopped tor (setPeer t3 i (popInRequest (getPeer t3 i))) i := by
  unfold RingPopped
  rw [getPeer_setPeer _ _ _ hi3]
  obtain ⟨p1, p2⟩ := popInRequest_spec (getPeer t3 i) (by rw [h1, h2]; exact hcap)
  rw [h1, h2] at p2
  rw [h2] at p1
  exact ⟨p1, p2⟩

/-- Part of C9: a violation is reported exactly for a frame that does not
answer the head of the ring. -/
theorem piece_violation_iff (sha1 : List Nat → List Nat) (fuel : Nat)
    (heap : List Nat) (tor : tr_torrent_t) (i : Nat) (newBytes : Int)
    (hi : i < tor.peers.length)
    (hst : (getPeer tor i).status = PEER_STATUS_CONNECTED)
    (hf : FrameAtFront tor i 7)
    (hrlen : (ringHead tor i).length ≤ tor.blockSize) :
    ((∃ t, parseIter sha1 fuel heap tor i newBytes = ParseIter.stop (ParseOut.violation t)) ↔
      ¬ PieceMatchesHead tor i) := by
  constructor
  · rintro ⟨t, ht⟩ hm
    rw [parseIter_piece_match sha1 fuel heap tor i newBytes hi hst hf hrlen hm] at ht
    by_cases hh : arrGet tor.blockHave
        (tr_block tor (ringHead tor i).index (ringHead tor i).begin) < 0
    · rw [if_pos hh] at ht
      simp at ht
    · rw [if_neg hh] at ht
      cases hs : storeBlock sha1 fuel (consumeFrame (countPieceBytes tor i newBytes).1 i)
          (ringHead tor i).index (ringHead tor i).begin
          (frameLen tor i - 9) ((framePayload tor i).drop 8) heap with
      | none => rw [hs] at ht; simp at ht
      | some t1 => rw [hs] at ht; simp at ht
  · intro hm
    obtain ⟨_, _, _, _, _, _, _, _, _, _, n, b, k11⟩ := switchEntry_keeps tor i newBytes hi
    have hring2 : (getPeer (consumeFrame (countPieceBytes tor i newBytes).1 i) i).inRequests =
        (getPeer tor i).inRequests := by rw [k11]
    by_cases hmax : frameLen tor i ≤ 9 + tor.blockSize
    · refine ⟨consumeFrame (countPieceBytes tor i newBytes).1 i, ?_⟩
      rw [parseIter_frame sha1 fuel heap tor i newBytes 7 hst hf hmax]
      rw [parseSwitch_piece, parsePiece_mismatch sha1 fuel heap _ i (frameLen tor i) (framePayload tor i)
        (by rw [hring2]; exact hm)]
    · refine ⟨tor, ?_⟩
      obtain ⟨h4, _, _, _⟩ := hf
      unfold frameLen at hmax
      unfold parseIter
      have e1 : ¬ (getPeer tor i).buf.length < 4 := Nat.not_lt.mpr h4
      have e2 : ¬ ((getPeer tor i).status.toNat &&& 4 ≠ 0) := by rw [hst]; decide
      have e3 : ntohl (getPeer tor i).buf > 9 + tor.blockSize := not_le.mp hmax
      simp only [e1, e2, e3, if_false, if_true]

/-- Part of C9: a frame for a block that is already have is discarded and the
head of the ring popped. -/
theorem piece_frame_already_have (sha1 : List Nat → List Nat) (fuel : Nat)
    (heap : List Nat) (tor : tr_torrent_t) (i : Nat) (newBytes : Int)
    (hi : i < tor.peers.length)
    (hst : (getPeer tor i).status = PEER_STATUS_CONNECTED)
    (hf : FrameAtFront tor i 7)
    (hcap : (getPeer tor i).inRequestCount ≤ (getPeer tor i).inRequests.length)
    (hrlen : (ringHead tor i).length ≤ tor.blockSize)
    (hm : PieceMatchesHead tor i)
    (hh : arrGet tor.blockHave
      (tr_block tor (ringHead tor i).index (ringHead tor i).begin) < 0) :
    ∃ t nb, parseIter sha1 fuel heap tor i newBytes = ParseIter.again t nb ∧
      t.blockHave = tor.blockHave ∧ t.blockHaveCount = tor.blockHaveCount ∧
      t.bitfield = tor.bitfield ∧ t.io = tor.io ∧ RingPopped tor t i := by
  obtain ⟨k1, k2, k3, k4, _, _, _, _, k9, _, n, b, k11⟩ := switchEntry_keeps tor i newBytes hi
  refine ⟨setPeer (consumeFrame (countPieceBytes tor i newBytes).1 i) i
      (popInRequest (getPeer (consumeFrame (countPieceBytes tor i newBytes).1 i) i)),
    (countPieceBytes tor i newBytes).2, ?_, k1, k2, k3, k4, ?_⟩
  · rw [parseIter_piece_match sha1 fuel heap tor i newBytes hi hst hf hrlen hm, if_pos hh]
  · exact ringPopped_after_pop tor _ i hcap (by rw [k9]; exact hi) (by rw [k11]) (by rw [k11])

/-- Part of C9: a frame for a block that is not yet have.  The head is popped
and the bytes are written; the piece is reset exactly when the write
succeeded, the block completed its piece and the piece read back does not hash
to the published hash, and in every other case the block is have. -/
theorem piece_frame_not_have (sha1 : List Nat → List Nat) (fuel : Nat)
    (heap : List Nat) (tor : tr_torrent_t) (i : Nat) (newBytes : Int)
    (hi : i < tor.peers.length)
    (hst : (getPeer tor i).status = PEER_STATUS_CONNECTED)
    (hf : FrameAtFront tor i 7)
    (hcap : (getPeer tor i).inRequestCount ≤ (getPeer tor i).inRequests.length)
    (hrlen : (ringHead tor i).length ≤ tor.blockSize)
    (hblock : 0 ≤ tr_block tor (ringHead tor i).index (ringHead tor i).begin ∧
      tr_block tor (ringHead tor i).index (ringHead tor i).begin < tor.blockHave.length)
    (hm : PieceMatchesHead tor i)
    (hh : 0 ≤ arrGet tor.blockHave
      (tr_block tor (ringHead tor i).index (ringHead tor i).begin))
    (t : tr_torrent_t) (nb : Int)
    (ht : parseIter sha1 fuel heap tor i newBytes = ParseIter.again t nb) :
    RingPopped tor t i ∧
    ∃ c, ioWriteBytes tor.info fuel tor.io (ringHead tor i).index (ringHead tor i).begin
        (frameLen tor i - 9) ((framePayload tor i).drop 8) = some (c, t.io) ∧
      ((c = 0 ∧
          pieceComplete (markBlock tor
            (tr_block tor (ringHead tor i).index (ringHead tor i).begin))
            (ringHead tor i).index = true ∧
          (sha1 (pieceReadBack tor.info t.io (ringHead tor i).index heap)).take 20 ≠
            pieceHash tor.info (ringHead tor i).index) →
        t.bitfield = tor.bitfield ∧
        (∀ b ∈ pieceBlocks tor (ringHead tor i).index, arrGet t.blockHave b = 0) ∧
        t.blockHaveCount =
          tor.blockHaveCount + 1 - (pieceBlocks tor (ringHead tor i).index).length) ∧
      (¬ (c = 0 ∧
          pieceComplete (markBlock tor
            (tr_block tor (ringHead tor i).index (ringHead tor i).begin))
            (ringHead tor i).index = true ∧
          (sha1 (pieceReadBack tor.info t.io (ringHead tor i).index heap)).take 20 ≠
            pieceHash tor.info (ringHead tor i).index) →
        arrGet t.blockHave (tr_block tor (ringHead tor i).index (ringHead tor i).begin) = -1 ∧
        t.blockHaveCount = tor.blockHaveCount + 1 ∧
        (∀ b, b ≠ tr_block tor (ringHead tor i).index (ringHead tor i).begin →
          arrGet t.blockHave b = arrGet tor.blockHave b) ∧
        t.bitfield =
          if c = 0 ∧ pieceComplete (markBlock tor
              (tr_block tor (ringHead tor i).index (ringHead tor i).begin))
              (ringHead tor i).index = true
          then tr_bitfieldAdd tor.bitfield (ringHead tor i).index else tor.bitfield) := by
  obtain ⟨k1, k2, k3, k4, k5, k6, k7, _, k9, _, n, b, k11⟩ := switchEntry_keeps tor i newBytes hi
  rw [parseIter_piece_match sha1 fuel heap tor i newBytes hi hst hf hrlen hm,
    if_neg (not_lt.mpr hh)] at ht
  generalize consumeFrame (countPieceBytes tor i newBytes).1 i = tor2 at *
  have hi2 : i < tor2.peers.length := by rw [k9]; exact hi
  cases hs : storeBlock sha1 fuel tor2 (ringHead tor i).index (ringHead tor i).begin
      (frameLen tor i - 9) ((framePayload tor i).drop 8) heap with
  | none => rw [hs] at ht; simp at ht
  | some t1 =>
    rw [hs] at ht
    simp only [Option.map_some', ParseIter.again.injEq] at ht
    obtain ⟨ht, _⟩ := ht
    have hblk : tr_block tor2 (ringHead tor i).index (ringHead tor i).begin =
        tr_block tor (ringHead tor i).index (ringHead tor i).begin :=
      tr_block_congr tor2 tor k5 k6 _ _
    obtain ⟨s1, _, _⟩ := storeBlock_spec sha1 fuel tor2 t1 _ _ _ _ heap
      (by rw [hblk, k1]; exact hblock) hs
    obtain ⟨c, e1, e2, e3⟩ := storeBlock_exact sha1 fuel tor2 t1 _ _ _ _ heap
      (by rw [hblk, k1]; exact hblock) hs
    have hpb : pieceBlocks tor2 (ringHead tor i).index =
        pieceBlocks tor (ringHead tor i).index := pieceBlocks_congr tor2 tor k5 k6 k7 _
    have hpc : pieceComplete (markBlock tor2
        (tr_block tor (ringHead tor i).index (ringHead tor i).begin)) (ringHead tor i).index =
        pieceComplete (markBlock tor
        (tr_block tor (ringHead tor i).index (ringHead tor i).begin)) (ringHead tor i).index :=
      pieceComplete_congr
        (markBlock tor2 (tr_block tor (ringHead tor i).index (ringHead tor i).begin))
        (markBlock tor (tr_block tor (ringHead tor i).index (ringHead tor i).begin))
        k5 k6 k7 (by show arrSet tor2.blockHave _ _ = arrSet tor.blockHave _ _; rw [k1]) _
    simp only [hblk, k1, k2, k3, k5, hpb, hpc] at e2 e3
    rw [k5, k4] at e1
    have hp1 : getPeer t1 i = getPeer tor2 i := getPeer_congr t1 tor2 s1 i
    have hr1 : (getPeer t1 i).inRequests = (getPeer tor i).inRequests := by rw [hp1, k11]
    have hc1 : (getPeer t1 i).inRequestCount = (getPeer tor i).inRequestCount := by
      rw [hp1, k11]
    have hi1 : i < t1.peers.length := by rw [s1]; exact hi2
    by_cases hbit : tr_bitfieldHas t1.bitfield (ringHead tor i).index = true
    · simp only [hbit, if_true] at ht
      obtain ⟨q1, q2⟩ := getPeer_sendHave t1 (ringHead tor i).index i hi1
      subst ht
      exact ⟨ringPopped_after_pop tor _ i hcap
        (by rw [sendHave_peers_length]; exact hi1) (q1.trans hr1) (q2.trans hc1),
        c, e1, e2, e3⟩
    · simp only [hbit, if_false, Bool.false_eq_true] at ht
      subst ht
      exact ⟨ringPopped_after_pop tor _ i hcap hi1 hr1 hc1, c, e1, e2, e3⟩

/-- Part of C9: with the slot invariants and enough passes for the reorderer,
a frame that answers the head of the ring leads to the next iteration. -/
theorem piece_frame_goes_on (sha1 : List Nat → List Nat) (fuel : Nat)
    (heap : List Nat) (tor : tr_torrent_t) (i : Nat) (newBytes : Int)
    (hi : i < tor.peers.length)
    (hst : (getPeer tor i).status = PEER_STATUS_CONNECTED)
    (hf : FrameAtFront tor i 7)
    (hrlen : (ringHead tor i).length ≤ tor.blockSize)
    (hm : PieceMatchesHead tor i)
    (hinv : SlotInv tor.info.pieceCount tor.io)
    (h0 : 0 ≤ (ringHead tor i).index) (hn : (ringHead tor i).index < tor.info.pieceCount)
    (hfuel : tor.info.pieceCount.toNat < fuel) :
    ∃ t nb, parseIter sha1 fuel heap tor i newBytes = ParseIter.again t nb := by
  obtain ⟨_, _, _, k4, k5, _, _, _, _, _, _⟩ := switchEntry_keeps tor i newBytes hi
  rw [parseIter_piece_match sha1 fuel heap tor i newBytes hi hst hf hrlen hm]
  generalize consumeFrame (countPieceBytes tor i newBytes).1 i = tor2 at *
  by_cases hh : arrGet tor.blockHave
      (tr_block tor (ringHead tor i).index (ringHead tor i).begin) < 0
  · rw [if_pos hh]; exact ⟨_, _, rfl⟩
  · rw [if_neg hh]
    obtain ⟨r, t1, hw⟩ := tr_ioWrite_returns sha1 fuel
      (markBlock tor2 (tr_block tor2 (ringHead tor i).index (ringHead tor i).begin))
      (ringHead tor i).index (ringHead tor i).begin (frameLen tor i - 9)
      ((framePayload tor i).drop 8) heap
      (by show SlotInv tor2.info.pieceCount tor2.io; rw [k5, k4]; exact hinv) h0
      (by show _ < tor2.info.pieceCount; rw [k5]; exact hn)
      (by show tor2.info.pieceCount.toNat < fuel; rw [k5]; exact hfuel)
    have hs : storeBlock sha1 fuel tor2 (ringHead tor i).index (ringHead tor i).begin
        (frameLen tor i - 9) ((framePayload tor i).drop 8) heap = some t1 := by
      unfold storeBlock; rw [hw]; rfl
    rw [hs]
    exact ⟨_, _, rfl⟩

end Transmission
namespace Transmission

/-- C9 (as amended): for a connected peer with a non-empty inbound ring whose
head was queued by `tr_peerSendRequest` (length at most the block size, block
inside the block table), and a piece frame at the front of its buffer:
the iteration of `parseMessage` reports a violation exactly when (index,
begin) or the payload length (frame length - 9) differs from the head of the
ring, and `parseMessage` then returns that violation (after which the peer is
dropped).  For a frame that answers the head: if the block is already have,
the block table, have count, bitfield and files are unchanged and the head is
popped, the other entries keeping their order; if the block is not yet have,
the head is popped and the payload is written at the place of the block, with
result `c` (0 when the write succeeded).  When `c = 0`, the block completes
its piece and the first 20 bytes of the hash of the piece as read back differ
from the published hash, every block of the piece is reset to 0, the bitfield
is unchanged and the have count is the old one plus one minus the number of
blocks of the piece.  In every other case, a failed write included, the block
becomes have (`-1`), the have count grows by one, no other entry of the table
changes, and the bitfield gains the piece exactly when `c = 0` and the block
completed the piece.  With the slot invariants and enough passes for the
reorderer the frame is always taken in. -/
theorem C9_piece_frame_checked_against_ring_head (sha1 : List Nat → List Nat)
    (fuel : Nat) (heap : List Nat) (tor : tr_torrent_t) (i : Nat) (newBytes : Int)
    (hi : i < tor.peers.length)
    (hst : (getPeer tor i).status = PEER_STATUS_CONNECTED)
    (hf : FrameAtFront tor i 7)
    (_hring : 0 < (getPeer tor i).inRequestCount)
    (hcap : (getPeer tor i).inRequestCount ≤ (getPeer tor i).inRequests.length)
    (hrlen : (ringHead tor i).length ≤ tor.blockSize)
    (hblock : 0 ≤ tr_block tor (ringHead tor i).index (ringHead tor i).begin ∧
      tr_block tor (ringHead tor i).index (ringHead tor i).begin < tor.blockHave.length) :
    ((∃ t, parseIter sha1 fuel heap tor i newBytes = ParseIter.stop (ParseOut.violation t)) ↔
      ¬ PieceMatchesHead tor i) ∧
    (∀ t, parseIter sha1 fuel heap tor i newBytes = ParseIter.stop (ParseOut.violation t) →
      parseMessage sha1 fuel heap tor i newBytes = ParseOut.violation t) ∧
    (PieceMatchesHead tor i →
      arrGet tor.blockHave (tr_block tor (ringHead tor i).index (ringHead tor i).begin) < 0 →
      ∃ t nb, parseIter sha1 fuel heap tor i newBytes = ParseIter.again t nb ∧
        t.blockHave = tor.blockHave ∧ t.blockHaveCount = tor.blockHaveCount ∧
        t.bitfield = tor.bitfield ∧ t.io = tor.io ∧ RingPopped tor t i) ∧
    (PieceMatchesHead tor i →
      0 ≤ arrGet tor.blockHave (tr_block tor (ringHead tor i).index (ringHead tor i).begin) →
      ∀ t nb, parseIter sha1 fuel heap tor i newBytes = ParseIter.again t nb →
        RingPopped tor t i ∧
        ∃ c, ioWriteBytes tor.info fuel tor.io (ringHead tor i).index (ringHead tor i).begin
            (frameLen tor i - 9) ((framePayload tor i).drop 8) = some (c, t.io) ∧
          ((c = 0 ∧
              pieceComplete (markBlock tor
                (tr_block tor (ringHead tor i).index (ringHead tor i).begin))
                (ringHead tor i).index = true ∧
              (sha1 (pieceReadBack tor.info t.io (ringHead tor i).index heap)).take 20 ≠
                pieceHash tor.info (ringHead tor i).index) →
            t.bitfield = tor.bitfield ∧
            (∀ b ∈ pieceBlocks tor (ringHead tor i).index, arrGet t.blockHave b = 0) ∧
            t.blockHaveCount =
              tor.blockHaveCount + 1 - (pieceBlocks tor (ringHead tor i).index).length) ∧
          (¬ (c = 0 ∧
              pieceComplete (markBlock tor
                (tr_block tor (ringHead tor i).index (ringHead tor i).begin))
                (ringHead tor i).index = true ∧
              (sha1 (pieceReadBack tor.info t.io (ringHead tor i).index heap)).take 20 ≠
                pieceHash tor.info (ringHead tor i).index) →
            arrGet t.blockHave
              (tr_block tor (ringHead tor i).index (ringHead tor i).begin) = -1 ∧
            t.blockHaveCount = tor.blockHaveCount + 1 ∧
            (∀ b, b ≠ tr_block tor (ringHead tor i).index (ringHead tor i).begin →
              arrGet t.blockHave b = arrGet tor.blockHave b) ∧
            t.bitfield =
              if c = 0 ∧ pieceComplete (markBlock tor
                  (tr_block tor (ringHead tor i).index (ringHead tor i).begin))
                  (ringHead tor i).index = true
              then tr_bitfieldAdd tor.bitfield (ringHead tor i).index
              else tor.bitfield)) ∧
    (PieceMatchesHead tor i → SlotInv tor.info.pieceCount tor.io →
      0 ≤ (ringHead tor i).index → (ringHead tor i).index < tor.info.pieceCount →
      tor.info.pieceCount.toNat < fuel →
      ∃ t nb, parseIter sha1 fuel heap tor i newBytes = ParseIter.again t nb) := by
  refine ⟨piece_violation_iff sha1 fuel heap tor i newBytes hi hst hf hrlen, ?_,
    fun hm hh => piece_frame_already_have sha1 fuel heap tor i newBytes hi hst hf hcap hrlen
      hm hh,
    fun hm hh t nb ht => piece_frame_not_have sha1 fuel heap tor i newBytes hi hst hf hcap
      hrlen hblock hm hh t nb ht,
    fun hm hinv h0 hn hfuel => piece_frame_goes_on sha1 fuel heap tor i newBytes hi hst hf
      hrlen hm hinv h0 hn hfuel⟩
  intro t ht
  unfold parseMessage
  simp only [parseLoop, ht]

set_option maxRecDepth 100000 in
set_option maxHeartbeats 1000000 in
/-- Witness for C9: the scenario session with piece 1, the head of the ring, in
the buffer of the peer: no violation, and the frame is taken in. -/
theorem C9_witness :
    FrameAtFront session1Good 0 7 ∧ PieceMatchesHead session1Good 0 ∧
    0 < (getPeer session1Good 0).inRequestCount ∧
    ¬ (∃ t, parseIter padHash 4 scenarioHeap session1Good 0 21 =
      ParseIter.stop (ParseOut.violation t)) ∧
    ∃ t nb, parseIter padHash 4 scenarioHeap session1Good 0 21 = ParseIter.again t nb :=
  have hf : FrameAtFront session1Good 0 7 := by unfold FrameAtFront; decide
  have hm : PieceMatchesHead session1Good 0 := by unfold PieceMatchesHead; decide
  have hinv : SlotInv session1Good.info.pieceCount session1Good.io :=
    emptyIo_inv scenarioInfo (by decide)
  have h := C9_piece_frame_checked_against_ring_head padHash 4 scenarioHeap session1Good 0 21
    (by decide) (by decide) hf (by decide) (by decide) (by decide) (by decide)
  ⟨hf, hm, by decide, fun hv => h.1.mp hv hm,
    h.2.2.2.2 hm hinv (by decide) (by decide) (by decide)⟩

set_option maxRecDepth 100000 in
set_option maxHeartbeats 1000000 in
/-- C9, the claim as stated fails: in the scenario session the peer sends piece
1, the head of its ring, with a wrong last byte.  The frame answers the head
and block 1 is not yet have; the frame is accepted, and afterwards block 1 is
not have (its entry is 0) and the have count is still 0, not 1. -/
theorem C9_counterexample_block_not_have_after_acceptance :
    (getPeer session1Corrupt 0).status = PEER_STATUS_CONNECTED ∧
    0 < (getPeer session1Corrupt 0).inRequestCount ∧
    FrameAtFront session1Corrupt 0 7 ∧ PieceMatchesHead session1Corrupt 0 ∧
    tr_block session1Corrupt (ringHead session1Corrupt 0).index
      (ringHead session1Corrupt 0).begin = 1 ∧
    arrGet session1Corrupt.blockHave 1 = 3 ∧ session1Corrupt.blockHaveCount = 0 ∧
    parseIter padHash 4 scenarioHeap session1Corrupt 0 21 = ParseIter.again sessionBad 0 ∧
    ¬ (arrGet sessionBad.blockHave 1 < 0 ∧
      sessionBad.blockHaveCount = session1Corrupt.blockHaveCount + 1) := by
  unfold FrameAtFront PieceMatchesHead
  decide

end Transmission
namespace Transmission

end Transmission
namespace Transmission

end Transmission
namespace Transmission

set_option maxRecDepth 100000 in
set_option maxHeartbeats 1000000 in
/-- C11, the code at the failing input: a connected peer that we do not choke
delivers a request frame of length 1 (the id byte alone) followed by three
keep-alives.  No violation is reported: the peer is still there, the frame
and the keep-alives are consumed, and the outbound ring holds one request
whose index, begin and length were read from the twelve bytes after the
frame, those of the keep-alives.  A cancel frame of length 1 followed by
three keep-alives is accepted in the same way and takes that request out. -/
theorem C11_short_request_and_cancel_frames_accepted :
    (getPeer sessionUnchoked 0).status = PEER_STATUS_CONNECTED ∧
    (getPeer sessionUnchoked 0).outRequestCount = 0 ∧
    parseMessage padHash 4 scenarioHeap
      (setPeer sessionUnchoked 0 { getPeer sessionUnchoked 0 with buf := shortRequestBytes })
      0 17 = ParseOut.ok sessionShortRequest ∧
    peerReceive padHash 4 scenarioHeap sessionUnchoked 0 shortRequestBytes =
      some sessionShortRequest ∧
    sessionShortRequest.peers.length = 1 ∧
    (getPeer sessionShortRequest 0).buf = [] ∧
    (getPeer sessionShortRequest 0).outRequestCount = 1 ∧
    reqGet (getPeer sessionShortRequest 0).outRequests 0 = zeroRequest ∧
    peerReceive padHash 4 scenarioHeap sessionShortRequest 0 shortCancelBytes =
      some sessionShortCancel ∧
    sessionShortCancel.peers.length = 1 ∧
    (getPeer sessionShortCancel 0).buf = [] ∧
    (getPeer sessionShortCancel 0).outRequestCount = 0 := by
  decide

end Transmission
namespace Transmission

/-- The case `5` of the `switch` is the bitfield case. -/
theorem parseSwitch_bitfield (sha1 : List Nat → List Nat) (fuel : Nat) (heap : List Nat)
    (tor : tr_torrent_t) (i : Nat) (len : Int) (payload : List Nat) :
    parseSwitch sha1 fuel heap tor i len 5 payload =
      some ((parseBitfield tor (getPeer tor i) len payload).map (setPeer tor i)) := by
  simp [parseSwitch]

/-- A frame longer than `9 + blockSize` ends `parseMessage` with a violation,
whatever its id. -/
theorem parseIter_too_large (sha1 : List Nat → List Nat) (fuel : Nat) (heap : List Nat)
    (tor : tr_torrent_t) (i : Nat) (newBytes : Int)
    (hst : (getPeer tor i).status = PEER_STATUS_CONNECTED)
    (h4 : 4 ≤ (getPeer tor i).buf.length)
    (hmax : ¬ frameLen tor i ≤ 9 + tor.blockSize) :
    parseIter sha1 fuel heap tor i newBytes = ParseIter.stop (ParseOut.violation tor) := by
  unfold frameLen at hmax
  unfold parseIter
  have e1 : ¬ (getPeer tor i).buf.length < 4 := Nat.not_lt.mpr h4
  have e2 : ¬ ((getPeer tor i).status.toNat &&& 4 ≠ 0) := by rw [hst]; decide
  have e3 : ntohl (getPeer tor i).buf > 9 + tor.blockSize := not_le.mp hmax
  simp only [e1, e2, e3, if_false, if_true]

/-- An iteration that ends `parseMessage` gives its result. -/
theorem parseMessage_of_stop (sha1 : List Nat → List Nat) (fuel : Nat) (heap : List Nat)
    (tor : tr_torrent_t) (i : Nat) (newBytes : Int) (out : ParseOut)
    (h : parseIter sha1 fuel heap tor i newBytes = ParseIter.stop out) :
    parseMessage sha1 fuel heap tor i newBytes = out := by
  unfold parseMessage
  simp only [parseLoop, h]

/-- The spare bits of a byte shifted out by `N mod 8` are zero exactly when its
`8 - N mod 8` low-order bits are zero. -/
theorem spareBits_iff (b : Nat) (n : Int) (hn : n % 8 ≠ 0) :
    (b * 2 ^ (n % 8).toNat) % 256 = 0 ↔ b % 2 ^ (8 - (n % 8).toNat) = 0 := by
  have h0 : 0 ≤ n % 8 := Int.emod_nonneg n (by decide)
  have h8 : n % 8 < 8 := Int.emod_lt_of_pos n (by decide)
  obtain ⟨k, hk⟩ : ∃ k : Nat, (n % 8).toNat = k := ⟨_, rfl⟩
  have hk0 : 0 < k := by omega
  have hk8 : k < 8 := by omega
  rw [hk]
  interval_cases k <;> simp only [Nat.reduceSub, Nat.reducePow] <;> omega

/-- The bitfield case accepts exactly the valid frames. -/
theorem parseBitfield_isSome_iff (tor : tr_torrent_t) (peer : tr_peer_t) (len : Int)
    (payload : List Nat) :
    (∃ peer1, parseBitfield tor peer len payload = some peer1) ↔
      (len = 1 + (tor.info.pieceCount + 7) / 8 ∧
        (tor.info.pieceCount % 8 ≠ 0 →
          payload.getD ((tor.info.pieceCount + 7) / 8 - 1).toNat 0 %
            2 ^ (8 - (tor.info.pieceCount % 8).toNat) = 0)) := by
  unfold parseBitfield
  simp only
  by_cases h1 : len ≠ 1 + (tor.info.pieceCount + 7) / 8
  · rw [if_pos h1]
    constructor
    · rintro ⟨_, h⟩; exact absurd h (by simp)
    · rintro ⟨h, _⟩; exact absurd h h1
  · rw [if_neg h1]
    by_cases h2 : tor.info.pieceCount % 8 ≠ 0 ∧
        (payload.getD ((tor.info.pieceCount + 7) / 8 - 1).toNat 0 *
          2 ^ (tor.info.pieceCount % 8).toNat) % 256 ≠ 0
    · rw [if_pos h2]
      constructor
      · rintro ⟨_, h⟩; exact absurd h (by simp)
      · rintro ⟨_, h⟩
        exact absurd ((spareBits_iff _ _ h2.1).mpr (h h2.1)) h2.2
    · rw [if_neg h2]
      refine ⟨fun _ => ⟨not_not.mp h1, fun hn => ?_⟩, fun _ => ⟨_, rfl⟩⟩
      apply (spareBits_iff _ _ hn).mp
      by_contra hc
      exact h2 ⟨hn, hc⟩

/-- The peer that the bitfield case gives has the payload as its bitfield. -/
theorem parseBitfield_bitfield (tor : tr_torrent_t) (peer peer1 : tr_peer_t) (len : Int)
    (payload : List Nat) (h : parseBitfield tor peer len payload = some peer1) :
    peer1.bitfield = some (payload.take ((tor.info.pieceCount + 7) / 8).toNat) := by
  unfold parseBitfield at h
  simp only at h
  split at h
  · exact absurd h (by simp)
  · split at h
    · exact absurd h (by simp)
    · simp only [Option.some.injEq] at h
      rw [← h]

end Transmission
namespace Transmission

/-- C12 (as amended): a bitfield frame from a connected peer that is not longer
than `9 + blockSize` is accepted if and only if its length is `1 + ceil(N/8)`
and, when `N` is not a multiple of 8, the `8 - N mod 8` low-order bits of the
last payload byte are zero; a longer frame is rejected before its id is looked
at.  On acceptance the bitfield of the peer is the payload; otherwise the
iteration reports a violation, which `parseMessage` returns (after which the
peer is dropped). -/
theorem C12_bitfield_frame_accepted_iff_valid (sha1 : List Nat → List Nat)
    (fuel : Nat) (heap : List Nat) (tor : tr_torrent_t) (i : Nat) (newBytes : Int)
    (hi : i < tor.peers.length)
    (hst : (getPeer tor i).status = PEER_STATUS_CONNECTED)
    (hf : FrameAtFront tor i 5) :
    ((∃ t nb, parseIter sha1 fuel heap tor i newBytes = ParseIter.again t nb) ↔
      (frameLen tor i ≤ 9 + tor.blockSize ∧ BitfieldFrameValid tor i)) ∧
    (∀ t nb, parseIter sha1 fuel heap tor i newBytes = ParseIter.again t nb →
      (getPeer t i).bitfield =
        some ((framePayload tor i).take (bitfieldSize tor).toNat)) ∧
    (¬ (frameLen tor i ≤ 9 + tor.blockSize ∧ BitfieldFrameValid tor i) →
      ∃ t, parseIter sha1 fuel heap tor i newBytes = ParseIter.stop (ParseOut.violation t) ∧
        parseMessage sha1 fuel heap tor i newBytes = ParseOut.violation t) := by
  obtain ⟨_, _, _, _, k5, _, _, _, k9, _, _⟩ := switchEntry_keeps tor i newBytes hi
  have hvalid : ∀ peer, (∃ peer1, parseBitfield
      (consumeFrame (countPieceBytes tor i newBytes).1 i) peer (frameLen tor i)
      (framePayload tor i) = some peer1) ↔ BitfieldFrameValid tor i := by
    intro peer
    rw [parseBitfield_isSome_iff, k5]
    rfl
  have hcase : frameLen tor i ≤ 9 + tor.blockSize →
      parseIter sha1 fuel heap tor i newBytes =
        (match parseBitfield (consumeFrame (countPieceBytes tor i newBytes).1 i)
            (getPeer (consumeFrame (countPieceBytes tor i newBytes).1 i) i) (frameLen tor i)
            (framePayload tor i) with
         | none => ParseIter.stop
             (ParseOut.violation (consumeFrame (countPieceBytes tor i newBytes).1 i))
         | some peer1 => ParseIter.again
             (setPeer (consumeFrame (countPieceBytes tor i newBytes).1 i) i peer1)
             (countPieceBytes tor i newBytes).2) := by
    intro hmax
    rw [parseIter_frame sha1 fuel heap tor i newBytes 5 hst hf hmax, parseSwitch_bitfield]
    cases parseBitfield (consumeFrame (countPieceBytes tor i newBytes).1 i)
        (getPeer (consumeFrame (countPieceBytes tor i newBytes).1 i) i) (frameLen tor i)
        (framePayload tor i) <;> rfl
  have hbad : ¬ (frameLen tor i ≤ 9 + tor.blockSize ∧ BitfieldFrameValid tor i) →
      ∃ t, parseIter sha1 fuel heap tor i newBytes =
        ParseIter.stop (ParseOut.violation t) := by
    intro hv
    by_cases hmax : frameLen tor i ≤ 9 + tor.blockSize
    · refine ⟨consumeFrame (countPieceBytes tor i newBytes).1 i, ?_⟩
      rw [hcase hmax]
      cases hp : parseBitfield (consumeFrame (countPieceBytes tor i newBytes).1 i)
          (getPeer (consumeFrame (countPieceBytes tor i newBytes).1 i) i) (frameLen tor i)
          (framePayload tor i) with
      | none => rfl
      | some peer1 => exact absurd ⟨hmax, (hvalid _).mp ⟨peer1, hp⟩⟩ hv
    · exact ⟨tor, parseIter_too_large sha1 fuel heap tor i newBytes hst hf.1 hmax⟩
  refine ⟨⟨?_, ?_⟩, ?_, ?_⟩
  · rintro ⟨t, nb, ht⟩
    by_contra hv
    obtain ⟨t1, h1⟩ := hbad hv
    rw [h1] at ht
    exact ParseIter.noConfusion ht
  · rintro ⟨hmax, hv⟩
    obtain ⟨peer1, hp⟩ := (hvalid (getPeer (consumeFrame (countPieceBytes tor i newBytes).1 i)
      i)).mpr hv
    refine ⟨setPeer (consumeFrame (countPieceBytes tor i newBytes).1 i) i peer1,
      (countPieceBytes tor i newBytes).2, ?_⟩
    rw [hcase hmax, hp]
  · intro t nb ht
    by_cases hmax : frameLen tor i ≤ 9 + tor.blockSize
    · rw [hcase hmax] at ht
      cases hp : parseBitfield (consumeFrame (countPieceBytes tor i newBytes).1 i)
          (getPeer (consumeFrame (countPieceBytes tor i newBytes).1 i) i) (frameLen tor i)
          (framePayload tor i) with
      | none => rw [hp] at ht; exact ParseIter.noConfusion ht
      | some peer1 =>
        rw [hp] at ht
        simp only [ParseIter.again.injEq] at ht
        rw [← ht.1, getPeer_setPeer _ _ _ (by rw [k9]; exact hi),
          parseBitfield_bitfield _ _ _ _ _ hp, k5]
        rfl
    · rw [parseIter_too_large sha1 fuel heap tor i newBytes hst hf.1 hmax] at ht
      exact ParseIter.noConfusion ht
  · intro hv
    obtain ⟨t1, h1⟩ := hbad hv
    exact ⟨t1, h1, parseMessage_of_stop sha1 fuel heap tor i newBytes _ h1⟩

set_option maxRecDepth 100000 in
set_option maxHeartbeats 1000000 in
/-- Witness for C12: in the scenario torrent (three pieces) the frame
`<2><5><160>` is accepted and the bitfield of the peer becomes `[160]`. -/
theorem C12_witness :
    (getPeer sessionBitfield 0).status = PEER_STATUS_CONNECTED ∧
    FrameAtFront sessionBitfield 0 5 ∧ BitfieldFrameValid sessionBitfield 0 ∧
    (∃ t nb, parseIter padHash 4 scenarioHeap sessionBitfield 0 6 = ParseIter.again t nb) ∧
    (∀ t nb, parseIter padHash 4 scenarioHeap sessionBitfield 0 6 = ParseIter.again t nb →
      (getPeer t 0).bitfield = some [160]) :=
  have hf : FrameAtFront sessionBitfield 0 5 := by unfold FrameAtFront; decide
  have hv : BitfieldFrameValid sessionBitfield 0 := by unfold BitfieldFrameValid; decide
  have h := C12_bitfield_frame_accepted_iff_valid padHash 4 scenarioHeap sessionBitfield 0 6
    (by decide) (by decide) hf
  ⟨by decide, hf, hv, h.1.mpr ⟨by decide, hv⟩, h.2.1⟩

set_option maxRecDepth 100000 in
set_option maxHeartbeats 1000000 in
/-- C12, the claim as stated fails: in a torrent of eighty pieces of one byte a
connected peer delivers a bitfield frame of length `1 + ceil(80/8) = 11` (no
spare bits, as 80 is a multiple of 8).  The frame is longer than
`9 + blockSize = 10`, and `parseMessage` reports a violation. -/
theorem C12_counterexample_valid_bitfield_too_large :
    (getPeer sessionTinyBitfield 0).status = PEER_STATUS_CONNECTED ∧
    FrameAtFront sessionTinyBitfield 0 5 ∧ BitfieldFrameValid sessionTinyBitfield 0 ∧
    sessionTinyBitfield.blockSize = 1 ∧ frameLen sessionTinyBitfield 0 = 11 ∧
    parseIter padHash 4 scenarioHeap sessionTinyBitfield 0 15 =
      ParseIter.stop (ParseOut.violation sessionTinyBitfield) ∧
    parseMessage padHash 4 scenarioHeap sessionTinyBitfield 0 15 =
      ParseOut.violation sessionTinyBitfield :=
  have hst : (getPeer sessionTinyBitfield 0).status = PEER_STATUS_CONNECTED := by decide
  have hf : FrameAtFront sessionTinyBitfield 0 5 := by unfold FrameAtFront; decide
  have hv : BitfieldFrameValid sessionTinyBitfield 0 := by
    unfold BitfieldFrameValid; decide
  have hmax : ¬ frameLen sessionTinyBitfield 0 ≤ 9 + sessionTinyBitfield.blockSize := by
    decide
  have hp := parseIter_too_large padHash 4 scenarioHeap sessionTinyBitfield 0 15 hst hf.1 hmax
  ⟨hst, hf, hv, by decide, by decide, hp,
    parseMessage_of_stop padHash 4 scenarioHeap sessionTinyBitfield 0 15 _ hp⟩

end Transmission
namespace Transmission

/-- The ring bounds only look at the counts, the choke flag and the sizes of
the arrays. -/
theorem peerRings_congr (p q : tr_peer_t) (h1 : q.inRequestCount = p.inRequestCount)
    (h2 : q.outRequestCount = p.outRequestCount) (h3 : q.amChoking = p.amChoking)
    (h4 : q.inRequests.length = p.inRequests.length)
    (h5 : q.outRequests.length = p.outRequests.length) (h : PeerRings p) : PeerRings q := by
  unfold PeerRings at *
  rw [h1, h2, h3, h4, h5]
  exact h

theorem peerRings_newPeer (status : Int) : PeerRings (newPeer status) := by
  unfold PeerRings newPeer
  simp [MAX_REQUEST_COUNT]

theorem getPeer_rings (tor : tr_torrent_t) (i : Nat) (h : AllPeers PeerRings tor) :
    PeerRings (getPeer tor i) := by
  unfold getPeer
  rw [List.getD_eq_getElem?_getD]
  cases hg : tor.peers[i]? with
  | none => exact peerRings_newPeer 0
  | some p =>
    obtain ⟨hlt, he⟩ := List.getElem?_eq_some.mp hg
    exact h p (he ▸ List.getElem_mem hlt)

theorem allPeers_setPeer (Q : tr_peer_t → Prop) (tor : tr_torrent_t) (i : Nat)
    (peer : tr_peer_t) (h : AllPeers Q tor) (hp : Q peer) : AllPeers Q (setPeer tor i peer) := by
  intro p hmem
  rcases List.mem_or_eq_of_mem_set hmem with h1 | h1
  · exact h p h1
  · rw [h1]; exact hp

theorem allPeers_of_peers_eq (Q : tr_peer_t → Prop) (tor tor1 : tr_torrent_t)
    (he : tor1.peers = tor.peers) (h : AllPeers Q tor) : AllPeers Q tor1 := by
  intro p hmem
  rw [he] at hmem
  exact h p hmem

theorem allPeers_sendHave (tor : tr_torrent_t) (piece : Int)
    (h : AllPeers PeerRings tor) : AllPeers PeerRings (tr_peerSendHave tor piece) := by
  intro p hmem
  unfold tr_peerSendHave at hmem
  simp only [List.mem_map] at hmem
  obtain ⟨q, hq, he⟩ := hmem
  rw [← he]
  split
  · exact h q hq
  · exact peerRings_congr q _ rfl rfl rfl rfl rfl (h q hq)

theorem allPeers_peerRem (Q : tr_peer_t → Prop) (tor : tr_torrent_t) (i : Nat)
    (h : AllPeers Q tor) : AllPeers Q (tr_peerRem tor i) := by
  intro p hmem
  exact h p ((List.eraseIdx_sublist tor.peers i).subset hmem)

theorem ringShift_length (reqs : List tr_request_t) (i : Nat) (n : Int)
    (h : i + n.toNat < reqs.length) : (ringShift reqs i n).length = reqs.length := by
  unfold ringShift
  simp only [List.length_append, List.length_take, List.length_drop]
  omega

theorem reqSet_length (reqs : List tr_request_t) (i : Int) (r : tr_request_t) :
    (reqSet reqs i r).length = reqs.length := by
  unfold reqSet
  split
  · simp
  · rfl

theorem popInRequest_rings (peer : tr_peer_t) (h : PeerRings peer) :
    PeerRings (popInRequest peer) := by
  obtain ⟨h1, h2, h3, h4, h5, h6⟩ := h
  unfold MAX_REQUEST_COUNT at h1
  refine ⟨?_, h2, h3, h4, ?_, h6⟩
  · show peer.inRequestCount - 1 ≤ MAX_REQUEST_COUNT / 2
    unfold MAX_REQUEST_COUNT
    omega
  · show (ringShift peer.inRequests 0 (peer.inRequestCount - 1)).length = 16
    rw [ringShift_length _ _ _ (by omega)]
    exact h5

theorem parseRequest_rings (peer : tr_peer_t) (payload : List Nat) (h : PeerRings peer) :
    PeerRings (parseRequest peer payload) := by
  obtain ⟨h1, h2, h3, h4, h5, h6⟩ := h
  unfold parseRequest
  split
  · refine ⟨h1, ?_, ?_, ?_, h5, h6⟩
    · show 0 ≤ (if (1 : Int) ≠ 0 then 0 else peer.outRequestCount)
      simp
    · show (if (1 : Int) ≠ 0 then 0 else peer.outRequestCount) ≤ MAX_REQUEST_COUNT
      simp [MAX_REQUEST_COUNT]
    · intro _
      show (if (1 : Int) ≠ 0 then 0 else peer.outRequestCount) = 0
      simp
  · rename_i hc
    split
    · rename_i hlt
      refine ⟨h1, ?_, ?_, ?_, h5, ?_⟩
      · show 0 ≤ peer.outRequestCount + 1
        omega
      · show peer.outRequestCount + 1 ≤ MAX_REQUEST_COUNT
        omega
      · intro hne
        exact absurd hne hc
      · show (reqSet peer.outRequests _ _).length = 16
        rw [reqSet_length]; exact h6
    · exact ⟨h1, h2, h3, h4, h5, h6⟩

theorem parseCancel_rings (peer : tr_peer_t) (payload : List Nat) (h : PeerRings peer) :
    PeerRings (parseCancel peer payload) := by
  obtain ⟨h1, h2, h3, h4, h5, h6⟩ := h
  unfold parseCancel
  simp only
  split
  · rename_i j hj
    have hmem := List.mem_of_find?_eq_some hj
    rw [mem_upTo] at hmem
    unfold MAX_REQUEST_COUNT at h3
    refine ⟨h1, ?_, ?_, ?_, h5, ?_⟩
    · show 0 ≤ peer.outRequestCount - 1
      omega
    · show peer.outRequestCount - 1 ≤ MAX_REQUEST_COUNT
      unfold MAX_REQUEST_COUNT
      omega
    · intro hne
      have := h4 hne
      omega
    · show (ringShift peer.outRequests j.toNat (peer.outRequestCount - 1 - j)).length = 16
      rw [ringShift_length _ _ _ (by omega)]
      exact h6
  · exact ⟨h1, h2, h3, h4, h5, h6⟩

end Transmission
namespace Transmission

theorem storeBlock_peers (sha1 : List Nat → List Nat) (fuel : Nat) (tor tor1 : tr_torrent_t)
    (index begin length : Int) (data heap : List Nat)
    (h : storeBlock sha1 fuel tor index begin length data heap = some tor1) :
    tor1.peers = tor.peers := by
  unfold storeBlock at h
  cases hw : tr_ioWrite sha1 fuel (markBlock tor (tr_block tor index begin)) index begin
      length data heap with
  | none => rw [hw] at h; exact absurd h (by simp)
  | some r =>
    rw [hw] at h
    simp only [Option.map_some', Option.some.injEq] at h
    rw [← h]
    exact (tr_ioWrite_keeps sha1 fuel _ r.2 _ _ _ _ heap r.1 hw).1

theorem parsePiece_rings (sha1 : List Nat → List Nat) (fuel : Nat) (heap : List Nat)
    (tor t : tr_torrent_t) (i : Nat) (len : Int) (payload : List Nat)
    (h : AllPeers PeerRings tor)
    (ht : parsePiece sha1 fuel heap tor i len payload = some (some t)) :
    AllPeers PeerRings t := by
  unfold parsePiece at ht
  simp only at ht
  split at ht
  · exact absurd ht (by simp)
  split at ht
  · exact absurd ht (by simp)
  split at ht
  · simp only [Option.some.injEq] at ht
    rw [← ht]
    exact allPeers_setPeer _ _ _ _ h (popInRequest_rings _ (getPeer_rings tor i h))
  · cases hs : storeBlock sha1 fuel tor (ntohl payload) (ntohl (payload.drop 4)) (len - 9)
        (payload.drop 8) heap with
    | none => rw [hs] at ht; exact absurd ht (by simp)
    | some t1 =>
      rw [hs] at ht
      simp only [Option.map_some', Option.some.injEq] at ht
      have h1 : AllPeers PeerRings t1 :=
        allPeers_of_peers_eq _ tor t1 (storeBlock_peers sha1 fuel tor t1 _ _ _ _ heap hs) h
      rw [← ht]
      split
      · exact allPeers_setPeer _ _ _ _ (allPeers_sendHave t1 _ h1)
          (popInRequest_rings _ (getPeer_rings _ i (allPeers_sendHave t1 _ h1)))
      · exact allPeers_setPeer _ _ _ _ h1 (popInRequest_rings _ (getPeer_rings _ i h1))

theorem parseSwitch_rings (sha1 : List Nat → List Nat) (fuel : Nat) (heap : List Nat)
    (tor t : tr_torrent_t) (i : Nat) (len : Int) (id : Nat) (payload : List Nat)
    (h : AllPeers PeerRings tor)
    (ht : parseSwitch sha1 fuel heap tor i len id payload = some (some t)) :
    AllPeers PeerRings t := by
  have hp := getPeer_rings tor i h
  unfold parseSwitch at ht
  simp only at ht
  split at ht
  · split at ht
    · exact absurd ht (by simp)
    · simp only [Option.some.injEq] at ht
      rw [← ht]
      obtain ⟨h1, h2, h3, h4, h5, h6⟩ := hp
      exact allPeers_setPeer _ _ _ _ h
        ⟨by show (0 : Int) ≤ MAX_REQUEST_COUNT / 2; decide, h2, h3, h4, h5, h6⟩
  split at ht
  · split at ht
    · exact absurd ht (by simp)
    · simp only [Option.some.injEq] at ht
      rw [← ht]
      exact allPeers_setPeer _ _ _ _ h (peerRings_congr _ _ rfl rfl rfl rfl rfl hp)
  split at ht
  · split at ht
    · exact absurd ht (by simp)
    · simp only [Option.some.injEq] at ht
      rw [← ht]
      exact allPeers_setPeer _ _ _ _ h (peerRings_congr _ _ rfl rfl rfl rfl rfl hp)
  split at ht
  · split at ht
    · exact absurd ht (by simp)
    · simp only [Option.some.injEq] at ht
      rw [← ht]
      exact allPeers_setPeer _ _ _ _ h (peerRings_congr _ _ rfl rfl rfl rfl rfl hp)
  split at ht
  · split at ht
    · exact absurd ht (by simp)
    · simp only [Option.some.injEq] at ht
      rw [← ht]
      exact allPeers_setPeer _ _ _ _ h (peerRings_congr _ _ rfl rfl rfl rfl rfl hp)
  split at ht
  · cases hb : parseBitfield tor (getPeer tor i) len payload with
    | none => rw [hb] at ht; exact absurd ht (by simp)
    | some p1 =>
      rw [hb] at ht
      simp only [Option.map_some', Option.some.injEq] at ht
      rw [← ht]
      have hq : PeerRings p1 := by
        unfold parseBitfield at hb
        simp only at hb
        split at hb
        · exact absurd hb (by simp)
        · split at hb
          · exact absurd hb (by simp)
          · simp only [Option.some.injEq] at hb
            rw [← hb]
            exact peerRings_congr _ _ rfl rfl rfl rfl rfl hp
      exact allPeers_setPeer _ _ _ _ h hq
  split at ht
  · simp only [Option.some.injEq] at ht
    rw [← ht]
    exact allPeers_setPeer _ _ _ _ h (parseRequest_rings _ _ hp)
  split at ht
  · exact parsePiece_rings sha1 fuel heap tor t i len payload h ht
  split at ht
  · simp only [Option.some.injEq] at ht
    rw [← ht]
    exact allPeers_setPeer _ _ _ _ h (parseCancel_rings _ _ hp)
  · simp only [Option.some.injEq] at ht
    rw [← ht]
    exact h

end Transmission
namespace Transmission

theorem countPieceBytes_rings (tor : tr_torrent_t) (i : Nat) (newBytes : Int)
    (h : AllPeers PeerRings tor) : AllPeers PeerRings (countPieceBytes tor i newBytes).1 := by
  unfold countPieceBytes
  simp only
  split
  · exact allPeers_setPeer _ _ _ _ h
      (peerRings_congr _ _ rfl rfl rfl rfl rfl (getPeer_rings tor i h))
  · exact h

theorem consumeFrame_rings (tor : tr_torrent_t) (i : Nat)
    (h : AllPeers PeerRings tor) : AllPeers PeerRings (consumeFrame tor i) := by
  have hp := getPeer_rings tor i h
  unfold consumeFrame
  apply allPeers_setPeer PeerRings tor i _ h
  exact peerRings_congr (getPeer tor i) _ rfl rfl rfl rfl rfl hp

/-- What an iteration of `parseMessage` ends with, when it is a session state. -/
theorem parseHandshake_rings (tor : tr_torrent_t) (i : Nat) (newBytes : Int)
    (h : AllPeers PeerRings tor) :
    (∀ t nb, parseHandshake tor i newBytes = ParseIter.again t nb → AllPeers PeerRings t) ∧
    (∀ t, parseHandshake tor i newBytes = ParseIter.stop (ParseOut.ok t) →
      AllPeers PeerRings t) ∧
    (∀ t, parseHandshake tor i newBytes = ParseIter.stop (ParseOut.violation t) →
      AllPeers PeerRings t) := by
  have hp := getPeer_rings tor i h
  have h1 : AllPeers PeerRings (setPeer tor i { getPeer tor i with
      status := PEER_STATUS_CONNECTED, id := ((getPeer tor i).buf.drop 48).take 20,
      buf := (getPeer tor i).buf.drop 68 }) :=
    allPeers_setPeer _ _ _ _ h (peerRings_congr _ _ rfl rfl rfl rfl rfl hp)
  unfold parseHandshake
  simp only
  split
  · refine ⟨fun t nb e => ParseIter.noConfusion e, fun t e => ?_, fun t e => ?_⟩
    · simp only [ParseIter.stop.injEq] at e; exact ParseOut.noConfusion e
    · simp only [ParseIter.stop.injEq, ParseOut.violation.injEq] at e; rw [← e]; exact h
  split
  · refine ⟨fun t nb e => ParseIter.noConfusion e, fun t e => ?_, fun t e => ?_⟩
    · simp only [ParseIter.stop.injEq, ParseOut.ok.injEq] at e; rw [← e]; exact h
    · simp only [ParseIter.stop.injEq] at e; exact ParseOut.noConfusion e
  split
  · refine ⟨fun t nb e => ParseIter.noConfusion e, fun t e => ?_, fun t e => ?_⟩
    · simp only [ParseIter.stop.injEq] at e; exact ParseOut.noConfusion e
    · simp only [ParseIter.stop.injEq, ParseOut.violation.injEq] at e; rw [← e]; exact h
  split
  · refine ⟨fun t nb e => ParseIter.noConfusion e, fun t e => ?_, fun t e => ?_⟩
    · simp only [ParseIter.stop.injEq] at e; exact ParseOut.noConfusion e
    · simp only [ParseIter.stop.injEq, ParseOut.violation.injEq] at e; rw [← e]; exact h
  split
  · refine ⟨fun t nb e => ParseIter.noConfusion e, fun t e => ?_, fun t e => ?_⟩
    · simp only [ParseIter.stop.injEq] at e; exact ParseOut.noConfusion e
    · simp only [ParseIter.stop.injEq, ParseOut.violation.injEq] at e; rw [← e]; exact h1
  · refine ⟨fun t nb e => ?_, fun t e => ParseIter.noConfusion e,
      fun t e => ParseIter.noConfusion e⟩
    simp only [ParseIter.again.injEq] at e
    rw [← e.1]
    exact allPeers_setPeer _ _ _ _ h1 (peerRings_congr _ _ rfl rfl rfl rfl rfl hp)

theorem parseIter_rings (sha1 : List Nat → List Nat) (fuel : Nat) (heap : List Nat)
    (tor : tr_torrent_t) (i : Nat) (newBytes : Int) (h : AllPeers PeerRings tor) :
    (∀ t nb, parseIter sha1 fuel heap tor i newBytes = ParseIter.again t nb →
      AllPeers PeerRings t) ∧
    (∀ t, parseIter sha1 fuel heap tor i newBytes = ParseIter.stop (ParseOut.ok t) →
      AllPeers PeerRings t) ∧
    (∀ t, parseIter sha1 fuel heap tor i newBytes = ParseIter.stop (ParseOut.violation t) →
      AllPeers PeerRings t) := by
  have hp := getPeer_rings tor i h
  have hc := countPieceBytes_rings tor i newBytes h
  have h2 := consumeFrame_rings _ i hc
  unfold parseIter
  simp only
  split
  · refine ⟨fun t nb e => ParseIter.noConfusion e, fun t e => ?_, fun t e => ?_⟩
    · simp only [ParseIter.stop.injEq, ParseOut.ok.injEq] at e; rw [← e]; exact h
    · simp only [ParseIter.stop.injEq] at e; exact ParseOut.noConfusion e
  split
  · exact parseHandshake_rings tor i newBytes h
  split
  · refine ⟨fun t nb e => ParseIter.noConfusion e, fun t e => ?_, fun t e => ?_⟩
    · simp only [ParseIter.stop.injEq] at e; exact ParseOut.noConfusion e
    · simp only [ParseIter.stop.injEq, ParseOut.violation.injEq] at e; rw [← e]; exact h
  split
  · refine ⟨fun t nb e => ?_, fun t e => ParseIter.noConfusion e,
      fun t e => ParseIter.noConfusion e⟩
    simp only [ParseIter.again.injEq] at e
    rw [← e.1]
    exact allPeers_setPeer _ _ _ _ h (peerRings_congr _ _ rfl rfl rfl rfl rfl hp)
  split
  · refine ⟨fun t nb e => ParseIter.noConfusion e, fun t e => ?_, fun t e => ?_⟩
    · simp only [ParseIter.stop.injEq] at e; exact ParseOut.noConfusion e
    · simp only [ParseIter.stop.injEq] at e; exact ParseOut.noConfusion e
  split
  · refine ⟨fun t nb e => ParseIter.noConfusion e, fun t e => ?_, fun t e => ?_⟩
    · simp only [ParseIter.stop.injEq, ParseOut.ok.injEq] at e; rw [← e]; exact hc
    · simp only [ParseIter.stop.injEq] at e; exact ParseOut.noConfusion e
  split
  · refine ⟨fun t nb e => ParseIter.noConfusion e, fun t e => ?_, fun t e => ?_⟩
    · simp only [ParseIter.stop.injEq] at e; exact ParseOut.noConfusion e
    · simp only [ParseIter.stop.injEq] at e; exact ParseOut.noConfusion e
  · refine ⟨fun t nb e => ParseIter.noConfusion e, fun t e => ?_, fun t e => ?_⟩
    · simp only [ParseIter.stop.injEq] at e; exact ParseOut.noConfusion e
    · simp only [ParseIter.stop.injEq, ParseOut.violation.injEq] at e; rw [← e]; exact h2
  · rename_i t3 hsw
    refine ⟨fun t nb e => ?_, fun t e => ParseIter.noConfusion e,
      fun t e => ParseIter.noConfusion e⟩
    simp only [ParseIter.again.injEq] at e
    rw [← e.1]
    exact parseSwitch_rings sha1 fuel heap _ t3 i _ _ _ h2 hsw

theorem parseLoop_rings (sha1 : List Nat → List Nat) (fuel : Nat) (heap : List Nat) (i : Nat)
    (steps : Nat) : ∀ (tor : tr_torrent_t) (newBytes : Int), AllPeers PeerRings tor →
    (∀ t, parseLoop sha1 fuel heap i steps tor newBytes = ParseOut.ok t →
      AllPeers PeerRings t) ∧
    (∀ t, parseLoop sha1 fuel heap i steps tor newBytes = ParseOut.violation t →
      AllPeers PeerRings t) := by
  induction steps with
  | zero =>
    intro tor newBytes _
    exact ⟨fun t e => ParseOut.noConfusion e, fun t e => ParseOut.noConfusion e⟩
  | succ n ih =>
    intro tor newBytes h
    obtain ⟨r1, r2, r3⟩ := parseIter_rings sha1 fuel heap tor i newBytes h
    rw [parseLoop]
    cases hit : parseIter sha1 fuel heap tor i newBytes with
    | again t1 nb1 => exact ih t1 nb1 (r1 t1 nb1 hit)
    | stop out =>
      refine ⟨fun t e => ?_, fun t e => ?_⟩
      · simp only at e; rw [e] at hit; exact r2 t hit
      · simp only at e; rw [e] at hit; exact r3 t hit

theorem peerReceive_rings (sha1 : List Nat → List Nat) (fuel : Nat) (heap : List Nat)
    (tor tor1 : tr_torrent_t) (i : Nat) (bytes : List Nat) (h : AllPeers PeerRings tor)
    (hr : peerReceive sha1 fuel heap tor i bytes = some tor1) : AllPeers PeerRings tor1 := by
  unfold peerReceive parseMessage at hr
  simp only at hr
  have h1 : AllPeers PeerRings (setPeer tor i { getPeer tor i with
      buf := (getPeer tor i).buf ++ bytes }) :=
    allPeers_setPeer _ _ _ _ h (peerRings_congr _ _ rfl rfl rfl rfl rfl (getPeer_rings tor i h))
  obtain ⟨r1, r2⟩ := parseLoop_rings sha1 fuel heap i _ _ bytes.length h1
  split at hr
  · rename_i t2 hm
    simp only [Option.some.injEq] at hr
    rw [← hr]; exact r1 t2 hm
  · rename_i t2 hm
    simp only [Option.some.injEq] at hr
    rw [← hr]; exact allPeers_peerRem _ _ _ (r2 t2 hm)
  · exact absurd hr (by simp)

end Transmission
namespace Transmission

theorem sendRequest_rings (tor : tr_torrent_t) (i : Nat) (block : Int)
    (h : AllPeers PeerRings tor)
    (hlt : (getPeer tor i).inRequestCount < MAX_REQUEST_COUNT / 2) :
    AllPeers PeerRings (tr_peerSendRequest tor i block) := by
  obtain ⟨h1, h2, h3, h4, h5, h6⟩ := getPeer_rings tor i h
  unfold tr_peerSendRequest
  apply allPeers_of_peers_eq PeerRings (setPeer tor i _) _ rfl
  apply allPeers_setPeer PeerRings tor i _ h
  refine ⟨?_, h2, h3, h4, ?_, h6⟩
  · show (getPeer tor i).inRequestCount + 1 ≤ MAX_REQUEST_COUNT / 2
    unfold MAX_REQUEST_COUNT at *
    omega
  · show (reqSet (getPeer tor i).inRequests _ _).length = 16
    rw [reqSet_length]; exact h5

theorem requestLoop_rings (rand : Int → Int) (i : Nat) (n : Nat) :
    ∀ tor : tr_torrent_t, AllPeers PeerRings tor →
      AllPeers PeerRings (requestLoop rand i n tor) := by
  induction n with
  | zero => intro tor h; exact h
  | succ n ih =>
    intro tor h
    rw [requestLoop]
    split
    · rename_i hlt
      exact ih _ (sendRequest_rings tor i _ h hlt)
    · exact h

theorem sendInterest_rings (peer : tr_peer_t) (yes : Int) (h : PeerRings peer) :
    PeerRings (tr_peerSendInterest peer yes) :=
  peerRings_congr peer _ rfl rfl rfl rfl rfl h

theorem peerRings_ite (c : Prop) [Decidable c] (a b : tr_peer_t) (ha : PeerRings a)
    (hb : PeerRings b) : PeerRings (if c then a else b) := by
  split
  · exact ha
  · exact hb

theorem allPeers_ite (Q : tr_peer_t → Prop) (c : Prop) [Decidable c] (a b : tr_torrent_t)
    (ha : AllPeers Q a) (hb : AllPeers Q b) : AllPeers Q (if c then a else b) := by
  split
  · exact ha
  · exact hb

theorem requestTopUp_rings (rand : Int → Int) (tor : tr_torrent_t) (i : Nat)
    (h : AllPeers PeerRings tor) : AllPeers PeerRings (requestTopUp rand tor i) := by
  have hp := getPeer_rings tor i h
  unfold requestTopUp
  simp only
  apply allPeers_ite _ _ _ _ h
  have hp1 := peerRings_ite (isInteresting tor (getPeer tor i) = true ∧
    (getPeer tor i).amInterested = 0) _ _ (sendInterest_rings _ 1 hp) hp
  generalize (if isInteresting tor (getPeer tor i) = true ∧
    (getPeer tor i).amInterested = 0 then tr_peerSendInterest (getPeer tor i) 1
    else getPeer tor i) = p1 at hp1
  have hp2 := peerRings_ite (¬ isInteresting tor (getPeer tor i) = true ∧
    p1.amInterested ≠ 0) _ _ (sendInterest_rings _ 0 hp1) hp1
  generalize (if ¬ isInteresting tor (getPeer tor i) = true ∧
    p1.amInterested ≠ 0 then tr_peerSendInterest p1 0 else p1) = p2 at hp2
  have h1 := allPeers_setPeer PeerRings tor i p2 h hp2
  exact allPeers_ite _ _ _ _ (requestLoop_rings rand i _ _ h1) h1

theorem sendChoke_rings (peer : tr_peer_t) (yes : Int) (h : PeerRings peer) :
    PeerRings (tr_peerSendChoke peer yes) := by
  obtain ⟨h1, h2, h3, h4, h5, h6⟩ := h
  unfold tr_peerSendChoke
  by_cases hyes : yes ≠ 0
  · refine ⟨h1, ?_, ?_, ?_, h5, h6⟩
    · show 0 ≤ (if yes ≠ 0 then 0 else peer.outRequestCount)
      rw [if_pos hyes]
    · show (if yes ≠ 0 then 0 else peer.outRequestCount) ≤ MAX_REQUEST_COUNT
      rw [if_pos hyes]; decide
    · intro _
      show (if yes ≠ 0 then 0 else peer.outRequestCount) = 0
      rw [if_pos hyes]
  · refine ⟨h1, ?_, ?_, ?_, h5, h6⟩
    · show 0 ≤ (if yes ≠ 0 then 0 else peer.outRequestCount)
      rw [if_neg hyes]; exact h2
    · show (if yes ≠ 0 then 0 else peer.outRequestCount) ≤ MAX_REQUEST_COUNT
      rw [if_neg hyes]; exact h3
    · intro hne
      exact absurd hne hyes

theorem checkPeer_rings (keepAlive canUnchoke : Bool) (peer : tr_peer_t) (h : PeerRings peer) :
    PeerRings (checkPeer keepAlive canUnchoke peer) := by
  unfold checkPeer
  simp only
  split
  · exact h
  · have hp1 : PeerRings (if keepAlive = true then
        { peer with outBuf := peer.outBuf ++ htonl 0 } else peer) := by
      split
      · exact peerRings_congr peer _ rfl rfl rfl rfl rfl h
      · exact h
    generalize (if keepAlive = true then
        { peer with outBuf := peer.outBuf ++ htonl 0 } else peer) = p1 at hp1
    have hp2 : PeerRings (if p1.amChoking = 0 ∧ p1.peerInterested = 0 then
        tr_peerSendChoke p1 1 else p1) := by
      split
      · exact sendChoke_rings _ _ hp1
      · exact hp1
    generalize (if p1.amChoking = 0 ∧ p1.peerInterested = 0 then
        tr_peerSendChoke p1 1 else p1) = p2 at hp2
    split
    · exact sendChoke_rings _ _ hp2
    · exact hp2

theorem sendPiece_rings (tor : tr_torrent_t) (i : Nat) (mem : List Nat)
    (h : AllPeers PeerRings tor) (hpos : 0 < (getPeer tor i).outRequestCount) :
    AllPeers PeerRings (tr_peerSendPiece tor i mem) := by
  obtain ⟨h1, h2, h3, h4, h5, h6⟩ := getPeer_rings tor i h
  unfold tr_peerSendPiece
  apply allPeers_setPeer PeerRings tor i _ h
  unfold MAX_REQUEST_COUNT at h3
  refine ⟨h1, ?_, ?_, ?_, h5, ?_⟩
  · show 0 ≤ (getPeer tor i).outRequestCount - 1
    omega
  · show (getPeer tor i).outRequestCount - 1 ≤ MAX_REQUEST_COUNT
    unfold MAX_REQUEST_COUNT
    omega
  · intro hne
    have := h4 hne
    omega
  · show (ringShift (getPeer tor i).outRequests 0 ((getPeer tor i).outRequestCount - 1)).length
      = 16
    rw [ringShift_length _ _ _ (by omega)]
    exact h6

end Transmission
namespace Transmission

/-- The ring bounds hold in every state that a session reaches. -/
theorem sessionReach_rings (sha1 : List Nat → List Nat) (tor0 tor : tr_torrent_t)
    (h0 : AllPeers PeerRings tor0) (hr : SessionReach sha1 tor0 tor) :
    AllPeers PeerRings tor := by
  induction hr with
  | start => exact h0
  | addPeer tor tor1 status _ _ hinit ih =>
    unfold tr_peerInit at hinit
    split at hinit
    · exact absurd hinit (by simp)
    · simp only [Option.some.injEq] at hinit
      rw [← hinit]
      intro p hmem
      simp only [List.mem_append, List.mem_singleton] at hmem
      rcases hmem with hm | hm
      · exact ih p hm
      · rw [hm]; exact peerRings_newPeer status
  | connect tor i _ _ _ ih =>
    exact allPeers_setPeer _ _ _ _ ih
      (peerRings_congr (getPeer tor i) _ rfl rfl rfl rfl rfl (getPeer_rings tor i ih))
  | handshakeSent tor i _ _ _ ih =>
    exact allPeers_setPeer _ _ _ _ ih
      (peerRings_congr (getPeer tor i) _ rfl rfl rfl rfl rfl (getPeer_rings tor i ih))
  | receive tor tor1 i bytes heap fuel _ _ _ hrecv ih =>
    exact peerReceive_rings sha1 fuel heap tor tor1 i bytes ih hrecv
  | sendPiece tor i mem _ _ hpos ih => exact sendPiece_rings tor i mem ih hpos
  | sent tor i n _ _ ih =>
    exact allPeers_setPeer _ _ _ _ ih
      (peerRings_congr (getPeer tor i) _ rfl rfl rfl rfl rfl (getPeer_rings tor i ih))
  | check tor i keepAlive canUnchoke _ _ ih =>
    exact allPeers_setPeer _ _ _ _ ih (checkPeer_rings _ _ _ (getPeer_rings tor i ih))
  | topUp tor i rand _ _ ih => exact requestTopUp_rings rand tor i ih
  | remove tor i _ _ ih => exact allPeers_peerRem _ _ _ ih
  | shuffle tor _ ih =>
    intro p hmem
    simp only [List.mem_append] at hmem
    rcases hmem with hm | hm
    · exact ih p (List.mem_of_mem_drop hm)
    · exact ih p (List.mem_of_mem_take hm)

/-- The case `6` of the `switch` is the request case. -/
theorem parseSwitch_request (sha1 : List Nat → List Nat) (fuel : Nat) (heap : List Nat)
    (tor : tr_torrent_t) (i : Nat) (len : Int) (payload : List Nat) :
    parseSwitch sha1 fuel heap tor i len 6 payload =
      some (some (setPeer tor i (parseRequest (getPeer tor i) payload))) := by
  simp [parseSwitch]

/-- A request while the outbound ring is full, or while we choke a peer whose
outbound ring is empty, leaves the ring as it is. -/
theorem parseRequest_unchanged (peer : tr_peer_t) (payload : List Nat)
    (hc : peer.amChoking ≠ 0 → peer.outRequestCount = 0)
    (h : peer.outRequestCount = MAX_REQUEST_COUNT ∨ peer.amChoking ≠ 0) :
    (parseRequest peer payload).outRequestCount = peer.outRequestCount ∧
    (parseRequest peer payload).outRequests = peer.outRequests := by
  unfold parseRequest
  by_cases h1 : peer.amChoking ≠ 0
  · rw [if_pos h1]
    refine ⟨?_, rfl⟩
    show (if (1 : Int) ≠ 0 then 0 else peer.outRequestCount) = peer.outRequestCount
    rw [hc h1]; simp
  · rw [if_neg h1]
    rcases h with h | h
    · have : ¬ peer.outRequestCount < MAX_REQUEST_COUNT := by rw [h]; exact lt_irrefl _
      rw [if_neg this]
      exact ⟨rfl, rfl⟩
    · exact absurd h h1

/-- The session of the example run is reached from its start. -/
theorem runConnected_reach : SessionReach padHash runStart runConnected := by
  have h1 : SessionReach padHash runStart runAdded :=
    SessionReach.addPeer runStart runAdded PEER_STATUS_CONNECTING SessionReach.start
      (Or.inr rfl) (by decide)
  have h2 : SessionReach padHash runStart runHandshake :=
    SessionReach.handshakeSent runAdded 0 h1 (by decide) (by decide)
  exact SessionReach.receive runHandshake runConnected 0 runBytes scenarioHeap 4 h2
    (by decide) (by decide) (by decide)

end Transmission
namespace Transmission

/-- C13: in every state that a session reaches from a start without peers, every
peer has at most 16 entries in its inbound request ring (requests we sent,
topped up by `tr_peerPulse`) and at most 16 in its outbound ring (requests
the peer sent, appended by `parseMessage`); and a request frame that arrives
when the outbound ring holds 16 entries, or while we choke the peer, is
taken in and leaves the outbound ring unchanged (its count and its entries). -/
theorem C13_request_rings_hold_at_most_16 (sha1 : List Nat → List Nat)
    (tor0 tor : tr_torrent_t) (h0 : tor0.peers = []) (hr : SessionReach sha1 tor0 tor) :
    (∀ peer ∈ tor.peers, peer.inRequestCount ≤ 16 ∧ peer.outRequestCount ≤ 16) ∧
    (∀ (fuel : Nat) (heap : List Nat) (i : Nat) (newBytes : Int), i < tor.peers.length →
      (getPeer tor i).status = PEER_STATUS_CONNECTED → FrameAtFront tor i 6 →
      frameLen tor i ≤ 9 + tor.blockSize →
      ((getPeer tor i).outRequestCount = 16 ∨ (getPeer tor i).amChoking ≠ 0) →
      ∃ t nb, parseIter sha1 fuel heap tor i newBytes = ParseIter.again t nb ∧
        (getPeer t i).outRequestCount = (getPeer tor i).outRequestCount ∧
        (getPeer t i).outRequests = (getPeer tor i).outRequests) := by
  have hall : AllPeers PeerRings tor :=
    sessionReach_rings sha1 tor0 tor (by intro p hp; rw [h0] at hp; cases hp) hr
  constructor
  · intro peer hmem
    obtain ⟨h1, _, h3, _⟩ := hall peer hmem
    unfold MAX_REQUEST_COUNT at h1 h3
    exact ⟨by omega, h3⟩
  · intro fuel heap i newBytes hi hst hf hmax hfull
    obtain ⟨_, _, _, _, _, _, _, _, k9, _, n, b, k11⟩ := switchEntry_keeps tor i newBytes hi
    obtain ⟨_, _, _, h4, _⟩ := getPeer_rings tor i hall
    refine ⟨setPeer (consumeFrame (countPieceBytes tor i newBytes).1 i) i
      (parseRequest (getPeer (consumeFrame (countPieceBytes tor i newBytes).1 i) i)
        (framePayload tor i)), (countPieceBytes tor i newBytes).2, ?_, ?_⟩
    · rw [parseIter_frame sha1 fuel heap tor i newBytes 6 hst hf hmax, parseSwitch_request]
    · rw [getPeer_setPeer _ _ _ (by rw [k9]; exact hi), k11]
      exact parseRequest_unchanged _ _ h4 hfull

/-- Witness for C13: the example run (a peer connects, sends its handshake, a
bitfield, `interested` and a request while we choke it): its rings are within
the bounds, and a further request while we choke it leaves the outbound ring
empty. -/
theorem C13_witness :
    runStart.peers = [] ∧ SessionReach padHash runStart runConnected ∧
    runConnected.peers.length = 1 ∧
    (∀ peer ∈ runConnected.peers, peer.inRequestCount ≤ 16 ∧ peer.outRequestCount ≤ 16) ∧
    (getPeer runConnected 0).amChoking = 1 ∧ (getPeer runConnected 0).outRequestCount = 0 :=
  have h := C13_request_rings_hold_at_most_16 padHash runStart runConnected rfl
    runConnected_reach
  ⟨rfl, runConnected_reach, by decide, h.1, by decide, by decide⟩

end Transmission
namespace Transmission

set_option maxRecDepth 100000 in
set_option maxHeartbeats 1000000 in
/-- C20, the code at the failing input: the scenario torrent (`P = 8`) holds
pieces 0 and 1 in slots 0 and 1.  `tr_ioRead` for piece 0 with `begin = 8`
and `length = 4`, a range outside piece 0 (its size is 8), returns 0 and
delivers the first four bytes of piece 1; `tr_ioWrite` with the same range
returns 0 and overwrites those bytes, after which the verified piece 1 no
longer hashes to its published hash.  A range that crosses the end of slot 0
(`begin = 4`, `length = 8`) is rejected. -/
theorem C20_range_outside_piece_accepted :
    scenarioTor01.io.pieceSlot = [0, 1, -1] ∧ scenarioTor01.bitfield = [192] ∧
    scenarioTor01.io.fds = [[1, 2, 3, 4, 5, 6, 7, 8, 11, 12, 13, 14, 15, 16, 17, 18]] ∧
    tr_pieceSize scenarioTor01.info 0 = 8 ∧
    tr_ioRead scenarioTor01 0 8 4 [9, 9, 9, 9] = (0, [11, 12, 13, 14]) ∧
    (tr_ioRead scenarioTor01 0 4 8 [9, 9, 9, 9, 9, 9, 9, 9]).1 = 1 ∧
    (tr_ioWrite padHash 4 scenarioTor01 0 8 4 [0, 0, 0, 0] scenarioHeap).map (fun r => r.1) =
      some 0 ∧
    scenarioTor01Over.io.fds = [[1, 2, 3, 4, 5, 6, 7, 8, 0, 0, 0, 0, 15, 16, 17, 18]] ∧
    tr_bitfieldHas scenarioTor01Over.bitfield 1 = true ∧
    hashMatches padHash scenarioTor01Over.info scenarioTor01Over.io 1 scenarioHeap = false := by
  decide

end Transmission
namespace Transmission

theorem nativeBytes_length (a : Int) : (nativeBytes a).length = 4 := rfl

/-- Reading back the four bytes of a 32-bit value gives the value. -/
theorem nativeInt_nativeBytes (a : Int) (rest : List Nat) (h0 : -2147483648 ≤ a)
    (h1 : a < 2147483648) : nativeInt (nativeBytes a ++ rest) = a := by
  unfold nativeInt nativeBytes
  simp only [List.cons_append, List.nil_append, List.getD_cons_zero, List.getD_cons_succ]
  obtain ⟨v, hv⟩ : ∃ v : Nat, (a % 4294967296).toNat = v := ⟨_, rfl⟩
  rw [hv]
  have hv2 : (v : Int) = a % 4294967296 := by omega
  have hsum : v % 256 + v / 256 % 256 * 256 + v / 65536 % 256 * 65536 +
      v / 16777216 % 256 * 16777216 = v := by omega
  rw [hsum]
  split <;> omega

theorem writeInts_length (xs : List Int) : (writeInts xs).length = 4 * xs.length := by
  induction xs with
  | nil => rfl
  | cons a rest ih =>
    simp only [writeInts, List.length_append, nativeBytes_length, ih, List.length_cons]
    omega

/-- Reading back an array of 32-bit values gives the array. -/
theorem readInts_writeInts (xs : List Int) (rest : List Nat)
    (h : ∀ a ∈ xs, -2147483648 ≤ a ∧ a < 2147483648) :
    readInts xs.length (writeInts xs ++ rest) = xs := by
  induction xs with
  | nil => rfl
  | cons a tl ih =>
    have ha := h a (List.mem_cons_self a tl)
    simp only [writeInts, List.length_cons, readInts, List.append_assoc]
    rw [nativeInt_nativeBytes a _ ha.1 ha.2,
      List.drop_left' (nativeBytes_length a), ih (fun b hb => h b (List.mem_cons_of_mem a hb))]

/-- Two arrays of the same length with the same entries are equal. -/
theorem arr_ext (a b : List Int) (hl : a.length = b.length)
    (h : ∀ i : Int, 0 ≤ i → i < a.length → arrGet a i = arrGet b i) : a = b := by
  apply List.ext_getElem hl
  intro n h1 h2
  have := h n (by omega) (by omega)
  unfold arrGet at this
  simp only [Int.toNat_ofNat, Int.ofNat_zero_le, if_true, List.getD_eq_getElem?_getD,
    List.getElem?_eq_getElem h1, List.getElem?_eq_getElem h2, Option.getD_some, Nat.cast_nonneg] at this
  exact this

theorem upTo_eq_length (a : List Int) (n : Int) (h : (a.length : Int) = n) :
    (upTo n).map (fun s => arrGet a s) = a := by
  apply arr_ext
  · simp only [List.length_map, upTo_length]; omega
  · intro i h0 h1
    simp only [List.length_map, upTo_length] at h1
    unfold arrGet
    rw [if_pos h0, if_pos h0]
    unfold upTo
    simp only [List.getD_eq_getElem?_getD, List.getElem?_map, List.getElem?_range,
      List.map_map]
    have : i.toNat < n.toNat := by omega
    simp only [List.getElem?_range this, Option.map_some', Function.comp, Option.getD_some]
    simp only [Int.ofNat_eq_coe, Int.toNat_ofNat, Nat.cast_nonneg, if_true]

end Transmission
namespace Transmission

theorem tr_bitfieldHas_replicate (k : Nat) (q : Int) :
    tr_bitfieldHas (List.replicate k 0) q = false := by
  unfold tr_bitfieldHas byteGet
  split
  · rw [List.getD_eq_getElem?_getD, List.getElem?_replicate]
    split <;> simp
  · simp

/-- The bits of a bitfield after a loop that adds the indices of `l` that
satisfy `c`. -/
theorem bitsFold_spec (c : Int → Bool) (l : List Int) :
    ∀ bf0 : List Nat, (∀ i ∈ l, 0 ≤ i ∧ i < 8 * (bf0.length : Int)) →
      (l.foldl (fun bf i => if c i then tr_bitfieldAdd bf i else bf) bf0).length = bf0.length ∧
      ∀ q, tr_bitfieldHas (l.foldl (fun bf i => if c i then tr_bitfieldAdd bf i else bf) bf0) q
        = (tr_bitfieldHas bf0 q || (decide (q ∈ l) && c q)) := by
  induction l with
  | nil => intro bf0 _; simp
  | cons a tl ih =>
    intro bf0 h
    have ha := h a (List.mem_cons_self a tl)
    simp only [List.foldl_cons]
    by_cases hc : c a = true
    · rw [if_pos hc]
      obtain ⟨i1, i2⟩ := ih (tr_bitfieldAdd bf0 a) (by
        intro i hi; rw [tr_bitfieldAdd_length]; exact h i (List.mem_cons_of_mem a hi))
      refine ⟨by rw [i1, tr_bitfieldAdd_length], fun q => ?_⟩
      rw [i2 q]
      by_cases hq : q = a
      · subst hq
        rw [tr_bitfieldHas_add_self bf0 q ha.1 ha.2]
        simp [hc]
      · rw [tr_bitfieldHas_add_ne bf0 a q hq]
        simp [hq]
    · rw [if_neg hc]
      obtain ⟨i1, i2⟩ := ih bf0 (fun i hi => h i (List.mem_cons_of_mem a hi))
      refine ⟨i1, fun q => ?_⟩
      rw [i2 q]
      by_cases hq : q = a
      · subst hq
        simp [hc]
      · simp [hq]

/-- The bitfield for blocks has the size `( blockCount + 7 ) / 8` and bit `i`
for the blocks `i` with `blockHave[i] < 0`. -/
theorem blockBitfield_spec (tor : tr_torrent_t) :
    (blockBitfield tor).length = ((tor.blockCount + 7) / 8).toNat ∧
    ∀ q, tr_bitfieldHas (blockBitfield tor) q =
      (decide (0 ≤ q ∧ q < tor.blockCount) && decide (arrGet tor.blockHave q < 0)) := by
  obtain ⟨h1, h2⟩ := bitsFold_spec (fun i => decide (arrGet tor.blockHave i < 0))
    (upTo tor.blockCount) (List.replicate ((tor.blockCount + 7) / 8).toNat 0) (by
      intro i hi
      rw [mem_upTo] at hi
      rw [List.length_replicate]
      omega)
  unfold blockBitfield
  simp only [decide_eq_true_eq] at h1 h2
  refine ⟨by rw [h1, List.length_replicate], fun q => ?_⟩
  rw [h2 q, tr_bitfieldHas_replicate]
  simp only [mem_upTo, Bool.false_or]

/-- What the loop of `fastResumeLoad` over the blocks of `l` gives. -/
theorem loadBlocksFold_spec (bf : List Nat) (l : List Int) :
    ∀ tor : tr_torrent_t, (∀ i ∈ l, 0 ≤ i ∧ i < (tor.blockHave.length : Int)) →
      let t := l.foldl (fun t i =>
        if tr_bitfieldHas bf i then
          { t with blockHave := arrSet t.blockHave i (-1),
                   blockHaveCount := t.blockHaveCount + 1 }
        else t) tor
      t.info = tor.info ∧ t.blockSize = tor.blockSize ∧ t.blockCount = tor.blockCount ∧
      t.bitfield = tor.bitfield ∧ t.io = tor.io ∧ t.peers = tor.peers ∧
      t.blockHave.length = tor.blockHave.length ∧
      t.blockHaveCount = tor.blockHaveCount +
        (l.filter (fun i => tr_bitfieldHas bf i)).length ∧
      ∀ q, arrGet t.blockHave q =
        if q ∈ l ∧ tr_bitfieldHas bf q = true then -1 else arrGet tor.blockHave q := by
  induction l with
  | nil => intro tor _; simp
  | cons a tl ih =>
    intro tor h
    have ha := h a (List.mem_cons_self a tl)
    simp only [List.foldl_cons]
    by_cases hc : tr_bitfieldHas bf a = true
    · rw [if_pos hc]
      obtain ⟨i1, i2, i3, i4, i5, i6, i7, i8, i9⟩ := ih
        { tor with blockHave := arrSet tor.blockHave a (-1),
                   blockHaveCount := tor.blockHaveCount + 1 } (by
        intro i hi
        show 0 ≤ i ∧ i < ((arrSet tor.blockHave a (-1)).length : Int)
        rw [arrSet_length]; exact h i (List.mem_cons_of_mem a hi))
      refine ⟨i1, i2, i3, i4, i5, i6, ?_, ?_, fun q => ?_⟩
      · rw [i7]; exact arrSet_length _ _ _
      · rw [i8]
        show tor.blockHaveCount + 1 + _ = _
        simp only [List.filter_cons, hc, if_true, List.length_cons]
        push_cast
        ring
      · rw [i9 q]
        show (if q ∈ tl ∧ tr_bitfieldHas bf q = true then (-1 : Int)
          else arrGet (arrSet tor.blockHave a (-1)) q) = _
        rw [arrGet_arrSet]
        by_cases hq : a = q
        · subst hq
          simp [hc, ha.1, ha.2]
        · have hq2 : ¬ q = a := fun e => hq e.symm
          simp [hq, hq2]
    · rw [if_neg hc]
      obtain ⟨i1, i2, i3, i4, i5, i6, i7, i8, i9⟩ := ih tor
        (fun i hi => h i (List.mem_cons_of_mem a hi))
      refine ⟨i1, i2, i3, i4, i5, i6, i7, ?_, fun q => ?_⟩
      · rw [i8]
        simp only [List.filter_cons, hc, Bool.false_eq_true, if_false]
      · rw [i9 q]
        by_cases hq : q = a
        · subst hq
          simp [hc]
        · simp [hq]

end Transmission
namespace Transmission

theorem loadPiece_eq (tor : tr_torrent_t) (i : Int) :
    loadPiece tor i =
      { tor with
        io := (match (upTo tor.info.pieceCount).find?
              (fun j => decide (arrGet tor.io.slotPiece j = i)) with
          | some j => { tor.io with pieceSlot := arrSet (arrSet tor.io.pieceSlot i (-1)) i j,
                                    slotsUsed := max tor.io.slotsUsed (j + 1) }
          | none => { tor.io with pieceSlot := arrSet tor.io.pieceSlot i (-1) }),
        bitfield := if pieceComplete tor i then tr_bitfieldAdd tor.bitfield i
                    else tor.bitfield } := rfl

/-- One iteration of the last loop of `fastResumeLoad`. -/
theorem loadPiece_spec (tor : tr_torrent_t) (i : Int) :
    (loadPiece tor i).info = tor.info ∧ (loadPiece tor i).blockHave = tor.blockHave ∧
    (loadPiece tor i).blockSize = tor.blockSize ∧
    (loadPiece tor i).blockCount = tor.blockCount ∧
    (loadPiece tor i).blockHaveCount = tor.blockHaveCount ∧
    (loadPiece tor i).peers = tor.peers ∧
    (loadPiece tor i).io.slotPiece = tor.io.slotPiece ∧
    (loadPiece tor i).io.fds = tor.io.fds ∧
    (loadPiece tor i).io.pieceSlot.length = tor.io.pieceSlot.length ∧
    (loadPiece tor i).bitfield =
      (if pieceComplete tor i then tr_bitfieldAdd tor.bitfield i else tor.bitfield) ∧
    (loadPiece tor i).io.slotsUsed =
      (if 0 ≤ firstSlot tor.io.slotPiece tor.info.pieceCount i then
        max tor.io.slotsUsed (firstSlot tor.io.slotPiece tor.info.pieceCount i + 1)
       else tor.io.slotsUsed) ∧
    ∀ q, arrGet (loadPiece tor i).io.pieceSlot q =
      if q = i ∧ 0 ≤ i ∧ i < (tor.io.pieceSlot.length : Int) then
        firstSlot tor.io.slotPiece tor.info.pieceCount i
      else arrGet tor.io.pieceSlot q := by
  rw [loadPiece_eq]
  unfold firstSlot
  cases hf : (upTo tor.info.pieceCount).find? (fun j => decide (arrGet tor.io.slotPiece j = i)) with
  | none =>
    refine ⟨rfl, rfl, rfl, rfl, rfl, rfl, rfl, rfl, arrSet_length _ _ _, rfl, ?_, fun q => ?_⟩
    · simp
    · simp only [Option.getD_none]
      rw [arrGet_arrSet]
      by_cases hq : i = q
      · subst hq; simp
      · have : ¬ q = i := fun e => hq e.symm
        simp [hq, this]
  | some j =>
    have hj := List.mem_of_find?_eq_some hf
    rw [mem_upTo] at hj
    refine ⟨rfl, rfl, rfl, rfl, rfl, rfl, rfl, rfl, ?_, rfl, ?_, fun q => ?_⟩
    · show (arrSet (arrSet tor.io.pieceSlot i (-1)) i j).length = _
      rw [arrSet_length, arrSet_length]
    · simp only [Option.getD_some, hj.1, if_true]
    · simp only [Option.getD_some]
      show arrGet (arrSet (arrSet tor.io.pieceSlot i (-1)) i j) q = _
      rw [arrGet_arrSet, arrGet_arrSet, arrSet_length]
      by_cases hq : i = q
      · subst hq
        by_cases hr : 0 ≤ i ∧ i < (tor.io.pieceSlot.length : Int)
        · simp [hr.1, hr.2]
        · simp only [true_and, hr, if_false]
      · have : ¬ q = i := fun e => hq e.symm
        simp [hq, this]

/-- What the last loop of `fastResumeLoad` over the pieces of `l` gives. -/
theorem loadPieceFold_spec (l : List Int) :
    ∀ tor : tr_torrent_t,
      (∀ i ∈ l, 0 ≤ i ∧ i < (tor.io.pieceSlot.length : Int) ∧
        i < 8 * (tor.bitfield.length : Int)) →
      let t := l.foldl loadPiece tor
      t.info = tor.info ∧ t.blockHave = tor.blockHave ∧ t.blockSize = tor.blockSize ∧
      t.blockCount = tor.blockCount ∧ t.blockHaveCount = tor.blockHaveCount ∧
      t.peers = tor.peers ∧ t.io.slotPiece = tor.io.slotPiece ∧ t.io.fds = tor.io.fds ∧
      t.io.pieceSlot.length = tor.io.pieceSlot.length ∧
      t.bitfield.length = tor.bitfield.length ∧
      (∀ q, arrGet t.io.pieceSlot q =
        if q ∈ l then firstSlot tor.io.slotPiece tor.info.pieceCount q
        else arrGet tor.io.pieceSlot q) ∧
      (∀ q, tr_bitfieldHas t.bitfield q =
        (tr_bitfieldHas tor.bitfield q || (decide (q ∈ l) && pieceComplete tor q))) ∧
      tor.io.slotsUsed ≤ t.io.slotsUsed ∧
      (∀ q ∈ l, 0 ≤ firstSlot tor.io.slotPiece tor.info.pieceCount q →
        firstSlot tor.io.slotPiece tor.info.pieceCount q + 1 ≤ t.io.slotsUsed) ∧
      (t.io.slotsUsed = tor.io.slotsUsed ∨
        ∃ q ∈ l, 0 ≤ firstSlot tor.io.slotPiece tor.info.pieceCount q ∧
          t.io.slotsUsed = firstSlot tor.io.slotPiece tor.info.pieceCount q + 1) := by
  induction l with
  | nil => intro tor _; simp
  | cons a tl ih =>
    intro tor h
    obtain ⟨ha0, ha1, ha2⟩ := h a (List.mem_cons_self a tl)
    obtain ⟨s1, s2, s3, s4, s5, s6, s7, s8, s9, s10, s11, s12⟩ := loadPiece_spec tor a
    have hlen : (loadPiece tor a).bitfield.length = tor.bitfield.length := by
      rw [s10]; split
      · exact tr_bitfieldAdd_length _ _
      · rfl
    obtain ⟨i1, i2, i3, i4, i5, i6, i7, i8, i9, i10, i11, i12, i13, i14, i15⟩ :=
      ih (loadPiece tor a) (by
        intro i hi
        rw [s9, hlen]
        exact h i (List.mem_cons_of_mem a hi))
    simp only [List.foldl_cons]
    have hpc : ∀ q, pieceComplete (loadPiece tor a) q = pieceComplete tor q :=
      fun q => pieceComplete_congr _ _ s1 s3 s4 s2 q
    rw [s7, s1] at i11 i14 i15
    refine ⟨i1.trans s1, i2.trans s2, i3.trans s3, i4.trans s4, i5.trans s5, i6.trans s6,
      i7.trans s7, i8.trans s8, i9.trans s9, i10.trans hlen, fun q => ?_, fun q => ?_, ?_,
      fun q hq hf => ?_, ?_⟩
    · rw [i11 q, s12 q]
      by_cases hq : q = a
      · subst hq
        simp [ha0, ha1]
      · simp [hq]
    · rw [i12 q, hpc q, s10]
      by_cases hq : q = a
      · subst hq
        by_cases hc : pieceComplete tor q = true
        · rw [if_pos hc, tr_bitfieldHas_add_self _ _ ha0 ha2]
          simp [hc]
        · rw [if_neg hc]
          simp [hc]
      · by_cases hc : pieceComplete tor a = true
        · rw [if_pos hc, tr_bitfieldHas_add_ne _ _ _ hq]
          simp [hq]
        · rw [if_neg hc]
          simp [hq]
    · refine le_trans ?_ i13
      rw [s11]
      split
      · exact le_max_left _ _
      · exact le_refl _
    · rcases List.mem_cons.mp hq with hq1 | hq1
      · subst hq1
        refine le_trans ?_ i13
        rw [s11, if_pos hf]
        exact le_max_right _ _
      · exact i14 q hq1 hf
    · rcases i15 with e | ⟨q, hq, hq0, e⟩
      · rw [e, s11]
        by_cases hf : 0 ≤ firstSlot tor.io.slotPiece tor.info.pieceCount a
        · rw [if_pos hf]
          rcases le_total tor.io.slotsUsed
              (firstSlot tor.io.slotPiece tor.info.pieceCount a + 1) with hm | hm
          · right
            exact ⟨a, List.mem_cons_self a tl, hf, max_eq_right hm⟩
          · left
            exact max_eq_left hm
        · rw [if_neg hf]
          left; rfl
      · right
        exact ⟨q, List.mem_cons_of_mem a hq, hq0, e⟩

end Transmission
namespace Transmission

/-- In a strictly increasing list, no element before the one that `find?`
returns passes the test. -/
theorem find?_increasing (p : Int → Bool) (b : Int) :
    ∀ l : List Int, l.Pairwise (fun x y => x < y) → l.find? p = some b →
      ∀ a ∈ l, a < b → p a = false := by
  intro l
  induction l with
  | nil => intro _ h; simp at h
  | cons x xs ih =>
    intro hs h a ha hab
    rw [List.pairwise_cons] at hs
    rw [List.find?_cons] at h
    cases hx : p x with
    | true =>
      rw [hx] at h
      simp only [Option.some.injEq] at h
      subst h
      rcases List.mem_cons.mp ha with e | e
      · rw [e] at hab; exact absurd hab (lt_irrefl _)
      · exact absurd (hs.1 a e) (not_lt.mpr (le_of_lt hab))
    | false =>
      rw [hx] at h
      rcases List.mem_cons.mp ha with e | e
      · rw [e]; exact hx
      · exact ih hs.2 h a e hab

theorem upTo_increasing (n : Int) : (upTo n).Pairwise (fun x y => x < y) := by
  unfold upTo
  rw [List.pairwise_map]
  exact (List.pairwise_lt_range n.toNat).imp (fun h => by
    simp only [Int.ofNat_eq_coe]
    omega)

/-- The slot that the last loop of `fastResumeLoad` finds for a piece is the
first slot that holds it, `-1` when there is none. -/
theorem firstSlot_spec (slotPiece : List Int) (n p : Int) :
    FirstSlotOf slotPiece n p (firstSlot slotPiece n p) := by
  unfold firstSlot FirstSlotOf
  cases hf : (upTo n).find? (fun j => decide (arrGet slotPiece j = p)) with
  | none =>
    rw [List.find?_eq_none] at hf
    left
    refine ⟨rfl, fun j h0 h1 e => ?_⟩
    exact hf j ((mem_upTo n j).mpr ⟨h0, h1⟩) (decide_eq_true e)
  | some s =>
    have hs := List.mem_of_find?_eq_some hf
    rw [mem_upTo] at hs
    have hp : arrGet slotPiece s = p := by
      have := List.find?_some hf
      exact of_decide_eq_true this
    right
    simp only [Option.getD_some]
    refine ⟨hs.1, hs.2, hp, fun j h0 h1 e => ?_⟩
    have := find?_increasing _ s (upTo n) (upTo_increasing n) hf j
      ((mem_upTo n j).mpr ⟨h0, by omega⟩) h1
    rw [decide_eq_true e] at this
    exact absurd this (by simp)

/-- There is one first slot for a piece. -/
theorem firstSlotOf_unique (slotPiece : List Int) (n p s1 s2 : Int)
    (h1 : FirstSlotOf slotPiece n p s1) (h2 : FirstSlotOf slotPiece n p s2) : s1 = s2 := by
  rcases h1 with ⟨e1, f1⟩ | ⟨a1, b1, c1, f1⟩ <;> rcases h2 with ⟨e2, f2⟩ | ⟨a2, b2, c2, f2⟩
  · rw [e1, e2]
  · exact absurd c2 (f1 s2 a2 b2)
  · exact absurd c1 (f2 s1 a1 b1)
  · rcases lt_trichotomy s1 s2 with h | h | h
    · exact absurd c1 (f2 s1 a1 h)
    · exact h
    · exact absurd c2 (f1 s2 a2 h)

/-- The blocks of a piece are blocks of the torrent. -/
theorem pieceBlocks_range (tor : tr_torrent_t) (p b : Int) (hp : 0 ≤ p)
    (hP : 0 ≤ tor.info.pieceSize) (hB : 0 < tor.blockSize) (hb : b ∈ pieceBlocks tor p) :
    0 ≤ b ∧ b < tor.blockCount := by
  unfold pieceBlocks at hb
  simp only [List.mem_map] at hb
  obtain ⟨k, hk, he⟩ := hb
  rw [mem_upTo] at hk
  unfold tr_pieceCountBlocks at hk
  have hs : 0 ≤ tr_pieceStartBlock tor p := by
    unfold tr_pieceStartBlock
    apply Int.ediv_nonneg _ (le_of_lt hB)
    have := mul_nonneg hp hP
    omega
  have hmin := min_le_right (tr_pieceStartBlock tor (p + 1)) tor.blockCount
  omega

end Transmission
namespace Transmission

/-- The sections of a resume file. -/
theorem resumeFile_sections (m : List Int) (bf : List Nat) (sp : List Int)
    (hsp : ∀ a ∈ sp, -2147483648 ≤ a ∧ a < 2147483648) :
    (nativeBytes 0 ++ writeInts m ++ bf ++ writeInts sp).length =
      4 + 4 * m.length + bf.length + 4 * sp.length ∧
    nativeInt (nativeBytes 0 ++ writeInts m ++ bf ++ writeInts sp) = 0 ∧
    ((nativeBytes 0 ++ writeInts m ++ bf ++ writeInts sp).drop 4).take (4 * m.length) =
      writeInts m ∧
    (((nativeBytes 0 ++ writeInts m ++ bf ++ writeInts sp).drop 4).drop (4 * m.length)).take
      bf.length = bf ∧
    readInts sp.length ((((nativeBytes 0 ++ writeInts m ++ bf ++ writeInts sp).drop 4).drop
      (4 * m.length)).drop bf.length) = sp := by
  have e1 : (nativeBytes 0 ++ writeInts m ++ bf ++ writeInts sp).drop 4 =
      writeInts m ++ (bf ++ writeInts sp) := by
    rw [List.append_assoc, List.append_assoc]
    exact List.drop_left' (nativeBytes_length 0)
  have e2 : (writeInts m ++ (bf ++ writeInts sp)).drop (4 * m.length) = bf ++ writeInts sp :=
    List.drop_left' (writeInts_length m)
  refine ⟨?_, ?_, ?_, ?_, ?_⟩
  · simp only [List.length_append, nativeBytes_length, writeInts_length]
  · rw [List.append_assoc, List.append_assoc]
    exact nativeInt_nativeBytes 0 _ (by decide) (by decide)
  · rw [e1]
    exact List.take_left' (writeInts_length m)
  · rw [e1, e2]
    exact List.take_left' rfl
  · rw [e1, e2, List.drop_left' rfl]
    have := readInts_writeInts sp [] hsp
    rw [List.append_nil] at this
    exact this

theorem fastResumeMTimes_length (inf : tr_info_t) (stats : List (Option Int)) (m : List Int)
    (h : fastResumeMTimes inf stats = some m) : m.length = inf.files.length := by
  unfold fastResumeMTimes at h
  split at h
  · simp only [Option.some.injEq] at h
    rw [← h]
    simp
  · exact absurd h (by simp)

theorem loadBlocks_spec (tor : tr_torrent_t) (bf : List Nat)
    (h : tor.blockHave.length = tor.blockCount.toNat) :
    (loadBlocks tor bf).info = tor.info ∧ (loadBlocks tor bf).blockSize = tor.blockSize ∧
    (loadBlocks tor bf).blockCount = tor.blockCount ∧
    (loadBlocks tor bf).bitfield = tor.bitfield ∧ (loadBlocks tor bf).io = tor.io ∧
    (loadBlocks tor bf).peers = tor.peers ∧
    (loadBlocks tor bf).blockHave.length = tor.blockHave.length ∧
    (loadBlocks tor bf).blockHaveCount = tor.blockHaveCount +
      ((upTo tor.blockCount).filter (fun i => tr_bitfieldHas bf i)).length ∧
    ∀ q, arrGet (loadBlocks tor bf).blockHave q =
      if q ∈ upTo tor.blockCount ∧ tr_bitfieldHas bf q = true then -1
      else arrGet tor.blockHave q := by
  unfold loadBlocks
  exact loadBlocksFold_spec bf (upTo tor.blockCount) tor (by
    intro i hi
    rw [mem_upTo] at hi
    rw [h]
    omega)

/-- The block table that `fastResumeLoad` fills in a fresh session from the
bitfield for blocks of a saved session. -/
theorem loadBlocks_fresh (tor : tr_torrent_t) :
    (loadBlocks (freshSession tor) (blockBitfield tor)).info = tor.info ∧
    (loadBlocks (freshSession tor) (blockBitfield tor)).blockSize = tor.blockSize ∧
    (loadBlocks (freshSession tor) (blockBitfield tor)).blockCount = tor.blockCount ∧
    (loadBlocks (freshSession tor) (blockBitfield tor)).bitfield =
      List.replicate ((tor.info.pieceCount + 7) / 8).toNat 0 ∧
    (loadBlocks (freshSession tor) (blockBitfield tor)).blockHaveCount =
      ((upTo tor.blockCount).filter (fun b => decide (arrGet tor.blockHave b < 0))).length ∧
    ∀ q, arrGet (loadBlocks (freshSession tor) (blockBitfield tor)).blockHave q =
      if (0 ≤ q ∧ q < tor.blockCount) ∧ arrGet tor.blockHave q < 0 then -1 else 0 := by
  obtain ⟨_, b2⟩ := blockBitfield_spec tor
  obtain ⟨l1, l2, l3, l4, _, _, _, l8, l9⟩ := loadBlocks_spec (freshSession tor)
    (blockBitfield tor) (by
      show (List.replicate tor.blockCount.toNat (0 : Int)).length = _
      rw [List.length_replicate]; rfl)
  refine ⟨l1, l2, l3, l4, ?_, fun q => ?_⟩
  · rw [l8]
    show (0 : Int) + (((upTo tor.blockCount).filter _).length : Int) = _
    rw [zero_add]
    congr 1
    apply congrArg
    apply List.filter_congr
    intro b hb
    rw [mem_upTo] at hb
    rw [b2 b]
    simp [hb.1, hb.2]
  · have hz : arrGet (freshSession tor).blockHave q = 0 := by
      show arrGet (List.replicate tor.blockCount.toNat (0 : Int)) q = 0
      unfold arrGet
      split
      · rw [List.getD_eq_getElem?_getD, List.getElem?_replicate]
        split <;> rfl
      · rfl
    rw [l9 q, b2 q, hz]
    have hu : (q ∈ upTo (freshSession tor).blockCount) ↔ (0 ≤ q ∧ q < tor.blockCount) :=
      mem_upTo _ _
    by_cases h1 : 0 ≤ q ∧ q < tor.blockCount <;> by_cases h2 : arrGet tor.blockHave q < 0 <;>
      simp [hu, h1, h2]

/-- The last loop of `fastResumeLoad`, run on a session `t1` whose bitfield is
still clear, with the slot table `io.slotPiece` of a saved session. -/
theorem loadPieces_spec (t1 : tr_torrent_t) (io : tr_io_t) (n : Int) (hn : 0 ≤ n)
    (hinfo : t1.info.pieceCount = n)
    (hbits : t1.bitfield = List.replicate ((n + 7) / 8).toNat 0) :
    let t := (upTo n).foldl loadPiece
      { t1 with io := { t1.io with slotPiece := io.slotPiece, slotsUsed := 0,
                                   pieceSlot := List.replicate n.toNat 0 } }
    t.info = t1.info ∧ t.blockHave = t1.blockHave ∧ t.blockHaveCount = t1.blockHaveCount ∧
    t.io.slotPiece = io.slotPiece ∧ (t.io.pieceSlot.length : Int) = n ∧
    (∀ p, 0 ≤ p → p < n → arrGet t.io.pieceSlot p = firstSlot io.slotPiece n p) ∧
    (∀ p, 0 ≤ p → p < n → tr_bitfieldHas t.bitfield p = pieceComplete t1 p) ∧
    (∀ p, 0 ≤ p → p < n → firstSlot io.slotPiece n p < t.io.slotsUsed) ∧
    (t.io.slotsUsed = 0 ∨
      ∃ p, 0 ≤ p ∧ p < n ∧ t.io.slotsUsed = firstSlot io.slotPiece n p + 1) := by
  intro t
  obtain ⟨p1, p2, _, _, p5, _, p7, _, p9, _, p11, p12, p13, p14, p15⟩ :=
    loadPieceFold_spec (upTo n)
      { t1 with io := { t1.io with slotPiece := io.slotPiece, slotsUsed := 0,
                                   pieceSlot := List.replicate n.toNat 0 } } (by
      intro i hi
      rw [mem_upTo] at hi
      show 0 ≤ i ∧ i < ((List.replicate n.toNat (0 : Int)).length : Int) ∧
        i < 8 * (t1.bitfield.length : Int)
      rw [hbits, List.length_replicate, List.length_replicate]
      omega)
  have q11 : ∀ q, arrGet t.io.pieceSlot q =
      if q ∈ upTo n then firstSlot io.slotPiece t1.info.pieceCount q
      else arrGet (List.replicate n.toNat 0) q := p11
  have q12 : ∀ q, tr_bitfieldHas t.bitfield q =
      (tr_bitfieldHas t1.bitfield q || (decide (q ∈ upTo n) && pieceComplete
        { t1 with io := { t1.io with slotPiece := io.slotPiece, slotsUsed := 0,
                                     pieceSlot := List.replicate n.toNat 0 } } q)) := p12
  have q13 : (0 : Int) ≤ t.io.slotsUsed := p13
  have q14 : ∀ q ∈ upTo n, 0 ≤ firstSlot io.slotPiece t1.info.pieceCount q →
      firstSlot io.slotPiece t1.info.pieceCount q + 1 ≤ t.io.slotsUsed := p14
  have q15 : t.io.slotsUsed = 0 ∨ ∃ q ∈ upTo n,
      0 ≤ firstSlot io.slotPiece t1.info.pieceCount q ∧
      t.io.slotsUsed = firstSlot io.slotPiece t1.info.pieceCount q + 1 := p15
  have q9 : t.io.pieceSlot.length = (List.replicate n.toNat (0 : Int)).length := p9
  rw [hinfo] at q11 q14 q15
  refine ⟨p1, p2, p5, p7, ?_, fun p hp0 hp1 => ?_, fun p hp0 hp1 => ?_,
    fun p hp0 hp1 => ?_, ?_⟩
  · rw [q9, List.length_replicate]
    omega
  · rw [q11 p, if_pos ((mem_upTo _ _).mpr ⟨hp0, hp1⟩)]
  · rw [q12 p]
    have hmem : p ∈ upTo n := (mem_upTo _ _).mpr ⟨hp0, hp1⟩
    have hpc2 : pieceComplete { t1 with io := { t1.io with
        slotPiece := io.slotPiece, slotsUsed := 0,
        pieceSlot := List.replicate n.toNat 0 } } p = pieceComplete t1 p :=
      pieceComplete_congr _ _ rfl rfl rfl rfl p
    rw [hpc2, hbits, tr_bitfieldHas_replicate]
    simp [hmem]
  · by_cases hf : 0 ≤ firstSlot io.slotPiece n p
    · have := q14 p ((mem_upTo _ _).mpr ⟨hp0, hp1⟩) hf
      omega
    · omega
  · rcases q15 with e | ⟨q, hq, _, e⟩
    · left; exact e
    · right
      rw [mem_upTo] at hq
      exact ⟨q, hq.1, hq.2, e⟩

/-- When the slot table holds only pieces and free entries and no piece twice,
the value that `fastResumeLoad` gives `slotsUsed` is one more than the highest
occupied slot, 0 when no slot is occupied. -/
theorem slotsUsed_highest (n : Int) (slotPiece : List Int) (u : Int)
    (h14 : ∀ p, 0 ≤ p → p < n → firstSlot slotPiece n p < u)
    (h15 : u = 0 ∨ ∃ p, 0 ≤ p ∧ p < n ∧ u = firstSlot slotPiece n p + 1)
    (hpieces : ∀ s, 0 ≤ s → s < n → arrGet slotPiece s < n)
    (honce : ∀ s s2, 0 ≤ s → s < n → 0 ≤ s2 → s2 < n → 0 ≤ arrGet slotPiece s →
      arrGet slotPiece s = arrGet slotPiece s2 → s = s2) :
    (∀ s, 0 ≤ s → s < n → 0 ≤ arrGet slotPiece s → s < u) ∧
    (u = 0 ∨ (0 < u ∧ u ≤ n ∧ 0 ≤ arrGet slotPiece (u - 1))) := by
  constructor
  · intro s hs0 hs1 hocc
    have hq := h14 (arrGet slotPiece s) hocc (hpieces s hs0 hs1)
    rcases firstSlot_spec slotPiece n (arrGet slotPiece s) with ⟨_, f⟩ | ⟨a, b, c, _⟩
    · exact absurd rfl (f s hs0 hs1)
    · have := honce _ _ a b hs0 hs1 (by rw [c]; exact hocc) c
      omega
  · rcases h15 with e | ⟨p, hp0, hp1, e⟩
    · left; exact e
    · rcases firstSlot_spec slotPiece n p with ⟨e1, _⟩ | ⟨a, b, c, _⟩
      · left; omega
      · right
        refine ⟨by omega, by omega, ?_⟩
        rw [e, add_sub_cancel_right, c]
        exact hp0

/-- The value that `fastResumeLoad` gives `slotsUsed` is the saved one when the
slot below the saved value is occupied and no slot from it on is. -/
theorem slotsUsed_restored (n : Int) (io : tr_io_t) (u : Int)
    (h7 : ∀ s, 0 ≤ s → s < n → 0 ≤ arrGet io.slotPiece s → s < u)
    (h8 : u = 0 ∨ (0 < u ∧ u ≤ n ∧ 0 ≤ arrGet io.slotPiece (u - 1)))
    (hu0 : 0 ≤ io.slotsUsed) (huN : io.slotsUsed ≤ n)
    (htop : io.slotsUsed = 0 ∨ 0 ≤ arrGet io.slotPiece (io.slotsUsed - 1))
    (hfree : ∀ s, io.slotsUsed ≤ s → s < n → arrGet io.slotPiece s = -1) :
    u = io.slotsUsed := by
  rcases h8 with e | ⟨e1, e2, e3⟩
  · rcases htop with h | h
    · rw [e, h]
    · by_cases hz : io.slotsUsed = 0
      · rw [e, hz]
      · have := h7 (io.slotsUsed - 1) (by omega) (by omega) h
        omega
  · have hle : u ≤ io.slotsUsed := by
      by_contra hc
      have := hfree (u - 1) (by omega) (by omega)
      omega
    by_contra hne
    have hlt : u < io.slotsUsed := lt_of_le_of_ne hle hne
    rcases htop with h | h
    · omega
    · have := h7 (io.slotsUsed - 1) (by omega) (by omega) h
      omega

end Transmission
namespace Transmission

/-- The pieces that are complete after the block table was loaded are those
that were complete when it was saved. -/
theorem pieceComplete_fresh (tor : tr_torrent_t) (p : Int) (hp : 0 ≤ p)
    (hP : 0 ≤ tor.info.pieceSize) (hB : 0 < tor.blockSize) :
    pieceComplete (loadBlocks (freshSession tor) (blockBitfield tor)) p =
      pieceComplete tor p := by
  obtain ⟨l1, l2, l3, _, _, l9⟩ := loadBlocks_fresh tor
  have e : ∀ b ∈ pieceBlocks tor p,
      (arrGet (loadBlocks (freshSession tor) (blockBitfield tor)).blockHave b < 0 ↔
        arrGet tor.blockHave b < 0) := by
    intro b hb
    have hr := pieceBlocks_range tor p b hp hP hB hb
    rw [l9 b]
    by_cases h2 : arrGet tor.blockHave b < 0
    · simp [hr.1, hr.2, h2]
    · simp [h2]
  have hpb : pieceBlocks (loadBlocks (freshSession tor) (blockBitfield tor)) p =
      pieceBlocks tor p := pieceBlocks_congr _ _ l1 l2 l3 p
  cases hc : pieceComplete tor p with
  | true =>
    rw [pieceComplete_iff] at hc ⊢
    rw [hpb]
    exact fun b hb => (e b hb).mpr (hc b hb)
  | false =>
    cases hc2 : pieceComplete (loadBlocks (freshSession tor) (blockBitfield tor)) p with
    | false => rfl
    | true =>
      rw [pieceComplete_iff, hpb] at hc2
      have : pieceComplete tor p = true :=
        (pieceComplete_iff tor p).mpr (fun b hb => (e b hb).mp (hc2 b hb))
      rw [hc] at this
      exact absurd this (by simp)

/-- Loading the file that `fastResumeSave` wrote, with the file mtimes
unchanged, passes the checks of `fastResumeLoad`. -/
theorem fastResumeLoad_saved (tor : tr_torrent_t) (stats : List (Option Int)) (m : List Int)
    (hn : 0 ≤ tor.info.pieceCount) (hm : 0 ≤ tor.blockCount)
    (hst : fastResumeMTimes tor.info stats = some m)
    (hlen : (tor.io.slotPiece.length : Int) = tor.info.pieceCount)
    (hfit : ∀ a ∈ tor.io.slotPiece, -2147483648 ≤ a ∧ a < 2147483648) :
    fastResumeSave tor stats =
      some (nativeBytes 0 ++ writeInts m ++ blockBitfield tor ++ writeInts tor.io.slotPiece) ∧
    fastResumeLoad (freshSession tor)
      (some (nativeBytes 0 ++ writeInts m ++ blockBitfield tor ++ writeInts tor.io.slotPiece))
      stats = (0, resumeApply (freshSession tor) (blockBitfield tor) tor.io.slotPiece) := by
  obtain ⟨b1, _⟩ := blockBitfield_spec tor
  obtain ⟨s1, s2, s3, s4, s5⟩ := resumeFile_sections m (blockBitfield tor) tor.io.slotPiece
    hfit
  have hml := fastResumeMTimes_length tor.info stats m hst
  have hsl := hlen
  constructor
  · unfold fastResumeSave
    rw [hst, upTo_eq_length tor.io.slotPiece _ hlen]
    rfl
  · unfold fastResumeLoad
    have hinfo : (freshSession tor).info = tor.info := rfl
    have hbc : (freshSession tor).blockCount = tor.blockCount := rfl
    simp only [hinfo, hbc]
    have e1 : ¬ ((((nativeBytes 0 ++ writeInts m ++ blockBitfield tor ++
        writeInts tor.io.slotPiece).length : Nat) : Int) ≠
        4 + 4 * (tor.info.files.length : Int) + 4 * tor.info.pieceCount +
          (tor.blockCount + 7) / 8) := by
      rw [s1, b1, hml]
      push_cast
      omega
    rw [if_neg e1, if_neg (not_not.mpr s2), hst]
    simp only
    rw [← hml, s3, if_neg (not_not.mpr rfl), ← b1, s4]
    have e5 : tor.info.pieceCount.toNat = tor.io.slotPiece.length := by omega
    rw [e5, s5]

end Transmission
namespace Transmission

/-- C14 (as amended): for every storage state whose `slotPiece` table has one
32-bit entry per piece, `fastResumeSave` followed by `fastResumeLoad` into a
freshly initialised session of the same torrent, with unchanged file mtimes,
succeeds and restores the same set of blocks with `blockHave < 0` and the same
`slotPiece` table.  The rest is computed from these two: the have count is the
number of those blocks; the piece bitfield has exactly the bits of the pieces
all of whose blocks are have; `pieceSlot[p]` is the first slot that holds `p`,
`-1` when no slot holds it, so that the `pieceSlot` table is the saved one
exactly when the saved one has this form; `slotsUsed` is one more than the
highest slot that the restored `pieceSlot` names, 0 when it names none.  When
the saved `slotPiece` holds only free entries and pieces, and no piece twice,
the restored `slotsUsed` is one more than the highest occupied slot (0 when no
slot is occupied), which is the saved value exactly when the slot below the
saved `slotsUsed` is occupied (or the saved value is 0) and no slot from the
saved value on is occupied. -/
theorem C14_resume_save_then_load_restores (tor : tr_torrent_t)
    (stats : List (Option Int)) (m : List Int)
    (hn : 0 ≤ tor.info.pieceCount)
    (hm : 0 ≤ tor.blockCount) (hP : 0 ≤ tor.info.pieceSize) (hB : 0 < tor.blockSize)
    (hst : fastResumeMTimes tor.info stats = some m)
    (hlen : (tor.io.slotPiece.length : Int) = tor.info.pieceCount)
    (hfit : ∀ a ∈ tor.io.slotPiece, -2147483648 ≤ a ∧ a < 2147483648) :
    ∃ f t, fastResumeSave tor stats = some f ∧
      fastResumeLoad (freshSession tor) (some f) stats = (0, t) ∧
      (∀ b, 0 ≤ b → b < tor.blockCount →
        (arrGet t.blockHave b < 0 ↔ arrGet tor.blockHave b < 0)) ∧
      t.blockHaveCount =
        ((upTo tor.blockCount).filter (fun b => decide (arrGet tor.blockHave b < 0))).length ∧
      t.io.slotPiece = tor.io.slotPiece ∧
      (t.io.pieceSlot.length : Int) = tor.info.pieceCount ∧
      (∀ p, 0 ≤ p → p < tor.info.pieceCount →
        FirstSlotOf tor.io.slotPiece tor.info.pieceCount p (arrGet t.io.pieceSlot p)) ∧
      (t.io.pieceSlot = tor.io.pieceSlot ↔
        ((tor.io.pieceSlot.length : Int) = tor.info.pieceCount ∧
          ∀ p, 0 ≤ p → p < tor.info.pieceCount →
            FirstSlotOf tor.io.slotPiece tor.info.pieceCount p (arrGet tor.io.pieceSlot p))) ∧
      (∀ p, 0 ≤ p → p < tor.info.pieceCount →
        tr_bitfieldHas t.bitfield p = pieceComplete tor p) ∧
      (∀ p, 0 ≤ p → p < tor.info.pieceCount → arrGet t.io.pieceSlot p < t.io.slotsUsed) ∧
      (t.io.slotsUsed = 0 ∨
        ∃ p, 0 ≤ p ∧ p < tor.info.pieceCount ∧
          t.io.slotsUsed = arrGet t.io.pieceSlot p + 1) ∧
      ((∀ s, 0 ≤ s → s < tor.info.pieceCount →
          arrGet tor.io.slotPiece s < tor.info.pieceCount) →
        (∀ s s2, 0 ≤ s → s < tor.info.pieceCount → 0 ≤ s2 → s2 < tor.info.pieceCount →
          0 ≤ arrGet tor.io.slotPiece s →
          arrGet tor.io.slotPiece s = arrGet tor.io.slotPiece s2 → s = s2) →
        (∀ s, 0 ≤ s → s < tor.info.pieceCount → 0 ≤ arrGet tor.io.slotPiece s →
          s < t.io.slotsUsed) ∧
        (t.io.slotsUsed = 0 ∨
          (0 < t.io.slotsUsed ∧ t.io.slotsUsed ≤ tor.info.pieceCount ∧
            0 ≤ arrGet tor.io.slotPiece (t.io.slotsUsed - 1))) ∧
        (t.io.slotsUsed = tor.io.slotsUsed ↔
          ((tor.io.slotsUsed = 0 ∨
              (0 < tor.io.slotsUsed ∧ tor.io.slotsUsed ≤ tor.info.pieceCount ∧
                0 ≤ arrGet tor.io.slotPiece (tor.io.slotsUsed - 1))) ∧
            ∀ s, tor.io.slotsUsed ≤ s → 0 ≤ s → s < tor.info.pieceCount →
              arrGet tor.io.slotPiece s < 0))) := by
  obtain ⟨hsave, hload⟩ := fastResumeLoad_saved tor stats m hn hm hst hlen hfit
  obtain ⟨l1, _, _, l4, l5, l9⟩ := loadBlocks_fresh tor
  obtain ⟨_, q2, q3, q4, q5, q6, q7, q8, q9⟩ := loadPieces_spec
    (loadBlocks (freshSession tor) (blockBitfield tor)) tor.io tor.info.pieceCount hn
    (by rw [l1]) l4
  have hres : resumeApply (freshSession tor) (blockBitfield tor) tor.io.slotPiece =
      (upTo tor.info.pieceCount).foldl loadPiece
        { loadBlocks (freshSession tor) (blockBitfield tor) with
          io := { (loadBlocks (freshSession tor) (blockBitfield tor)).io with
            slotPiece := tor.io.slotPiece, slotsUsed := 0,
            pieceSlot := List.replicate tor.info.pieceCount.toNat 0 } } := rfl
  rw [← hres] at q2 q3 q4 q5 q6 q7 q8 q9
  generalize resumeApply (freshSession tor) (blockBitfield tor) tor.io.slotPiece = t at *
  refine ⟨_, t, hsave, hload, fun b hb0 hb1 => ?_, ?_, q4, q5, fun p hp0 hp1 => ?_, ?_,
    fun p hp0 hp1 => ?_, fun p hp0 hp1 => ?_, ?_, fun hpieces honce => ?_⟩
  · rw [q2, l9 b]
    by_cases h2 : arrGet tor.blockHave b < 0
    · simp [hb0, hb1, h2]
    · simp [h2]
  · rw [q3, l5]
  · rw [q6 p hp0 hp1]
    exact firstSlot_spec _ _ _
  · constructor
    · intro e
      rw [← e]
      refine ⟨q5, fun p hp0 hp1 => ?_⟩
      rw [q6 p hp0 hp1]
      exact firstSlot_spec _ _ _
    · rintro ⟨hl, hf⟩
      apply arr_ext
      · omega
      · intro i hi0 hi1
        have hi2 : i < tor.info.pieceCount := by omega
        rw [q6 i hi0 hi2]
        exact firstSlotOf_unique _ _ _ _ _ (firstSlot_spec _ _ _) (hf i hi0 hi2)
  · rw [q7 p hp0 hp1]
    exact pieceComplete_fresh tor p hp0 hP hB
  · rw [q6 p hp0 hp1]
    exact q8 p hp0 hp1
  · rcases q9 with e | ⟨p, hp0, hp1, e⟩
    · left; exact e
    · right
      exact ⟨p, hp0, hp1, by rw [q6 p hp0 hp1]; exact e⟩
  · obtain ⟨h7, h8⟩ := slotsUsed_highest _ tor.io.slotPiece t.io.slotsUsed q8 q9 hpieces honce
    refine ⟨h7, h8, ?_⟩
    constructor
    · intro e
      rw [← e]
      refine ⟨h8, fun s hs hs0 hs1 => ?_⟩
      by_contra hc
      have := h7 s hs0 hs1 (not_lt.mp hc)
      omega
    · rintro ⟨htop, hfree⟩
      rcases htop with hz | ⟨ht0, ht1, ht2⟩
      · rcases h8 with e | ⟨e1, e2, e3⟩
        · rw [e, hz]
        · have := hfree (t.io.slotsUsed - 1) (by omega) (by omega) (by omega)
          omega
      · have hle := h7 (tor.io.slotsUsed - 1) (by omega) (by omega) ht2
        rcases h8 with e | ⟨e1, e2, e3⟩
        · omega
        · by_contra hne
          have := hfree (t.io.slotsUsed - 1) (by omega) (by omega) (by omega)
          omega

end Transmission
namespace Transmission

/-- In the scenario torrent with pieces 0 and 1 the table `pieceSlot` names for
every piece the first slot that holds it. -/
theorem scenarioTor01_first (p : Int) (h0 : 0 ≤ p) (h1 : p < scenarioTor01.info.pieceCount) :
    FirstSlotOf scenarioTor01.io.slotPiece scenarioTor01.info.pieceCount p
      (arrGet scenarioTor01.io.pieceSlot p) := by
  have e : scenarioTor01.info.pieceCount = 3 := by decide
  rw [e] at h1
  have h : arrGet scenarioTor01.io.pieceSlot p =
      firstSlot scenarioTor01.io.slotPiece scenarioTor01.info.pieceCount p := by
    interval_cases p <;> decide
  rw [h]
  exact firstSlot_spec _ _ _

/-- In the scenario torrent with pieces 0 and 1 no piece sits in two slots. -/
theorem scenarioTor01_once (s s2 : Int) (h0 : 0 ≤ s) (h1 : s < scenarioTor01.info.pieceCount)
    (h2 : 0 ≤ s2) (h3 : s2 < scenarioTor01.info.pieceCount)
    (_h4 : 0 ≤ arrGet scenarioTor01.io.slotPiece s)
    (h5 : arrGet scenarioTor01.io.slotPiece s = arrGet scenarioTor01.io.slotPiece s2) :
    s = s2 := by
  have e : scenarioTor01.info.pieceCount = 3 := by decide
  rw [e] at h1 h3
  interval_cases s <;> interval_cases s2 <;>
    first
    | rfl
    | exact absurd h5 (by decide)

set_option maxRecDepth 100000 in
set_option maxHeartbeats 1000000 in
/-- Witness for C14: the scenario torrent with pieces 0 and 1 in slots 0 and 1
is saved and loaded into a fresh session: the tables, the have blocks, the
bitfield and `slotsUsed = 2` come back. -/
theorem C14_witness :
    fastResumeMTimes scenarioTor01.info scenarioStats = some [1000] ∧
    scenarioTor01.io.slotPiece = [0, 1, -1] ∧ scenarioTor01.io.pieceSlot = [0, 1, -1] ∧
    scenarioTor01.io.slotsUsed = 2 ∧
    ∃ f t, fastResumeSave scenarioTor01 scenarioStats = some f ∧
      fastResumeLoad (freshSession scenarioTor01) (some f) scenarioStats = (0, t) ∧
      t.io.slotPiece = [0, 1, -1] ∧ t.io.pieceSlot = [0, 1, -1] ∧ t.blockHaveCount = 2 ∧
      t.io.slotsUsed = 2 :=
  have h := C14_resume_save_then_load_restores scenarioTor01 scenarioStats [1000]
    (by decide) (by decide) (by decide) (by decide) (by decide) (by decide) (by decide)
  ⟨by decide, by decide, by decide, by decide,
    match h with
    | ⟨f, t, h1, h2, _, h4, h5, _, _, h8, _, _, _, h12⟩ =>
      ⟨f, t, h1, h2, h5.trans (by decide),
        (h8.mpr ⟨by decide, scenarioTor01_first⟩).trans (by decide),
        h4.trans (by decide),
        ((h12 (by
            intro s hs0 hs1
            have e : scenarioTor01.info.pieceCount = 3 := by decide
            rw [e] at hs1
            interval_cases s <;> decide) scenarioTor01_once).2.2.mpr
          ⟨Or.inr (by decide), by
            intro s hs hs0 hs1
            have e : scenarioTor01.info.pieceCount = 3 := by decide
            have e2 : scenarioTor01.io.slotsUsed = 2 := by decide
            rw [e] at hs1
            rw [e2] at hs
            interval_cases s
            decide⟩).trans (by decide)⟩⟩

set_option maxRecDepth 100000 in
set_option maxHeartbeats 1000000 in
/-- C14, the claim as stated fails, for three states that the code reaches.
(1) The full scan of a file that holds piece 1 in slot 0 and bytes that match
no piece from piece 1 on in slot 1 leaves `slotsUsed = 2` with slot 1 free;
saved and loaded into a fresh session with the same mtimes, the state comes
back with `slotsUsed = 1`.  (2) The full scan of a file of 16 bytes whose
slots 0 and 1 both start with the bytes of the short last piece claims piece
2 for both slots: `slotPiece = [2, 2, -1]`, `pieceSlot = [-1, -1, 1]` (a state
in which `slotPiece[pieceSlot[p]] = p` for every placed piece), `slotsUsed = 2`
and a have count of 2 for one have block; the state comes back with
`pieceSlot = [-1, -1, 0]`, `slotsUsed = 1` and a have count of 1.  (3) In the
torrent of three files of 12, 0 and 8 bytes the blocks of pieces 0 and 1 are
taken in; the write of piece 1 into slot 1 stops at the empty file, so block
1 is have and bit 1 is not set; the state comes back with bit 1 set. -/
theorem C14_counterexample_state_not_restored :
    (swappedScanned.io.slotPiece = [1, -1, -1] ∧ swappedScanned.io.pieceSlot = [-1, 0, -1] ∧
      swappedScanned.io.slotsUsed = 2 ∧
      swappedResume = some [0, 0, 0, 0, 232, 3, 0, 0, 64,
        1, 0, 0, 0, 255, 255, 255, 255, 255, 255, 255, 255] ∧
      (fastResumeLoad (freshSession swappedScanned) swappedResume scenarioStats).1 = 0 ∧
      (fastResumeLoad (freshSession swappedScanned) swappedResume scenarioStats).2.io.slotPiece =
        [1, -1, -1] ∧
      (fastResumeLoad (freshSession swappedScanned) swappedResume scenarioStats).2.io.slotsUsed =
        1) ∧
    (doubledScanned.io.slotPiece = [2, 2, -1] ∧ doubledScanned.io.pieceSlot = [-1, -1, 1] ∧
      doubledScanned.io.slotsUsed = 2 ∧ doubledScanned.blockHave = [0, 0, -1] ∧
      doubledScanned.blockHaveCount = 2 ∧
      (∀ p ∈ upTo doubledScanned.info.pieceCount, 0 ≤ arrGet doubledScanned.io.pieceSlot p →
        arrGet doubledScanned.io.slotPiece (arrGet doubledScanned.io.pieceSlot p) = p) ∧
      doubledResume = some [0, 0, 0, 0, 232, 3, 0, 0, 32,
        2, 0, 0, 0, 2, 0, 0, 0, 255, 255, 255, 255] ∧
      (fastResumeLoad (freshSession doubledScanned) doubledResume scenarioStats).1 = 0 ∧
      (fastResumeLoad (freshSession doubledScanned) doubledResume scenarioStats).2.io.slotPiece =
        [2, 2, -1] ∧
      (fastResumeLoad (freshSession doubledScanned) doubledResume scenarioStats).2.io.pieceSlot =
        [-1, -1, 0] ∧
      (fastResumeLoad (freshSession doubledScanned) doubledResume scenarioStats).2.io.slotsUsed =
        1 ∧
      (fastResumeLoad (freshSession doubledScanned) doubledResume scenarioStats).2.blockHave =
        [0, 0, -1] ∧
      (fastResumeLoad (freshSession doubledScanned) doubledResume
        scenarioStats).2.blockHaveCount = 1) ∧
    ((storeBlock padHash 4 (tr_torrentInit emptyFileInfo []) 0 0 8 scenarioData0
          scenarioHeap).bind
        (fun t => storeBlock padHash 4 t 1 0 8 scenarioData1 scenarioHeap) =
        some crossingStored ∧
      crossingStored.blockHave = [-1, -1, 0] ∧ crossingStored.bitfield = [128] ∧
      tr_bitfieldHas crossingStored.bitfield 1 = false ∧
      (fastResumeLoad (freshSession crossingStored) crossingResume crossingStats).1 = 0 ∧
      (fastResumeLoad (freshSession crossingStored) crossingResume crossingStats).2.blockHave =
        [-1, -1, 0] ∧
      (fastResumeLoad (freshSession crossingStored) crossingResume crossingStats).2.bitfield =
        [192] ∧
      tr_bitfieldHas
        (fastResumeLoad (freshSession crossingStored) crossingResume crossingStats).2.bitfield
        1 = true) := by
  refine ⟨by decide, ?_, ?_⟩
  · refine ⟨?_, ?_, ?_, ?_, ?_, ?_, ?_, ?_, ?_, ?_, ?_, ?_, ?_⟩ <;> decide
  · refine ⟨?_, ?_, ?_, ?_, ?_, ?_, ?_, ?_⟩ <;> decide

end Transmission
namespace Transmission

theorem fastResumeMTimes_range (inf : tr_info_t) (stats : List (Option Int)) (m : List Int)
    (h : fastResumeMTimes inf stats = some m) :
    ∀ a ∈ m, -2147483648 ≤ a ∧ a < 2147483648 := by
  unfold fastResumeMTimes at h
  split at h
  · simp only [Option.some.injEq] at h
    rw [← h]
    intro a ha
    simp only [List.mem_map, List.mem_range] at ha
    obtain ⟨i, _, he⟩ := ha
    rw [← he]
    omega
  · exact absurd h (by simp)

/-- C15: `fastResumeLoad` fails and leaves the session as it was (block table,
have count, piece bitfield, slot tables) whenever the resume file cannot be
opened, its size differs from `4 + 4*fileCount + ceil(M/8) + 4*N`, its version
word is not 0, or the stored mtimes differ from the current mtimes (low 31
bits) of the files; `openAndCheckFiles` then gives the state of the full
scan. -/
theorem C15_resume_mismatch_falls_back_to_scan (sha1 : List Nat → List Nat)
    (tor : tr_torrent_t) (file : Option (List Nat)) (stats : List (Option Int))
    (heap : List Nat)
    (h : file = none ∨ ∃ f, file = some f ∧
      ((f.length : Int) ≠ 4 + 4 * (tor.info.files.length : Int) + (tor.blockCount + 7) / 8 +
          4 * tor.info.pieceCount ∨
        nativeInt f ≠ 0 ∨
        ∀ m1, fastResumeMTimes tor.info stats = some m1 →
          readInts tor.info.files.length (f.drop 4) ≠ m1)) :
    fastResumeLoad tor file stats = (1, tor) ∧
    openAndCheckFiles sha1 tor file stats heap = fullScan sha1 tor heap := by
  have key : fastResumeLoad tor file stats = (1, tor) := by
    rcases h with h | ⟨f, hf, h⟩
    · rw [h]; rfl
    · rw [hf]
      unfold fastResumeLoad
      simp only
      split
      · rfl
      split
      · rfl
      cases hm : fastResumeMTimes tor.info stats with
      | none => rfl
      | some m1 =>
        simp only
        split
        · rfl
        · rename_i hsz hv heq
          rcases h with h | h | h
          · exact absurd (by push_neg at hsz; rw [hsz]; ring) h
          · exact absurd (not_not.mp hv) h
          · exfalso
            apply h m1 hm
            have heq2 := not_not.mp heq
            have hl := fastResumeMTimes_length tor.info stats m1 hm
            have hsplit : f.drop 4 = writeInts m1 ++ (f.drop 4).drop (4 * tor.info.files.length) := by
              rw [heq2]
              exact (List.take_append_drop _ _).symm
            rw [hsplit, ← hl]
            exact readInts_writeInts m1 _ (fastResumeMTimes_range tor.info stats m1 hm)
  refine ⟨key, ?_⟩
  unfold openAndCheckFiles
  rw [key]
  simp

set_option maxRecDepth 100000 in
set_option maxHeartbeats 1000000 in
/-- Witness for C15: the resume file of the scenario torrent with pieces 0 and
1 is loaded after the file was touched (mtime 1001 instead of 1000): the load
fails, and `openAndCheckFiles` scans the file and finds both pieces. -/
theorem C15_witness :
    scenarioResume = some scenarioResumeBytes ∧
    readInts 1 (scenarioResumeBytes.drop 4) = [1000] ∧
    fastResumeMTimes scenarioTor01.info touchedStats = some [1001] ∧
    fastResumeLoad (freshSession scenarioTor01) (some scenarioResumeBytes) touchedStats =
      (1, freshSession scenarioTor01) ∧
    openAndCheckFiles padHash (freshSession scenarioTor01) (some scenarioResumeBytes)
      touchedStats scenarioHeap = fullScan padHash (freshSession scenarioTor01) scenarioHeap ∧
    (fullScan padHash (freshSession scenarioTor01) scenarioHeap).io.slotPiece = [0, 1, -1] ∧
    (fullScan padHash (freshSession scenarioTor01) scenarioHeap).io.slotsUsed = 2 :=
  have h := C15_resume_mismatch_falls_back_to_scan padHash (freshSession scenarioTor01)
    (some scenarioResumeBytes) touchedStats scenarioHeap
    (Or.inr ⟨scenarioResumeBytes, rfl, Or.inr (Or.inr (by
      intro m1 hm
      have e : fastResumeMTimes (freshSession scenarioTor01).info touchedStats =
          some [1001] := by decide
      rw [e] at hm
      simp only [Option.some.injEq] at hm
      rw [← hm]
      decide))⟩)
  ⟨by decide, by decide, by decide, h.1, h.2, by decide, by decide⟩

end Transmission
namespace Transmission

theorem fileRead_length_le (content : List Nat) (pos n : Nat) :
    (fileRead content pos n).length ≤ n := by
  unfold fileRead
  rw [List.length_take]
  exact Nat.min_le_left _ _

/-- Reading does not depend on what the buffer held: the result code and the
bytes delivered are those of a read into any other buffer, and the files are
left alone. -/
theorem rwFiles_read (files : List Int) :
    ∀ (file : Nat) (pos size : Int) (fds : List (List Nat)) (done buf : List Nat),
      0 ≤ size →
      (rwFiles false files file pos size fds done buf).2.1 = fds ∧
      ((rwFiles false files file pos size fds done buf).1 = 0 ∨
        (rwFiles false files file pos size fds done buf).1 = 1) ∧
      ∃ got : List Nat, got.length = size.toNat ∧
        ∀ (done1 buf1 : List Nat),
          (rwFiles false files file pos size fds done1 buf1).1 =
            (rwFiles false files file pos size fds done buf).1 ∧
          ((rwFiles false files file pos size fds done buf).1 = 0 →
            (rwFiles false files file pos size fds done1 buf1).2.2 =
              done1 ++ got ++ buf1.drop size.toNat) := by
  induction files with
  | nil =>
    intro file pos size fds done buf hs
    by_cases h : size > 0
    · simp only [rwFiles, h, if_true]
      refine ⟨trivial, Or.inr trivial, List.replicate size.toNat 0, by simp, ?_⟩
      intro done1 buf1
      exact ⟨trivial, fun e => absurd e (by decide)⟩
    · simp only [rwFiles, h, if_false]
      refine ⟨trivial, Or.inl trivial, [], ?_, ?_⟩
      · have : size.toNat = 0 := by omega
        rw [this]; rfl
      · intro done1 buf1
        refine ⟨trivial, fun _ => ?_⟩
        have : size.toNat = 0 := by omega
        rw [this]; simp
  | cons len rest ih =>
    intro file pos size fds done buf hs
    by_cases h : size > 0
    · by_cases hw : min (len - pos) size ≤ 0
      · simp only [rwFiles, h, hw, if_true]
        refine ⟨trivial, Or.inr trivial, List.replicate size.toNat 0, by simp, ?_⟩
        intro done1 buf1
        exact ⟨trivial, fun e => absurd e (by decide)⟩
      · by_cases hg : (fileRead (fds.getD file []) pos.toNat (min (len - pos) size).toNat).length <
            (min (len - pos) size).toNat
        · simp only [rwFiles, h, hw, hg, if_true, if_false, Bool.false_eq_true]
          refine ⟨trivial, Or.inr trivial, List.replicate size.toNat 0, by simp, ?_⟩
          intro done1 buf1
          exact ⟨trivial, fun e => absurd e (by decide)⟩
        · have hlen : (fileRead (fds.getD file []) pos.toNat
              (min (len - pos) size).toNat).length = (min (len - pos) size).toNat :=
            le_antisymm (fileRead_length_le _ _ _) (Nat.not_lt.mp hg)
          have hle : min (len - pos) size ≤ size := min_le_right _ _
          obtain ⟨i1, i2, got1, i3, i4⟩ := ih (file + 1) 0 (size - min (len - pos) size) fds
            (done ++ fileRead (fds.getD file []) pos.toNat (min (len - pos) size).toNat)
            (buf.drop (min (len - pos) size).toNat) (by omega)
          simp only [rwFiles, h, hw, hg, if_true, if_false, Bool.false_eq_true]
          refine ⟨i1, i2, fileRead (fds.getD file []) pos.toNat
            (min (len - pos) size).toNat ++ got1, ?_, ?_⟩
          · rw [List.length_append, hlen, i3]
            omega
          · intro done1 buf1
            obtain ⟨j1, j2⟩ := i4
              (done1 ++ fileRead (fds.getD file []) pos.toNat (min (len - pos) size).toNat)
              (buf1.drop (min (len - pos) size).toNat)
            refine ⟨j1, fun e => ?_⟩
            rw [j2 e, List.drop_drop, List.append_assoc, List.append_assoc, List.append_assoc]
            have : (min (len - pos) size).toNat + (size - min (len - pos) size).toNat =
                size.toNat := by omega
            rw [this, List.append_assoc]
    · simp only [rwFiles, h, if_false]
      refine ⟨trivial, Or.inl trivial, [], ?_, ?_⟩
      · have : size.toNat = 0 := by omega
        rw [this]; rfl
      · intro done1 buf1
        refine ⟨trivial, fun _ => ?_⟩
        have : size.toNat = 0 := by omega
        rw [this]; simp

end Transmission
namespace Transmission

theorem slotSize_pos (inf : tr_info_t) (s : Int) (hP : 0 < inf.pieceSize) :
    0 < slotSize inf s ∧ slotSize inf s ≤ inf.pieceSize := by
  unfold slotSize
  have h1 := Int.emod_nonneg inf.totalSize (ne_of_gt hP)
  have h2 := Int.emod_lt_of_pos inf.totalSize hP
  simp only
  split <;> split <;> omega

theorem lastSize_le_slotSize (inf : tr_info_t) (s : Int) (hP : 0 < inf.pieceSize) :
    0 < tr_pieceSize inf (inf.pieceCount - 1) ∧
    tr_pieceSize inf (inf.pieceCount - 1) ≤ slotSize inf s := by
  unfold slotSize tr_pieceSize
  have h1 := Int.emod_nonneg inf.totalSize (ne_of_gt hP)
  have h2 := Int.emod_lt_of_pos inf.totalSize hP
  simp only [true_and]
  by_cases hz : inf.totalSize % inf.pieceSize = 0
  · simp only [hz, ne_eq, not_true_eq_false, if_false, ite_self, if_true]
    omega
  · simp only [hz, ne_eq, not_false_eq_true, if_true]
    by_cases hs : s = inf.pieceCount - 1
    · simp only [hs, if_true, hz, if_false]
      omega
    · simp only [hs, if_false, if_true]
      omega

/-- The function `readSlot` in terms of the bytes of the slot. -/
theorem readSlot_spec (inf : tr_info_t) (fds : List (List Nat)) (s : Int) (buf : List Nat)
    (hP : 0 < inf.pieceSize) :
    (∀ c, slotBytes inf fds s = some c →
      readOrWriteSlot inf fds s buf false = (0, fds, c ++ buf.drop (slotSize inf s).toNat) ∧
      c.length = (slotSize inf s).toNat) ∧
    (slotBytes inf fds s = none → (readOrWriteSlot inf fds s buf false).1 ≠ 0) := by
  have hs := (slotSize_pos inf s hP).1
  unfold slotBytes readOrWriteSlot readOrWriteBytes
  simp only
  by_cases hc : tr_pieceSize inf (s * inf.pieceSize / inf.pieceSize) <
      s * inf.pieceSize % inf.pieceSize + slotSize inf s
  · simp only [hc, if_true]
    exact ⟨fun c e => absurd e (by simp), fun _ => by decide⟩
  · simp only [hc, if_false]
    obtain ⟨r1, r2, got, r3, r4⟩ := rwFiles_read
      (inf.files.drop (findFile inf.files 0 0 (s * inf.pieceSize)).1)
      (findFile inf.files 0 0 (s * inf.pieceSize)).1
      (findFile inf.files 0 0 (s * inf.pieceSize)).2 (slotSize inf s) fds [] []
      (le_of_lt hs)
    obtain ⟨q1, q2⟩ := r4 [] buf
    obtain ⟨_, q4⟩ := r4 [] []
    obtain ⟨r1b, _, _⟩ := rwFiles_read
      (inf.files.drop (findFile inf.files 0 0 (s * inf.pieceSize)).1)
      (findFile inf.files 0 0 (s * inf.pieceSize)).1
      (findFile inf.files 0 0 (s * inf.pieceSize)).2 (slotSize inf s) fds [] buf
      (le_of_lt hs)
    rcases r2 with e | e
    · rw [e] at q1
      have k2 := q2 e
      have k4 := q4 e
      simp only [e, if_true]
      refine ⟨fun c hc2 => ?_, fun hn => absurd hn (by simp)⟩
      simp only [Option.some.injEq] at hc2
      rw [k4] at hc2
      simp only [List.nil_append, List.drop_nil, List.append_nil] at hc2
      rw [List.take_of_length_le (by rw [r3])] at hc2
      rw [← hc2]
      refine ⟨?_, r3⟩
      rw [List.nil_append] at k2
      exact Prod.ext q1 (Prod.ext r1b k2)
    · rw [e] at q1
      simp only [e]
      refine ⟨fun c hc2 => absurd hc2 (by simp), fun _ => ?_⟩
      rw [q1]
      decide

end Transmission
namespace Transmission

/-- The loop of the scan that marks the blocks of `l` have. -/
theorem markFold_spec (l : List Int) :
    ∀ t : tr_torrent_t,
      let t1 := l.foldl (fun t k =>
        { t with blockHave := arrSet t.blockHave k (-1),
                 blockHaveCount := t.blockHaveCount + 1 }) t
      t1.info = t.info ∧ t1.blockSize = t.blockSize ∧ t1.blockCount = t.blockCount ∧
      t1.io = t.io ∧ t1.bitfield = t.bitfield ∧ t1.blockHave.length = t.blockHave.length ∧
      ∀ q, arrGet t1.blockHave q =
        if q ∈ l ∧ 0 ≤ q ∧ q < (t.blockHave.length : Int) then -1 else arrGet t.blockHave q := by
  induction l with
  | nil => intro t; simp
  | cons a tl ih =>
    intro t
    obtain ⟨i1, i2, i3, i4, i5, i6, i7⟩ := ih
      { t with blockHave := arrSet t.blockHave a (-1), blockHaveCount := t.blockHaveCount + 1 }
    simp only [List.foldl_cons]
    refine ⟨i1, i2, i3, i4, i5, i6.trans (arrSet_length _ _ _), fun q => ?_⟩
    rw [i7 q]
    show (if q ∈ tl ∧ 0 ≤ q ∧ q < ((arrSet t.blockHave a (-1)).length : Int) then (-1 : Int)
      else arrGet (arrSet t.blockHave a (-1)) q) = _
    rw [arrSet_length, arrGet_arrSet]
    by_cases hq : a = q
    · subst hq
      by_cases hr : 0 ≤ a ∧ a < (t.blockHave.length : Int)
      · simp [hr.1, hr.2]
      · have : ¬ (a ∈ tl ∧ 0 ≤ a ∧ a < (t.blockHave.length : Int)) := fun h => hr h.2
        have h2 : ¬ (a ∈ a :: tl ∧ 0 ≤ a ∧ a < (t.blockHave.length : Int)) := fun h => hr h.2
        rw [if_neg this, if_neg h2]
        simp only [true_and, hr, if_false]
    · have hq2 : ¬ q = a := fun e => hq e.symm
      simp [hq, hq2]

/-- The lines of the scan that claim piece `j` for slot `i`. -/
theorem scanClaim_spec (t : tr_torrent_t) (i j : Int) :
    (scanClaim t i j).info = t.info ∧ (scanClaim t i j).blockSize = t.blockSize ∧
    (scanClaim t i j).blockCount = t.blockCount ∧ (scanClaim t i j).io.fds = t.io.fds ∧
    (scanClaim t i j).io.slotsUsed = t.io.slotsUsed ∧
    (scanClaim t i j).io.pieceSlot = arrSet t.io.pieceSlot j i ∧
    (scanClaim t i j).io.slotPiece = arrSet t.io.slotPiece i j ∧
    (scanClaim t i j).bitfield = tr_bitfieldAdd t.bitfield j ∧
    (scanClaim t i j).blockHave.length = t.blockHave.length ∧
    ∀ q, arrGet (scanClaim t i j).blockHave q =
      if q ∈ pieceBlocks t j ∧ 0 ≤ q ∧ q < (t.blockHave.length : Int) then -1
      else arrGet t.blockHave q := by
  obtain ⟨i1, i2, i3, i4, i5, i6, i7⟩ := markFold_spec (pieceBlocks t j)
    { t with io := { t.io with pieceSlot := arrSet t.io.pieceSlot j i,
                               slotPiece := arrSet t.io.slotPiece i j },
             bitfield := tr_bitfieldAdd t.bitfield j }
  unfold scanClaim
  exact ⟨i1, i2, i3, by rw [i4], by rw [i4], by rw [i4], by rw [i4], i5, i6, i7⟩

/-- The piece that the scan matches with a slot lies between the slot and the
last piece. -/
theorem scanMatch_range (sha1 : List Nat → List Nat) (inf : tr_info_t) (s j : Int)
    (content : List Nat) (hs : s < inf.pieceCount)
    (h : scanMatch sha1 inf s content = some j) : s ≤ j ∧ j < inf.pieceCount := by
  unfold scanMatch at h
  split at h
  · rename_i j1 hf
    simp only [Option.some.injEq] at h
    have hm := List.mem_of_find?_eq_some hf
    simp only [List.mem_map] at hm
    obtain ⟨k, hk, he⟩ := hm
    rw [mem_upTo] at hk
    omega
  · split at h
    · simp only [Option.some.injEq] at h
      omega
    · exact absurd h (by simp)

/-- One iteration of the scan in terms of the bytes of the slot and the piece
matched. -/
theorem scanSlot_spec (sha1 : List Nat → List Nat) (t : tr_torrent_t) (buf : List Nat)
    (i : Int) (inf : tr_info_t) (fds : List (List Nat)) (hinf : t.info = inf)
    (hfds : t.io.fds = fds) (hP : 0 < t.info.pieceSize)
    (hfree : arrGet t.io.slotPiece i = -1) :
    (slotBytes inf fds i = none → scanSlot sha1 t buf i = none) ∧
    ∀ c, slotBytes inf fds i = some c →
      ∃ buf1, scanSlot sha1 t buf i =
        some (match scanMatch sha1 inf i c with
          | some j => scanClaim { t with io := { t.io with slotsUsed := i + 1 } } i j
          | none => { t with io := { t.io with slotsUsed := i + 1 } }, buf1) := by
  subst hinf
  subst hfds
  obtain ⟨r1, r2⟩ := readSlot_spec t.info t.io.fds i buf hP
  constructor
  · intro hn
    unfold scanSlot
    simp only
    rw [if_pos (r2 hn)]
  · intro c hc
    obtain ⟨e1, e2⟩ := r1 c hc
    have hl := lastSize_le_slotSize t.info i hP
    refine ⟨c ++ buf.drop (slotSize t.info i).toNat, ?_⟩
    unfold scanSlot scanMatch
    simp only [e1]
    have t1 : (c ++ buf.drop (slotSize t.info i).toNat).take (slotSize t.info i).toNat = c :=
      List.take_left' e2
    have t2 : (c ++ buf.drop (slotSize t.info i).toNat).take
        (tr_pieceSize t.info (t.info.pieceCount - 1)).toNat =
        c.take (tr_pieceSize t.info (t.info.pieceCount - 1)).toNat :=
      List.take_append_of_le_length (by rw [e2]; omega)
    rw [t1, t2]
    simp only [ne_eq, not_true_eq_false, if_false]
    cases hf : ((upTo (t.info.pieceCount - 1 - i)).map (fun k => i + k)).find?
        (fun j => decide ((sha1 c).take 20 = pieceHash t.info j)) with
    | some j => rfl
    | none =>
      simp only
      have hfree2 : ¬ (arrGet t.io.slotPiece i > -1) := by rw [hfree]; decide
      rw [if_neg hfree2]
      split <;> rfl

end Transmission
namespace Transmission

/-- One iteration of the scan, for a readable slot `k`: the state for the next
slot, what was done for slot `k`, and what was done for the earlier slots
stays done. -/
theorem scanStep_spec (sha1 : List Nat → List Nat) (tor0 t t1 : tr_torrent_t)
    (buf buf1 : List Nat) (k : Int) (hk0 : 0 ≤ k) (hk1 : k < tor0.info.pieceCount)
    (hP : 0 < tor0.info.pieceSize) (hB : 0 < tor0.blockSize)
    (hb : ScanBase tor0 t k) (hstep : scanSlot sha1 t buf k = some (t1, buf1)) :
    ScanBase tor0 t1 (k + 1) ∧ ScanDone sha1 tor0 t1 k ∧
    ∀ s, 0 ≤ s → s < k → ScanDone sha1 tor0 t s → ScanDone sha1 tor0 t1 s := by
  have hfree := hb.free k (le_refl k) hk1
  obtain ⟨r1, r2⟩ := scanSlot_spec sha1 t buf k tor0.info tor0.io.fds hb.info hb.fds
    (by rw [hb.info]; exact hP) hfree
  cases hc : slotBytes tor0.info tor0.io.fds k with
  | none => rw [r1 hc] at hstep; exact absurd hstep (by simp)
  | some c =>
    obtain ⟨b1, hr⟩ := r2 c hc
    rw [hstep] at hr
    simp only [Option.some.injEq, Prod.mk.injEq] at hr
    obtain ⟨ht1, _⟩ := hr
    cases hm : scanMatch sha1 tor0.info k c with
    | none =>
      rw [hm] at ht1
      simp only at ht1
      subst ht1
      refine ⟨⟨hb.info, hb.blockSize, hb.blockCount, hb.fds, hb.lenP, hb.lenS, hb.lenB,
        hb.lenF, fun i hi1 hi2 => hb.free i (by omega) hi2⟩, ?_, fun s _ _ hd => hd⟩
      intro content hcont
      rw [hc] at hcont
      simp only [Option.some.injEq] at hcont
      subst hcont
      exact ⟨fun _ => hfree, fun j hj => by rw [hm] at hj; exact absurd hj (by simp)⟩
    | some j =>
      rw [hm] at ht1
      simp only at ht1
      obtain ⟨hj0, hj1⟩ := scanMatch_range sha1 tor0.info k j c hk1 hm
      obtain ⟨c1, c2, c3, c4, _, c6, c7, c8, c9, c10⟩ :=
        scanClaim_spec { t with io := { t.io with slotsUsed := k + 1 } } k j
      rw [← ht1] at c1 c2 c3 c4 c6 c7 c8 c9 c10
      have c1 : t1.info = t.info := c1
      have c2 : t1.blockSize = t.blockSize := c2
      have c3 : t1.blockCount = t.blockCount := c3
      have c4 : t1.io.fds = t.io.fds := c4
      have hpb : pieceBlocks { t with io := { t.io with slotsUsed := k + 1 } } j =
          pieceBlocks tor0 j := pieceBlocks_congr _ _ hb.info hb.blockSize hb.blockCount j
      rw [hpb] at c10
      have e6 : t1.io.pieceSlot = arrSet t.io.pieceSlot j k := c6
      have e7 : t1.io.slotPiece = arrSet t.io.slotPiece k j := c7
      have e8 : t1.bitfield = tr_bitfieldAdd t.bitfield j := c8
      have e9 : t1.blockHave.length = t.blockHave.length := c9
      have e10 : ∀ q, arrGet t1.blockHave q =
          if q ∈ pieceBlocks tor0 j ∧ 0 ≤ q ∧ q < (t.blockHave.length : Int) then -1
          else arrGet t.blockHave q := c10
      have hlenP := hb.lenP
      have hlenS := hb.lenS
      have hlenB := hb.lenB
      have hlenF := hb.lenF
      have hbit : tr_bitfieldHas t1.bitfield j = true := by
        rw [e8]
        exact tr_bitfieldHas_add_self _ _ (by omega) (by omega)
      have hblocks : ∀ b ∈ pieceBlocks tor0 j, arrGet t1.blockHave b < 0 := by
        intro b hbm
        have hr := pieceBlocks_range tor0 j b (by omega) (le_of_lt hP) hB hbm
        rw [e10 b, if_pos ⟨hbm, hr.1, by omega⟩]
        decide
      refine ⟨⟨c1.trans hb.info, c2.trans hb.blockSize, c3.trans hb.blockCount,
        c4.trans hb.fds, ?_, ?_, ?_, ?_, ?_⟩, ?_, ?_⟩
      · rw [e6, arrSet_length]; exact hb.lenP
      · rw [e7, arrSet_length]; exact hb.lenS
      · rw [e9]; exact hb.lenB
      · rw [e8, tr_bitfieldAdd_length]; exact hb.lenF
      · intro i hi1 hi2
        rw [e7, arrGet_arrSet, if_neg (by omega)]
        exact hb.free i (by omega) hi2
      · intro content hcont
        rw [hc] at hcont
        simp only [Option.some.injEq] at hcont
        subst hcont
        rw [hm]
        refine ⟨fun h => absurd h (by simp), fun j2 hj2 => ?_⟩
        simp only [Option.some.injEq] at hj2
        subst hj2
        refine ⟨?_, hbit, hblocks, Or.inl ?_⟩
        · rw [e7, arrGet_arrSet, if_pos ⟨rfl, hk0, by omega⟩]
        · rw [e6, arrGet_arrSet, if_pos ⟨rfl, by omega, by omega⟩]
      · intro s hs0 hs1 hd content hcont
        obtain ⟨d1, d2⟩ := hd content hcont
        have hsp : arrGet t1.io.slotPiece s = arrGet t.io.slotPiece s := by
          rw [e7, arrGet_arrSet, if_neg (by omega)]
        refine ⟨fun h => by rw [hsp]; exact d1 h, fun js hjs => ?_⟩
        obtain ⟨f1, f2, f3, f4⟩ := d2 js hjs
        have hjs0 := (scanMatch_range sha1 tor0.info s js content (by omega) hjs).1
        refine ⟨by rw [hsp]; exact f1, ?_, ?_, ?_⟩
        · by_cases he : js = j
          · rw [he]; exact hbit
          · rw [e8, tr_bitfieldHas_add_ne _ _ _ he]; exact f2
        · intro b hbm
          rw [e10 b]
          split
          · decide
          · exact f3 b hbm
        · by_cases he : js = j
          · right
            refine ⟨k, hs1, hk1, ?_⟩
            rw [e7, arrGet_arrSet, if_pos ⟨rfl, hk0, by omega⟩, he]
          · rcases f4 with g | ⟨s1, g1, g2, g3⟩
            · left
              rw [e6, arrGet_arrSet, if_neg (fun h => he h.1.symm)]
              exact g
            · right
              refine ⟨s1, g1, g2, ?_⟩
              rw [e7, arrGet_arrSet]
              split
              · rename_i hh
                rw [← hh.1, hfree] at g3
                omega
              · exact g3

end Transmission
namespace Transmission

theorem rangeFrom_succ (n : Nat) (k : Int) :
    (List.range (n + 1)).map (fun (a : Nat) => k + (a : Int)) =
      k :: (List.range n).map (fun (a : Nat) => k + 1 + (a : Int)) := by
  rw [List.range_succ_eq_map, List.map_cons, List.map_map]
  simp only [Nat.cast_zero, add_zero, List.cons.injEq, true_and]
  apply List.map_congr_left
  intro a _
  simp only [Function.comp, Nat.succ_eq_add_one, Nat.cast_add, Nat.cast_one]
  ring

/-- The loop of the scan from slot `k` on: what it has done for every slot up
to which the files can be read. -/
theorem scanLoop_spec (sha1 : List Nat → List Nat) (tor0 : tr_torrent_t)
    (hP : 0 < tor0.info.pieceSize) (hB : 0 < tor0.blockSize) (n : Nat) :
    ∀ (k : Int) (t : tr_torrent_t) (buf : List Nat), 0 ≤ k →
      k + n = tor0.info.pieceCount → ScanBase tor0 t k →
      (∀ s, 0 ≤ s → s < k → ScanDone sha1 tor0 t s) →
      ∀ s, 0 ≤ s → s < tor0.info.pieceCount →
        (∀ s1, 0 ≤ s1 → s1 ≤ s → slotBytes tor0.info tor0.io.fds s1 ≠ none) →
        ScanDone sha1 tor0
          (scanLoop sha1 ((List.range n).map (fun (a : Nat) => k + (a : Int))) t buf) s := by
  induction n with
  | zero =>
    intro k t buf _ hkn _ hd s hs0 hs1 _
    simp only [List.range_zero, List.map_nil, scanLoop]
    exact hd s hs0 (by omega)
  | succ n ih =>
    intro k t buf hk0 hkn hb hd s hs0 hs1 hread
    rw [rangeFrom_succ, scanLoop]
    have hk1 : k < tor0.info.pieceCount := by push_cast at hkn; omega
    cases hstep : scanSlot sha1 t buf k with
    | none =>
      simp only
      by_cases hsk : s < k
      · exact hd s hs0 hsk
      · exfalso
        obtain ⟨_, r2⟩ := scanSlot_spec sha1 t buf k tor0.info tor0.io.fds hb.info hb.fds
          (by rw [hb.info]; exact hP) (hb.free k (le_refl k) hk1)
        cases hc : slotBytes tor0.info tor0.io.fds k with
        | none => exact hread k hk0 (by omega) hc
        | some c =>
          obtain ⟨b1, e⟩ := r2 c hc
          rw [hstep] at e
          exact absurd e (by simp)
    | some st =>
      simp only
      obtain ⟨q1, q2, q3⟩ := scanStep_spec sha1 tor0 t st.1 buf st.2 k hk0 hk1 hP hB hb hstep
      apply ih (k + 1) st.1 st.2 (by omega) (by push_cast at hkn; omega) q1 _ s hs0 hs1 hread
      intro s2 hs20 hs21
      by_cases he : s2 = k
      · rw [he]; exact q2
      · exact q3 s2 hs20 (by omega) (hd s2 hs20 (by omega))

/-- The state in which the scan starts. -/
theorem scanInit_base (tor : tr_torrent_t) (hN : 0 ≤ tor.info.pieceCount)
    (hM : 0 ≤ tor.blockCount) : ScanBase tor (scanInit tor) 0 := by
  refine ⟨rfl, rfl, rfl, rfl, ?_, ?_, ?_, ?_, ?_⟩
  · show ((List.replicate tor.info.pieceCount.toNat (-1 : Int)).length : Int) = _
    rw [List.length_replicate]; omega
  · show ((List.replicate tor.info.pieceCount.toNat (-1 : Int)).length : Int) = _
    rw [List.length_replicate]; omega
  · show ((List.replicate tor.blockCount.toNat (0 : Int)).length : Int) = _
    rw [List.length_replicate]; omega
  · show ((List.replicate ((tor.info.pieceCount + 7) / 8).toNat (0 : Nat)).length : Int) = _
    rw [List.length_replicate]; omega
  · intro i hi0 hi1
    show arrGet (List.replicate tor.info.pieceCount.toNat (-1 : Int)) i = -1
    exact arrGet_replicate _ _ _ hi0 (by omega)

/-- C16 (as amended): in the initial full scan, for every slot `s` up to which
the files can be read, the scan compares the hash of the bytes of the slot
with the published hashes of the pieces `s, s + 1, …, N - 2` only, and then
the hash of the first `tr_pieceSize( N - 1 )` bytes with that of the last
piece.  When one of them matches, the scan claims the first match `j` for the
slot: `slotPiece[s] = j`, the bit of `j` is set, every block of `j` is have,
and `pieceSlot[j] = s` unless a later slot claimed `j` too; when none
matches the slot stays free, also when its bytes hash to a piece below `s`. -/
theorem C16_scan_claims_first_match_from_slot_on (sha1 : List Nat → List Nat)
    (tor : tr_torrent_t) (heap : List Nat) (s : Int) (content : List Nat)
    (hP : 0 < tor.info.pieceSize) (hB : 0 < tor.blockSize)
    (hN : 0 ≤ tor.info.pieceCount) (hM : 0 ≤ tor.blockCount)
    (hs0 : 0 ≤ s) (hs1 : s < tor.info.pieceCount)
    (hread : ∀ s1, 0 ≤ s1 → s1 ≤ s → slotBytes tor.info tor.io.fds s1 ≠ none)
    (hc : slotBytes tor.info tor.io.fds s = some content) :
    (scanMatch sha1 tor.info s content = none →
      arrGet (fullScan sha1 tor heap).io.slotPiece s = -1) ∧
    ∀ j, scanMatch sha1 tor.info s content = some j →
      s ≤ j ∧ j < tor.info.pieceCount ∧
      arrGet (fullScan sha1 tor heap).io.slotPiece s = j ∧
      tr_bitfieldHas (fullScan sha1 tor heap).bitfield j = true ∧
      (∀ b ∈ pieceBlocks tor j, arrGet (fullScan sha1 tor heap).blockHave b < 0) ∧
      (arrGet (fullScan sha1 tor heap).io.pieceSlot j = s ∨
        ∃ s1, s < s1 ∧ s1 < tor.info.pieceCount ∧
          arrGet (fullScan sha1 tor heap).io.slotPiece s1 = j) := by
  have hl : upTo tor.info.pieceCount =
      (List.range tor.info.pieceCount.toNat).map (fun (a : Nat) => (0 : Int) + (a : Int)) := by
    unfold upTo
    apply List.map_congr_left
    intro a _
    simp
  have hdone := scanLoop_spec sha1 tor hP hB tor.info.pieceCount.toNat 0 (scanInit tor) heap
    (le_refl 0) (by omega) (scanInit_base tor hN hM) (fun s2 h0 h1 => absurd h0 (by omega))
    s hs0 hs1 hread
  rw [← hl] at hdone
  obtain ⟨d1, d2⟩ := hdone content hc
  refine ⟨d1, fun j hj => ?_⟩
  obtain ⟨r0, r1⟩ := scanMatch_range sha1 tor.info s j content hs1 hj
  exact ⟨r0, r1, d2 j hj⟩

end Transmission
namespace Transmission

set_option maxRecDepth 100000 in
set_option maxHeartbeats 1000000 in
/-- Witness for C16: the file holds the bytes of piece 1 in slot 0; the scan
claims piece 1 for slot 0. -/
theorem C16_witness :
    slotBytes swappedDisk.info swappedDisk.io.fds 0 = some scenarioData1 ∧
    scanMatch padHash swappedDisk.info 0 scenarioData1 = some 1 ∧
    arrGet swappedScanned.io.slotPiece 0 = 1 ∧
    tr_bitfieldHas swappedScanned.bitfield 1 = true ∧
    (∀ b ∈ pieceBlocks swappedDisk 1, arrGet swappedScanned.blockHave b < 0) ∧
    arrGet swappedScanned.io.pieceSlot 1 = 0 :=
  have hc : slotBytes swappedDisk.info swappedDisk.io.fds 0 = some scenarioData1 := by decide
  have hm : scanMatch padHash swappedDisk.info 0 scenarioData1 = some 1 := by decide
  have h := C16_scan_claims_first_match_from_slot_on padHash swappedDisk scenarioHeap 0
    scenarioData1 (by decide) (by decide) (by decide) (by decide) (by decide) (by decide)
    (by
      intro s1 h0 h1
      have e : s1 = 0 := le_antisymm h1 h0
      rw [e, hc]
      simp) hc
  ⟨hc, hm, (h.2 1 hm).2.2.1, (h.2 1 hm).2.2.2.1, (h.2 1 hm).2.2.2.2.1, by decide⟩

set_option maxRecDepth 100000 in
set_option maxHeartbeats 1000000 in
/-- C16, the claim as stated fails: the file holds the bytes of piece 1 in slot
0 and those of piece 0 in slot 1.  Slot 1 is readable and its bytes hash to
the published hash of piece 0, but the scan compares them with the pieces from
1 on only: after the scan slot 1 is free, the bit of piece 0 is clear and its
block is not have. -/
theorem C16_counterexample_piece_below_slot_not_claimed :
    slotBytes swappedDisk.info swappedDisk.io.fds 1 = some scenarioData0 ∧
    (padHash scenarioData0).take 20 = pieceHash swappedDisk.info 0 ∧
    swappedScanned.io.slotsUsed = 2 ∧
    arrGet swappedScanned.io.slotPiece 1 = -1 ∧
    arrGet swappedScanned.io.pieceSlot 0 = -1 ∧
    tr_bitfieldHas swappedScanned.bitfield 0 = false ∧
    pieceBlocks swappedDisk 0 = [0] ∧ arrGet swappedScanned.blockHave 0 = 0 := by
  decide

end Transmission
namespace Transmission

theorem skipSpace_ge (buf : List Nat) (fuel : Nat) :
    ∀ p q, skipSpace buf fuel p = some q → p ≤ q := by
  induction fuel with
  | zero => intro p q h; simp [skipSpace] at h
  | succ n ih =>
    intro p q h
    rw [skipSpace] at h
    cases hc : buf.get? p with
    | none => rw [hc] at h; simp at h
    | some c =>
      rw [hc] at h
      simp only at h
      split at h
      · exact le_trans (Nat.le_succ p) (ih _ _ h)
      · simp only [Option.some.injEq] at h
        exact le_of_eq h

theorem readDigits_ge (buf : List Nat) (fuel : Nat) :
    ∀ p acc r, readDigits buf fuel p acc = some r → p ≤ r.2 := by
  induction fuel with
  | zero => intro p acc r h; simp [readDigits] at h
  | succ n ih =>
    intro p acc r h
    rw [readDigits] at h
    cases hc : buf.get? p with
    | none => rw [hc] at h; simp at h
    | some c =>
      rw [hc] at h
      simp only at h
      split at h
      · exact le_trans (Nat.le_succ p) (ih _ _ _ h)
      · simp only [Option.some.injEq] at h
        rw [← h]

/-- The position that `strtoll` returns is not before the start. -/
theorem strtoll_ge (bits : Nat) (buf : List Nat) (pos : Nat) (r : Int × Nat)
    (h : strtoll bits buf pos = some r) : pos ≤ r.2 := by
  unfold strtoll at h
  cases h1 : skipSpace buf (buf.length + 1) pos with
  | none => rw [h1] at h; simp at h
  | some p1 =>
    rw [h1] at h
    simp only at h
    have g1 := skipSpace_ge buf _ _ _ h1
    cases h2 : buf.get? p1 with
    | none => rw [h2] at h; simp at h
    | some c =>
      rw [h2] at h
      simp only at h
      cases h3 : buf.get? (if c = 45 ∨ c = 43 then p1 + 1 else p1) with
      | none => rw [h3] at h; simp at h
      | some d =>
        rw [h3] at h
        simp only at h
        split at h
        · cases h4 : readDigits buf (buf.length + 1) (if c = 45 ∨ c = 43 then p1 + 1 else p1) 0 with
          | none => rw [h4] at h; simp at h
          | some rd =>
            rw [h4] at h
            simp only [Option.some.injEq] at h
            have g2 := readDigits_ge buf _ _ _ _ h4
            rw [← h]
            simp only
            split at g2 <;> omega
        · simp only [Option.some.injEq] at h
          rw [← h]

theorem get?_lt (buf : List Nat) (p c : Nat) (h : buf.get? p = some c) : p < buf.length := by
  rw [List.get?_eq_getElem?] at h
  exact (List.getElem?_eq_some.mp h).1

theorem spansItems_append (buf : List Nat) (xs : List benc_val_t) :
    ∀ (p q : Nat), SpansItems buf p xs q → ∀ (v : benc_val_t), Spans buf v → v.begin = q →
      v.begin < v.endPos → SpansItems buf p (xs ++ [v]) v.endPos := by
  induction xs with
  | nil =>
    intro p q h v hv hq hlt
    cases h
    rw [← hq]
    exact SpansItems.cons v [] v.endPos hv hlt (SpansItems.nil _)
  | cons w ws ih =>
    intro p q h v hv hq hlt
    cases h with
    | cons _ _ _ hw hwlt hws =>
      exact SpansItems.cons w (ws ++ [v]) v.endPos hw hwlt (ih _ _ hws v hv hq hlt)

theorem spansItems_le (buf : List Nat) (xs : List benc_val_t) :
    ∀ (p q : Nat), SpansItems buf p xs q → p ≤ q := by
  induction xs with
  | nil => intro p q h; cases h; exact le_refl _
  | cons w ws ih =>
    intro p q h
    cases h with
    | cons _ _ _ _ hwlt hws => exact le_trans (le_of_lt hwlt) (ih _ _ hws)

/-- Every value that `tr_bencLoad` returns has `begin` and `end` at the ends of
its encoding, and so has every value nested in it. -/
theorem tr_bencLoad_spans (fuel : Nat) :
    (∀ (buf : List Nat) (pos : Nat) (v : benc_val_t),
      tr_bencLoad fuel buf pos = BencRes.ok v →
        Spans buf v ∧ v.begin = pos ∧ pos < v.endPos ∧ v.endPos ≤ buf.length) ∧
    (∀ (buf : List Nat) (start cur : Nat) (isDict strExpected : Bool)
      (acc : List benc_val_t) (r : List benc_val_t × Nat),
      bencItems fuel buf cur isDict strExpected acc = some (some r) →
      SpansItems buf start acc cur →
      SpansItems buf start r.1 r.2 ∧ buf.get? r.2 = some 101) := by
  induction fuel with
  | zero =>
    constructor
    · intro buf pos v h
      simp [tr_bencLoad] at h
    · intro buf start cur isDict se acc r h
      simp [bencItems] at h
  | succ n ih =>
    obtain ⟨ih1, ih2⟩ := ih
    constructor
    · intro buf pos v h
      rw [tr_bencLoad] at h
      cases hc : buf.get? pos with
      | none => rw [hc] at h; simp at h
      | some c =>
        rw [hc] at h
        simp only at h
        by_cases c1 : c = 105
        · rw [if_pos c1] at h
          cases hs : strtoll 64 buf (pos + 1) with
          | none => rw [hs] at h; simp at h
          | some r =>
            rw [hs] at h
            simp only at h
            by_cases c2 : r.2 = pos + 1
            · rw [if_pos c2] at h; simp at h
            · rw [if_neg c2] at h
              cases he : buf.get? r.2 with
              | none => rw [he] at h; simp at h
              | some e =>
                rw [he] at h
                simp only at h
                by_cases c3 : e ≠ 101
                · rw [if_pos c3] at h; simp at h
                · rw [if_neg c3] at h
                  simp only [BencRes.ok.injEq] at h
                  rw [← h]
                  have hge := strtoll_ge 64 buf (pos + 1) r hs
                  have hlt := get?_lt buf r.2 e he
                  refine ⟨Spans.int r.1 pos r.2 (by rw [hc, c1]) hs c2 ?_, rfl, ?_, ?_⟩
                  · rw [he, not_not.mp c3]
                  · show pos < r.2 + 1
                    omega
                  · show r.2 + 1 ≤ buf.length
                    omega
        · rw [if_neg c1] at h
          by_cases c4 : c = 108 ∨ c = 100
          · rw [if_pos c4] at h
            cases hi : bencItems n buf (pos + 1) (decide (c = 100)) true [] with
            | none => rw [hi] at h; simp at h
            | some o =>
              cases o with
              | none => rw [hi] at h; simp at h
              | some r =>
                rw [hi] at h
                simp only at h
                obtain ⟨k1, k2⟩ := ih2 buf (pos + 1) (pos + 1) _ _ [] r hi (SpansItems.nil _)
                have hle := spansItems_le buf r.1 _ _ k1
                have hlt := get?_lt buf r.2 101 k2
                by_cases c5 : c = 100 ∧ r.1.length % 2 = 1
                · rw [if_pos c5] at h; simp at h
                · rw [if_neg c5] at h
                  by_cases c6 : c = 100
                  · rw [if_pos c6] at h
                    simp only [BencRes.ok.injEq] at h
                    rw [← h]
                    refine ⟨Spans.dict r.1 pos r.2 (by rw [hc, c6]) k1 k2 ?_, rfl, ?_, ?_⟩
                    · have := Nat.mod_two_eq_zero_or_one r.1.length
                      rcases this with e | e
                      · exact e
                      · exact absurd ⟨c6, e⟩ c5
                    · show pos < r.2 + 1
                      omega
                    · show r.2 + 1 ≤ buf.length
                      omega
                  · rw [if_neg c6] at h
                    simp only [BencRes.ok.injEq] at h
                    rw [← h]
                    have c7 : c = 108 := by
                      rcases c4 with e | e
                      · exact e
                      · exact absurd e c6
                    refine ⟨Spans.list r.1 pos r.2 (by rw [hc, c7]) k1 k2, rfl, ?_, ?_⟩
                    · show pos < r.2 + 1
                      omega
                    · show r.2 + 1 ≤ buf.length
                      omega
          · rw [if_neg c4] at h
            cases hs : strtoll 64 buf pos with
            | none => rw [hs] at h; simp at h
            | some r =>
              rw [hs] at h
              simp only at h
              by_cases c2 : r.2 = pos
              · rw [if_pos c2] at h; simp at h
              · rw [if_neg c2] at h
                cases he : buf.get? r.2 with
                | none => rw [he] at h; simp at h
                | some e =>
                  rw [he] at h
                  simp only at h
                  by_cases c3 : e ≠ 58
                  · rw [if_pos c3] at h; simp at h
                  · rw [if_neg c3] at h
                    by_cases c8 : toInt32 r.1 < 0
                    · rw [if_pos c8] at h; simp at h
                    · rw [if_neg c8] at h
                      by_cases c9 : buf.length < r.2 + 1 + (toInt32 r.1).toNat
                      · rw [if_pos c9] at h; simp at h
                      · rw [if_neg c9] at h
                        simp only [BencRes.ok.injEq] at h
                        rw [← h]
                        have hge := strtoll_ge 64 buf pos r hs
                        refine ⟨Spans.str r.1 pos r.2 hs c2 ?_ (not_lt.mp c8)
                          (Nat.not_lt.mp c9), rfl, ?_, Nat.not_lt.mp c9⟩
                        · rw [he, not_not.mp c3]
                        · show pos < r.2 + 1 + (toInt32 r.1).toNat
                          omega
    · intro buf start cur isDict se acc r h hacc
      rw [bencItems] at h
      cases hc : buf.get? cur with
      | none => rw [hc] at h; simp at h
      | some c =>
        rw [hc] at h
        simp only at h
        by_cases c1 : c = 101
        · rw [if_pos c1] at h
          simp only [Option.some.injEq] at h
          rw [← h]
          exact ⟨hacc, by rw [hc, c1]⟩
        · rw [if_neg c1] at h
          cases hl : tr_bencLoad n buf cur with
          | undefined => rw [hl] at h; simp at h
          | fail => rw [hl] at h; simp at h
          | ok v =>
            rw [hl] at h
            simp only at h
            obtain ⟨k1, k2, k3, _⟩ := ih1 buf cur v hl
            by_cases c2 : (isDict && se && !v.isStr) = true
            · rw [if_pos c2] at h; simp at h
            · rw [if_neg c2] at h
              exact ih2 buf start v.endPos isDict (!se) (acc ++ [v]) r h
                (spansItems_append buf acc start cur hacc v k1 k2 (by rw [k2]; exact k3))

end Transmission
namespace Transmission

/-! ## The metafile -/

theorem dictFindLoop_mem (key : List Nat) (n : Nat) :
    ∀ (vals : List benc_val_t) (v : benc_val_t), vals.length ≤ n →
      dictFindLoop key vals = some v → v ∈ vals := by
  induction n with
  | zero =>
    intro vals v hn h
    cases vals with
    | nil => simp [dictFindLoop] at h
    | cons a t => simp at hn
  | succ m ih =>
    intro vals v hn h
    cases vals with
    | nil => simp [dictFindLoop] at h
    | cons k t =>
      cases t with
      | nil => simp [dictFindLoop] at h
      | cons w rest =>
        rw [dictFindLoop] at h
        split at h
        · simp only [Option.some.injEq] at h
          rw [← h]
          simp
        · have hr : rest.length ≤ m := by
            simp only [List.length_cons] at hn
            omega
          have := ih rest v hr h
          simp [this]

/-- An item of a list of values that spans the bytes from `p` to `q` spans its
own bytes, which lie between `p` and `q`. -/
theorem spansItems_mem (buf : List Nat) (vs : List benc_val_t) :
    ∀ (p q : Nat), SpansItems buf p vs q → ∀ (v : benc_val_t), v ∈ vs →
      Spans buf v ∧ v.begin < v.endPos ∧ p ≤ v.begin ∧ v.endPos ≤ q := by
  induction vs with
  | nil => intro p q _ v hv; simp at hv
  | cons w ws ih =>
    intro p q h v hv
    cases h with
    | cons _ _ _ hw hwlt hws =>
      rcases List.mem_cons.mp hv with e | e
      · subst e
        exact ⟨hw, hwlt, le_refl _, spansItems_le buf ws _ _ hws⟩
      · obtain ⟨k1, k2, k3, k4⟩ := ih _ _ hws v e
        exact ⟨k1, k2, le_trans (le_of_lt hwlt) k3, k4⟩

/-- The value that `tr_bencDictFind` returns is an item of the dictionary: it
spans its own bytes inside the bytes of the dictionary. -/
theorem tr_bencDictFind_spans (buf : List Nat) (d v : benc_val_t) (key : List Nat)
    (hd : Spans buf d) (h : tr_bencDictFind d key = some v) :
    Spans buf v ∧ v.begin < v.endPos ∧ d.begin < v.begin ∧ v.endPos < d.endPos := by
  cases hd with
  | int i b p _ _ _ _ => simp [tr_bencDictFind] at h
  | str n b p _ _ _ _ _ => simp [tr_bencDictFind] at h
  | list vals b q _ _ _ => simp [tr_bencDictFind] at h
  | dict vals b q hb hs he hl =>
    simp only [tr_bencDictFind] at h
    have hm := dictFindLoop_mem key vals.length vals v (le_refl _) h
    obtain ⟨k1, k2, k3, k4⟩ := spansItems_mem buf vals _ _ hs v hm
    refine ⟨k1, k2, ?_, ?_⟩
    · show b < v.begin
      omega
    · show v.endPos < q + 1
      omega

/-- The hash of a structure that `tr_metainfoParse` returns is the hash of the
bytes from `begin` to `end` of the `info` value. -/
theorem tr_metainfoParse_hash (sha1 : List Nat → List Nat) (fuel : Nat) (buf : List Nat)
    (meta beInfo : benc_val_t) (inf : tr_info_t)
    (hload : tr_bencLoad fuel buf 0 = BencRes.ok meta)
    (hinfo : tr_bencDictFind meta keyInfo = some beInfo)
    (h : tr_metainfoParse sha1 fuel (some buf) = MetaRes.ok inf) :
    inf.hash = sha1 ((buf.drop beInfo.begin).take (beInfo.endPos - beInfo.begin)) := by
  unfold tr_metainfoParse at h
  simp only [hload, hinfo] at h
  repeat (split at h <;> try (cases h; done))
  simp only [MetaRes.ok.injEq] at h
  rw [← h]

/-- C17: the metafile `metaNoPieces` is a well-formed dictionary with
`announce` and `info` whose `info` has a `piece length` but no `pieces` entry;
`tr_bencDictFind` returns `NULL` for that key and `tr_metainfoParse` reads
through it: the result is not a failure but undefined. -/
theorem C17_missing_pieces_key_is_dereferenced :
    (match tr_bencLoad 100 metaNoPieces 0 with
      | BencRes.ok meta =>
        (match tr_bencDictFind meta keyInfo with
          | some beInfo =>
            (tr_bencDictFind beInfo keyPieceLength).isSome &&
            (tr_bencDictFind beInfo keyPieces).isNone
          | none => false)
      | _ => false) = true ∧
    tr_metainfoParse padHash 100 (some metaNoPieces) = MetaRes.undefined ∧
    tr_metainfoParse padHash 100 (some metaNoPieces) ≠ MetaRes.fail := by
  decide!

/-- C18: the metafile `metaNegPiece` has a piece length of -1, no piece hash
and one file of 5 bytes; `tr_metainfoParse` returns success for it, with
`pieceSize = -1`, `pieceCount = 0` and `totalSize = 5`. -/
theorem C18_negative_piece_length_accepted :
    tr_metainfoParse padHash 100 (some metaNegPiece) = MetaRes.ok
      { hash := padHash ((metaNegPiece.drop 33).take 50),
        pieceSize := -1, pieceCount := 0, totalSize := 5, pieces := [], files := [5],
        name := [120], trackerAddress := [116, 46, 105, 111], trackerPort := 80,
        trackerAnnounce := [47, 97], fileNames := [[120]] } := by
  decide!

/-- C19: when `tr_bencLoad` loads the metafile `buf` and the top-level
dictionary has an `info` entry, the loaded value and the `info` value span
exactly the bytes of their encodings (as does every nested value), the `info`
value lies inside the file, and the hash of every structure that
`tr_metainfoParse` returns is the hash of the bytes from `begin` to `end` of
the `info` value. -/
theorem C19_info_hash_covers_exact_encoding (sha1 : List Nat → List Nat) (fuel : Nat)
    (buf : List Nat) (meta beInfo : benc_val_t)
    (hload : tr_bencLoad fuel buf 0 = BencRes.ok meta)
    (hinfo : tr_bencDictFind meta keyInfo = some beInfo) :
    Spans buf meta ∧ Spans buf beInfo ∧
    beInfo.begin < beInfo.endPos ∧ beInfo.endPos ≤ buf.length ∧
    ∀ inf, tr_metainfoParse sha1 fuel (some buf) = MetaRes.ok inf →
      inf.hash = sha1 ((buf.drop beInfo.begin).take (beInfo.endPos - beInfo.begin)) := by
  obtain ⟨k1, _, _, k4⟩ := (tr_bencLoad_spans fuel).1 buf 0 meta hload
  obtain ⟨g1, g2, _, g4⟩ := tr_bencDictFind_spans buf meta beInfo keyInfo k1 hinfo
  refine ⟨k1, g1, g2, by omega, ?_⟩
  intro inf h
  exact tr_metainfoParse_hash sha1 fuel buf meta beInfo inf hload hinfo h

/-- The metafile `metaGood` is loaded, its `info` value is the dictionary at
the bytes 33 to 104, the parsing succeeds, and the hash taken is that of those
bytes. -/
theorem C19_witness :
    ∃ meta beInfo, tr_bencLoad 100 metaGood 0 = BencRes.ok meta ∧
      tr_bencDictFind meta keyInfo = some beInfo ∧
      beInfo.begin = 33 ∧ beInfo.endPos = 104 ∧
      (∃ inf, tr_metainfoParse padHash 100 (some metaGood) = MetaRes.ok inf) ∧
      (Spans metaGood meta ∧ Spans metaGood beInfo ∧
        beInfo.begin < beInfo.endPos ∧ beInfo.endPos ≤ metaGood.length ∧
        ∀ inf, tr_metainfoParse padHash 100 (some metaGood) = MetaRes.ok inf →
          inf.hash = padHash ((metaGood.drop beInfo.begin).take
            (beInfo.endPos - beInfo.begin))) := by
  have e : (match tr_bencLoad 100 metaGood 0 with
      | BencRes.ok meta =>
        (match tr_bencDictFind meta keyInfo with
          | some b => decide (b.begin = 33 ∧ b.endPos = 104)
          | none => false)
      | _ => false) = true := by decide!
  have g : tr_metainfoParse padHash 100 (some metaGood) = MetaRes.ok
      { hash := padHash ((metaGood.drop 33).take 71),
        pieceSize := 8, pieceCount := 1, totalSize := 5,
        pieces := [65, 66, 67, 68, 69, 70, 71, 72, 73, 74, 75, 76, 77, 78, 79, 80, 81, 82,
          83, 84],
        files := [5], name := [120], trackerAddress := [116, 46, 105, 111],
        trackerPort := 80, trackerAnnounce := [47, 97], fileNames := [[120]] } := by
    decide!
  cases hl : tr_bencLoad 100 metaGood 0 with
  | undefined => rw [hl] at e; exact absurd e (by decide)
  | fail => rw [hl] at e; exact absurd e (by decide)
  | ok meta =>
    rw [hl] at e
    simp only at e
    cases hf : tr_bencDictFind meta keyInfo with
    | none => rw [hf] at e; exact absurd e (by decide)
    | some beInfo =>
      rw [hf] at e
      have e2 := of_decide_eq_true e
      exact ⟨meta, beInfo, rfl, hf, e2.1, e2.2, ⟨_, g⟩,
        C19_info_hash_covers_exact_encoding padHash 100 metaGood meta beInfo hl hf⟩

end Transmission
namespace Transmission

/-! ## The tracker client, the scrape and the command line -/

theorem growBuf_completed (tc : tr_tracker_t) : (growBuf tc).completed = tc.completed := by
  unfold growBuf
  split <;> rfl

theorem sendQuery_completed (net : TrackerNet) (tc : tr_tracker_t) :
    (sendQuery net tc).completed = tc.completed := by
  unfold sendQuery
  split
  · rfl
  · split <;> rfl
  · rfl

theorem recvAnswer_completed (fuel : Nat) (net : TrackerNet) (tor : tr_torrent_t)
    (tc : tr_tracker_t) (r : tr_torrent_t × tr_tracker_t × List PeerOffer)
    (h : recvAnswer fuel net tor tc = some r) :
    r.2.1.completed = 0 ∨ r.2.1.completed = tc.completed := by
  unfold recvAnswer at h
  cases hn : net.recvRet with
  | block =>
    rw [hn] at h
    simp only [Option.some.injEq] at h
    rw [← h]
    exact Or.inr (growBuf_completed tc)
  | ok data =>
    rw [hn] at h
    simp only [Option.some.injEq] at h
    rw [← h]
    exact Or.inr (growBuf_completed tc)
  | close =>
    rw [hn] at h
    simp only at h
    left
    by_cases hp : (growBuf tc).pos < 1
    · rw [if_pos hp] at h
      simp only [Option.some.injEq] at h
      rw [← h]
      rfl
    · rw [if_neg hp] at h
      simp only [Option.map_eq_some'] at h
      obtain ⟨_, _, h⟩ := h
      rw [← h]
      rfl

theorem pulseTransfer_completed (fuel : Nat) (net : TrackerNet) (tor : tr_torrent_t)
    (tc : tr_tracker_t) (o : PulseOut) (h : pulseTransfer fuel net tor tc = some o) :
    o.tc.completed = 0 ∨ o.tc.completed = tc.completed := by
  unfold pulseTransfer at h
  by_cases h2 : tc.status.toNat &&& 2 ≠ 0
  · rw [if_pos h2] at h
    by_cases h4 : (sendQuery net tc).status.toNat &&& 4 ≠ 0
    · rw [if_pos h4] at h
      simp only [Option.map_eq_some'] at h
      obtain ⟨r, hr1, hr2⟩ := h
      rw [← hr2]
      rcases recvAnswer_completed fuel net tor _ r hr1 with e | e
      · exact Or.inl e
      · exact Or.inr (e.trans (sendQuery_completed net tc))
    · rw [if_neg h4] at h
      simp only [Option.some.injEq] at h
      rw [← h]
      exact Or.inr (sendQuery_completed net tc)
  · rw [if_neg h2] at h
    by_cases h4 : tc.status.toNat &&& 4 ≠ 0
    · rw [if_pos h4] at h
      simp only [Option.map_eq_some'] at h
      obtain ⟨r, hr1, hr2⟩ := h
      rw [← hr2]
      exact recvAnswer_completed fuel net tor _ r hr1
    · rw [if_neg h4] at h
      simp only [Option.some.injEq] at h
      rw [← h]
      exact Or.inr rfl

/-- A pulse of the tracker client never raises the flag `completed`: it is
cleared or left as it was. -/
theorem tr_trackerPulse_completed (fuel : Nat) (net : TrackerNet) (tor : tr_torrent_t)
    (tc : tr_tracker_t) (o : PulseOut) (h : tr_trackerPulse fuel net tor tc = some o) :
    o.tc.completed = 0 ∨ o.tc.completed = tc.completed := by
  unfold tr_trackerPulse at h
  by_cases hd : pulseDue net tc
  · rw [if_pos hd] at h
    by_cases hf : net.resolveFails = true ∨ net.socket < 0
    · rw [if_pos hf] at h
      simp only [Option.some.injEq] at h
      rw [← h]
      exact Or.inr rfl
    · rw [if_neg hf] at h
      exact pulseTransfer_completed fuel net tor
        { tc with date := net.now, status := TC_STATUS_CONNECT } o h
  · rw [if_neg hd] at h
    exact pulseTransfer_completed fuel net tor _ o h

/-- C21: the complete scenario torrent (`blockHaveCount = blockCount = 3`)
goes through an iteration of `downloadLoop` in which the announce is due and
sent: the status becomes `TR_STATUS_SEED`, the request carries no event, and
the flag `completed` of the tracker client is 0 afterwards; whatever
`tr_peerPulse` and the network do in that iteration, the flag is not raised. -/
theorem C21_seed_transition_leaves_completed_flag_down :
    completeSession.blockHaveCount = 3 ∧ completeSession.blockCount = 3 ∧
    idleClient.completed = 0 ∧
    (downloadTick 10 id announceNet completeSession idleClient).map (fun o =>
      (o.tor.status, o.tc.status, o.tc.completed, o.query.map (fun q => q.event))) =
      some (TR_STATUS_SEED, TC_STATUS_RECV, 0, some []) ∧
    ∀ (fuel : Nat) (peerPulse : tr_torrent_t → tr_torrent_t) (net : TrackerNet),
      ((downloadTick fuel peerPulse net completeSession idleClient).map (fun o =>
        o.tc.completed)).getD 0 = 0 := by
  refine ⟨by decide!, by decide!, rfl, by decide!, ?_⟩
  intro fuel peerPulse net
  cases h : downloadTick fuel peerPulse net completeSession idleClient with
  | none => rfl
  | some o =>
    simp only [Option.map_some', Option.getD_some]
    unfold downloadTick at h
    rcases tr_trackerPulse_completed fuel net _ idleClient o h with e | e
    · exact e
    · exact e

/-- The answer `d14:failure reason6:deniede` read by `recvAnswer`: the bit
`TR_TRACKER_ERROR` is set, the error text is `denied`, the client is idle with
no flag pending.  The same answer with a blank before the last byte is no
bencoded dictionary: nothing is stored. -/
theorem recvAnswer_denied :
    (recvAnswer 10 closeNet downloadingSession (answerClient answerDenied)).map (fun r =>
      (r.1.status, r.1.error, r.2.1.status, r.2.1.started, r.2.1.completed, r.2.1.stopped)) =
      some (36, [100, 101, 110, 105, 101, 100], TC_STATUS_IDLE, 0, 0, 0) ∧
    (recvAnswer 10 closeNet downloadingSession (answerClient answerDeniedBlank)).map (fun r =>
      (r.1.status, r.1.error, r.2.1.status)) = some (4, [], TC_STATUS_IDLE) := by
  constructor <;> decide!

/-- C22: the tracker answers `d14:failure reason8:50%% offe`, a bencoded
dictionary whose `failure reason` is the text `50%% off`; `recvAnswer` sets
the bit `TR_TRACKER_ERROR` and leaves the client idle, but the error text it
stores is `50% off`: the reason is used as the format of `snprintf`. -/
theorem C22_failure_reason_used_as_format :
    (match tr_bencLoad 10 answerPercent 0 with
      | BencRes.ok v => (tr_bencDictFind v keyFailureReason).bind benc_val_t.strOf
      | _ => none) = some [53, 48, 37, 37, 32, 111, 102, 102] ∧
    (recvAnswer 10 closeNet downloadingSession (answerClient answerPercent)).map (fun r =>
      (r.1.status, r.1.error, r.2.1.status)) =
      some (36, [53, 48, 37, 32, 111, 102, 102], TC_STATUS_IDLE) := by
  constructor <;> decide!

/-- C24: the scenario torrent has a scrape address and the name of the
tracker cannot be resolved: `tr_trackerScrape` returns 0 and has stored
neither count. -/
theorem C24_scrape_returns_0_when_resolve_fails :
    cstr scrapeSession.scrape ≠ [] ∧ unresolvedNet.resolveFails = true ∧
    tr_trackerScrape 10 unresolvedNet scrapeSession = ScrapeRes.done 0 none none := by
  refine ⟨by decide, rfl, by decide!⟩

/-- C26: for the command line `transmissioncli a.torrent` with a file that
cannot be opened, `parseCommandLine` returns 0, `tr_metainfoParse` (hence
`tr_torrentInit`) fails and `main` returns 0; for an unknown option `main`
returns 1. -/
theorem C26_open_failure_exits_with_0 :
    (parseCommandLine cliMissingFile).1 = 0 ∧
    tr_metainfoParse padHash 10 cliMissingFile.file = MetaRes.fail ∧
    main padHash 10 cliMissingFile = some 0 ∧
    main padHash 10 cliBadOption = some 1 := by
  refine ⟨by decide!, by decide!, by decide!, by decide!⟩

end Transmission
namespace Transmission

/-! ## Progress of the reorderer -/

/-- Under the invariants the slots that hold the piece of their own index are
the pieces that sit in the slot of their own index. -/
theorem identitySlots_eq_inPlace (n : Int) (io : tr_io_t) (h : SlotInv n io) :
    identitySlots io = inPlace n io := by
  unfold identitySlots inPlace
  congr 1
  ext s
  simp only [Finset.mem_filter, Finset.mem_Ico]
  constructor
  · rintro ⟨⟨h0, h1⟩, h2⟩
    have hu := h.usedN
    obtain ⟨_, _, c⟩ := h.slots s h0 h1
    rw [h2] at c
    exact ⟨⟨h0, by omega⟩, c⟩
  · rintro ⟨⟨h0, h1⟩, h2⟩
    rcases h.pieces s h0 h1 with e | ⟨_, b, c⟩
    · omega
    · rw [h2] at b c
      exact ⟨⟨h0, b⟩, c⟩

theorem scenarioIo2_reach : SlotReach scenarioInfo scenarioIo2 :=
  SlotReach.place (emptyIo scenarioInfo) scenarioIo2 2 4 SlotReach.empty
    (by decide) (by decide) (by decide) (by decide)

theorem scenarioIoUnsorted_inv : SlotInv scenarioInfo.pieceCount scenarioIoUnsorted :=
  (placePiece_spec scenarioInfo.pieceCount scenarioIo2
    (SlotReach.inv scenarioInfo (by decide) scenarioIo2 scenarioIo2_reach).1 0
    (by decide) (by decide) (by decide)).1

/-- C27: for a slot map that satisfies the invariants I1 and I2 with every slot
below `slotsUsed` occupied (`SlotInv`), `reorderPieces` returns within
`pieceCount + 1` passes; every iteration of its loop either calls nothing and
leaves the slot map as it is, or calls `invertSlots` and then the number of
slots `s < slotsUsed` with `slotPiece[s] = s` is strictly larger, the
invariants being kept; and in the slot map returned every placed piece
`p < slotsUsed` has `pieceSlot[p] = p`. -/
theorem C27_reorderPieces_terminates_by_strict_progress (inf : tr_info_t) (io : tr_io_t)
    (h : SlotInv inf.pieceCount io) :
    (∀ fuel, inf.pieceCount.toNat < fuel →
      ∃ io1, reorderPieces inf fuel io = some io1 ∧ SlotInv inf.pieceCount io1 ∧
        io1.slotsUsed = io.slotsUsed ∧
        ∀ p, 0 ≤ p → p < io1.slotsUsed → 0 ≤ arrGet io1.pieceSlot p →
          arrGet io1.pieceSlot p = p) ∧
    (∀ (st : tr_io_t × Bool) (i : Int), SlotInv inf.pieceCount st.1 → 0 ≤ i →
      i < inf.pieceCount →
      SlotInv inf.pieceCount (reorderStep inf st i).1 ∧
      ((reorderStep inf st i) = st ∨
        ((reorderStep inf st i) = (invertSlots inf st.1 (arrGet st.1.pieceSlot i) i, true) ∧
          identitySlots st.1 < identitySlots (reorderStep inf st i).1))) := by
  constructor
  · intro fuel hf
    obtain ⟨io1, h1⟩ := reorderPieces_returns inf fuel io h (by omega)
    obtain ⟨r, s⟩ := reorderPieces_sound inf fuel io io1 h h1
    refine ⟨io1, h1, r.inv, r.used, ?_⟩
    intro p h0 hu hp
    have hn : p < inf.pieceCount := lt_of_lt_of_le hu r.inv.usedN
    rcases s p h0 hn with e | e | e
    · omega
    · exact e
    · omega
  · intro st i hs h0 hn
    have hinv := (reorderStep_spec inf inf.pieceCount st hs i h0 hn).1.inv
    refine ⟨hinv, ?_⟩
    unfold reorderStep
    by_cases h1 : arrGet st.1.pieceSlot i < 0
    · left; rw [if_pos h1]
    · rw [if_neg h1]
      by_cases h2 : arrGet st.1.pieceSlot i = i
      · left; rw [if_pos h2]
      · rw [if_neg h2]
        by_cases h3 : i ≥ st.1.slotsUsed
        · left; rw [if_pos h3]
        · rw [if_neg h3]
          right
          refine ⟨rfl, ?_⟩
          have hiu : i < st.1.slotsUsed := by omega
          rw [identitySlots_eq_inPlace inf.pieceCount st.1 hs,
            identitySlots_eq_inPlace inf.pieceCount _
              (invertSlots_inv inf inf.pieceCount st.1 hs i h0 hn h1 h2 hiu)]
          exact invertSlots_inPlace inf inf.pieceCount st.1 hs i h0 hn h1 h2 hiu

/-- Witness for C27: the scenario torrent with piece 2 in slot 0 and piece 0 in
slot 1; the reorderer inverts the two slots. -/
theorem C27_witness :
    SlotInv scenarioInfo.pieceCount scenarioIoUnsorted ∧
    scenarioIoUnsorted.slotPiece = [2, 0, -1] ∧
    (reorderPieces scenarioInfo 4 scenarioIoUnsorted).map (fun io1 => io1.slotPiece) =
      some [0, 2, -1] ∧
    ((∀ fuel, scenarioInfo.pieceCount.toNat < fuel →
      ∃ io1, reorderPieces scenarioInfo fuel scenarioIoUnsorted = some io1 ∧
        SlotInv scenarioInfo.pieceCount io1 ∧
        io1.slotsUsed = scenarioIoUnsorted.slotsUsed ∧
        ∀ p, 0 ≤ p → p < io1.slotsUsed → 0 ≤ arrGet io1.pieceSlot p →
          arrGet io1.pieceSlot p = p) ∧
    (∀ (st : tr_io_t × Bool) (i : Int), SlotInv scenarioInfo.pieceCount st.1 → 0 ≤ i →
      i < scenarioInfo.pieceCount →
      SlotInv scenarioInfo.pieceCount (reorderStep scenarioInfo st i).1 ∧
      ((reorderStep scenarioInfo st i) = st ∨
        ((reorderStep scenarioInfo st i) =
            (invertSlots scenarioInfo st.1 (arrGet st.1.pieceSlot i) i, true) ∧
          identitySlots st.1 < identitySlots (reorderStep scenarioInfo st i).1)))) :=
  ⟨scenarioIoUnsorted_inv, by decide, by decide,
    C27_reorderPieces_terminates_by_strict_progress scenarioInfo scenarioIoUnsorted
      scenarioIoUnsorted_inv⟩

end Transmission
namespace Transmission

/-! ## The size of the peer table -/

theorem parsePiece_length (sha1 : List Nat → List Nat) (fuel : Nat) (heap : List Nat)
    (tor t : tr_torrent_t) (i : Nat) (len : Int) (payload : List Nat)
    (ht : parsePiece sha1 fuel heap tor i len payload = some (some t)) :
    t.peers.length = tor.peers.length := by
  unfold parsePiece at ht
  simp only at ht
  split at ht
  · exact absurd ht (by simp)
  split at ht
  · exact absurd ht (by simp)
  split at ht
  · simp only [Option.some.injEq] at ht
    rw [← ht, setPeer_peers_length]
  · cases hs : storeBlock sha1 fuel tor (ntohl payload) (ntohl (payload.drop 4)) (len - 9)
        (payload.drop 8) heap with
    | none => rw [hs] at ht; exact absurd ht (by simp)
    | some t1 =>
      rw [hs] at ht
      simp only [Option.map_some', Option.some.injEq] at ht
      have h1 := storeBlock_peers sha1 fuel tor t1 _ _ _ _ heap hs
      rw [← ht, setPeer_peers_length]
      split
      · rw [sendHave_peers_length, h1]
      · rw [h1]

theorem parseSwitch_length (sha1 : List Nat → List Nat) (fuel : Nat) (heap : List Nat)
    (tor t : tr_torrent_t) (i : Nat) (len : Int) (id : Nat) (payload : List Nat)
    (ht : parseSwitch sha1 fuel heap tor i len id payload = some (some t)) :
    t.peers.length = tor.peers.length := by
  unfold parseSwitch at ht
  simp only at ht
  split at ht
  · split at ht
    · exact absurd ht (by simp)
    · simp only [Option.some.injEq] at ht
      rw [← ht, setPeer_peers_length]
  split at ht
  · split at ht
    · exact absurd ht (by simp)
    · simp only [Option.some.injEq] at ht
      rw [← ht, setPeer_peers_length]
  split at ht
  · split at ht
    · exact absurd ht (by simp)
    · simp only [Option.some.injEq] at ht
      rw [← ht, setPeer_peers_length]
  split at ht
  · split at ht
    · exact absurd ht (by simp)
    · simp only [Option.some.injEq] at ht
      rw [← ht, setPeer_peers_length]
  split at ht
  · split at ht
    · exact absurd ht (by simp)
    · simp only [Option.some.injEq] at ht
      rw [← ht, setPeer_peers_length]
  split at ht
  · cases hb : parseBitfield tor (getPeer tor i) len payload with
    | none => rw [hb] at ht; exact absurd ht (by simp)
    | some p1 =>
      rw [hb] at ht
      simp only [Option.map_some', Option.some.injEq] at ht
      rw [← ht, setPeer_peers_length]
  split at ht
  · simp only [Option.some.injEq] at ht
    rw [← ht, setPeer_peers_length]
  split at ht
  · exact parsePiece_length sha1 fuel heap tor t i len payload ht
  split at ht
  · simp only [Option.some.injEq] at ht
    rw [← ht, setPeer_peers_length]
  · simp only [Option.some.injEq] at ht
    rw [← ht]

theorem countPieceBytes_length (tor : tr_torrent_t) (i : Nat) (newBytes : Int) :
    (countPieceBytes tor i newBytes).1.peers.length = tor.peers.length := by
  unfold countPieceBytes
  simp only
  split
  · simp [setPeer]
  · rfl

theorem consumeFrame_length (tor : tr_torrent_t) (i : Nat) :
    (consumeFrame tor i).peers.length = tor.peers.length := by
  unfold consumeFrame
  simp [setPeer]

theorem parseHandshake_length (tor : tr_torrent_t) (i : Nat) (newBytes : Int) :
    (∀ t nb, parseHandshake tor i newBytes = ParseIter.again t nb →
      t.peers.length = tor.peers.length) ∧
    (∀ t, parseHandshake tor i newBytes = ParseIter.stop (ParseOut.ok t) →
      t.peers.length = tor.peers.length) ∧
    (∀ t, parseHandshake tor i newBytes = ParseIter.stop (ParseOut.violation t) →
      t.peers.length = tor.peers.length) := by
  unfold parseHandshake
  simp only
  split
  · refine ⟨fun t nb e => ParseIter.noConfusion e, fun t e => ?_, fun t e => ?_⟩
    · simp only [ParseIter.stop.injEq] at e; exact ParseOut.noConfusion e
    · simp only [ParseIter.stop.injEq, ParseOut.violation.injEq] at e; rw [← e]
  split
  · refine ⟨fun t nb e => ParseIter.noConfusion e, fun t e => ?_, fun t e => ?_⟩
    · simp only [ParseIter.stop.injEq, ParseOut.ok.injEq] at e; rw [← e]
    · simp only [ParseIter.stop.injEq] at e; exact ParseOut.noConfusion e
  split
  · refine ⟨fun t nb e => ParseIter.noConfusion e, fun t e => ?_, fun t e => ?_⟩
    · simp only [ParseIter.stop.injEq] at e; exact ParseOut.noConfusion e
    · simp only [ParseIter.stop.injEq, ParseOut.violation.injEq] at e; rw [← e]
  split
  · refine ⟨fun t nb e => ParseIter.noConfusion e, fun t e => ?_, fun t e => ?_⟩
    · simp only [ParseIter.stop.injEq] at e; exact ParseOut.noConfusion e
    · simp only [ParseIter.stop.injEq, ParseOut.violation.injEq] at e; rw [← e]
  split
  · refine ⟨fun t nb e => ParseIter.noConfusion e, fun t e => ?_, fun t e => ?_⟩
    · simp only [ParseIter.stop.injEq] at e; exact ParseOut.noConfusion e
    · simp only [ParseIter.stop.injEq, ParseOut.violation.injEq] at e
      rw [← e, setPeer_peers_length]
  · refine ⟨fun t nb e => ?_, fun t e => ParseIter.noConfusion e,
      fun t e => ParseIter.noConfusion e⟩
    simp only [ParseIter.again.injEq] at e
    rw [← e.1, setPeer_peers_length, setPeer_peers_length]

theorem parseIter_length (sha1 : List Nat → List Nat) (fuel : Nat) (heap : List Nat)
    (tor : tr_torrent_t) (i : Nat) (newBytes : Int) :
    (∀ t nb, parseIter sha1 fuel heap tor i newBytes = ParseIter.again t nb →
      t.peers.length = tor.peers.length) ∧
    (∀ t, parseIter sha1 fuel heap tor i newBytes = ParseIter.stop (ParseOut.ok t) →
      t.peers.length = tor.peers.length) ∧
    (∀ t, parseIter sha1 fuel heap tor i newBytes = ParseIter.stop (ParseOut.violation t) →
      t.peers.length = tor.peers.length) := by
  have hc := countPieceBytes_length tor i newBytes
  have h2 := (consumeFrame_length (countPieceBytes tor i newBytes).1 i).trans hc
  unfold parseIter
  simp only
  split
  · refine ⟨fun t nb e => ParseIter.noConfusion e, fun t e => ?_, fun t e => ?_⟩
    · simp only [ParseIter.stop.injEq, ParseOut.ok.injEq] at e; rw [← e]
    · simp only [ParseIter.stop.injEq] at e; exact ParseOut.noConfusion e
  split
  · exact parseHandshake_length tor i newBytes
  split
  · refine ⟨fun t nb e => ParseIter.noConfusion e, fun t e => ?_, fun t e => ?_⟩
    · simp only [ParseIter.stop.injEq] at e; exact ParseOut.noConfusion e
    · simp only [ParseIter.stop.injEq, ParseOut.violation.injEq] at e; rw [← e]
  split
  · refine ⟨fun t nb e => ?_, fun t e => ParseIter.noConfusion e,
      fun t e => ParseIter.noConfusion e⟩
    simp only [ParseIter.again.injEq] at e
    rw [← e.1, setPeer_peers_length]
  split
  · refine ⟨fun t nb e => ParseIter.noConfusion e, fun t e => ?_, fun t e => ?_⟩
    · simp only [ParseIter.stop.injEq] at e; exact ParseOut.noConfusion e
    · simp only [ParseIter.stop.injEq] at e; exact ParseOut.noConfusion e
  split
  · refine ⟨fun t nb e => ParseIter.noConfusion e, fun t e => ?_, fun t e => ?_⟩
    · simp only [ParseIter.stop.injEq, ParseOut.ok.injEq] at e; rw [← e]; exact hc
    · simp only [ParseIter.stop.injEq] at e; exact ParseOut.noConfusion e
  split
  · refine ⟨fun t nb e => ParseIter.noConfusion e, fun t e => ?_, fun t e => ?_⟩
    · simp only [ParseIter.stop.injEq] at e; exact ParseOut.noConfusion e
    · simp only [ParseIter.stop.injEq] at e; exact ParseOut.noConfusion e
  · refine ⟨fun t nb e => ParseIter.noConfusion e, fun t e => ?_, fun t e => ?_⟩
    · simp only [ParseIter.stop.injEq] at e; exact ParseOut.noConfusion e
    · simp only [ParseIter.stop.injEq, ParseOut.violation.injEq] at e; rw [← e]; exact h2
  · rename_i t3 hsw
    refine ⟨fun t nb e => ?_, fun t e => ParseIter.noConfusion e,
      fun t e => ParseIter.noConfusion e⟩
    simp only [ParseIter.again.injEq] at e
    rw [← e.1]
    exact (parseSwitch_length sha1 fuel heap _ t3 i _ _ _ hsw).trans h2

theorem parseLoop_length (sha1 : List Nat → List Nat) (fuel : Nat) (heap : List Nat) (i : Nat)
    (steps : Nat) : ∀ (tor : tr_torrent_t) (newBytes : Int),
    (∀ t, parseLoop sha1 fuel heap i steps tor newBytes = ParseOut.ok t →
      t.peers.length = tor.peers.length) ∧
    (∀ t, parseLoop sha1 fuel heap i steps tor newBytes = ParseOut.violation t →
      t.peers.length = tor.peers.length) := by
  induction steps with
  | zero =>
    intro tor newBytes
    exact ⟨fun t e => ParseOut.noConfusion e, fun t e => ParseOut.noConfusion e⟩
  | succ n ih =>
    intro tor newBytes
    obtain ⟨r1, r2, r3⟩ := parseIter_length sha1 fuel heap tor i newBytes
    rw [parseLoop]
    cases hit : parseIter sha1 fuel heap tor i newBytes with
    | again t1 nb1 =>
      obtain ⟨q1, q2⟩ := ih t1 nb1
      have e1 := r1 t1 nb1 hit
      exact ⟨fun t e => (q1 t e).trans e1, fun t e => (q2 t e).trans e1⟩
    | stop out =>
      refine ⟨fun t e => ?_, fun t e => ?_⟩
      · simp only at e; rw [e] at hit; exact r2 t hit
      · simp only at e; rw [e] at hit; exact r3 t hit

theorem tr_peerRem_length (tor : tr_torrent_t) (i : Nat) :
    (tr_peerRem tor i).peers.length ≤ tor.peers.length := by
  unfold tr_peerRem
  simp only
  rw [List.length_eraseIdx]
  split <;> omega

theorem peerReceive_length (sha1 : List Nat → List Nat) (fuel : Nat) (heap : List Nat)
    (tor tor1 : tr_torrent_t) (i : Nat) (bytes : List Nat)
    (hr : peerReceive sha1 fuel heap tor i bytes = some tor1) :
    tor1.peers.length ≤ tor.peers.length := by
  unfold peerReceive parseMessage at hr
  simp only at hr
  obtain ⟨r1, r2⟩ := parseLoop_length sha1 fuel heap i
    ((getPeer (setPeer tor i { getPeer tor i with buf := (getPeer tor i).buf ++ bytes })
      i).buf.length + 1)
    (setPeer tor i { getPeer tor i with buf := (getPeer tor i).buf ++ bytes }) bytes.length
  split at hr
  · rename_i t2 hm
    simp only [Option.some.injEq] at hr
    rw [← hr, r1 t2 hm, setPeer_peers_length]
  · rename_i t2 hm
    simp only [Option.some.injEq] at hr
    rw [← hr]
    have := tr_peerRem_length t2 i
    rw [r2 t2 hm, setPeer_peers_length] at this
    exact this
  · exact absurd hr (by simp)

theorem sendRequest_length (tor : tr_torrent_t) (i : Nat) (block : Int) :
    (tr_peerSendRequest tor i block).peers.length = tor.peers.length := by
  unfold tr_peerSendRequest
  simp [setPeer]

theorem requestLoop_length (rand : Int → Int) (i : Nat) (n : Nat) :
    ∀ tor : tr_torrent_t, (requestLoop rand i n tor).peers.length = tor.peers.length := by
  induction n with
  | zero => intro tor; rfl
  | succ n ih =>
    intro tor
    rw [requestLoop]
    split
    · rw [ih, sendRequest_length]
    · rfl

theorem requestTopUp_length (rand : Int → Int) (tor : tr_torrent_t) (i : Nat) :
    (requestTopUp rand tor i).peers.length = tor.peers.length := by
  have key : ∀ (p : tr_peer_t) (c : Prop) [Decidable c] (n : Nat),
      (if c then requestLoop rand i n (setPeer tor i p) else setPeer tor i p).peers.length =
        tor.peers.length := by
    intro p c _ n
    split
    · rw [requestLoop_length, setPeer_peers_length]
    · rw [setPeer_peers_length]
  unfold requestTopUp
  simp only
  split
  · rfl
  · exact key _ _ _

theorem sendPiece_length (tor : tr_torrent_t) (i : Nat) (mem : List Nat) :
    (tr_peerSendPiece tor i mem).peers.length = tor.peers.length := by
  unfold tr_peerSendPiece
  simp [setPeer]

/-- The peer table of a session never grows beyond `TR_MAX_PEER_COUNT`. -/
theorem sessionReach_peerCount (sha1 : List Nat → List Nat) (tor0 tor : tr_torrent_t)
    (h0 : (tor0.peers.length : Int) ≤ TR_MAX_PEER_COUNT) (hr : SessionReach sha1 tor0 tor) :
    (tor.peers.length : Int) ≤ TR_MAX_PEER_COUNT := by
  induction hr with
  | start => exact h0
  | addPeer tor tor1 status _ _ hi ih =>
    unfold tr_peerInit at hi
    split at hi
    · exact absurd hi (by simp)
    · rename_i hlt
      simp only [Option.some.injEq] at hi
      rw [← hi]
      simp only [List.length_append, List.length_singleton]
      push_cast
      omega
  | connect tor i _ _ _ ih => rw [setPeer_peers_length]; exact ih
  | handshakeSent tor i _ _ _ ih => rw [setPeer_peers_length]; exact ih
  | receive tor tor1 i bytes heap fuel _ _ _ hrecv ih =>
    have := peerReceive_length sha1 fuel heap tor tor1 i bytes hrecv
    omega
  | sendPiece tor i mem _ _ _ ih => rw [sendPiece_length]; exact ih
  | sent tor i n _ _ ih => rw [setPeer_peers_length]; exact ih
  | check tor i keepAlive canUnchoke _ _ ih => rw [setPeer_peers_length]; exact ih
  | topUp tor i rand _ _ ih => rw [requestTopUp_length]; exact ih
  | remove tor i _ _ ih =>
    have := tr_peerRem_length tor i
    omega
  | shuffle tor _ ih =>
    simp only [List.length_append, List.length_drop, List.length_take]
    have : tor.peers.length - 1 + min 1 tor.peers.length = tor.peers.length := by omega
    rw [this]
    exact ih

/-- C23: in every session state reached from a state with at most
`TR_MAX_PEER_COUNT` (60) peers (`tr_torrentStart` begins with none) by the
steps of `tr_peerPulse`, peers being added by `tr_peerInit` only, the peer
table holds at most 60 peers, and the `numwant` of the request that
`sendQuery` builds, `60 - peerCount`, is not negative. -/
theorem C23_peer_table_bounded_numwant_nonnegative (sha1 : List Nat → List Nat)
    (tor0 tor : tr_torrent_t) (h0 : (tor0.peers.length : Int) ≤ TR_MAX_PEER_COUNT)
    (hr : SessionReach sha1 tor0 tor) (tc : tr_tracker_t) :
    (tor.peers.length : Int) ≤ 60 ∧
    (announceQuery tor tc).numwant = 60 - tor.peers.length ∧
    0 ≤ (announceQuery tor tc).numwant := by
  have h := sessionReach_peerCount sha1 tor0 tor h0 hr
  unfold TR_MAX_PEER_COUNT at h
  refine ⟨h, rfl, ?_⟩
  show 0 ≤ TR_MAX_PEER_COUNT - (tor.peers.length : Int)
  unfold TR_MAX_PEER_COUNT
  omega

/-- Witness for C23: the example session with one connected peer. -/
theorem C23_witness :
    (runStart.peers.length : Int) ≤ TR_MAX_PEER_COUNT ∧
    SessionReach padHash runStart runConnected ∧
    ((runConnected.peers.length : Int) ≤ 60 ∧
      (announceQuery runConnected idleClient).numwant = 60 - runConnected.peers.length ∧
      0 ≤ (announceQuery runConnected idleClient).numwant) :=
  ⟨by decide, runConnected_reach,
    C23_peer_table_bounded_numwant_nonnegative padHash runStart runConnected (by decide)
      runConnected_reach idleClient⟩

end Transmission
namespace Transmission

/-! ## End game of `chooseBlock` -/

/-- C29: pieces 0 and 1 of the scenario torrent are verified and seven peers
hold eight requests each for block 2, the only block missing
(`blockHave[2] = 56`); in the top-up of an eighth peer the count reaches 61
after five requests, and the next call of `chooseBlock` finds no candidate
piece with a block at 0, skips block 2 because its count is not below
`TR_MAX_PEER_COUNT + 1`, and returns -1 although block 2 has a positive count;
`tr_peerPulse` passes the -1 to `tr_peerSendRequest` three times. -/
theorem C29_endgame_returns_minus_one_above_60 :
    crowded7.blockHave = [-1, -1, 56] ∧
    crowded61.blockHave = [-1, -1, 61] ∧
    tr_bitfieldHas crowded61.bitfield 2 = false ∧
    specMissing crowded61 2 = 0 ∧
    chooseBlock scenarioRand crowded61 7 = -1 ∧
    (((getPeer (requestTopUp scenarioRand crowded7 7) 7).inRequests.take 8).map
      (fun r => r.index)) = [2, 2, 2, 2, 2, -1, -1, -1] := by
  refine ⟨by decide!, by decide!, by decide!, by decide!, by decide!, by decide!⟩

/-- C30: after the top-up of the first peer of the two-peer session
(`blockHave = [3, 3, 2]`) the second peer, which advertises piece 0 only, is
interesting, and `chooseBlock` returns for it block 2, the block of piece 2,
which that peer does not advertise; and in the crowded session `chooseBlock`
returns -1 for a peer that advertises the unverified piece 2. -/
theorem C30_endgame_block_outside_advertised_pieces :
    twoPeers1.blockHave = [3, 3, 2] ∧
    (getPeer twoPeers1 1).bitfield = some [128] ∧
    isInteresting twoPeers1 (getPeer twoPeers1 1) = true ∧
    chooseBlock scenarioRand twoPeers1 1 = 2 ∧
    pieceBlocks twoPeers1 2 = [2] ∧ tr_bitfieldHas [128] 2 = false ∧
    (∀ p ∈ upTo twoPeers1.info.pieceCount, tr_bitfieldHas [128] p = true →
      (2 : Int) ∉ pieceBlocks twoPeers1 p) ∧
    isInteresting crowded61 (getPeer crowded61 7) = true ∧
    chooseBlock scenarioRand crowded61 7 = -1 := by
  refine ⟨by decide!, by decide!, by decide!, by decide!, by decide!, by decide!, by decide!,
    by decide!, by decide!⟩

end Transmission
namespace Transmission

/-! ## Normal mode of `chooseBlock` -/

theorem filter_length_split (l : List Int) (q : Int → Bool) :
    (l.filter q).length + (l.filter (fun x => !q x)).length = l.length := by
  induction l with
  | nil => rfl
  | cons a l ih =>
    simp only [List.filter_cons]
    cases hq : q a
    · simp only [Bool.false_eq_true, if_false, Bool.not_false, if_true, List.length_cons]
      omega
    · simp only [if_true, Bool.not_true, Bool.false_eq_true, if_false, List.length_cons]
      omega

/-- The number that `chooseBlock` computes agrees with the number of blocks at
0 whenever one of them is positive. -/
theorem missingBlocks_spec (tor : tr_torrent_t) (p : Int) :
    (1 ≤ missingBlocks tor p ↔ 0 < specMissing tor p) ∧
    (1 ≤ missingBlocks tor p → missingBlocks tor p = specMissing tor p) := by
  have hlen : (pieceBlocks tor p).length = (tr_pieceCountBlocks tor p).toNat := by
    unfold pieceBlocks
    rw [List.length_map, upTo_length]
  have hsplit := filter_length_split (pieceBlocks tor p)
    (fun j => decide (arrGet tor.blockHave j ≠ 0))
  have hz : (pieceBlocks tor p).filter (fun x => !decide (arrGet tor.blockHave x ≠ 0)) =
      (pieceBlocks tor p).filter (fun b => decide (arrGet tor.blockHave b = 0)) := by
    congr 1
    funext x
    by_cases hx : arrGet tor.blockHave x = 0 <;> simp [hx]
  rw [hz] at hsplit
  unfold missingBlocks specMissing
  rw [hlen] at hsplit
  constructor
  · constructor
    · intro h
      have : 0 ≤ tr_pieceCountBlocks tor p := by omega
      have := Int.toNat_of_nonneg this
      omega
    · intro h
      have hpos : 0 < (tr_pieceCountBlocks tor p).toNat := by omega
      have : 0 ≤ tr_pieceCountBlocks tor p := by
        by_contra hneg
        rw [Int.toNat_eq_zero.mpr (by omega)] at hpos
        omega
      have := Int.toNat_of_nonneg this
      omega
  · intro h
    have : 0 ≤ tr_pieceCountBlocks tor p := by omega
    have := Int.toNat_of_nonneg this
    omega

theorem missingBlocks_le (tor : tr_torrent_t) (p : Int) (hp : 0 ≤ p)
    (hP : 0 ≤ tor.info.pieceSize) (hB : 0 < tor.blockSize) :
    missingBlocks tor p ≤ tor.blockCount := by
  have hs : 0 ≤ tr_pieceStartBlock tor p := by
    unfold tr_pieceStartBlock
    apply Int.ediv_nonneg
    · have := mul_nonneg hp hP
      omega
    · omega
  unfold missingBlocks tr_pieceCountBlocks
  have : min (tr_pieceStartBlock tor (p + 1)) tor.blockCount ≤ tor.blockCount := min_le_right _ _
  omega

/-- One iteration of the first loop of `chooseBlock` keeps the description of
the state: the minimum so far and the pieces that attain it. -/
theorem poolStep_inv (tor : tr_torrent_t) (bf : List Nat) (M : Int) (pre : List Int)
    (st : Int × List Int) (i : Int)
    (h1 : ∀ p ∈ pre, Wanted tor bf p → st.1 ≤ missingBlocks tor p)
    (h2 : st.2 = pre.filter (fun p => decide (Wanted tor bf p ∧ missingBlocks tor p = st.1)))
    (h3 : st.1 = M + 1 ∨ ∃ q ∈ pre, Wanted tor bf q ∧ missingBlocks tor q = st.1) :
    (∀ p ∈ pre ++ [i], Wanted tor bf p → (poolStep tor bf st i).1 ≤ missingBlocks tor p) ∧
    (poolStep tor bf st i).2 = (pre ++ [i]).filter (fun p =>
      decide (Wanted tor bf p ∧ missingBlocks tor p = (poolStep tor bf st i).1)) ∧
    ((poolStep tor bf st i).1 = M + 1 ∨
      ∃ q ∈ pre ++ [i], Wanted tor bf q ∧ missingBlocks tor q = (poolStep tor bf st i).1) := by
  have keep : ∀ (hnw : ¬ (Wanted tor bf i ∧ missingBlocks tor i = st.1)),
      (Wanted tor bf i → st.1 ≤ missingBlocks tor i) →
      (∀ p ∈ pre ++ [i], Wanted tor bf p → st.1 ≤ missingBlocks tor p) ∧
      st.2 = (pre ++ [i]).filter (fun p =>
        decide (Wanted tor bf p ∧ missingBlocks tor p = st.1)) ∧
      (st.1 = M + 1 ∨ ∃ q ∈ pre ++ [i], Wanted tor bf q ∧ missingBlocks tor q = st.1) := by
    intro hnw hle
    refine ⟨?_, ?_, ?_⟩
    · intro p hp hw
      rcases List.mem_append.mp hp with e | e
      · exact h1 p e hw
      · rw [List.mem_singleton] at e
        rw [e] at hw ⊢
        exact hle hw
    · rw [List.filter_append, ← h2]
      simp only [List.filter_cons, List.filter_nil]
      rw [if_neg (by simpa using hnw)]
      simp
    · rcases h3 with e | ⟨q, hq, hw⟩
      · exact Or.inl e
      · exact Or.inr ⟨q, List.mem_append_left _ hq, hw⟩
  unfold poolStep
  by_cases hb : tr_bitfieldHas bf i = true
  swap
  · rw [if_pos hb]
    exact keep (fun hh => hb hh.1.1) (fun hh => absurd hh.1 hb)
  rw [if_neg (not_not.mpr hb)]
  by_cases ht : tr_bitfieldHas tor.bitfield i = true
  · rw [if_pos ht]
    exact keep (fun hh => by rw [hh.1.2.1] at ht; exact Bool.noConfusion ht)
      (fun hh => by rw [hh.2.1] at ht; exact Bool.noConfusion ht)
  rw [if_neg ht]
  simp only
  by_cases hm : missingBlocks tor i < 1
  · rw [if_pos hm]
    exact keep (fun hh => by have := hh.1.2.2; omega) (fun hh => by have := hh.2.2; omega)
  rw [if_neg hm]
  have hw : Wanted tor bf i := ⟨hb, by simpa using ht, by omega⟩
  by_cases hlt : missingBlocks tor i < st.1
  · rw [if_pos hlt]
    simp only [le_refl, if_true, List.nil_append]
    refine ⟨?_, ?_, ?_⟩
    · intro p hp hwp
      rcases List.mem_append.mp hp with e | e
      · have := h1 p e hwp
        omega
      · rw [List.mem_singleton] at e
        rw [e]
    · rw [List.filter_append]
      have hnil : pre.filter (fun p =>
          decide (Wanted tor bf p ∧ missingBlocks tor p = missingBlocks tor i)) = [] := by
        rw [List.filter_eq_nil_iff]
        intro p hp
        simp only [decide_eq_true_eq, not_and]
        intro hwp
        have := h1 p hp hwp
        omega
      rw [hnil]
      simp only [List.filter_cons, List.filter_nil, List.nil_append]
      rw [if_pos (by simpa using hw)]
    · exact Or.inr ⟨i, List.mem_append_right _ (List.mem_singleton_self i), hw, rfl⟩
  · rw [if_neg hlt]
    by_cases hle : missingBlocks tor i ≤ st.1
    · rw [if_pos hle]
      have heq : missingBlocks tor i = st.1 := by omega
      refine ⟨?_, ?_, ?_⟩
      · intro p hp hwp
        rcases List.mem_append.mp hp with e | e
        · exact h1 p e hwp
        · rw [List.mem_singleton] at e
          rw [e]
          show st.1 ≤ missingBlocks tor i
          omega
      · show st.2 ++ [i] = _
        rw [List.filter_append, ← h2]
        simp only [List.filter_cons, List.filter_nil]
        rw [if_pos (by simpa using ⟨hw, heq⟩)]
      · exact Or.inr ⟨i, List.mem_append_right _ (List.mem_singleton_self i), hw, heq⟩
    · rw [if_neg hle]
      exact keep (fun hh => hle (le_of_eq hh.2)) (fun _ => by omega)

/-- The first loop of `chooseBlock` over the pieces of `l`. -/
theorem poolFold_inv (tor : tr_torrent_t) (bf : List Nat) (M : Int) (l : List Int) :
    ∀ (pre : List Int) (st : Int × List Int),
    (∀ p ∈ pre, Wanted tor bf p → st.1 ≤ missingBlocks tor p) →
    st.2 = pre.filter (fun p => decide (Wanted tor bf p ∧ missingBlocks tor p = st.1)) →
    (st.1 = M + 1 ∨ ∃ q ∈ pre, Wanted tor bf q ∧ missingBlocks tor q = st.1) →
    (∀ p ∈ pre ++ l, Wanted tor bf p →
      (l.foldl (poolStep tor bf) st).1 ≤ missingBlocks tor p) ∧
    (l.foldl (poolStep tor bf) st).2 = (pre ++ l).filter (fun p =>
      decide (Wanted tor bf p ∧ missingBlocks tor p = (l.foldl (poolStep tor bf) st).1)) ∧
    ((l.foldl (poolStep tor bf) st).1 = M + 1 ∨
      ∃ q ∈ pre ++ l, Wanted tor bf q ∧
        missingBlocks tor q = (l.foldl (poolStep tor bf) st).1) := by
  induction l with
  | nil =>
    intro pre st h1 h2 h3
    simp only [List.foldl_nil, List.append_nil]
    exact ⟨h1, h2, h3⟩
  | cons i l ih =>
    intro pre st h1 h2 h3
    obtain ⟨a, b, c⟩ := poolStep_inv tor bf M pre st i h1 h2 h3
    have := ih (pre ++ [i]) (poolStep tor bf st i) a b c
    simp only [List.foldl_cons]
    rw [show pre ++ i :: l = pre ++ [i] ++ l by simp]
    exact this

/-- The pool that `chooseBlock` builds when a piece is wanted: it is not
empty, and it holds the wanted pieces with the least `missingBlocks`. -/
theorem chooseBlock_pool (tor : tr_torrent_t) (bf : List Nat)
    (hP : 0 ≤ tor.info.pieceSize) (hB : 0 < tor.blockSize)
    (hex : ∃ p ∈ upTo tor.info.pieceCount, Wanted tor bf p) :
    ∃ m, ((upTo tor.info.pieceCount).foldl (poolStep tor bf) (tor.blockCount + 1, [])).2 =
        (upTo tor.info.pieceCount).filter (fun p =>
          decide (Wanted tor bf p ∧ missingBlocks tor p = m)) ∧
      (∀ p ∈ upTo tor.info.pieceCount, Wanted tor bf p → m ≤ missingBlocks tor p) ∧
      ∃ q ∈ upTo tor.info.pieceCount, Wanted tor bf q ∧ missingBlocks tor q = m := by
  obtain ⟨a, b, c⟩ := poolFold_inv tor bf tor.blockCount (upTo tor.info.pieceCount) []
    (tor.blockCount + 1, []) (fun p hp => absurd hp (List.not_mem_nil p)) rfl (Or.inl rfl)
  simp only [List.nil_append] at a b c
  refine ⟨_, b, a, ?_⟩
  rcases c with e | e
  · obtain ⟨p, hp, hw⟩ := hex
    have h1 := a p hp hw
    have h2 := missingBlocks_le tor p ((mem_upTo _ p).mp hp).1 hP hB
    omega
  · exact e

theorem arrGet_mem (l : List Int) (k : Int) (h0 : 0 ≤ k) (hk : k < l.length) :
    arrGet l k ∈ l := by
  unfold arrGet
  rw [if_pos h0]
  have hlt : k.toNat < l.length := by omega
  rw [List.getD_eq_getElem?_getD, List.getElem?_eq_getElem hlt]
  exact List.getElem_mem hlt

theorem find?_first (l : List Int) (q : Int → Bool) (hs : l.Pairwise (fun a b => a ≤ b))
    (hex : ∃ x ∈ l, q x = true) :
    ∃ b, l.find? q = some b ∧ b ∈ l ∧ q b = true ∧ ∀ x ∈ l, q x = true → b ≤ x := by
  induction l with
  | nil =>
    obtain ⟨x, hx, _⟩ := hex
    exact absurd hx (List.not_mem_nil x)
  | cons a l ih =>
    rw [List.pairwise_cons] at hs
    by_cases ha : q a = true
    · refine ⟨a, ?_, List.mem_cons_self a l, ha, ?_⟩
      · simp [List.find?, ha]
      · intro x hx _
        rcases List.mem_cons.mp hx with e | e
        · rw [e]
        · exact hs.1 x e
    · have hex2 : ∃ x ∈ l, q x = true := by
        obtain ⟨x, hx, hq⟩ := hex
        rcases List.mem_cons.mp hx with e | e
        · rw [e] at hq; exact absurd hq ha
        · exact ⟨x, e, hq⟩
      obtain ⟨b, b1, b2, b3, b4⟩ := ih hs.2 hex2
      refine ⟨b, ?_, List.mem_cons_of_mem a b2, b3, ?_⟩
      · simp only [List.find?]
        have : q a = false := by simpa using ha
        rw [this]
        exact b1
      · intro x hx hq
        rcases List.mem_cons.mp hx with e | e
        · rw [e] at hq; exact absurd hq ha
        · exact b4 x e hq

theorem pieceBlocks_sorted (tor : tr_torrent_t) (p : Int) :
    (pieceBlocks tor p).Pairwise (fun a b => a ≤ b) := by
  unfold pieceBlocks upTo
  rw [List.pairwise_map, List.pairwise_map]
  apply List.Pairwise.imp _ (List.pairwise_lt_range _)
  intro a b hab
  show tr_pieceStartBlock tor p + Int.ofNat a ≤ tr_pieceStartBlock tor p + Int.ofNat b
  have : (a : Int) < b := by exact_mod_cast hab
  simp only [Int.ofNat_eq_coe]
  omega

/-- The block that `chooseBlock` returns for the piece it picked from the pool. -/
theorem firstMissing_found (tor : tr_torrent_t) (p : Int) (h : 0 < specMissing tor p) :
    FirstMissing tor p
      (((pieceBlocks tor p).find? (fun b => decide (arrGet tor.blockHave b = 0))).getD 0) := by
  have hex : ∃ x ∈ pieceBlocks tor p, decide (arrGet tor.blockHave x = 0) = true := by
    unfold specMissing at h
    have hpos : 0 < ((pieceBlocks tor p).filter
        (fun b => decide (arrGet tor.blockHave b = 0))).length := by omega
    obtain ⟨x, hx⟩ := List.exists_mem_of_length_pos hpos
    rw [List.mem_filter] at hx
    exact ⟨x, hx.1, hx.2⟩
  obtain ⟨b, b1, b2, b3, b4⟩ := find?_first (pieceBlocks tor p) _ (pieceBlocks_sorted tor p) hex
  rw [b1]
  simp only [Option.getD_some]
  refine ⟨b2, of_decide_eq_true b3, ?_⟩
  intro c hc hz
  exact b4 c hc (decide_eq_true hz)

theorem wanted_iff (tor : tr_torrent_t) (bf : List Nat) (p : Int) :
    Wanted tor bf p ↔ (Candidate tor bf p ∧ 0 < specMissing tor p) := by
  unfold Wanted Candidate
  rw [(missingBlocks_spec tor p).1]
  tauto

theorem chooseBlock_normal (rand : Int → Int) (tor : tr_torrent_t) (i : Nat) (bf : List Nat)
    (hbf : (getPeer tor i).bitfield = some bf)
    (hne : ((upTo tor.info.pieceCount).foldl (poolStep tor bf) (tor.blockCount + 1, [])).2 ≠ []) :
    chooseBlock rand tor i =
      ((pieceBlocks tor
        (arrGet ((upTo tor.info.pieceCount).foldl (poolStep tor bf) (tor.blockCount + 1, [])).2
          (rand ((upTo tor.info.pieceCount).foldl (poolStep tor bf)
            (tor.blockCount + 1, [])).2.length))).find?
        (fun b => decide (arrGet tor.blockHave b = 0))).getD 0 := by
  unfold chooseBlock
  simp only [hbf, Option.getD_some]
  rw [if_pos hne]

/-- C28: normal mode of `chooseBlock` for a peer with the bitfield `bf`, in a
torrent with a block size above 0 and a piece size of at least 0.  When some
candidate piece (advertised by the peer, not verified by us) has a block at
0, then for every random source with values in range `chooseBlock` returns the
lowest block at 0 of a candidate piece whose number of blocks at 0 is the
least positive one among the candidates; and every such piece is the one
picked for some random source. -/
theorem C28_normal_mode_picks_least_missing (tor : tr_torrent_t) (i : Nat) (bf : List Nat)
    (hbf : (getPeer tor i).bitfield = some bf)
    (hP : 0 ≤ tor.info.pieceSize) (hB : 0 < tor.blockSize)
    (hex : ∃ p ∈ upTo tor.info.pieceCount, Candidate tor bf p ∧ 0 < specMissing tor p) :
    (∀ rand, RandInRange rand →
      ∃ p ∈ upTo tor.info.pieceCount, Candidate tor bf p ∧ 0 < specMissing tor p ∧
        (∀ q ∈ upTo tor.info.pieceCount, Candidate tor bf q → 0 < specMissing tor q →
          specMissing tor p ≤ specMissing tor q) ∧
        FirstMissing tor p (chooseBlock rand tor i)) ∧
    (∀ p ∈ upTo tor.info.pieceCount, Candidate tor bf p → 0 < specMissing tor p →
      (∀ q ∈ upTo tor.info.pieceCount, Candidate tor bf q → 0 < specMissing tor q →
        specMissing tor p ≤ specMissing tor q) →
      ∃ rand, RandInRange rand ∧ FirstMissing tor p (chooseBlock rand tor i)) := by
  have hexw : ∃ p ∈ upTo tor.info.pieceCount, Wanted tor bf p := by
    obtain ⟨p, hp, hc⟩ := hex
    exact ⟨p, hp, (wanted_iff tor bf p).mpr hc⟩
  obtain ⟨m, hpool, hmin, q0, hq0, hw0, hm0⟩ := chooseBlock_pool tor bf hP hB hexw
  have hmem : ∀ p, p ∈ ((upTo tor.info.pieceCount).foldl (poolStep tor bf)
      (tor.blockCount + 1, [])).2 ↔
      (p ∈ upTo tor.info.pieceCount ∧ Wanted tor bf p ∧ missingBlocks tor p = m) := by
    intro p
    rw [hpool, List.mem_filter]
    simp only [decide_eq_true_eq]
  have hne : ((upTo tor.info.pieceCount).foldl (poolStep tor bf)
      (tor.blockCount + 1, [])).2 ≠ [] := by
    intro e
    have := (hmem q0).mpr ⟨hq0, hw0, hm0⟩
    rw [e] at this
    exact absurd this (List.not_mem_nil q0)
  have hlen : (0 : Int) < (((upTo tor.info.pieceCount).foldl (poolStep tor bf)
      (tor.blockCount + 1, [])).2.length : Int) := by
    have := List.length_pos.mpr hne
    omega
  have hspec : ∀ p, Wanted tor bf p → missingBlocks tor p = specMissing tor p :=
    fun p hw => (missingBlocks_spec tor p).2 hw.2.2
  constructor
  · intro rand hrand
    obtain ⟨r0, r1⟩ := hrand _ hlen
    have hin := arrGet_mem _ _ r0 r1
    obtain ⟨k1, k2, k3⟩ := (hmem _).mp hin
    refine ⟨_, k1, ((wanted_iff tor bf _).mp k2).1, ((wanted_iff tor bf _).mp k2).2, ?_, ?_⟩
    · intro q hq hcq hsq
      have hwq := (wanted_iff tor bf q).mpr ⟨hcq, hsq⟩
      have := hmin q hq hwq
      rw [← hspec _ k2, ← hspec q hwq, k3]
      exact this
    · rw [chooseBlock_normal rand tor i bf hbf hne]
      exact firstMissing_found tor _ ((wanted_iff tor bf _).mp k2).2
  · intro p hp hcp hsp hleast
    have hwp := (wanted_iff tor bf p).mpr ⟨hcp, hsp⟩
    have hpm : missingBlocks tor p = m := by
      have h1 := hmin p hp hwp
      have h2 := hleast q0 hq0 ((wanted_iff tor bf q0).mp hw0).1 ((wanted_iff tor bf q0).mp hw0).2
      rw [← hspec p hwp, ← hspec q0 hw0, hm0] at h2
      omega
    have hin := (hmem p).mpr ⟨hp, hwp, hpm⟩
    obtain ⟨k, hk, hget⟩ := List.getElem_of_mem hin
    refine ⟨fun n => if n = (((upTo tor.info.pieceCount).foldl (poolStep tor bf)
      (tor.blockCount + 1, [])).2.length : Int) then (k : Int) else 0, ?_, ?_⟩
    · intro n hn
      by_cases e : n = (((upTo tor.info.pieceCount).foldl (poolStep tor bf)
          (tor.blockCount + 1, [])).2.length : Int)
      · simp only [if_pos e]
        omega
      · simp only [if_neg e]
        omega
    · rw [chooseBlock_normal _ tor i bf hbf hne]
      simp only [if_true]
      have hg : arrGet ((upTo tor.info.pieceCount).foldl (poolStep tor bf)
          (tor.blockCount + 1, [])).2 (k : Int) = p := by
        unfold arrGet
        rw [if_pos (by omega)]
        simp only [Int.toNat_ofNat, List.getD_eq_getElem?_getD, List.getElem?_eq_getElem hk,
          Option.getD_some]
        exact hget
      rw [hg]
      exact firstMissing_found tor p hsp

/-- Witness for C28: the fresh scenario torrent with the scenario peer, which
advertises the three pieces; each of them has one block at 0. -/
theorem C28_witness :
    (getPeer session0 0).bitfield = some [224] ∧ chooseBlock scenarioRand session0 0 = 1 ∧
    ((∀ rand, RandInRange rand →
      ∃ p ∈ upTo session0.info.pieceCount, Candidate session0 [224] p ∧
        0 < specMissing session0 p ∧
        (∀ q ∈ upTo session0.info.pieceCount, Candidate session0 [224] q →
          0 < specMissing session0 q → specMissing session0 p ≤ specMissing session0 q) ∧
        FirstMissing session0 p (chooseBlock rand session0 0)) ∧
    (∀ p ∈ upTo session0.info.pieceCount, Candidate session0 [224] p →
      0 < specMissing session0 p →
      (∀ q ∈ upTo session0.info.pieceCount, Candidate session0 [224] q →
        0 < specMissing session0 q → specMissing session0 p ≤ specMissing session0 q) →
      ∃ rand, RandInRange rand ∧ FirstMissing session0 p (chooseBlock rand session0 0))) :=
  ⟨by decide, by decide,
    C28_normal_mode_picks_least_missing session0 0 [224] (by decide) (by decide) (by decide)
      ⟨0, by decide, by decide, by decide⟩⟩

end Transmission
namespace Transmission

/-! ## The have count and the piece bitfield -/

theorem filter_length_update (l : List Int) (hnd : l.Nodup) (b : Int) (hb : b ∈ l)
    (q q1 : Int → Bool) (h1 : q1 b = true) (h0 : q b = false)
    (hne : ∀ x, x ≠ b → q1 x = q x) :
    (l.filter q1).length = (l.filter q).length + 1 := by
  induction l with
  | nil => exact absurd hb (List.not_mem_nil b)
  | cons a l ih =>
    rw [List.nodup_cons] at hnd
    by_cases e : a = b
    · subst e
      have hl : l.filter q1 = l.filter q := by
        apply List.filter_congr
        intro x hx
        exact hne x (fun hh => hnd.1 (hh ▸ hx))
      simp only [List.filter_cons, h1, h0, if_true, Bool.false_eq_true, if_false,
        List.length_cons, hl]
    · have hbl : b ∈ l := by
        rcases List.mem_cons.mp hb with h | h
        · exact absurd h.symm e
        · exact h
      have := ih hnd.2 hbl
      simp only [List.filter_cons, hne a e]
      split
      · simp only [List.length_cons]; omega
      · exact this

theorem sum_map_update (l : List Int) (hnd : l.Nodup) (a : Int) (ha : a ∈ l)
    (f g : Int → Int) (d : Int) (hg : g a = f a + d) (hne : ∀ x ∈ l, x ≠ a → g x = f x) :
    (l.map g).sum = (l.map f).sum + d := by
  induction l with
  | nil => exact absurd ha (List.not_mem_nil a)
  | cons c l ih =>
    rw [List.nodup_cons] at hnd
    simp only [List.map_cons, List.sum_cons]
    by_cases e : c = a
    · subst e
      have hl : l.map g = l.map f := by
        apply List.map_congr_left
        intro x hx
        exact hne x (List.mem_cons_of_mem _ hx) (fun hh => hnd.1 (hh ▸ hx))
      rw [hl, hg]
      ring
    · have hal : a ∈ l := by
        rcases List.mem_cons.mp ha with h | h
        · exact absurd h.symm e
        · exact h
      rw [ih hnd.2 hal (fun x hx hxa => hne x (List.mem_cons_of_mem _ hx) hxa),
        hne c (List.mem_cons_self c l) e]
      ring

theorem sum_filter_split (l : List Int) (q : Int → Bool) (f : Int → Int) :
    (l.map f).sum = ((l.filter q).map f).sum + ((l.filter (fun x => !q x)).map f).sum := by
  induction l with
  | nil => rfl
  | cons a l ih =>
    simp only [List.map_cons, List.sum_cons, List.filter_cons]
    cases hq : q a
    · simp only [Bool.false_eq_true, if_false, Bool.not_false, if_true, List.map_cons,
        List.sum_cons]
      rw [ih]; ring
    · simp only [if_true, Bool.not_true, Bool.false_eq_true, if_false, List.map_cons,
        List.sum_cons]
      rw [ih]; ring

theorem pieceBlocks_nodup (tor : tr_torrent_t) (p : Int) : (pieceBlocks tor p).Nodup := by
  unfold pieceBlocks
  apply List.Nodup.map
  · intro a b e
    simp only at e
    omega
  · exact upTo_nodup _

theorem heldBlocks_congr (t1 t2 : tr_torrent_t) (p : Int)
    (hpb : pieceBlocks t1 p = pieceBlocks t2 p)
    (h : ∀ b ∈ pieceBlocks t2 p, (arrGet t1.blockHave b < 0 ↔ arrGet t2.blockHave b < 0)) :
    heldBlocks t1 p = heldBlocks t2 p := by
  unfold heldBlocks
  rw [hpb]
  congr 2
  apply List.filter_congr
  intro b hb
  have := h b hb
  by_cases e : arrGet t2.blockHave b < 0
  · simp [e, this.mpr e]
  · have e1 : ¬ arrGet t1.blockHave b < 0 := fun hh => e (this.mp hh)
    simp [e, e1]

/-- The have count and the blocks held after a block was marked. -/
theorem markBlock_inv (tor0 tor : tr_torrent_t) (hl : BlockLayout tor0)
    (hi : HaveInv tor0 tor) (index b : Int) (hidx : index ∈ upTo tor0.info.pieceCount)
    (hb : b ∈ pieceBlocks tor0 index) (hnot : 0 ≤ arrGet tor.blockHave b) :
    HaveInv tor0 (markBlock tor b) ∧ tr_bitfieldHas tor.bitfield index = false := by
  have hpbs : ∀ p, pieceBlocks tor p = pieceBlocks tor0 p :=
    fun p => pieceBlocks_congr tor tor0 hi.info hi.blockSize hi.blockCount p
  have hpbm : ∀ p, pieceBlocks (markBlock tor b) p = pieceBlocks tor0 p :=
    fun p => (pieceBlocks_congr _ tor rfl rfl rfl p).trans (hpbs p)
  obtain ⟨hb0, hbl⟩ := hl.inTable index hidx b hb
  rw [← hi.lenB] at hbl
  have hget : ∀ x, arrGet (markBlock tor b).blockHave x =
      if x = b then -1 else arrGet tor.blockHave x := by
    intro x
    simp only [markBlock]
    rw [arrGet_arrSet]
    by_cases e : x = b
    · rw [if_pos ⟨e.symm, hb0, hbl⟩, if_pos e]
    · rw [if_neg (fun hh => e hh.1.symm), if_neg e]
  have hbit : tr_bitfieldHas tor.bitfield index = false := by
    by_contra hne
    have hs : tr_bitfieldHas tor.bitfield index = true := by simpa using hne
    have := hi.complete index hidx hs b hb
    omega
  refine ⟨⟨hi.info, hi.blockSize, hi.blockCount, ?_, ?_, ?_⟩, hbit⟩
  · simp only [markBlock]
    rw [arrSet_length]
    exact hi.lenB
  · show tor.blockHaveCount + 1 = _
    rw [hi.count]
    symm
    apply sum_map_update _ (upTo_nodup _) index hidx
    · unfold heldBlocks
      rw [hpbm, hpbs]
      have := filter_length_update (pieceBlocks tor0 index) (pieceBlocks_nodup tor0 index) b hb
        (fun x => decide (arrGet tor.blockHave x < 0))
        (fun x => decide (arrGet (markBlock tor b).blockHave x < 0))
        (by simp only [hget, if_true]; decide)
        (by simp only [decide_eq_false_iff_not, not_lt]; exact hnot)
        (by intro x hx; simp only [hget, if_neg hx])
      rw [this]
      push_cast
      ring
    · intro q hq hqi
      apply heldBlocks_congr
      · rw [hpbm, hpbs]
      · intro x hx
        rw [hpbs] at hx
        have hxb : x ≠ b := by
          intro e
          rw [e] at hx
          exact hqi (hl.disjoint q hq index hidx b hx hb)
        rw [hget, if_neg hxb]
  · intro p hp hs x hx
    rw [hget]
    by_cases e : x = b
    · rw [if_pos e]; decide
    · rw [if_neg e]
      exact hi.complete p hp hs x hx

/-- The have count and the blocks held after `tr_ioWrite`, whatever its outcome. -/
theorem tr_ioWrite_inv (sha1 : List Nat → List Nat) (fuel : Nat) (tor0 tm tor1 : tr_torrent_t)
    (hl : BlockLayout tor0) (hi : HaveInv tor0 tm) (index begin length : Int)
    (buf heap : List Nat) (r : Int) (hidx : index ∈ upTo tor0.info.pieceCount)
    (hbit : tr_bitfieldHas tm.bitfield index = false)
    (h : tr_ioWrite sha1 fuel tm index begin length buf heap = some (r, tor1)) :
    HaveInv tor0 tor1 := by
  have hpbs : ∀ p, pieceBlocks tm p = pieceBlocks tor0 p :=
    fun p => pieceBlocks_congr tm tor0 hi.info hi.blockSize hi.blockCount p
  obtain ⟨c, io1, _, hcase⟩ := tr_ioWrite_cases sha1 fuel tm tor1 index begin length buf heap r h
  have same : ∀ t : tr_torrent_t, t.info = tm.info → t.blockSize = tm.blockSize →
      t.blockCount = tm.blockCount → t.blockHave = tm.blockHave →
      t.blockHaveCount = tm.blockHaveCount →
      (∀ p ∈ upTo tor0.info.pieceCount, tr_bitfieldHas t.bitfield p = true →
        ∀ b ∈ pieceBlocks tor0 p, arrGet tm.blockHave b < 0) → HaveInv tor0 t := by
    intro t e1 e2 e3 e4 e5 e6
    refine ⟨e1.trans hi.info, e2.trans hi.blockSize, e3.trans hi.blockCount, ?_, ?_, ?_⟩
    · rw [e4]; exact hi.lenB
    · rw [e5, hi.count]
      apply congrArg
      apply List.map_congr_left
      intro p _
      symm
      apply heldBlocks_congr
      · exact pieceBlocks_congr t tm e1 e2 e3 p
      · intro b _; rw [e4]
    · intro p hp hs b hb
      rw [e4]
      exact e6 p hp hs b hb
  rcases hcase with ⟨_, _, ht⟩ | ⟨_, _, _, ht⟩ | ⟨_, _, hc, _, ht⟩ | ⟨_, _, hc, _, ht⟩
  · subst ht
    exact same _ rfl rfl rfl rfl rfl (fun p hp hs => hi.complete p hp hs)
  · subst ht
    exact same _ rfl rfl rfl rfl rfl (fun p hp hs => hi.complete p hp hs)
  · obtain ⟨f1, f2, f3, f4, _, _, _, f8, f9⟩ := resetBlocks_fields { tm with io := io1 }
      (pieceBlocks tm index)
    have hbh := resetBlocks_blockHave { tm with io := io1 } (pieceBlocks tm index)
    have hall := (pieceComplete_iff tm index).mp hc
    subst ht
    refine ⟨f1.trans hi.info, f2.trans hi.blockSize, f3.trans hi.blockCount,
      f9.trans hi.lenB, ?_, ?_⟩
    · have hz : heldBlocks (resetBlocks { tm with io := io1 } (pieceBlocks tm index))
          index = 0 := by
        unfold heldBlocks
        rw [pieceBlocks_congr _ tm f1 f2 f3 index]
        have : (pieceBlocks tm index).filter (fun b => decide (arrGet
            (resetBlocks { tm with io := io1 } (pieceBlocks tm index)).blockHave b < 0))
            = [] := by
          rw [List.filter_eq_nil_iff]
          intro b hb
          rw [hbh, if_pos hb]
          decide
        rw [this]
        rfl
      have hf : heldBlocks tm index = ((pieceBlocks tm index).length : Int) := by
        unfold heldBlocks
        have : (pieceBlocks tm index).filter (fun b => decide (arrGet tm.blockHave b < 0))
            = pieceBlocks tm index := by
          rw [List.filter_eq_self]
          intro b hb
          exact decide_eq_true (hall b hb)
        rw [this]
      have hsum := sum_map_update (upTo tor0.info.pieceCount) (upTo_nodup _) index hidx
        (heldBlocks tm)
        (heldBlocks (resetBlocks { tm with io := io1 } (pieceBlocks tm index)))
        (-((pieceBlocks tm index).length : Int)) (by rw [hz, hf]; ring)
        (by
          intro q hq hqi
          apply heldBlocks_congr
          · exact pieceBlocks_congr _ tm f1 f2 f3 q
          · intro b hb
            rw [hbh]
            have hnb : b ∉ pieceBlocks tm index := by
              intro hb2
              rw [hpbs] at hb hb2
              exact hqi (hl.disjoint q hq index hidx b hb hb2)
            rw [if_neg hnb])
      rw [f8, hsum]
      show tm.blockHaveCount - ((pieceBlocks tm index).length : Int) = _
      rw [← hi.count]
      ring
    · intro p hp hs b hb
      rw [f4] at hs
      have hs2 : tr_bitfieldHas tm.bitfield p = true := hs
      have hpi : p ≠ index := by
        intro e
        rw [e, hbit] at hs2
        exact Bool.noConfusion hs2
      rw [hbh]
      have hnb : b ∉ pieceBlocks tm index := by
        intro hb2
        rw [hpbs] at hb2
        exact hpi (hl.disjoint p hp index hidx b hb hb2)
      rw [if_neg hnb]
      exact hi.complete p hp hs2 b hb
  · have hall := (pieceComplete_iff tm index).mp hc
    subst ht
    refine same _ rfl rfl rfl rfl rfl ?_
    intro p hp hs b hb
    by_cases e : p = index
    · subst e
      rw [← hpbs] at hb
      exact hall b hb
    · have hs2 : tr_bitfieldHas (tr_bitfieldAdd tm.bitfield index) p = true := hs
      rw [tr_bitfieldHas_add_ne _ _ _ e] at hs2
      exact hi.complete p hp hs2 b hb

/-- Every state of a run of block writes from a fresh torrent satisfies the
invariant. -/
theorem blockRun_inv (sha1 : List Nat → List Nat) (tor0 tor : tr_torrent_t)
    (hl : BlockLayout tor0) (hb0 : ∀ b, 0 ≤ arrGet tor0.blockHave b)
    (hp0 : ∀ p, tr_bitfieldHas tor0.bitfield p = false) (hc0 : tor0.blockHaveCount = 0)
    (hr : BlockRun sha1 tor0 tor) : HaveInv tor0 tor := by
  induction hr with
  | start =>
    refine ⟨rfl, rfl, rfl, rfl, ?_, ?_⟩
    · rw [hc0]
      symm
      apply List.sum_eq_zero
      intro x hx
      rw [List.mem_map] at hx
      obtain ⟨p, _, hp⟩ := hx
      rw [← hp]
      unfold heldBlocks
      have : (pieceBlocks tor0 p).filter (fun b => decide (arrGet tor0.blockHave b < 0)) = [] := by
        rw [List.filter_eq_nil_iff]
        intro b _
        have := hb0 b
        simp only [decide_eq_true_eq, not_lt]
        exact this
      rw [this]
      rfl
    · intro p _ hs
      rw [hp0 p] at hs
      exact Bool.noConfusion hs
  | store tor tor1 index begin length data heap fuel _ hidx hblk hnot hst ih =>
    have hpbs : pieceBlocks tor index = pieceBlocks tor0 index :=
      pieceBlocks_congr tor tor0 ih.info ih.blockSize ih.blockCount index
    rw [hpbs] at hblk
    obtain ⟨hm, hbit⟩ := markBlock_inv tor0 tor hl ih index _ hidx hblk hnot
    unfold storeBlock at hst
    cases hw : tr_ioWrite sha1 fuel (markBlock tor (tr_block tor index begin)) index begin
        length data heap with
    | none => rw [hw] at hst; exact absurd hst (by simp)
    | some w =>
      obtain ⟨r, t⟩ := w
      rw [hw] at hst
      simp only [Option.map_some', Option.some.injEq] at hst
      subst hst
      exact tr_ioWrite_inv sha1 fuel tor0 _ t hl hm index begin length data heap r hidx hbit hw

end Transmission
namespace Transmission

/-- C25 (amended): in every state reached from a fresh torrent (no block
marked have, no bit set, have count 0, blocks of different pieces different)
by taking in blocks the way the `piece` case of `parseMessage` does, whatever
the write and the hash check give, `blockHaveCount` is the number of blocks
marked have: the total number of blocks of the pieces whose bit is set plus
the number of blocks marked have in the pieces whose bit is not set; every
block of a piece whose bit is set is marked have. -/
theorem C25_have_count_counts_blocks_held (sha1 : List Nat → List Nat)
    (tor0 tor : tr_torrent_t) (hl : BlockLayout tor0)
    (hb0 : ∀ b, 0 ≤ arrGet tor0.blockHave b)
    (hp0 : ∀ p, tr_bitfieldHas tor0.bitfield p = false) (hc0 : tor0.blockHaveCount = 0)
    (hr : BlockRun sha1 tor0 tor) :
    tor.blockHaveCount = verifiedBlocks tor + partialBlocks tor ∧
    (∀ p ∈ upTo tor.info.pieceCount, tr_bitfieldHas tor.bitfield p = true →
      heldBlocks tor p = tr_pieceCountBlocks tor p) := by
  have hi := blockRun_inv sha1 tor0 tor hl hb0 hp0 hc0 hr
  have hpbs : ∀ p, pieceBlocks tor p = pieceBlocks tor0 p :=
    fun p => pieceBlocks_congr tor tor0 hi.info hi.blockSize hi.blockCount p
  have hfull : ∀ p ∈ upTo tor.info.pieceCount, tr_bitfieldHas tor.bitfield p = true →
      heldBlocks tor p = tr_pieceCountBlocks tor p := by
    intro p hp hs
    rw [hi.info] at hp
    have hall := hi.complete p hp hs
    have hne := hl.nonempty p hp
    unfold heldBlocks
    have : (pieceBlocks tor p).filter (fun b => decide (arrGet tor.blockHave b < 0))
        = pieceBlocks tor p := by
      rw [List.filter_eq_self]
      intro b hb
      rw [hpbs] at hb
      exact decide_eq_true (hall b hb)
    rw [this]
    have hlen : (pieceBlocks tor p).length = (tr_pieceCountBlocks tor p).toNat := by
      unfold pieceBlocks
      rw [List.length_map, upTo_length]
    have hpos : 0 < (pieceBlocks tor p).length := by
      rw [hpbs]
      exact List.length_pos.mpr hne
    rw [hlen] at hpos ⊢
    have : 0 ≤ tr_pieceCountBlocks tor p := by
      by_contra hneg
      rw [Int.toNat_eq_zero.mpr (by omega)] at hpos
      omega
    exact Int.toNat_of_nonneg this
  refine ⟨?_, hfull⟩
  rw [hi.count, ← hi.info,
    sum_filter_split (upTo tor.info.pieceCount) (fun p => tr_bitfieldHas tor.bitfield p)
      (heldBlocks tor)]
  unfold verifiedBlocks partialBlocks
  congr 1
  apply congrArg
  apply List.map_congr_left
  intro p hp
  rw [List.mem_filter] at hp
  exact hfull p hp.1 hp.2

theorem scenarioTor20_blockRun : BlockRun padHash scenarioTor scenarioTor20 :=
  BlockRun.store scenarioTor2 scenarioTor20 0 0 8 scenarioData0 scenarioHeap 4
    (BlockRun.store scenarioTor scenarioTor2 2 0 4 scenarioData2 scenarioHeap 4
      BlockRun.start (by decide!) (by decide!) (by decide!) (by decide!))
    (by decide!) (by decide!) (by decide!) (by decide!)

/-- Witness for C25: the scenario torrent after the blocks of the pieces 2
and 0 were taken in; the have count is 2. -/
theorem C25_witness :
    BlockLayout scenarioTor ∧ (∀ b, 0 ≤ arrGet scenarioTor.blockHave b) ∧
    (∀ p, tr_bitfieldHas scenarioTor.bitfield p = false) ∧ scenarioTor.blockHaveCount = 0 ∧
    BlockRun padHash scenarioTor scenarioTor20 ∧ scenarioTor20.blockHaveCount = 2 ∧
    (scenarioTor20.blockHaveCount = verifiedBlocks scenarioTor20 + partialBlocks scenarioTor20 ∧
    (∀ p ∈ upTo scenarioTor20.info.pieceCount, tr_bitfieldHas scenarioTor20.bitfield p = true →
      heldBlocks scenarioTor20 p = tr_pieceCountBlocks scenarioTor20 p)) := by
  have h1 : ∀ b, 0 ≤ arrGet scenarioTor.blockHave b := by
    intro b
    unfold arrGet
    split
    · show 0 ≤ List.getD [0, 0, 0] b.toNat 0
      rcases hb : b.toNat with _ | _ | _ | n <;> simp
    · exact le_refl 0
  have h2 : ∀ p, tr_bitfieldHas scenarioTor.bitfield p = false := by
    intro p
    unfold tr_bitfieldHas byteGet
    show (if 0 ≤ p / 8 then List.getD [0] (p / 8).toNat 0 else 0).testBit
      (7 - (p % 8).toNat) = false
    split
    · rcases hb : (p / 8).toNat with _ | n <;> simp
    · simp
  exact ⟨scenarioTor_layout, h1, h2, by decide, scenarioTor20_blockRun, by decide!,
    C25_have_count_counts_blocks_held padHash scenarioTor scenarioTor20 scenarioTor_layout h1 h2
      (by decide) scenarioTor20_blockRun⟩

/-- Counterexample to C25 as stated: a torrent of one piece of two blocks,
fresh, takes in its second block: the have count is 1 while no bit is set, so
the blocks of the pieces whose bit is set are none. -/
theorem C25_counterexample_block_of_unfinished_piece_counted :
    BlockRun padHash twoBlockTor twoBlockTor1 ∧
    pieceBlocks twoBlockTor1 0 = [0, 1] ∧ twoBlockTor1.blockHave = [0, -1] ∧
    twoBlockTor1.bitfield = [0] ∧ twoBlockTor1.blockHaveCount = 1 ∧
    verifiedBlocks twoBlockTor1 = 0 ∧
    twoBlockTor1.blockHaveCount ≠ verifiedBlocks twoBlockTor1 := by
  have hs : (storeBlock padHash 4 twoBlockTor 0 16384 1 [7] []).isSome = true := by decide!
  have hrun : BlockRun padHash twoBlockTor twoBlockTor1 := by
    cases ho : storeBlock padHash 4 twoBlockTor 0 16384 1 [7] [] with
    | none => rw [ho] at hs; exact absurd hs (by decide)
    | some t =>
      have e : twoBlockTor1 = t := by
        unfold twoBlockTor1
        rw [ho]
        rfl
      rw [e]
      exact BlockRun.store twoBlockTor t 0 16384 1 [7] [] 4 BlockRun.start (by decide!)
        (by decide!) (by decide!) ho
  exact ⟨hrun, by decide!, by decide!, by decide!, by decide!, by decide!, by decide!⟩

end Transmission
namespace Transmission

/-- The request of `tr_peerSendRequest` when the piece size is `k` block sizes:
the piece is `b·B / P`, the offset `(b·B) mod P`. -/
theorem blockRequest_aligned (tor : tr_torrent_t) (k b : Int) (hB : 0 < tor.blockSize)
    (hP : tor.info.pieceSize = k * tor.blockSize) :
    (blockRequest tor b).index = b * tor.blockSize / tor.info.pieceSize ∧
    (blockRequest tor b).begin = (b * tor.blockSize) % tor.info.pieceSize := by
  have hk : tor.info.pieceSize / tor.blockSize = k := by
    rw [hP]; exact Int.mul_ediv_cancel k (ne_of_gt hB)
  constructor
  · show b / (tor.info.pieceSize / tor.blockSize) = _
    rw [hk, hP, Int.mul_ediv_mul_of_pos_left b k hB]
  · show (b % (tor.info.pieceSize / tor.blockSize)) * tor.blockSize = _
    rw [hk, hP, mul_comm b, mul_comm k, Int.mul_emod_mul_of_pos b k hB, mul_comm]

/-- C31: the loader accepts the metafile `metaOddPiece` (`P = 20000`,
`S = 40000`, `N = 2`); `tr_torrentInit` gives `B = 16384` and `M = 3`.  For block 1
`tr_peerSendRequest` records and sends piece 1, offset 0 (not piece 0, offset
16384), and for the last block piece 2, offset 0, length 7232: a piece outside
the torrent, with `index·P + begin + length = 47232 > S`. -/
theorem C31_request_names_wrong_piece_for_odd_piece_size :
    tr_metainfoParse padHash 100 (some metaOddPiece) = MetaRes.ok oddPieceInfo ∧
    oddPieceSession.blockSize = 16384 ∧ oddPieceSession.blockCount = 3 ∧
    reqGet (getPeer (tr_peerSendRequest oddPieceSession 0 1) 0).inRequests 0 =
      { index := 1, begin := 0, length := 16384 } ∧
    (1 : Int) * 16384 / 20000 = 0 ∧ ((1 : Int) * 16384) % 20000 = 16384 ∧
    reqGet (getPeer (tr_peerSendRequest oddPieceSession 0 2) 0).inRequests 0 =
      { index := 2, begin := 0, length := 7232 } ∧
    (getPeer (tr_peerSendRequest oddPieceSession 0 2) 0).outBuf =
      htonl 13 ++ [6] ++ htonl 2 ++ htonl 0 ++ htonl 7232 ∧
    ¬ ((2 : Int) < oddPieceSession.info.pieceCount) ∧
    ¬ ((2 : Int) * oddPieceSession.info.pieceSize + 0 + 7232 ≤
      oddPieceSession.info.totalSize) := by
  refine ⟨by decide!, by decide, by decide, by decide, by decide, by decide, by decide,
    by decide, by decide, by decide⟩

end Transmission
namespace Transmission

/-- C32: the scan of a file of 20 zero bytes (no slot matches a piece) leaves
`slotsUsed = 3` with all three slots free and no piece placed, a state that
satisfies I1 and I2.  For the first write of piece 1, `findSlotForPiece` puts
the piece into the free slot 0, and the reorderer then calls
`invertSlots( io, 0, 1 )` although `slotPiece[1]` is `-1`: `piece2` is `-1`
and `io->pieceSlot[piece2] = slot1` writes at index `-1`. -/
theorem C32_invertSlots_called_on_free_slot :
    zeroScanned.io.slotsUsed = 3 ∧ zeroScanned.io.slotPiece = [-1, -1, -1] ∧
    zeroScanned.io.pieceSlot = [-1, -1, -1] ∧
    (∀ p ∈ upTo scenarioInfo.pieceCount, 0 ≤ arrGet zeroScanned.io.pieceSlot p →
      arrGet zeroScanned.io.slotPiece (arrGet zeroScanned.io.pieceSlot p) = p) ∧
    zeroScanned.io.slotsUsed ≤ scenarioInfo.pieceCount ∧
    (∀ s ∈ upTo scenarioInfo.pieceCount, zeroScanned.io.slotsUsed ≤ s →
      arrGet zeroScanned.io.slotPiece s = -1) ∧
    findEmptySlot zeroScanned.io = some 0 ∧
    (placePiece zeroScanned.io 1).slotPiece = [1, -1, -1] ∧
    (placePiece zeroScanned.io 1).pieceSlot = [-1, 0, -1] ∧
    reorderStepCall (placePiece zeroScanned.io 1) 0 = none ∧
    reorderStepCall (placePiece zeroScanned.io 1) 1 = some (0, 1, 1, -1) ∧
    (reorderPassCalls scenarioInfo (placePiece zeroScanned.io 1)).head? =
      some (0, 1, 1, -1) := by
  decide

end Transmission
namespace Transmission

set_option maxRecDepth 100000 in
/-- C33: the peer of the session `sessionChoked` has choked us, which emptied
its inbound ring (`inRequestCount = 0`) but left the entry of the first
request, for piece 1, in `inRequests[0]`.  The piece frame for that request is
taken in by `parseMessage`: block 1 is marked have, the have count goes from 0
to 1, the bytes are written to the file, and `inRequestCount` is `-1`. -/
theorem C33_piece_after_choke_pops_empty_ring :
    (getPeer sessionChoked 0).inRequestCount = 0 ∧
    reqGet (getPeer sessionChoked 0).inRequests 0 = { index := 1, begin := 0, length := 8 } ∧
    arrGet sessionChoked.blockHave 1 = 3 ∧ sessionChoked.blockHaveCount = 0 ∧
    sessionChoked.io.fds = [[]] ∧
    peerReceive padHash 4 scenarioHeap sessionChoked 0 (pieceFrame 1 0 scenarioData1) =
      some sessionChokedPiece ∧
    sessionChokedPiece.peers.length = 1 ∧
    (getPeer sessionChokedPiece 0).inRequestCount = -1 ∧
    arrGet sessionChokedPiece.blockHave 1 = -1 ∧ sessionChokedPiece.blockHaveCount = 1 ∧
    sessionChokedPiece.io.fds = [scenarioData1] := by
  refine ⟨by decide, by decide, by decide, by decide, by decide, ?_, ?_, ?_, ?_, ?_, ?_⟩ <;>
    decide!

/-- C34: the session `scenarioTor01` holds the blocks 0 and 1 of the three
blocks of the torrent, with a have count of 2.  When it is stopped and started
again, `fastResumeLoad` accepts the resume file written at the stop and
counts the two blocks once more: the have count is 4, while two blocks have
`blockHave < 0` and the torrent has three blocks. -/
theorem C34_resume_load_on_restart_counts_blocks_twice :
    scenarioTor01.blockHaveCount = 2 ∧ haveBlocks scenarioTor01 = 2 ∧
    (fastResumeLoad scenarioTor01 scenarioResume scenarioStats).1 = 0 ∧
    scenarioRestarted.blockHave = [-1, -1, 0] ∧ haveBlocks scenarioRestarted = 2 ∧
    scenarioRestarted.blockHaveCount = 4 ∧ scenarioRestarted.blockCount = 3 := by
  decide

/-- C35: the scenario torrent has three pieces, and the bitfield of the peer is
the byte 224 (pieces 0, 1, 2).  A `have` frame for piece 5 is accepted by
`parseMessage` and sets bit 5 of the bitfield, a spare bit; the bitfield frame
with the same byte 228 is refused and the peer dropped. -/
theorem C35_have_frame_sets_bit_beyond_piece_count :
    session0.info.pieceCount = 3 ∧ (getPeer session0 0).bitfield = some [224] ∧
    peerReceive padHash 4 scenarioHeap session0 0 (haveFrame 5) = some sessionHave5 ∧
    sessionHave5.peers.length = 1 ∧
    (getPeer sessionHave5 0).bitfield = some [228] ∧
    tr_bitfieldHas ((getPeer sessionHave5 0).bitfield.getD []) 5 = true ∧
    (peerReceive padHash 4 scenarioHeap session0 0 (htonl 2 ++ [5, 228])).map
      (fun t => t.peers.length) = some 0 := by
  decide

/-- C36: a request frame of length 1 (without payload) followed by an
`interested` or an `uninterested` frame.  Delivered in two reads, the request
is recorded from the memory after the bytes received so far (zero in the
embedding), the same entry whatever follows; delivered in one read, the entry
is made of the bytes of the frame that follows, `(1, 0x02000000, 0)` or
`(1, 0x03000000, 0)`.  Verdict, flags and unconsumed bytes agree, the
outbound ring does not. -/
theorem C36_short_request_depends_on_read_boundary :
    (splitReads bareRequest (htonl 1 ++ [2])).map outHead =
      some (1, { index := 0, begin := 0, length := 0 }, 1, []) ∧
    (singleRead bareRequest (htonl 1 ++ [2])).map outHead =
      some (1, { index := 1, begin := 33554432, length := 0 }, 1, []) ∧
    (splitReads bareRequest (htonl 1 ++ [3])).map outHead =
      some (1, { index := 0, begin := 0, length := 0 }, 0, []) ∧
    (singleRead bareRequest (htonl 1 ++ [3])).map outHead =
      some (1, { index := 1, begin := 50331648, length := 0 }, 0, []) := by
  refine ⟨?_, ?_, ?_, ?_⟩ <;> decide!

end Transmission
namespace Transmission

/-- The example run with a request of the peer pending is reached from its
start. -/
theorem runServing_reach : SessionReach padHash runStart runServing := by
  have h1 : SessionReach padHash runStart runUnchoked :=
    SessionReach.check runConnected 0 false true runConnected_reach (by decide)
  exact SessionReach.receive runUnchoked runServing 0
    (htonl 13 ++ [6] ++ htonl 0 ++ htonl 0 ++ htonl 8) scenarioHeap 4 h1
    (by decide) (by decide) (by decide)

/-- C37: in every state that a session reaches from a start without peers, every
peer has a non-negative outbound request count, and a peer whose outbound ring
is not empty is not choked by us (`amChoking = 0`); so the condition under
which `tr_peerPulse` calls `tr_peerSendPiece` holds only for peers we do not
choke.  `tr_peerSendChoke( peer, 1 )` empties the ring, and a request frame
that arrives while we choke the peer leaves it empty. -/
theorem C37_nonempty_outbound_ring_means_unchoked (sha1 : List Nat → List Nat)
    (tor0 tor : tr_torrent_t) (h0 : tor0.peers = []) (hr : SessionReach sha1 tor0 tor) :
    (∀ peer ∈ tor.peers, 0 ≤ peer.outRequestCount ∧
      (peer.outRequestCount ≠ 0 → peer.amChoking = 0)) ∧
    (∀ i, i < tor.peers.length → 0 < (getPeer tor i).outRequestCount →
      (getPeer tor i).amChoking = 0) ∧
    (∀ peer : tr_peer_t, (tr_peerSendChoke peer 1).outRequestCount = 0 ∧
      (tr_peerSendChoke peer 1).amChoking = 1) ∧
    (∀ (peer : tr_peer_t) (payload : List Nat), peer.amChoking ≠ 0 →
      (parseRequest peer payload).outRequestCount = 0) := by
  have hall : AllPeers PeerRings tor :=
    sessionReach_rings sha1 tor0 tor (by intro p hp; rw [h0] at hp; cases hp) hr
  refine ⟨?_, ?_, ?_, ?_⟩
  · intro peer hmem
    obtain ⟨_, h2, _, h4, _⟩ := hall peer hmem
    refine ⟨h2, ?_⟩
    intro hne
    by_contra hc
    exact hne (h4 hc)
  · intro i _ hpos
    obtain ⟨_, _, _, h4, _⟩ := getPeer_rings tor i hall
    by_contra hc
    have := h4 hc
    omega
  · intro peer
    exact ⟨by simp [tr_peerSendChoke], rfl⟩
  · intro peer payload hc
    unfold parseRequest
    rw [if_pos hc]
    simp [tr_peerSendChoke]

/-- Witness for C37: the example run in which the peer, unchoked by
`checkPeer`, has one request pending. -/
theorem C37_witness :
    runStart.peers = [] ∧ SessionReach padHash runStart runServing ∧
    runServing.peers.length = 1 ∧ (getPeer runServing 0).outRequestCount = 1 ∧
    (getPeer runServing 0).amChoking = 0 ∧
    (∀ peer ∈ runServing.peers, 0 ≤ peer.outRequestCount ∧
      (peer.outRequestCount ≠ 0 → peer.amChoking = 0)) :=
  have h := C37_nonempty_outbound_ring_means_unchoked padHash runStart runServing rfl
    runServing_reach
  ⟨rfl, runServing_reach, by decide, by decide, by decide, h.1⟩

end Transmission
namespace Transmission

/-- C39: the metafile `metaPercent` has the announce URL `http://t.io/a%%b`;
`tr_metainfoParse` succeeds with host `t.io`, port 80 and the announce path
`/a%b`, not `/a%%b`: the path is the format of the `snprintf` that stores it.
For the URL `http://t.io/a?k=%2fb` of `metaEscape` the format has the
conversion `%2f`, for which no argument was passed: no defined result. -/
theorem C39_announce_path_used_as_format :
    tr_metainfoParse padHash 100 (some metaPercent) = MetaRes.ok
      { hash := padHash ((metaPercent.drop 36).take 71),
        pieceSize := 8, pieceCount := 1, totalSize := 5,
        pieces := [65, 66, 67, 68, 69, 70, 71, 72, 73, 74, 75, 76, 77, 78, 79, 80, 81, 82,
          83, 84],
        files := [5], name := [120], trackerAddress := [116, 46, 105, 111],
        trackerPort := 80, trackerAnnounce := [47, 97, 37, 98], fileNames := [[120]] } ∧
    parseAnnounce [104, 116, 116, 112, 58, 47, 47, 116, 46, 105, 111, 47, 97, 37, 37, 98] =
      some ([116, 46, 105, 111], 80, [47, 97, 37, 37, 98]) ∧
    snprintfNoArgs MAX_PATH_LENGTH [47, 97, 37, 37, 98] = some [47, 97, 37, 98] ∧
    tr_metainfoParse padHash 100 (some metaEscape) = MetaRes.undefined := by
  refine ⟨by decide!, by decide!, by decide!, by decide!⟩

end Transmission
namespace Transmission

set_option maxRecDepth 100000 in
/-- Bit patterns of a byte. -/
theorem byte_patterns : ∀ c, c < 256 →
    ((c &&& 128 = 0) ↔ c < 128) ∧ (c &&& 224 = 192 → 128 ≤ c) ∧
    (c &&& 240 = 224 → 128 ≤ c) ∧ (c &&& 248 = 240 → 128 ≤ c) ∧
    (c &&& 224 = 192 → c &&& 240 ≠ 224 ∧ c &&& 248 ≠ 240) ∧
    (c &&& 240 = 224 → c &&& 248 ≠ 240) ∧
    (c &&& 255 = c) ∧
    (128 ≤ c → (192 ||| (c >>> 6)) &&& 224 = 192 ∧ (128 ||| (c &&& 63)) &&& 192 = 128) := by
  decide!

end Transmission

namespace Transmission

/-- The loop of `strcatUTF8` transcodes its input as the specification says. -/
theorem utf8Loop_transcodes : ∀ (fuel : Nat) (s : List Nat), s.length ≤ fuel →
    (∀ c ∈ s, c < 256) → Transcodes s (utf8Loop fuel s) := by
  intro fuel
  induction fuel with
  | zero =>
    intro s hl _
    have : s = [] := List.length_eq_zero.mp (Nat.le_zero.mp hl)
    subst this
    exact Transcodes.nil
  | succ f ih =>
    intro s hl hb
    cases s with
    | nil => exact Transcodes.nil
    | cons c rest =>
      have hc : c < 256 := hb c (List.mem_cons_self _ _)
      have hrest : ∀ x ∈ rest, x < 256 := fun x hx => hb x (List.mem_cons_of_mem _ hx)
      have hlen : rest.length ≤ f := by simpa using hl
      obtain ⟨b1, _, _, _, _, _, b7, b8⟩ := byte_patterns c hc
      rw [utf8Loop]
      by_cases h1 : c &&& 128 = 0
      · rw [if_pos h1]
        exact Transcodes.ascii c rest _ (b1.mp h1) (ih rest hlen hrest)
      · rw [if_neg h1]
        by_cases h2 : c &&& 224 = 192 ∧ rest.getD 0 0 &&& 192 = 128
        · rw [if_pos h2]
          cases rest with
          | nil => exact absurd (show (0 : Nat) &&& 192 = 128 from h2.2) (by decide)
          | cons c1 r =>
            exact Transcodes.two c c1 r _ h2.1 h2.2
              (ih r (by simp at hlen; omega) (fun x hx => hrest x (List.mem_cons_of_mem _ hx)))
        · rw [if_neg h2]
          by_cases h3 : c &&& 240 = 224 ∧ rest.getD 0 0 &&& 192 = 128 ∧
              rest.getD 1 0 &&& 192 = 128
          · rw [if_pos h3]
            cases rest with
            | nil => exact absurd (show (0 : Nat) &&& 192 = 128 from h3.2.1) (by decide)
            | cons c1 r =>
              cases r with
              | nil => exact absurd (show (0 : Nat) &&& 192 = 128 from h3.2.2) (by decide)
              | cons c2 r2 =>
                exact Transcodes.three c c1 c2 r2 _ h3.1 h3.2.1 h3.2.2
                  (ih r2 (by simp at hlen; omega)
                    (fun x hx => hrest x (List.mem_cons_of_mem _ (List.mem_cons_of_mem _ hx))))
          · rw [if_neg h3]
            by_cases h4 : c &&& 248 = 240 ∧ rest.getD 0 0 &&& 192 = 128 ∧
                rest.getD 1 0 &&& 192 = 128 ∧ rest.getD 2 0 &&& 192 = 128
            · rw [if_pos h4]
              cases rest with
              | nil => exact absurd (show (0 : Nat) &&& 192 = 128 from h4.2.1) (by decide)
              | cons c1 r =>
                cases r with
                | nil => exact absurd (show (0 : Nat) &&& 192 = 128 from h4.2.2.1) (by decide)
                | cons c2 r2 =>
                  cases r2 with
                  | nil => exact absurd (show (0 : Nat) &&& 192 = 128 from h4.2.2.2) (by decide)
                  | cons c3 r3 =>
                    exact Transcodes.four c c1 c2 c3 r3 _ h4.1 h4.2.1 h4.2.2.1 h4.2.2.2
                      (ih r3 (by simp at hlen; omega)
                        (fun x hx => hrest x (List.mem_cons_of_mem _
                          (List.mem_cons_of_mem _ (List.mem_cons_of_mem _ hx)))))
            · rw [if_neg h4, b7]
              have h128 : 128 ≤ c := by
                by_contra hlt
                exact h1 (b1.mpr (by omega))
              refine Transcodes.latin c rest _ h128 ?_ (ih rest hlen hrest)
              intro hs
              rcases hs with ⟨x, x1, r, e, a1, a2⟩ | ⟨x, x1, x2, r, e, a1, a2, a3⟩ |
                ⟨x, x1, x2, x3, r, e, a1, a2, a3, a4⟩
              · injection e with e1 e2
                subst e1; subst e2
                exact h2 ⟨a1, a2⟩
              · injection e with e1 e2
                subst e1; subst e2
                exact h3 ⟨a1, a2, a3⟩
              · injection e with e1 e2
                subst e1; subst e2
                exact h4 ⟨a1, a2, a3, a4⟩

/-- What the specification describes is structurally valid UTF-8. -/
theorem transcodes_valid (s out : List Nat) (h : Transcodes s out) :
    (∀ c ∈ s, c < 256) → Utf8Valid out := by
  induction h with
  | nil => intro _; exact Utf8Valid.nil
  | ascii c rest out hc _ ih =>
    intro hb
    exact Utf8Valid.ascii c out hc (ih (fun x hx => hb x (List.mem_cons_of_mem _ hx)))
  | two c c1 rest out h1 h2 _ ih =>
    intro hb
    exact Utf8Valid.two c c1 out h1 h2
      (ih (fun x hx => hb x (List.mem_cons_of_mem _ (List.mem_cons_of_mem _ hx))))
  | three c c1 c2 rest out h1 h2 h3 _ ih =>
    intro hb
    exact Utf8Valid.three c c1 c2 out h1 h2 h3
      (ih (fun x hx => hb x (List.mem_cons_of_mem _ (List.mem_cons_of_mem _
        (List.mem_cons_of_mem _ hx)))))
  | four c c1 c2 c3 rest out h1 h2 h3 h4 _ ih =>
    intro hb
    exact Utf8Valid.four c c1 c2 c3 out h1 h2 h3 h4
      (ih (fun x hx => hb x (List.mem_cons_of_mem _ (List.mem_cons_of_mem _
        (List.mem_cons_of_mem _ (List.mem_cons_of_mem _ hx))))))
  | latin b rest out h128 _ _ ih =>
    intro hb
    obtain ⟨_, _, _, _, _, _, _, b8⟩ := byte_patterns b (hb b (List.mem_cons_self _ _))
    exact Utf8Valid.two _ _ out (b8 h128).1 (b8 h128).2
      (ih (fun x hx => hb x (List.mem_cons_of_mem _ hx)))

/-- The description determines the bytes written: they are those of the loop. -/
theorem transcodes_unique (s out : List Nat) (h : Transcodes s out) :
    ∀ fuel, s.length ≤ fuel → (∀ c ∈ s, c < 256) → utf8Loop fuel s = out := by
  induction h with
  | nil =>
    intro fuel _ _
    cases fuel <;> rfl
  | ascii c rest out hc _ ih =>
    intro fuel hl hb
    cases fuel with
    | zero => simp at hl
    | succ f =>
      obtain ⟨b1, _⟩ := byte_patterns c (hb c (List.mem_cons_self _ _))
      rw [utf8Loop]
      rw [if_pos (b1.mpr hc), ih f (by simpa using hl)
        (fun x hx => hb x (List.mem_cons_of_mem _ hx))]
  | two c c1 rest out h1 h2 _ ih =>
    intro fuel hl hb
    cases fuel with
    | zero => simp at hl
    | succ f =>
      obtain ⟨b1, b2, _⟩ := byte_patterns c (hb c (List.mem_cons_self _ _))
      have n1 : ¬ c &&& 128 = 0 := fun e => by have := b1.mp e; have := b2 h1; omega
      rw [utf8Loop]
      rw [if_neg n1, if_pos (show c &&& 224 = 192 ∧ (c1 :: rest).getD 0 0 &&& 192 = 128 from
        ⟨h1, h2⟩)]
      show c :: c1 :: utf8Loop f rest = _
      rw [ih f (by simp at hl; omega)
        (fun x hx => hb x (List.mem_cons_of_mem _ (List.mem_cons_of_mem _ hx)))]
  | three c c1 c2 rest out h1 h2 h3 _ ih =>
    intro fuel hl hb
    cases fuel with
    | zero => simp at hl
    | succ f =>
      obtain ⟨b1, _, b3, _, b5, _⟩ := byte_patterns c (hb c (List.mem_cons_self _ _))
      have n1 : ¬ c &&& 128 = 0 := fun e => by have := b1.mp e; have := b3 h1; omega
      have n2 : ¬ (c &&& 224 = 192 ∧ (c1 :: c2 :: rest).getD 0 0 &&& 192 = 128) :=
        fun e => (b5 e.1).1 h1
      rw [utf8Loop]
      rw [if_neg n1, if_neg n2,
        if_pos (show c &&& 240 = 224 ∧ (c1 :: c2 :: rest).getD 0 0 &&& 192 = 128 ∧
          (c1 :: c2 :: rest).getD 1 0 &&& 192 = 128 from ⟨h1, h2, h3⟩)]
      show c :: c1 :: c2 :: utf8Loop f rest = _
      rw [ih f (by simp at hl; omega)
        (fun x hx => hb x (List.mem_cons_of_mem _ (List.mem_cons_of_mem _
          (List.mem_cons_of_mem _ hx))))]
  | four c c1 c2 c3 rest out h1 h2 h3 h4 _ ih =>
    intro fuel hl hb
    cases fuel with
    | zero => simp at hl
    | succ f =>
      obtain ⟨b1, _, _, b4, b5, b6, _⟩ := byte_patterns c (hb c (List.mem_cons_self _ _))
      have n1 : ¬ c &&& 128 = 0 := fun e => by have := b1.mp e; have := b4 h1; omega
      have n2 : ¬ (c &&& 224 = 192 ∧ (c1 :: c2 :: c3 :: rest).getD 0 0 &&& 192 = 128) :=
        fun e => (b5 e.1).2 h1
      have n3 : ¬ (c &&& 240 = 224 ∧ (c1 :: c2 :: c3 :: rest).getD 0 0 &&& 192 = 128 ∧
          (c1 :: c2 :: c3 :: rest).getD 1 0 &&& 192 = 128) := fun e => b6 e.1 h1
      rw [utf8Loop]
      rw [if_neg n1, if_neg n2, if_neg n3,
        if_pos (show c &&& 248 = 240 ∧ (c1 :: c2 :: c3 :: rest).getD 0 0 &&& 192 = 128 ∧
          (c1 :: c2 :: c3 :: rest).getD 1 0 &&& 192 = 128 ∧
          (c1 :: c2 :: c3 :: rest).getD 2 0 &&& 192 = 128 from ⟨h1, h2, h3, h4⟩)]
      show c :: c1 :: c2 :: c3 :: utf8Loop f rest = _
      rw [ih f (by simp at hl; omega)
        (fun x hx => hb x (List.mem_cons_of_mem _ (List.mem_cons_of_mem _
          (List.mem_cons_of_mem _ (List.mem_cons_of_mem _ hx)))))]
  | latin b rest out h128 hns _ ih =>
    intro fuel hl hb
    cases fuel with
    | zero => simp at hl
    | succ f =>
      obtain ⟨b1, _, _, _, _, _, b7, _⟩ := byte_patterns b (hb b (List.mem_cons_self _ _))
      have n1 : ¬ b &&& 128 = 0 := fun e => by have := b1.mp e; omega
      have n2 : ¬ (b &&& 224 = 192 ∧ rest.getD 0 0 &&& 192 = 128) := by
        intro e
        cases rest with
        | nil => exact absurd (show (0 : Nat) &&& 192 = 128 from e.2) (by decide)
        | cons c1 r => exact hns (Or.inl ⟨b, c1, r, rfl, e.1, e.2⟩)
      have n3 : ¬ (b &&& 240 = 224 ∧ rest.getD 0 0 &&& 192 = 128 ∧
          rest.getD 1 0 &&& 192 = 128) := by
        intro e
        cases rest with
        | nil => exact absurd (show (0 : Nat) &&& 192 = 128 from e.2.1) (by decide)
        | cons c1 r =>
          cases r with
          | nil => exact absurd (show (0 : Nat) &&& 192 = 128 from e.2.2) (by decide)
          | cons c2 r2 => exact hns (Or.inr (Or.inl ⟨b, c1, c2, r2, rfl, e.1, e.2.1, e.2.2⟩))
      have n4 : ¬ (b &&& 248 = 240 ∧ rest.getD 0 0 &&& 192 = 128 ∧
          rest.getD 1 0 &&& 192 = 128 ∧ rest.getD 2 0 &&& 192 = 128) := by
        intro e
        cases rest with
        | nil => exact absurd (show (0 : Nat) &&& 192 = 128 from e.2.1) (by decide)
        | cons c1 r =>
          cases r with
          | nil => exact absurd (show (0 : Nat) &&& 192 = 128 from e.2.2.1) (by decide)
          | cons c2 r2 =>
            cases r2 with
            | nil => exact absurd (show (0 : Nat) &&& 192 = 128 from e.2.2.2) (by decide)
            | cons c3 r3 =>
              exact hns (Or.inr (Or.inr ⟨b, c1, c2, c3, r3, rfl, e.1, e.2.1, e.2.2.1,
                e.2.2.2⟩))
      rw [utf8Loop]
      rw [if_neg n1, if_neg n2, if_neg n3, if_neg n4, b7,
        ih f (by simpa using hl) (fun x hx => hb x (List.mem_cons_of_mem _ hx))]

/-- Structurally valid UTF-8 is transcoded to itself. -/
theorem valid_transcodes (s : List Nat) (h : Utf8Valid s) : Transcodes s s := by
  induction h with
  | nil => exact Transcodes.nil
  | ascii c rest hc _ ih => exact Transcodes.ascii c rest rest hc ih
  | two c c1 rest h1 h2 _ ih => exact Transcodes.two c c1 rest rest h1 h2 ih
  | three c c1 c2 rest h1 h2 h3 _ ih => exact Transcodes.three c c1 c2 rest rest h1 h2 h3 ih
  | four c c1 c2 c3 rest h1 h2 h3 h4 _ ih =>
    exact Transcodes.four c c1 c2 c3 rest rest h1 h2 h3 h4 ih

/-- For strings that fit: when the destination array of `size` bytes holds `s`
and the bytes written fit in it with a NUL after them, `strcatUTF8` leaves the
destination followed by bytes `out` that transcode the appended string as the
specification says (ASCII bytes and structurally valid 2-, 3- and 4-byte
sequences copied, every other byte `b >= 0x80` replaced by `0xC0 | (b >> 6)`,
`0x80 | (b & 0x3F)`); the description determines `out`, `out` is structurally
valid UTF-8, and a structurally valid string is appended byte for byte.  When
they do not fit there is no defined result. -/
theorem strcatUTF8_transcodes (size : Nat) (s append : List Nat)
    (hb : ∀ c ∈ append, c < 256) :
    ∃ out, Transcodes (cstr append) out ∧
      (∀ out1, Transcodes (cstr append) out1 → out1 = out) ∧ Utf8Valid out ∧
      (Utf8Valid (cstr append) → out = cstr append) ∧
      ((cstr s).length + out.length < size → strcatUTF8 size s append = some (cstr s ++ out)) ∧
      (size ≤ (cstr s).length + out.length → strcatUTF8 size s append = none) := by
  have hc : ∀ c ∈ cstr append, c < 256 := fun c hm =>
    hb c ((List.takeWhile_prefix _).subset hm)
  have ht := utf8Loop_transcodes (cstr append).length (cstr append) (le_refl _) hc
  refine ⟨utf8Loop (cstr append).length (cstr append), ht, ?_,
    transcodes_valid _ _ ht hc, ?_, ?_, ?_⟩
  · intro out1 h1
    exact (transcodes_unique _ _ h1 _ (le_refl _) hc).symm
  · intro hv
    exact transcodes_unique _ _ (valid_transcodes _ hv) _ (le_refl _) hc
  · intro hfit
    unfold strcatUTF8
    simp only [List.length_append]
    rw [if_pos hfit]
  · intro hover
    unfold strcatUTF8
    simp only [List.length_append]
    rw [if_neg (by omega)]

/-- The bytes `A`, the UTF-8 sequence `C3 A9`, and the Latin-1 byte `E9` appended
to `x`: the sequence is copied and the byte `E9` becomes `C3 A9`. -/
theorem strcatUTF8_example :
    strcatUTF8 MAX_PATH_LENGTH [120, 0] [65, 195, 169, 233, 0] =
      some [120, 65, 195, 169, 195, 169] := by
  decide

/-- A string of ASCII letters `a` is structurally valid UTF-8. -/
theorem utf8Valid_replicate (n : Nat) : Utf8Valid (List.replicate n 97) := by
  induction n with
  | zero => exact Utf8Valid.nil
  | succ k ih => exact Utf8Valid.ascii 97 _ (by decide) ih

set_option maxRecDepth 1000000 in
/-- C40, the code at the failing input: a metafile whose `name` is 1100 ASCII
bytes `a`, a structurally valid UTF-8 string of bytes below 256.  The loop of
`strcatUTF8` copies the 1100 bytes one by one; the destination `inf->name` is
an array of `MAX_PATH_LENGTH = 1024` bytes and the function tests no bound, so
the bytes from the 1025th on are written past the end of the array: the call
has no defined result, and neither has `tr_metainfoParse` for this metafile
(for the same metafile with the name `x` it returns 0). -/
theorem C40_long_name_written_past_array :
    longName.length = 1100 ∧ (∀ c ∈ longName, c < 256) ∧ cstr longName = longName ∧
    Utf8Valid (cstr longName) ∧
    utf8Loop (cstr longName).length (cstr longName) = longName ∧
    MAX_PATH_LENGTH = 1024 ∧
    strcatUTF8 MAX_PATH_LENGTH [] longName = none ∧
    tr_metainfoParse padHash 100 (some metaLongName) = MetaRes.undefined ∧
    (match tr_metainfoParse padHash 100 (some metaGood) with
      | MetaRes.ok inf => decide (inf.name = [120])
      | _ => false) = true := by
  have e : cstr longName = longName := by decide!
  refine ⟨by decide!, by decide!, e, ?_, by decide!, rfl, by decide!, by decide!, by decide!⟩
  rw [e]
  exact utf8Valid_replicate 1100

end Transmission
namespace Transmission

/-! ## Loading a canonical encoding -/

theorem drop_get? (buf : List Nat) (p c : Nat) (r : List Nat) (h : buf.drop p = c :: r) :
    buf.get? p = some c := by
  have := List.head?_drop buf p
  rw [h] at this
  simp only [List.head?_cons] at this
  rw [List.get?_eq_getElem?]
  exact this.symm

theorem drop_append_right (buf : List Nat) (p : Nat) (a b : List Nat)
    (h : buf.drop p = a ++ b) : buf.drop (p + a.length) = b := by
  rw [← List.drop_drop, h, List.drop_left]

theorem drop_cons_right (buf : List Nat) (p c : Nat) (r : List Nat) (h : buf.drop p = c :: r) :
    buf.drop (p + 1) = r :=
  drop_append_right buf p [c] r h

theorem drop_length_le (buf : List Nat) (p : Nat) (a : List Nat) (e : Nat) (rest : List Nat)
    (h : buf.drop p = a ++ e :: rest) : p + a.length + 1 ≤ buf.length := by
  have := congrArg List.length h
  rw [List.length_drop, List.length_append, List.length_cons] at this
  omega

/-- Every byte of a decimal numeral is a digit. -/
theorem digitsRev_isDigit : ∀ (fuel n : Nat), ∀ d ∈ digitsRev fuel n, isDigit d = true := by
  intro fuel
  induction fuel with
  | zero => intro n d hd; simp [digitsRev] at hd
  | succ f ih =>
    intro n d hd
    rw [digitsRev] at hd
    split at hd
    · simp only [List.mem_singleton] at hd
      subst hd
      simp [isDigit]; omega
    · simp only [List.mem_cons] at hd
      rcases hd with hd | hd
      · subst hd
        simp [isDigit]; omega
      · exact ih _ d hd

/-- The value of the digits of `n`. -/
theorem digitsRev_value : ∀ (fuel n : Nat), n < fuel →
    (digitsRev fuel n).foldr (fun d a => a * 10 + (d - 48)) 0 = n := by
  intro fuel
  induction fuel with
  | zero => intro n h; omega
  | succ f ih =>
    intro n h
    rw [digitsRev]
    split
    · simp
    · rw [List.foldr_cons, ih (n / 10) (by omega)]
      omega

theorem digitsRev_ne_nil (fuel n : Nat) : digitsRev (fuel + 1) n ≠ [] := by
  rw [digitsRev]
  split <;> simp

theorem decimal_isDigit (n : Nat) : ∀ d ∈ decimal n, isDigit d = true := by
  intro d hd
  unfold decimal at hd
  exact digitsRev_isDigit _ _ d (List.mem_reverse.mp hd)

theorem decimal_ne_nil (n : Nat) : decimal n ≠ [] := by
  unfold decimal
  intro h
  exact digitsRev_ne_nil n n (List.reverse_eq_nil_iff.mp h)

theorem decimal_value (n : Nat) :
    (decimal n).foldl (fun a d => a * 10 + (d - 48)) 0 = n := by
  unfold decimal
  rw [List.foldl_reverse]
  exact digitsRev_value (n + 1) n (Nat.lt_succ_self n)

/-- The numeral starts with a digit. -/
theorem decimal_head (n : Nat) : ∃ d r, decimal n = d :: r ∧ isDigit d = true := by
  cases h : decimal n with
  | nil => exact absurd h (decimal_ne_nil n)
  | cons d r => exact ⟨d, r, rfl, decimal_isDigit n d (by rw [h]; exact List.mem_cons_self _ _)⟩

/-- The loop of `strtoll` over digits `ds` that end before a byte that is no digit. -/
theorem readDigits_spec (buf : List Nat) : ∀ (ds : List Nat), (∀ d ∈ ds, isDigit d = true) →
    ∀ (p acc fuel e : Nat) (rest : List Nat), buf.drop p = ds ++ e :: rest →
      isDigit e = false → ds.length < fuel →
      readDigits buf fuel p acc =
        some (ds.foldl (fun a d => a * 10 + (d - 48)) acc, p + ds.length) := by
  intro ds
  induction ds with
  | nil =>
    intro _ p acc fuel e rest h he hf
    cases fuel with
    | zero => simp at hf
    | succ f =>
      rw [readDigits, drop_get? buf p e rest h]
      simp [he]
  | cons d ds ih =>
    intro hd p acc fuel e rest h he hf
    cases fuel with
    | zero => simp at hf
    | succ f =>
      rw [readDigits, drop_get? buf p d (ds ++ e :: rest) h]
      simp only [hd d (List.mem_cons_self _ _), if_true]
      rw [ih (fun x hx => hd x (List.mem_cons_of_mem _ hx)) (p + 1) _ f e rest
        (drop_cons_right buf p d _ h) he (by simp at hf; omega)]
      simp only [List.foldl_cons, List.length_cons]
      congr 2
      omega

theorem skipSpace_none (buf : List Nat) (p c : Nat) (fuel : Nat) (h : buf.get? p = some c)
    (hc : isSpace c = false) : skipSpace buf (fuel + 1) p = some p := by
  rw [skipSpace, h]
  simp [hc]

theorem isDigit_not_space (d : Nat) (h : isDigit d = true) : isSpace d = false := by
  simp [isDigit] at h
  simp [isSpace]
  omega

/-- The function `strtoll` on the numeral of a number `n` below `2^63`. -/
theorem strtoll_decimal (buf : List Nat) (p n e : Nat) (rest : List Nat)
    (h : buf.drop p = decimal n ++ e :: rest) (he : isDigit e = false)
    (hn : n < 9223372036854775808) :
    strtoll 64 buf p = some ((n : Int), p + (decimal n).length) := by
  obtain ⟨d, r, hd, hdig⟩ := decimal_head n
  have hget : buf.get? p = some d := by
    rw [hd] at h
    exact drop_get? buf p d _ h
  have hlen := drop_length_le buf p (decimal n) e rest h
  have hne45 : ¬ (d = 45 ∨ d = 43) := by
    simp [isDigit] at hdig
    omega
  unfold strtoll
  rw [skipSpace_none buf p d _ hget (isDigit_not_space d hdig)]
  simp only [hget, if_neg hne45, hdig, if_true]
  rw [readDigits_spec buf (decimal n) (decimal_isDigit n) p 0 _ e rest h he
    (by omega), decimal_value]
  have h45 : d ≠ 45 := fun e45 => hne45 (Or.inl e45)
  simp only [h45, decide_False, Bool.false_eq_true, if_false]
  congr 1
  simp only [Prod.mk.injEq, and_true]
  have : ((2 : Int) ^ (64 - 1)) = 9223372036854775808 := by norm_num
  rw [this]
  omega

/-- The function `strtoll` on the numeral of an integer in the range of `int64_t`. -/
theorem strtoll_numeral (buf : List Nat) (p : Nat) (i : Int) (e : Nat) (rest : List Nat)
    (h : buf.drop p = numeral i ++ e :: rest) (he : isDigit e = false)
    (hlo : -9223372036854775808 ≤ i) (hhi : i < 9223372036854775808) :
    strtoll 64 buf p = some (i, p + (numeral i).length) := by
  by_cases hneg : i < 0
  · have hnum : numeral i = 45 :: decimal i.natAbs := by simp [numeral, hneg]
    rw [hnum] at h ⊢
    obtain ⟨d, r, hd, hdig⟩ := decimal_head i.natAbs
    have hget : buf.get? p = some 45 := drop_get? buf p 45 _ h
    have h1 := drop_cons_right buf p 45 _ h
    have hget1 : buf.get? (p + 1) = some d := by
      rw [hd] at h1
      exact drop_get? buf (p + 1) d _ h1
    have hlen := drop_length_le buf (p + 1) (decimal i.natAbs) e rest h1
    unfold strtoll
    rw [skipSpace_none buf p 45 _ hget (by decide)]
    simp only [hget, true_or, if_true, hget1, hdig]
    rw [readDigits_spec buf (decimal i.natAbs) (decimal_isDigit _) (p + 1) 0 _ e rest h1 he
      (by omega), decimal_value]
    simp only [decide_True, if_true, List.length_cons]
    congr 1
    simp only [Prod.mk.injEq]
    have : ((2 : Int) ^ (64 - 1)) = 9223372036854775808 := by norm_num
    rw [this]
    constructor
    · omega
    · omega
  · have hnum : numeral i = decimal i.natAbs := by simp [numeral, hneg]
    rw [hnum] at h ⊢
    have := strtoll_decimal buf p i.natAbs e rest h he (by omega)
    rw [this]
    congr 2
    omega

end Transmission
namespace Transmission

theorem numeral_ne_nil (i : Int) : numeral i ≠ [] := by
  unfold numeral
  intro h
  exact decimal_ne_nil _ (List.append_eq_nil.mp h).2

theorem toInt32_small (n : Nat) (h : n < 2147483648) : toInt32 (n : Int) = (n : Int) := by
  unfold toInt32
  have h1 : (n : Int) % 4294967296 = n := by omega
  simp only [h1]
  rw [if_pos (by omega)]

/-- The integer case of `tr_bencLoad`. -/
theorem load_int (buf : List Nat) (pos : Nat) (i : Int) (post : List Nat) (fuel : Nat)
    (h : buf.drop pos = [105] ++ numeral i ++ [101] ++ post)
    (hlo : -9223372036854775808 ≤ i) (hhi : i < 9223372036854775808) :
    tr_bencLoad (fuel + 1) buf pos =
      BencRes.ok (benc_val_t.int i pos (pos + ([105] ++ numeral i ++ [101]).length)) := by
  have h0 : buf.drop pos = 105 :: (numeral i ++ 101 :: post) := by simpa using h
  have h1 := drop_cons_right buf pos 105 _ h0
  have hs := strtoll_numeral buf (pos + 1) i 101 post h1 (by decide) hlo hhi
  have h2 := drop_append_right buf (pos + 1) (numeral i) _ h1
  have hlen : 0 < (numeral i).length := List.length_pos.mpr (numeral_ne_nil i)
  rw [tr_bencLoad, drop_get? buf pos 105 _ h0]
  simp only [if_true, hs]
  rw [if_neg (by omega), drop_get? buf _ 101 post h2]
  simp only [ne_eq, not_true_eq_false, if_false]
  congr 2
  simp only [List.length_append, List.length_cons, List.length_nil]
  omega

/-- The string case of `tr_bencLoad`. -/
theorem load_str (buf : List Nat) (pos : Nat) (s post : List Nat) (fuel : Nat)
    (h : buf.drop pos = decimal s.length ++ [58] ++ s ++ post)
    (hs : s.length < 2147483648) :
    tr_bencLoad (fuel + 1) buf pos =
      BencRes.ok (benc_val_t.str s pos (pos + (decimal s.length ++ [58] ++ s).length)) := by
  have h0 : buf.drop pos = decimal s.length ++ 58 :: (s ++ post) := by simpa using h
  obtain ⟨d, r, hd, hdig⟩ := decimal_head s.length
  have hget : buf.get? pos = some d := by
    rw [hd] at h0
    exact drop_get? buf pos d _ h0
  have hst := strtoll_decimal buf pos s.length 58 (s ++ post) h0 (by decide) (by omega)
  have h2 := drop_append_right buf pos (decimal s.length) _ h0
  have h3 := drop_cons_right buf _ 58 _ h2
  have hlen : 0 < (decimal s.length).length := List.length_pos.mpr (decimal_ne_nil _)
  have hle := drop_length_le buf pos (decimal s.length) 58 (s ++ post) h0
  have hl3 := congrArg List.length h3
  rw [List.length_drop, List.length_append] at hl3
  have c1 : ¬ d = 105 := by simp [isDigit] at hdig; omega
  have c2 : ¬ (d = 108 ∨ d = 100) := by simp [isDigit] at hdig; omega
  rw [tr_bencLoad, hget]
  simp only [if_neg c1, if_neg c2, hst]
  rw [if_neg (by omega), drop_get? buf _ 58 _ h2]
  simp only [ne_eq, not_true_eq_false, if_false, toInt32_small s.length hs]
  rw [if_neg (by omega), if_neg (by simp only [Int.toNat_ofNat]; omega)]
  simp only [Int.toNat_ofNat, h3, List.take_left]
  congr 2
  simp only [List.length_append, List.length_cons, List.length_nil]
  omega

/-- The encoding of a value does not start with `e`. -/
theorem encode_head (t : BencTree) : ∃ c r, encode t = c :: r ∧ c ≠ 101 := by
  cases t with
  | int i => exact ⟨105, numeral i ++ [101], by simp [encode], by decide⟩
  | str s =>
    obtain ⟨d, r, hd, hdig⟩ := decimal_head s.length
    refine ⟨d, r ++ [58] ++ s, by simp [encode, hd], ?_⟩
    simp [isDigit] at hdig
    omega
  | list vs => exact ⟨108, encodeList vs ++ [101], by simp [encode], by decide⟩
  | dict ps => exact ⟨100, encodeDict ps ++ [101], by simp [encode], by decide⟩

theorem loaded_endPos (t : BencTree) (p : Nat) : (loaded t p).endPos = p + (encode t).length := by
  cases t <;> simp [loaded, encode, benc_val_t.endPos]

theorem loadedDict_even : ∀ (ps : BencDict) (p : Nat), (loadedDict ps p).length % 2 = 0
  | BencDict.nil, _ => by simp [loadedDict]
  | BencDict.cons k v rest, p => by
    have := loadedDict_even rest
      (p + (decimal k.length ++ [58] ++ k).length + (encode v).length)
    simp only [loadedDict, List.length_cons]
    omega

end Transmission
namespace Transmission

mutual
/-- Loading the canonical encoding of a tree that fits gives the tree. -/
theorem load_tree : ∀ (t : BencTree) (buf : List Nat) (pos : Nat) (post : List Nat) (fuel : Nat),
    fits t = true → buf.drop pos = encode t ++ post → (encode t).length ≤ fuel →
    tr_bencLoad fuel buf pos = BencRes.ok (loaded t pos)
  | BencTree.int i, buf, pos, post, fuel, hf, h, hfuel => by
    simp only [fits, decide_eq_true_eq] at hf
    simp only [encode] at h hfuel
    cases fuel with
    | zero => simp at hfuel
    | succ f => exact load_int buf pos i post f h hf.1 hf.2
  | BencTree.str s, buf, pos, post, fuel, hf, h, hfuel => by
    simp only [fits, decide_eq_true_eq] at hf
    simp only [encode] at h hfuel
    obtain ⟨d, r, hd, _⟩ := decimal_head s.length
    cases fuel with
    | zero => rw [hd] at hfuel; simp at hfuel
    | succ f => exact load_str buf pos s post f h hf
  | BencTree.list vs, buf, pos, post, fuel, hf, h, hfuel => by
    simp only [fits] at hf
    simp only [encode] at h hfuel
    have h0 : buf.drop pos = 108 :: (encodeList vs ++ 101 :: post) := by simpa using h
    have h1 := drop_cons_right buf pos 108 _ h0
    cases fuel with
    | zero => simp at hfuel
    | succ f =>
      simp only [List.length_append, List.length_cons, List.length_nil] at hfuel
      have hi := load_list vs buf (pos + 1) post f true [] hf h1 (by omega)
      rw [tr_bencLoad, drop_get? buf pos 108 _ h0]
      simp only [show ¬ ((108 : Nat) = 105) by decide, if_false, true_or, if_true,
        decide_False, hi,
        show ¬ ((108 : Nat) = 100) by decide, false_and, List.nil_append, loaded]
      congr 2
      simp only [List.length_append, List.length_cons, List.length_nil]
      omega
  | BencTree.dict ps, buf, pos, post, fuel, hf, h, hfuel => by
    simp only [fits] at hf
    simp only [encode] at h hfuel
    have h0 : buf.drop pos = 100 :: (encodeDict ps ++ 101 :: post) := by simpa using h
    have h1 := drop_cons_right buf pos 100 _ h0
    cases fuel with
    | zero => simp at hfuel
    | succ f =>
      simp only [List.length_append, List.length_cons, List.length_nil] at hfuel
      have hi := load_dict ps buf (pos + 1) post f [] hf h1 (by omega)
      have hev := loadedDict_even ps (pos + 1)
      rw [tr_bencLoad, drop_get? buf pos 100 _ h0]
      simp only [show ¬ ((100 : Nat) = 105) by decide, if_false, or_true, if_true,
        decide_True, hi, List.nil_append, true_and, loaded]
      rw [if_neg (by omega)]
      congr 2
      simp only [List.length_append, List.length_cons, List.length_nil]
      omega
/-- The loop of `tr_bencLoad` over the items of a list. -/
theorem load_list : ∀ (vs : BencList) (buf : List Nat) (cur : Nat) (post : List Nat)
    (fuel : Nat) (strExpected : Bool) (acc : List benc_val_t),
    fitsList vs = true → buf.drop cur = encodeList vs ++ 101 :: post →
    (encodeList vs).length + 1 ≤ fuel →
    bencItems fuel buf cur false strExpected acc =
      some (some (acc ++ loadedList vs cur, cur + (encodeList vs).length))
  | BencList.nil, buf, cur, post, fuel, se, acc, _, h, hfuel => by
    simp only [encodeList, List.nil_append] at h
    cases fuel with
    | zero => simp at hfuel
    | succ f =>
      rw [bencItems, drop_get? buf cur 101 post h]
      simp [loadedList, encodeList]
  | BencList.cons v vs, buf, cur, post, fuel, se, acc, hf, h, hfuel => by
    simp only [fitsList, Bool.and_eq_true] at hf
    simp only [encodeList, List.append_assoc] at h
    simp only [encodeList, List.length_append] at hfuel
    obtain ⟨c, r, hc, hne⟩ := encode_head v
    have hpos : 0 < (encode v).length := by rw [hc]; simp
    cases fuel with
    | zero => simp at hfuel
    | succ f =>
      have hv := load_tree v buf cur (encodeList vs ++ 101 :: post) f hf.1 h (by omega)
      have h2 := drop_append_right buf cur (encode v) _ h
      have hrest := load_list vs buf (cur + (encode v).length) post f (!se)
        (acc ++ [loaded v cur]) hf.2 h2 (by omega)
      have hget : buf.get? cur = some c := by
        rw [hc] at h
        exact drop_get? buf cur c _ h
      rw [bencItems, hget]
      simp only [if_neg hne, hv, Bool.false_and, Bool.false_eq_true, if_false, loaded_endPos,
        hrest]
      simp only [loadedList, encodeList, List.length_append, List.append_assoc,
        List.singleton_append, Nat.add_assoc]
/-- The loop of `tr_bencLoad` over the keys and values of a dictionary. -/
theorem load_dict : ∀ (ps : BencDict) (buf : List Nat) (cur : Nat) (post : List Nat)
    (fuel : Nat) (acc : List benc_val_t),
    fitsDict ps = true → buf.drop cur = encodeDict ps ++ 101 :: post →
    (encodeDict ps).length + 1 ≤ fuel →
    bencItems fuel buf cur true true acc =
      some (some (acc ++ loadedDict ps cur, cur + (encodeDict ps).length))
  | BencDict.nil, buf, cur, post, fuel, acc, _, h, hfuel => by
    simp only [encodeDict, List.nil_append] at h
    cases fuel with
    | zero => simp at hfuel
    | succ f =>
      rw [bencItems, drop_get? buf cur 101 post h]
      simp [loadedDict, encodeDict]
  | BencDict.cons k v rest, buf, cur, post, fuel, acc, hf, h, hfuel => by
    simp only [fitsDict, Bool.and_eq_true, decide_eq_true_eq] at hf
    simp only [encodeDict, List.append_assoc] at h
    simp only [encodeDict, List.length_append] at hfuel
    obtain ⟨c, r, hc, hne⟩ := encode_head v
    obtain ⟨d, rd, hd, hdig⟩ := decimal_head k.length
    have hpos : 0 < (encode v).length := by rw [hc]; simp
    have hposd : 0 < (decimal k.length).length := by rw [hd]; simp
    have hk0 : buf.drop cur = decimal k.length ++ [58] ++ k ++
        (encode v ++ (encodeDict rest ++ 101 :: post)) := by simpa using h
    have hk1 := drop_append_right buf cur (decimal k.length ++ [58] ++ k) _ hk0
    have hk2 := drop_append_right buf _ (encode v) _ hk1
    have hgetk : buf.get? cur = some d := by
      rw [hd] at h
      exact drop_get? buf cur d _ (by simpa using h)
    have hgetv : buf.get? (cur + (decimal k.length ++ [58] ++ k).length) = some c := by
      rw [hc] at hk1
      exact drop_get? buf _ c _ hk1
    have hd101 : ¬ d = 101 := by simp [isDigit] at hdig; omega
    simp only [List.length_cons, List.length_nil] at hfuel
    cases fuel with
    | zero => simp at hfuel
    | succ f =>
      cases f with
      | zero => omega
      | succ g =>
        have hkey := load_str buf cur k (encode v ++ (encodeDict rest ++ 101 :: post)) g hk0
          hf.1.1
        have hv := load_tree v buf (cur + (decimal k.length ++ [58] ++ k).length)
          (encodeDict rest ++ 101 :: post) g hf.1.2 hk1 (by omega)
        have hrest := load_dict rest buf
          (cur + (decimal k.length ++ [58] ++ k).length + (encode v).length) post g
          (acc ++ [benc_val_t.str k cur (cur + (decimal k.length ++ [58] ++ k).length)] ++
            [loaded v (cur + (decimal k.length ++ [58] ++ k).length)]) hf.2 hk2 (by omega)
        rw [bencItems, hgetk]
        simp only [if_neg hd101, hkey, benc_val_t.isStr, Bool.not_true, Bool.and_false,
          Bool.false_eq_true, if_false, benc_val_t.endPos]
        rw [bencItems, hgetv]
        simp only [if_neg hne, hv, Bool.not_true, Bool.and_false, Bool.false_and,
          Bool.false_eq_true, if_false, loaded_endPos, Bool.not_false, hrest]
        simp only [loadedDict, encodeDict, List.length_append, List.append_assoc,
          List.singleton_append, List.cons_append, List.nil_append, Nat.add_assoc,
          List.length_cons, List.length_nil]
        refine congrArg some (congrArg some (Prod.ext rfl ?_))
        show _ + _ = _ + _
        omega
end

end Transmission
namespace Transmission

/-- The loop of `tr_bencDictFind` over the items loaded for a dictionary: it
ends at the first key whose C string is the requested one. -/
theorem dictFindLoop_loaded (key : List Nat) : ∀ (ps : BencDict) (p : Nat),
    (findFirst key ps = none ∧ dictFindLoop key (loadedDict ps p) = none) ∨
    (∃ v q, findFirst key ps = some v ∧ dictFindLoop key (loadedDict ps p) = some (loaded v q))
  | BencDict.nil, _ => Or.inl ⟨rfl, rfl⟩
  | BencDict.cons k v rest, p => by
    simp only [findFirst, loadedDict, dictFindLoop, benc_val_t.strOf, Option.map_some',
      Option.some.injEq]
    by_cases hk : cstr k = key
    · rw [if_pos hk, if_pos hk]
      exact Or.inr ⟨v, _, rfl, rfl⟩
    · rw [if_neg hk, if_neg hk]
      exact dictFindLoop_loaded key rest _

/-- The items loaded for a dictionary have a string at every even position. -/
theorem loadedDict_keys : ∀ (ps : BencDict) (p j : Nat), 2 * j < (loadedDict ps p).length →
    ∃ s b e, (loadedDict ps p).get? (2 * j) = some (benc_val_t.str s b e)
  | BencDict.nil, _, _, h => by simp [loadedDict] at h
  | BencDict.cons k v rest, p, j, h => by
    cases j with
    | zero =>
      refine ⟨k, p, p + (decimal k.length ++ [58] ++ k).length, ?_⟩
      rw [loadedDict]
      rfl
    | succ i =>
      simp only [loadedDict, List.length_cons] at h
      obtain ⟨s, b, e, hs⟩ := loadedDict_keys rest
        (p + (decimal k.length ++ [58] ++ k).length + (encode v).length) i (by omega)
      refine ⟨s, b, e, ?_⟩
      have e2 : 2 * (i + 1) = 2 * i + 1 + 1 := by ring
      rw [e2]
      simp only [loadedDict, List.get?_cons_succ]
      exact hs

/-- For keys without NUL bytes the comparison of `strcmp` is equality. -/
theorem findFirst_eq_findEqual (key : List Nat) : ∀ (ps : BencDict),
    keysNulFree ps = true → findFirst key ps = findEqual key ps
  | BencDict.nil, _ => rfl
  | BencDict.cons k v rest, h => by
    simp only [keysNulFree, Bool.and_eq_true, decide_eq_true_eq] at h
    have hc : cstr k = k := by
      unfold cstr
      rw [List.takeWhile_eq_self_iff]
      intro x hx
      simp only [ne_eq, decide_eq_true_eq]
      intro e
      exact h.1 (e ▸ hx)
    simp only [findFirst, findEqual, hc, findFirst_eq_findEqual key rest h.2]

/-- C38 (as amended): for every bencode value tree that fits `benc_val_t` (every
integer in the range of `int64_t`, every string and key shorter than `2^31`
bytes), `tr_bencLoad` applied to a buffer that holds the canonical encoding
of the tree returns success, with enough fuel for the model, and fills the
value with the same tree (`loaded`: a dictionary as its keys and values in
order, an even number of items with a string at every even position); and
`tr_bencDictFind` on the value loaded for a dictionary returns the value that
follows the first key whose bytes before its first NUL byte are the
requested C string, `NULL` when there is none.  When no key holds a NUL byte
that key is the first key equal to the requested one. -/
theorem C38_canonical_encoding_loads_to_same_tree (t : BencTree) (pre post : List Nat)
    (hf : fits t = true) :
    (∀ fuel, (encode t).length ≤ fuel →
      tr_bencLoad fuel (pre ++ encode t ++ post) pre.length = BencRes.ok (loaded t pre.length)) ∧
    (∀ ps, t = BencTree.dict ps →
      (∀ p, (loadedDict ps p).length % 2 = 0 ∧
        ∀ j, 2 * j < (loadedDict ps p).length →
          ∃ s b e, (loadedDict ps p).get? (2 * j) = some (benc_val_t.str s b e)) ∧
      (∀ key p, (findFirst key ps = none ∧ tr_bencDictFind (loaded t p) key = none) ∨
        (∃ v q, findFirst key ps = some v ∧
          tr_bencDictFind (loaded t p) key = some (loaded v q))) ∧
      (keysNulFree ps = true → ∀ key, findFirst key ps = findEqual key ps)) := by
  constructor
  · intro fuel hfuel
    exact load_tree t (pre ++ encode t ++ post) pre.length post fuel hf
      (by rw [List.append_assoc, List.drop_left]) hfuel
  · intro ps ht
    subst ht
    refine ⟨fun p => ⟨loadedDict_even ps p, loadedDict_keys ps p⟩, ?_, ?_⟩
    · intro key p
      simp only [loaded, tr_bencDictFind]
      exact dictFindLoop_loaded key ps (p + 1)
    · intro hn key
      exact findFirst_eq_findEqual key ps hn

/-- Witness for C38: the dictionary `d1:ai-7e2:bcl0:i0eee`. -/
theorem C38_witness :
    fits exampleTree = true ∧
    encode exampleTree = [100, 49, 58, 97, 105, 45, 55, 101, 50, 58, 98, 99, 108, 48, 58, 105,
      48, 101, 101, 101] ∧
    exampleTree = BencTree.dict exampleItems ∧
    (∀ fuel, (encode exampleTree).length ≤ fuel →
      tr_bencLoad fuel ([] ++ encode exampleTree ++ []) 0 =
        BencRes.ok (loaded exampleTree 0)) :=
  ⟨by decide, by decide, rfl,
    (C38_canonical_encoding_loads_to_same_tree exampleTree [] [] (by decide)).1⟩

/-- C38, the claim as stated fails.  The dictionary `d3:a<NUL>bi1ee` has the single
key `a<NUL>b`; no key is equal to `a`, yet `tr_bencDictFind` with the key `a`
returns the value `1`, because `strcmp` stops at the NUL byte.  And the
integer `2^63` is encoded as `i9223372036854775808e`, which `tr_bencLoad`
loads as `2^63 - 1`, the largest value of `strtoll`. -/
theorem C38_counterexample_nul_in_key_and_integer_beyond_int64 :
    fits nulKeyTree = true ∧
    encode nulKeyTree = [100, 51, 58, 97, 0, 98, 105, 49, 101, 101] ∧
    (findEqual [97] (BencDict.cons [97, 0, 98] (BencTree.int 1) BencDict.nil)).isNone = true ∧
    (match tr_bencLoad 100 (encode nulKeyTree) 0 with
      | BencRes.ok v =>
        (match tr_bencDictFind v [97] with
          | some (benc_val_t.int i _ _) => decide (i = 1)
          | _ => false)
      | _ => false) = true ∧
    encode (BencTree.int 9223372036854775808) =
      [105, 57, 50, 50, 51, 51, 55, 50, 48, 51, 54, 56, 53, 52, 55, 55, 53, 56, 48, 56, 101] ∧
    (match tr_bencLoad 100 (encode (BencTree.int 9223372036854775808)) 0 with
      | BencRes.ok (benc_val_t.int i _ _) => decide (i = 9223372036854775807)
      | _ => false) = true := by
  refine ⟨by decide, by decide, by decide, by decide!, by decide!, by decide!⟩

end Transmission
namespace Transmission

/-- The request of `tr_peerSendRequest` when the piece size is `k` block sizes
and the torrent is not empty: it lies inside the content and inside its
piece. -/
theorem blockRequest_within (tor : tr_torrent_t) (k b : Int) (hB : 0 < tor.blockSize)
    (hk : 0 < k) (hP : tor.info.pieceSize = k * tor.blockSize)
    (hM : tor.blockCount = (tor.info.totalSize + tor.blockSize - 1) / tor.blockSize)
    (_hb0 : 0 ≤ b) (hbM : b < tor.blockCount) :
    (blockRequest tor b).index * tor.info.pieceSize + (blockRequest tor b).begin +
      (blockRequest tor b).length ≤ tor.info.totalSize ∧
    0 ≤ (blockRequest tor b).begin ∧
    (blockRequest tor b).begin + (blockRequest tor b).length ≤ tor.info.pieceSize ∧
    0 < (blockRequest tor b).length ∧ (blockRequest tor b).length ≤ tor.blockSize := by
  obtain ⟨hi, hbg⟩ := blockRequest_aligned tor k b hB hP
  have hkq : tor.info.pieceSize / tor.blockSize = k := by
    rw [hP]; exact Int.mul_ediv_cancel k (ne_of_gt hB)
  have hbegin : (blockRequest tor b).begin = (b % k) * tor.blockSize := by
    show (b % (tor.info.pieceSize / tor.blockSize)) * tor.blockSize = _
    rw [hkq]
  have hindex : (blockRequest tor b).index = b / k := by
    show b / (tor.info.pieceSize / tor.blockSize) = _
    rw [hkq]
  have hlen : (blockRequest tor b).length =
      if b = tor.blockCount - 1 ∧ tor.info.totalSize % tor.blockSize ≠ 0 then
        tor.info.totalSize % tor.blockSize else tor.blockSize := rfl
  generalize tor.blockSize = B at *
  generalize tor.info.totalSize = S at *
  generalize tor.info.pieceSize = P at *
  generalize tor.blockCount = M at *
  have hm0 : 0 ≤ b % k := Int.emod_nonneg b (ne_of_gt hk)
  have hm1 : b % k < k := Int.emod_lt_of_pos b hk
  have hdm : k * (b / k) + b % k = b := Int.ediv_add_emod b k
  have hr0 : 0 ≤ S % B := Int.emod_nonneg S (ne_of_gt hB)
  have hr1 : S % B < B := Int.emod_lt_of_pos S hB
  have hS : B * (S / B) + S % B = S := Int.ediv_add_emod S B
  have hMm0 : 0 ≤ (S + B - 1) % B := Int.emod_nonneg _ (ne_of_gt hB)
  have hMm1 : (S + B - 1) % B < B := Int.emod_lt_of_pos _ hB
  have hMd : B * ((S + B - 1) / B) + (S + B - 1) % B = S + B - 1 := Int.ediv_add_emod _ B
  rw [← hM] at hMd
  have hsum : b / k * P + b % k * B = b * B := by
    rw [hP]
    calc b / k * (k * B) + b % k * B = (k * (b / k) + b % k) * B := by ring
      _ = b * B := by rw [hdm]
  have hbeg0 : 0 ≤ b % k * B := mul_nonneg hm0 (le_of_lt hB)
  have hbegP : b % k * B + B ≤ P := by
    rw [hP]
    have : (b % k + 1) * B ≤ k * B := mul_le_mul_of_nonneg_right (by omega) (le_of_lt hB)
    linarith
  rw [hindex, hbegin, hlen]
  by_cases hc : b = M - 1 ∧ S % B ≠ 0
  · rw [if_pos hc]
    obtain ⟨hbl, hrne⟩ := hc
    have hrpos : 0 < S % B := by omega
    have hq : M - 1 = S / B := by
      have h1 : B * (S / B) < B * M := by linarith
      have h2 : B * M < B * (S / B + 2) := by linarith
      have h3 : S / B < M := lt_of_mul_lt_mul_left h1 (le_of_lt hB)
      have h4 : M < S / B + 2 := lt_of_mul_lt_mul_left h2 (le_of_lt hB)
      omega
    refine ⟨?_, hbeg0, by linarith, hrpos, le_of_lt hr1⟩
    rw [hsum, hbl, hq]
    linarith
  · rw [if_neg hc]
    refine ⟨?_, hbeg0, hbegP, hB, le_refl _⟩
    rw [hsum]
    by_cases hbl : b = M - 1
    · have hr : S % B = 0 := by
        by_contra hne
        exact hc ⟨hbl, hne⟩
      have hq : M = S / B := by
        have h1 : B * (S / B - 1) < B * M := by linarith
        have h2 : B * M < B * (S / B + 1) := by linarith
        have h3 : S / B - 1 < M := lt_of_mul_lt_mul_left h1 (le_of_lt hB)
        have h4 : M < S / B + 1 := lt_of_mul_lt_mul_left h2 (le_of_lt hB)
        omega
      rw [hbl, hq]
      linarith
    · have hlt : b + 1 ≤ M - 1 := by omega
      have : (b + 1) * B ≤ (M - 1) * B := mul_le_mul_of_nonneg_right hlt (le_of_lt hB)
      linarith

end Transmission
namespace Transmission

/-- The split of an announce URL without a port: host, port 80, and the string
from the first `/` on. -/
theorem parseAnnounce_noPort (host rest : List Nat) (h1 : 58 ∉ host) (h2 : 47 ∉ host) :
    parseAnnounce (strHttp ++ host ++ 47 :: rest) = some (host, 80, 47 :: rest) := by
  have e7 : (strHttp ++ host ++ 47 :: rest).take 7 = strHttp := by
    rw [List.append_assoc]
    exact List.take_left' rfl
  have d7 : (strHttp ++ host ++ 47 :: rest).drop 7 = host ++ 47 :: rest := by
    rw [List.append_assoc]
    exact List.drop_left' rfl
  have s2 : (host ++ 47 :: rest).indexOf 47 = host.length := by
    rw [List.indexOf_append_of_not_mem h2, List.indexOf_cons_self]
    rfl
  have s : host.length < (host ++ 47 :: rest).indexOf 58 := by
    rw [List.indexOf_append_of_not_mem h1, List.indexOf_cons_ne _ (by decide)]
    omega
  unfold parseAnnounce
  rw [if_neg (by rw [e7]; exact fun h => h rfl)]
  simp only [d7, s2]
  rw [if_neg (by omega), if_pos (by simp)]
  simp

/-- The split of an announce URL with a port below `2^31`: host, port, and the
string from the first `/` on. -/
theorem parseAnnounce_port (host rest : List Nat) (port : Nat) (h1 : 58 ∉ host)
    (h2 : 47 ∉ host) (hp : port < 2147483648) :
    parseAnnounce (strHttp ++ host ++ 58 :: (decimal port ++ 47 :: rest)) =
      some (host, (port : Int), 47 :: rest) := by
  have e7 : (strHttp ++ host ++ 58 :: (decimal port ++ 47 :: rest)).take 7 = strHttp := by
    rw [List.append_assoc]
    exact List.take_left' rfl
  have d7 : (strHttp ++ host ++ 58 :: (decimal port ++ 47 :: rest)).drop 7 =
      host ++ 58 :: (decimal port ++ 47 :: rest) := by
    rw [List.append_assoc]
    exact List.drop_left' rfl
  have hdig : ∀ d ∈ decimal port, d ≠ 47 ∧ d ≠ 0 := by
    intro d hd
    have := decimal_isDigit port d hd
    simp [isDigit] at this
    omega
  have s : (host ++ 58 :: (decimal port ++ 47 :: rest)).indexOf 58 = host.length := by
    rw [List.indexOf_append_of_not_mem h1, List.indexOf_cons_self]
    rfl
  have s2 : (host ++ 58 :: (decimal port ++ 47 :: rest)).indexOf 47 =
      host.length + 1 + (decimal port).length := by
    rw [List.indexOf_append_of_not_mem h2, List.indexOf_cons_ne _ (by decide),
      List.indexOf_append_of_not_mem (fun hm => (hdig 47 hm).1 rfl), List.indexOf_cons_self]
    omega
  have hat : atoi (decimal port ++ 47 :: rest) = (port : Int) := by
    unfold atoi cstr
    rw [List.takeWhile_append_of_pos (by
      intro a ha
      simp only [ne_eq, decide_eq_true_eq]
      exact (hdig a ha).2)]
    rw [List.takeWhile_cons_of_pos (by decide), List.append_assoc, List.cons_append]
    rw [strtoll_decimal _ 0 port 47 _ (by rw [List.drop_zero]) (by decide) (by omega)]
    exact toInt32_small port hp
  unfold parseAnnounce
  rw [if_neg (by rw [e7]; exact fun h => h rfl)]
  simp only [d7, s, s2]
  rw [if_pos (by simp; omega)]
  have e1 : (host ++ 58 :: (decimal port ++ 47 :: rest)).take host.length = host :=
    List.take_left' rfl
  have e2 : (host ++ 58 :: (decimal port ++ 47 :: rest)).drop (host.length + 1) =
      decimal port ++ 47 :: rest := by
    have : host ++ 58 :: (decimal port ++ 47 :: rest) =
        (host ++ [58]) ++ (decimal port ++ 47 :: rest) := by simp
    rw [this]
    exact List.drop_left' (by simp)
  have e3 : (host ++ 58 :: (decimal port ++ 47 :: rest)).drop
      (host.length + 1 + (decimal port).length) = 47 :: rest := by
    have : host ++ 58 :: (decimal port ++ 47 :: rest) =
        (host ++ [58] ++ decimal port) ++ (47 :: rest) := by simp
    rw [this]
    exact List.drop_left' (by simp; omega)
  rw [e1, e2, e3, hat]

/-- The `snprintf` that stores the announce path keeps a path without `%` and
without NUL that is shorter than the array. -/
theorem snprintfNoArgs_plain (size : Nat) : ∀ (path : List Nat), 37 ∉ path → 0 ∉ path →
    path.length < size → snprintfNoArgs size path = some path := by
  have hfmt : ∀ (l : List Nat), 37 ∉ l → formatNoArgs l = some l := by
    intro l
    induction l with
    | nil => intro _; rfl
    | cons c r ih =>
      intro h
      have hc : c ≠ 37 := fun e => h (e ▸ List.mem_cons_self _ _)
      have hr : 37 ∉ r := fun hm => h (List.mem_cons_of_mem _ hm)
      rw [formatNoArgs]
      · rw [ih hr]; rfl
      · intro rest e _
        exact hc e
      · intro e
        exact hc e
  intro path h37 h0 hlen
  have hc : cstr path = path := by
    unfold cstr
    rw [List.takeWhile_eq_self_iff]
    intro x hx
    simp only [ne_eq, decide_eq_true_eq]
    intro e
    exact h0 (e ▸ hx)
  unfold snprintfNoArgs
  rw [hc, hfmt path h37]
  simp only [Option.map_some', Option.some.injEq]
  exact List.take_of_length_le (by omega)

end Transmission
